import Mathlib

/-! # LargeFileReaderLib: block array, file block cache and line indexer

A shallow embedding of `source/LargeFileReaderCore.cpp` and
`include/LargeFileReaderCore.hpp` (the file block cache), of
`include/FixedBlockAllocatedArray.hpp` and `.hxx` (the block array) and of
`source/LineIndexerCore.cpp` and `include/LineIndexerCore.hpp` (the line
indexer).

Conventions of the embedding:

* `size_t` and `uint64_t` values are `Nat`, with an explicit `% U64` wherever the
  source computes in unsigned 64-bit arithmetic and the result can wrap;
  `off_t` and `int64_t` values are `Int`; a conversion between the two is
  `toU64` or `toI64`, and a sum of two `off_t` values is reduced to the range
  of `off_t` (`toOffT`).
* A byte is a `Nat`. Memory blocks (`fileDataBlocks`, the caller's buffer) are
  `List Nat`; the index array `fileCacheIndex` is a `List FileCacheIndexEntry`.
  A pointer that has no allocation behind it is `none`.
* An access outside an allocation, a failed `assert` and a division by zero end
  the call with a `Trap` (`Except Trap`): the C++ program has no defined result
  there.
* The host (file system, descriptor, fresh heap bytes) is explicit: `Host`
  answers `::stat` and `::open`, `OpenDescription` is the kernel object behind
  the descriptor, with the descriptor's own read position and the outcome
  script of the coming `::read` calls.
* `ceil((double)a / (double)b)` and `floor((double)a / (double)b)` are taken
  exactly (integer ceiling and floor of the quotient), which is what the
  `double` computation yields for every quotient below `2^53`.
* Methods keep their names, except `open`, a reserved word here: the
  three-argument `open` is `openFile`, the one-argument overload `openDefault`,
  and a constructor is `construct`. The two `operator[]` of the block array are
  `subscript` and `subscriptConst`.
* The blocks of a block array live on a heap of their own; a pointer to a block
  is its address there. The array of elements of a block is given by its
  elements, with the bound checked at every access.
* A loop is a function of a bound on the number of its passes (`fuel`), and ends
  with `Trap.exhausted` when the bound is reached. For the loops of `read`, of
  the read-write `operator[]` and for the inner loop of the line indexer a
  sufficient bound is computed and passed on; the outer loop of the line
  indexer takes its bound from the outside.
-/

namespace LargeFileReader

/-! ## Machine integers -/

/-- The modulus of `size_t` and `uint64_t` arithmetic, `2^64`. -/
def U64 : Nat := 18446744073709551616

/-- The value of `(size_t)-1` and of `(uint64_t)-1`. -/
def minusOne : Nat := 18446744073709551615

/-- The value of `(size_t)-2`. -/
def minusTwo : Nat := 18446744073709551614

/-- Conversion of a signed 64-bit value to `uint64_t` (reduction modulo `2^64`). -/
def toU64 (x : Int) : Nat := (x % (U64 : Int)).toNat

/-- Conversion of an unsigned 64-bit value to `int64_t` (two's complement). -/
def toI64 (x : Nat) : Int :=
  if x % U64 < 9223372036854775808 then ((x % U64 : Nat) : Int)
  else ((x % U64 : Nat) : Int) - (U64 : Int)

/-- The `off_t` whose two's complement representation is that of `x`: `x` itself
for `x` in `[-2^63, 2^63)`. It is what a sum of two `off_t` values is in the
compiled code when the sum leaves that range (the overflow has no defined
result in the source language). -/
def toOffT (x : Int) : Int := toI64 (toU64 x)

/-- Integer ceiling of `a / b`, the exact value of `ceil((double)a / (double)b)`. -/
def ceilDiv (a b : Nat) : Nat := (a + b - 1) / b

/-! ## Memory and traps -/

/-- The ways a call ends without a defined result. -/
inductive Trap where
  /-- An `assert` of the source failed. -/
  | assertion
  /-- An array or buffer was accessed outside its allocation (or through a
  pointer with no allocation behind it). -/
  | outOfBounds
  /-- An integer division by zero. -/
  | divisionByZero
  /-- The bound on the passes of a loop was reached. The method `read`
  (`read_ne_exhausted`), the read-write `operator[]` of the block array
  (`subscript_reaches`) and the inner loop of the line indexer
  (`scanLoop_ne_exhausted`) never end this way. -/
  | exhausted
  deriving DecidableEq, Repr

/-- The bytes `mem[start .. start + len)`, when that range lies inside `mem`. -/
def readBytes (mem : List Nat) (start len : Nat) : Except Trap (List Nat) :=
  if start + len ≤ mem.length then .ok ((mem.drop start).take len)
  else .error .outOfBounds

/-- Overwrite `mem[start .. start + data.length)` with `data`, when that range
lies inside `mem`. -/
def writeBytes (mem : List Nat) (start : Nat) (data : List Nat) : Except Trap (List Nat) :=
  if start + data.length ≤ mem.length then
    .ok (mem.take start ++ data ++ mem.drop (start + data.length))
  else .error .outOfBounds

/-! ## The host -/

/-- A file of the host file system, as `::stat`, `::open` and `::read` see it. -/
structure HostFile where
  /-- The content of the file. -/
  bytes : List Nat
  /-- Whether `::open(path, O_RDONLY)` succeeds. -/
  openable : Bool
  /-- Outcome of the coming `::read` calls on a descriptor of this file, in
  order: `true` is an error (`-1`). Calls beyond the script succeed. -/
  faults : List Bool

/-- The host: the file system, and the (indeterminate) bytes a fresh
`new unsigned char[n]` holds, byte `i` of the allocation being `junk i`. -/
structure Host where
  files : String → Option HostFile
  junk : Nat → Nat

/-- The kernel object behind an open descriptor. -/
structure OpenDescription where
  /-- The content of the file the descriptor refers to. -/
  bytes : List Nat
  /-- The descriptor's own read position, advanced by every `::read`. -/
  position : Nat
  /-- Outcome script of the coming `::read` calls. -/
  faults : List Bool
  deriving DecidableEq, Repr

/-- The system call `::read(fd, ptr, count)` on a regular file: the result
(`-1` on error, else the number of bytes read), the bytes stored at `ptr`, and
the description afterwards. It reads at the descriptor's own position. -/
def posixRead (d : OpenDescription) (count : Nat) : Int × List Nat × OpenDescription :=
  match d.faults with
  | true :: rest => (-1, [], { d with faults := rest })
  | false :: rest =>
    let data := (d.bytes.drop d.position).take count
    ((data.length : Int), data,
      { d with position := d.position + data.length, faults := rest })
  | [] =>
    let data := (d.bytes.drop d.position).take count
    ((data.length : Int), data, { d with position := d.position + data.length })

/-! ## The data model -/

/-- The struct `FileCacheIndexEntry`, with its default member initialisers. -/
structure FileCacheIndexEntry where
  /-- If true, the corresponding data is not in the cache. -/
  isFault : Bool := true
  /-- Offset of the slot in `fileDataBlocks` (`uint64_t`, initialised with `-1`). -/
  offsetInFileBuffer : Nat := 18446744073709551615
  /-- Index of the entry used before this one. -/
  previousUsed : Int := -1
  /-- Index of the entry used after this one. -/
  nextUsed : Int := -1
  deriving DecidableEq, Repr

/-- The object state of `LargeFileReaderCore` (public and private members),
with `fileStatus` reduced to its `st_size` and the descriptor replaced by the
kernel object it names. -/
structure LargeFileReaderCore where
  cacheBlockSize : Nat
  cacheMaxSize : Nat
  cacheActualSize : Nat
  isOpen : Bool
  isEof : Bool
  isFail : Bool
  isBad : Bool
  filePath : String
  maxNumberOfCachedFileDataBlocks : Int
  totalNumberOfFileCacheIndexEntries : Int
  currentNumberOfCachedFileDataBlocks : Int
  st_size : Int
  fileDescriptor : Option OpenDescription
  fileCacheIndex : Option (List FileCacheIndexEntry)
  mostRecentlyUsedIndex : Int
  leastRecentlyUsedIndex : Int
  fileDataBlocks : Option (List Nat)
  currentFileOffset : Int
  deriving DecidableEq, Repr

namespace LargeFileReaderCore

/-- The constant `cacheDefaultBlockSize`. -/
def cacheDefaultBlockSize : Nat := 65536

/-- The constant `cacheDefaultMaxSize`. -/
def cacheDefaultMaxSize : Nat := 2097152

/-- The constant `SEEK_SET` of `<unistd.h>`. -/
def SEEK_SET : Int := 0

/-- The constant `SEEK_CUR` of `<unistd.h>`. -/
def SEEK_CUR : Int := 1

/-- The constant `SEEK_END` of `<unistd.h>`. -/
def SEEK_END : Int := 2

/-- The constructor `LargeFileReaderCore::LargeFileReaderCore()`: it clears the
four flags; `mostRecentlyUsedIndex` and `leastRecentlyUsedIndex` have the member
initialiser `-1`. The members it leaves uninitialised are given `0`, the empty
path and no allocation here. -/
def construct : LargeFileReaderCore :=
  { cacheBlockSize := 0, cacheMaxSize := 0, cacheActualSize := 0,
    isOpen := false, isEof := false, isFail := false, isBad := false,
    filePath := "",
    maxNumberOfCachedFileDataBlocks := 0,
    totalNumberOfFileCacheIndexEntries := 0,
    currentNumberOfCachedFileDataBlocks := 0,
    st_size := 0,
    fileDescriptor := none,
    fileCacheIndex := none,
    mostRecentlyUsedIndex := -1,
    leastRecentlyUsedIndex := -1,
    fileDataBlocks := none,
    currentFileOffset := 0 }

/-- What a call of `open` does: it returns a `bool`, or throws
`std::out_of_range`. -/
inductive OpenResult where
  | returned (b : Bool)
  | threwOutOfRange
  deriving DecidableEq, Repr

/-- The value of `cacheMaxSize` after `if (cacheMaxSize <= 0) cacheMaxSize = cacheDefaultMaxSize;`
(a `size_t` is `<= 0` exactly when it is `0`). -/
def maxSizeOrDefault (cacheMaxSize : Nat) : Nat :=
  if cacheMaxSize = 0 then cacheDefaultMaxSize else cacheMaxSize

/-- The value of `cacheBlockSize` after
`if (cacheBlockSize <= 0) cacheBlockSize = cacheDefaultBlockSize;`. -/
def blockSizeOrDefault (cacheBlockSize : Nat) : Nat :=
  if cacheBlockSize = 0 then cacheDefaultBlockSize else cacheBlockSize

/-- The value `open` gives `cacheActualSize`, for a file of `st_size` bytes. The
product stays below `2^64` for every file size an `off_t` holds. -/
def actualSizeFor (st_size : Int) (cacheMaxSize cacheBlockSize : Nat) : Nat :=
  if toU64 st_size < cacheMaxSize then ceilDiv st_size.toNat cacheBlockSize * cacheBlockSize
  else cacheMaxSize

/-- The method `LargeFileReaderCore::open(fullFilePath, cacheMaxSize, cacheBlockSize)`:
what the call does (return or throw) and the state afterwards. -/
def openFile (s : LargeFileReaderCore) (host : Host) (fullFilePath : String)
    (cacheMaxSize cacheBlockSize : Nat) : OpenResult × LargeFileReaderCore :=
  if s.isOpen then (.returned false, s)
  else
    match host.files fullFilePath with
    | none => (.returned false, { s with filePath := fullFilePath })
    | some file =>
      if blockSizeOrDefault cacheBlockSize > maxSizeOrDefault cacheMaxSize then
        (.threwOutOfRange,
          { s with filePath := fullFilePath, st_size := (file.bytes.length : Int) })
      else
        let sized : LargeFileReaderCore :=
          { s with
            filePath := fullFilePath
            st_size := (file.bytes.length : Int)
            cacheMaxSize := maxSizeOrDefault cacheMaxSize
            cacheBlockSize := blockSizeOrDefault cacheBlockSize
            cacheActualSize :=
              actualSizeFor (file.bytes.length : Int) (maxSizeOrDefault cacheMaxSize)
                (blockSizeOrDefault cacheBlockSize)
            maxNumberOfCachedFileDataBlocks :=
              ((actualSizeFor (file.bytes.length : Int) (maxSizeOrDefault cacheMaxSize)
                (blockSizeOrDefault cacheBlockSize) / blockSizeOrDefault cacheBlockSize : Nat) : Int)
            totalNumberOfFileCacheIndexEntries :=
              ((ceilDiv (file.bytes.length : Int).toNat (blockSizeOrDefault cacheBlockSize) : Nat) : Int)
            currentNumberOfCachedFileDataBlocks := 0
            mostRecentlyUsedIndex := -1
            leastRecentlyUsedIndex := -1 }
        if file.openable then
          (.returned true,
            { sized with
              fileDataBlocks := some ((List.range sized.cacheActualSize).map host.junk)
              fileCacheIndex :=
                some (List.replicate sized.totalNumberOfFileCacheIndexEntries.toNat {})
              fileDescriptor :=
                some { bytes := file.bytes, position := 0, faults := file.faults }
              currentFileOffset := 0
              isOpen := true, isEof := false, isFail := false, isBad := false })
        else
          -- The two arrays are deleted again and the descriptor is negative.
          (.returned false,
            { sized with fileDataBlocks := none, fileCacheIndex := none, fileDescriptor := none })

/-- The overload `LargeFileReaderCore::open(fullFilePath)`. -/
def openDefault (s : LargeFileReaderCore) (host : Host) (fullFilePath : String) :
    OpenResult × LargeFileReaderCore :=
  s.openFile host fullFilePath 0 0

/-- The method `LargeFileReaderCore::close()`. -/
def close (s : LargeFileReaderCore) : LargeFileReaderCore :=
  if !s.isOpen then s
  else
    { s with
      fileDescriptor := none
      fileDataBlocks := none
      fileCacheIndex := none
      isOpen := false, isEof := false, isFail := false, isBad := false }

/-- The method `LargeFileReaderCore::lseek(offsetInBytes, whence)`: the returned
`off_t` and the state afterwards. The parameter `offsetInBytes` is an `off_t`:
the method sees the `off_t` value of the argument. The two sums are computed in
`off_t`: a sum outside `[-2^63, 2^63)` wraps, as in the compiled code. -/
def lseek (s : LargeFileReaderCore) (offsetInBytes : Int) (whence : Int) :
    Int × LargeFileReaderCore :=
  if !s.isOpen then (-1, s)
  else
    let s := { s with isEof := false, isFail := false, isBad := false }
    let target : Option Int :=
      if whence = SEEK_SET then some (toOffT offsetInBytes)
      else if whence = SEEK_CUR then some (toOffT (s.currentFileOffset + toOffT offsetInBytes))
      else if whence = SEEK_END then some (toOffT (s.st_size + toOffT offsetInBytes))
      else none
    match target with
    | none => (-1, s)
    | some newFileOffset =>
      if newFileOffset ≥ s.st_size then
        (s.st_size, { s with isEof := true, currentFileOffset := s.st_size })
      else
        (newFileOffset, { s with currentFileOffset := newFileOffset })

/-- The entry `fileCacheIndex[i]`. -/
def entryAt (index : List FileCacheIndexEntry) (i : Int) : Except Trap FileCacheIndexEntry :=
  if 0 ≤ i then
    match index[i.toNat]? with
    | some e => .ok e
    | none => .error .outOfBounds
  else .error .outOfBounds

/-- An assignment to members of `fileCacheIndex[i]`. -/
def updateAt (index : List FileCacheIndexEntry) (i : Int)
    (f : FileCacheIndexEntry → FileCacheIndexEntry) : Except Trap (List FileCacheIndexEntry) :=
  if 0 ≤ i then
    match index[i.toNat]? with
    | some e => .ok (index.set i.toNat (f e))
    | none => .error .outOfBounds
  else .error .outOfBounds

/-- The array behind the pointer `fileCacheIndex`. -/
def indexArray (s : LargeFileReaderCore) : Except Trap (List FileCacheIndexEntry) :=
  match s.fileCacheIndex with
  | some index => .ok index
  | none => .error .outOfBounds

/-- The array behind the pointer `fileDataBlocks`. -/
def dataArray (s : LargeFileReaderCore) : Except Trap (List Nat) :=
  match s.fileDataBlocks with
  | some mem => .ok mem
  | none => .error .outOfBounds

/-- The statement `if (i != -1) { fileCacheIndex[i].nextUsed = index; }`. -/
def setNextUsed (ix : List FileCacheIndexEntry) (i index : Int) :
    Except Trap (List FileCacheIndexEntry) :=
  if i ≠ -1 then updateAt ix i fun e => { e with nextUsed := index } else .ok ix

/-- The statement `if (i != -1) { fileCacheIndex[i].previousUsed = -1; }`. -/
def clearPreviousUsed (ix : List FileCacheIndexEntry) (i : Int) :
    Except Trap (List FileCacheIndexEntry) :=
  if i ≠ -1 then updateAt ix i fun e => { e with previousUsed := -1 } else .ok ix

/-- Step 1 of `fetchDataBlockForIndex(index)`: find a slot of `fileDataBlocks`
for the entry `index`, either the next unused one or the one of the least
recently used entry, and make `index` the most recently used entry. -/
def takeCacheBlock (s : LargeFileReaderCore) (index : Int) : Except Trap LargeFileReaderCore :=
  if s.currentNumberOfCachedFileDataBlocks < s.maxNumberOfCachedFileDataBlocks then do
    -- The cache is not full yet: take the next unused slot.
    let ix ← s.indexArray
    let ix ← updateAt ix index fun e =>
      { e with
        isFault := false
        offsetInFileBuffer := (toU64 s.currentNumberOfCachedFileDataBlocks * s.cacheBlockSize) % U64
        previousUsed := s.mostRecentlyUsedIndex }
    let ix ← setNextUsed ix s.mostRecentlyUsedIndex index
    pure { s with
      currentNumberOfCachedFileDataBlocks := s.currentNumberOfCachedFileDataBlocks + 1
      fileCacheIndex := some ix
      leastRecentlyUsedIndex :=
        if s.leastRecentlyUsedIndex = -1 then index else s.leastRecentlyUsedIndex
      mostRecentlyUsedIndex := index }
  else do
    -- Reuse the slot of the least recently used entry.
    let ix ← s.indexArray
    let lru ← entryAt ix s.leastRecentlyUsedIndex
    let ix ← clearPreviousUsed ix lru.nextUsed
    let ix ← updateAt ix s.leastRecentlyUsedIndex fun _ =>
      { isFault := true, offsetInFileBuffer := minusOne, previousUsed := -1, nextUsed := -1 }
    let ix ← updateAt ix index fun _ =>
      { isFault := false, offsetInFileBuffer := lru.offsetInFileBuffer,
        previousUsed := s.mostRecentlyUsedIndex, nextUsed := -1 }
    let ix ← setNextUsed ix s.mostRecentlyUsedIndex index
    pure { s with
      fileCacheIndex := some ix
      leastRecentlyUsedIndex := lru.nextUsed
      mostRecentlyUsedIndex := index }

/-- The end of `fetchDataBlockForIndex(index)`: the call
`::read(fileDescriptor, &fileDataBlocks[fileCacheIndex[index].offsetInFileBuffer], cacheBlockSize)`,
whose result is returned as a `size_t`. The descriptor is not positioned
before the call. -/
def readIntoCacheBlock (s : LargeFileReaderCore) (index : Int) :
    Except Trap (Nat × LargeFileReaderCore) := do
  let ix ← s.indexArray
  let e ← entryAt ix index
  let mem ← s.dataArray
  match s.fileDescriptor with
  | none => pure (toU64 (-1), s)
  | some d => do
    let mem ← writeBytes mem e.offsetInFileBuffer (posixRead d s.cacheBlockSize).2.1
    pure (toU64 (posixRead d s.cacheBlockSize).1,
      { s with fileDataBlocks := some mem
               fileDescriptor := some (posixRead d s.cacheBlockSize).2.2 })

/-- The method `LargeFileReaderCore::fetchDataBlockForIndex(index)`: the returned
`size_t` and the state afterwards. -/
def fetchDataBlockForIndex (s : LargeFileReaderCore) (index : Int) :
    Except Trap (Nat × LargeFileReaderCore) := do
  let s ← s.takeCacheBlock index
  s.readIntoCacheBlock index

/-- The statement
`if (fileCacheIndex[i].isFault) { size_t bytesRead = fetchDataBlockForIndex(i); ... }`
of `read`. As `bytesRead` is a `size_t`, the test `bytesRead < 0` inside is
never true, and the result of the fetch has no effect. -/
def fetchIfFault (s : LargeFileReaderCore) (isFault : Bool) (index : Int) :
    Except Trap LargeFileReaderCore :=
  if isFault then do
    let r ← s.fetchDataBlockForIndex index
    pure r.2
  else .ok s

/-- The call `memcpy(&buffer[totalBytesRead], data, length)` into the caller's
buffer. No object has `2^64` bytes, so the end of the range stays below it in
every defined execution. -/
def copyToCaller (buffer : List Nat) (totalBytesRead : Nat) (data : List Nat) :
    Except Trap (List Nat) :=
  if totalBytesRead + data.length < U64 then writeBytes buffer totalBytesRead data
  else .error .outOfBounds

/-- How one pass through the body of the `while` loop of `read` ends. -/
inductive Pass where
  /-- The body executed a `return`: the returned `size_t`, the caller's buffer
  and the state. -/
  | returned (result : Nat) (buffer : List Nat) (s : LargeFileReaderCore)
  /-- The body reached its end: the state, the caller's buffer and the new
  value of `totalBytesRead`. -/
  | continued (s : LargeFileReaderCore) (buffer : List Nat) (totalBytesRead : Nat)
  deriving DecidableEq, Repr

/-- The state a pass through the loop body ends in. -/
def Pass.state : Pass → LargeFileReaderCore
  | .returned _ _ s => s
  | .continued s _ _ => s

/-- The value of `dataBlockIndex` in `read`: `floor(currentFileOffset / cacheBlockSize)`,
the division being the unsigned one. -/
def dataBlockIndex (s : LargeFileReaderCore) : Nat :=
  toU64 s.currentFileOffset / s.cacheBlockSize

/-- The value of `offsetInDataBlock` in `read`:
`currentFileOffset - (dataBlockIndex * cacheBlockSize)`, computed in `uint64_t`. -/
def offsetInDataBlock (s : LargeFileReaderCore) (dataBlockIndex : Nat) : Nat :=
  (toU64 s.currentFileOffset + (U64 - (dataBlockIndex * s.cacheBlockSize) % U64)) % U64

/-- The value of `lengthInDataBlock` in `read` before the test against the end
of the file: `cacheBlockSize - offsetInDataBlock`, cut down to
`numberOfBytes - totalBytesRead`. -/
def wantedLength (s : LargeFileReaderCore) (dataBlockIndex numberOfBytes totalBytesRead : Nat) :
    Nat :=
  if (s.cacheBlockSize + (U64 - s.offsetInDataBlock dataBlockIndex)) % U64 >
      numberOfBytes - totalBytesRead then
    numberOfBytes - totalBytesRead
  else (s.cacheBlockSize + (U64 - s.offsetInDataBlock dataBlockIndex)) % U64

/-- The test `(currentFileOffset + lengthInDataBlock) > fileStatus.st_size` of
`read`, an unsigned comparison. -/
def beyondEnd (s : LargeFileReaderCore) (dataBlockIndex numberOfBytes totalBytesRead : Nat) :
    Bool :=
  decide ((toU64 s.currentFileOffset +
      s.wantedLength dataBlockIndex numberOfBytes totalBytesRead) % U64 > toU64 s.st_size)

/-- The final value of `lengthInDataBlock` in `read`. -/
def lengthInDataBlock (s : LargeFileReaderCore)
    (dataBlockIndex numberOfBytes totalBytesRead : Nat) : Nat :=
  if s.beyondEnd dataBlockIndex numberOfBytes totalBytesRead then
    toU64 (s.st_size - s.currentFileOffset)
  else s.wantedLength dataBlockIndex numberOfBytes totalBytesRead

/-- The second half of the loop body of `read`, from the computation of
`offsetInDataBlock` on, for the block `dataBlockIndex`, not faulted and bound to
the slot at `slot`. -/
def copyFromBlock (s : LargeFileReaderCore) (dataBlockIndex slot : Nat) (buffer : List Nat)
    (numberOfBytes totalBytesRead : Nat) : Except Trap Pass :=
  if s.lengthInDataBlock dataBlockIndex numberOfBytes totalBytesRead = 0 then
    if s.beyondEnd dataBlockIndex numberOfBytes totalBytesRead then
      .ok (.returned totalBytesRead buffer { s with isEof := true })
    else if s.isEof then .ok (.returned totalBytesRead buffer s)
    else .error .assertion
  else do
    let mem ← s.dataArray
    let data ← readBytes mem (slot + s.offsetInDataBlock dataBlockIndex)
      (s.lengthInDataBlock dataBlockIndex numberOfBytes totalBytesRead)
    let buffer ← copyToCaller buffer totalBytesRead data
    pure (.continued
      { s with
        isEof := s.beyondEnd dataBlockIndex numberOfBytes totalBytesRead || s.isEof
        currentFileOffset :=
          toI64 ((toU64 s.currentFileOffset +
            s.lengthInDataBlock dataBlockIndex numberOfBytes totalBytesRead) % U64) }
      buffer (totalBytesRead + s.lengthInDataBlock dataBlockIndex numberOfBytes totalBytesRead))

/-- The body of the `while (totalBytesRead < numberOfBytes)` loop of `read`. -/
def readBody (s : LargeFileReaderCore) (buffer : List Nat) (numberOfBytes totalBytesRead : Nat) :
    Except Trap Pass :=
  if s.cacheBlockSize = 0 then .error .divisionByZero
  else if ¬ s.dataBlockIndex < toU64 s.totalNumberOfFileCacheIndexEntries then .error .assertion
  else do
    let ix ← s.indexArray
    let e ← entryAt ix (s.dataBlockIndex : Int)
    let t ← s.fetchIfFault e.isFault (toI64 s.dataBlockIndex)
    let ix ← t.indexArray
    let e ← entryAt ix (s.dataBlockIndex : Int)
    if e.isFault then pure (.returned minusTwo buffer { t with isFail := true })
    else t.copyFromBlock s.dataBlockIndex e.offsetInFileBuffer buffer numberOfBytes totalBytesRead

/-- The statements of `read` after the loop. -/
def readEpilogue (s : LargeFileReaderCore) (buffer : List Nat) (totalBytesRead : Nat) :
    Nat × List Nat × LargeFileReaderCore :=
  if s.currentFileOffset ≥ s.st_size then (totalBytesRead, buffer, { s with isEof := true })
  else (totalBytesRead, buffer, s)

/-- The `while (totalBytesRead < numberOfBytes)` loop of `read` together with the
statements after it; `fuel` bounds the number of passes. The result is the
returned `size_t`, the caller's buffer and the state afterwards. -/
def readLoop : Nat → LargeFileReaderCore → List Nat → Nat → Nat →
    Except Trap (Nat × List Nat × LargeFileReaderCore)
  | fuel, s, buffer, numberOfBytes, totalBytesRead =>
    if totalBytesRead < numberOfBytes then
      match fuel with
      | 0 => .error .exhausted
      | fuel + 1 =>
        match readBody s buffer numberOfBytes totalBytesRead with
        | .error t => .error t
        | .ok (.returned result buffer s) => .ok (result, buffer, s)
        | .ok (.continued s buffer totalBytesRead) =>
          readLoop fuel s buffer numberOfBytes totalBytesRead
    else .ok (readEpilogue s buffer totalBytesRead)

/-- The method `LargeFileReaderCore::read(buffer, numberOfBytes)`: the returned
`size_t`, the caller's buffer and the state afterwards. Every pass through the
loop that does not return copies at least one byte, so `numberOfBytes` passes
are enough (`read_ne_exhausted`). -/
def read (s : LargeFileReaderCore) (buffer : List Nat) (numberOfBytes : Nat) :
    Except Trap (Nat × List Nat × LargeFileReaderCore) :=
  if !s.isOpen then .ok (minusOne, buffer, s)
  else
    let s := { s with isEof := false, isFail := false, isBad := false }
    if (toU64 s.currentFileOffset + numberOfBytes) % U64 > toU64 s.st_size then
      let numberOfBytes := toU64 (s.st_size - s.currentFileOffset)
      let s := { s with isEof := true }
      if numberOfBytes = 0 then .ok (0, buffer, s)
      else readLoop numberOfBytes s buffer numberOfBytes 0
    else readLoop numberOfBytes s buffer numberOfBytes 0

end LargeFileReaderCore

/-! ## Driving the reader -/

deriving instance DecidableEq for Except

/-- A call of `lseek` or `read` with its arguments. -/
inductive Call where
  | lseek (offsetInBytes whence : Int)
  | read (buffer : List Nat) (numberOfBytes : Nat)
  deriving DecidableEq, Repr

/-- What the caller sees of a call: the returned value and, for `read`, the
buffer afterwards. -/
inductive Seen where
  | lseek (result : Int)
  | read (result : Nat) (buffer : List Nat)
  deriving DecidableEq, Repr

/-- Run a sequence of `lseek` and `read` calls on a reader, in order: what the
caller sees of each call, and the state at the end. -/
def runCalls : LargeFileReaderCore → List Call →
    Except Trap (List Seen × LargeFileReaderCore)
  | s, [] => .ok ([], s)
  | s, .lseek offsetInBytes whence :: rest =>
    match runCalls (s.lseek offsetInBytes whence).2 rest with
    | .error t => .error t
    | .ok r => .ok (.lseek (s.lseek offsetInBytes whence).1 :: r.1, r.2)
  | s, .read buffer numberOfBytes :: rest =>
    match s.read buffer numberOfBytes with
    | .error t => .error t
    | .ok r =>
      match runCalls r.2.2 rest with
      | .error t => .error t
      | .ok q => .ok (.read r.1 r.2.1 :: q.1, q.2)

/-- The states a reader can be in: the constructed object, and every state a
call of `open`, `close`, `lseek` or `read` that ends with a defined result
leads to. -/
inductive Reachable (host : Host) : LargeFileReaderCore → Prop where
  | construct : Reachable host LargeFileReaderCore.construct
  | openFile {s : LargeFileReaderCore} (fullFilePath : String) (cacheMaxSize cacheBlockSize : Nat) :
      Reachable host s →
      Reachable host (s.openFile host fullFilePath cacheMaxSize cacheBlockSize).2
  | close {s : LargeFileReaderCore} : Reachable host s → Reachable host s.close
  | lseek {s : LargeFileReaderCore} (offsetInBytes whence : Int) :
      Reachable host s → Reachable host (s.lseek offsetInBytes whence).2
  | read {s : LargeFileReaderCore} (buffer : List Nat) (numberOfBytes : Nat)
      {r : Nat × List Nat × LargeFileReaderCore} :
      Reachable host s → s.read buffer numberOfBytes = .ok r → Reachable host r.2.2

/-- The members no call of `lseek` or `read` assigns: the open flag, the three
cache sizes, the path, the two block counts fixed by `open` and the file size. -/
def SameFile (s t : LargeFileReaderCore) : Prop :=
  t.isOpen = s.isOpen ∧ t.cacheBlockSize = s.cacheBlockSize ∧ t.cacheMaxSize = s.cacheMaxSize ∧
  t.cacheActualSize = s.cacheActualSize ∧ t.filePath = s.filePath ∧
  t.maxNumberOfCachedFileDataBlocks = s.maxNumberOfCachedFileDataBlocks ∧
  t.totalNumberOfFileCacheIndexEntries = s.totalNumberOfFileCacheIndexEntries ∧
  t.st_size = s.st_size

/-- What holds of every closed reader: the three status flags are clear and
neither the cache, the index nor a descriptor is bound. -/
def ClosedClean (s : LargeFileReaderCore) : Prop :=
  s.isOpen = false →
    s.isEof = false ∧ s.isFail = false ∧ s.isBad = false ∧
    s.fileDataBlocks = none ∧ s.fileCacheIndex = none ∧ s.fileDescriptor = none

/-- What the caller sees of a call of `lseek`: the returned offset, the cursor
and the end-of-file flag afterwards. -/
def seekSeen (r : Int × LargeFileReaderCore) : Int × Int × Bool :=
  (r.1, r.2.currentFileOffset, r.2.isEof)

/-! ## The cache state of an open reader -/

/-- The first block of a list of blocks as an index member holds it, `-1` for
the empty list. -/
def firstOrAbsent (blocks : List Nat) : Int :=
  match blocks.head? with
  | some b => (b : Int)
  | none => -1

/-- The last block of a list of blocks as an index member holds it, `-1` for
the empty list. -/
def lastOrAbsent (blocks : List Nat) : Int :=
  match blocks.getLast? with
  | some b => (b : Int)
  | none => -1

/-- The entries of `blocks` form a chain in `ix`, in list order: none is
faulted, `previousUsed` of each is the block before it (`before` for the first)
and `nextUsed` the block after it (`-1` for the last). -/
def Linked (ix : List FileCacheIndexEntry) : Int → List Nat → Prop
  | _, [] => True
  | before, b :: rest =>
    (∃ e, ix[b]? = some e ∧ e.isFault = false ∧ e.previousUsed = before ∧
      e.nextUsed = firstOrAbsent rest) ∧
    Linked ix (b : Int) rest

/-- What `open` fixes and every call relies on: the reader is open, the block
size is positive, the sizes are in the range of their types, the index has one
entry per file block, the cache has room for `maxNumberOfCachedFileDataBlocks`
slots, and the cache holds at least two blocks or the whole file. -/
structure Configured (s : LargeFileReaderCore) : Prop where
  isOpen : s.isOpen = true
  blockSize_pos : 0 < s.cacheBlockSize
  blockSize_lt : s.cacheBlockSize < U64
  size_nonneg : 0 ≤ s.st_size
  size_lt : s.st_size < 9223372036854775808
  total_eq : s.totalNumberOfFileCacheIndexEntries =
    ((ceilDiv s.st_size.toNat s.cacheBlockSize : Nat) : Int)
  max_nonneg : 0 ≤ s.maxNumberOfCachedFileDataBlocks
  max_fits : s.maxNumberOfCachedFileDataBlocks.toNat * s.cacheBlockSize ≤ s.cacheActualSize
  actual_lt : s.cacheActualSize < U64
  capacity : 2 ≤ s.maxNumberOfCachedFileDataBlocks ∨
    s.totalNumberOfFileCacheIndexEntries ≤ s.maxNumberOfCachedFileDataBlocks

/-- The index `ix` holds the resident blocks `blocks` as a chain: the blocks are
distinct, chained in list order from a first entry with no predecessor, they
are exactly the entries that are not faulted, and a faulted entry has no
successor. -/
structure Chain (ix : List FileCacheIndexEntry) (blocks : List Nat) : Prop where
  nodup : blocks.Nodup
  linked : Linked ix (-1) blocks
  resident : ∀ (b : Nat) (e : FileCacheIndexEntry), ix[b]? = some e → e.isFault = false →
    b ∈ blocks
  faulted : ∀ (b : Nat) (e : FileCacheIndexEntry), ix[b]? = some e → e.isFault = true →
    e.nextUsed = -1

/-- Each of `blocks` is bound in `ix` to a slot of its own, at a multiple of
`blockSize` below `slots * blockSize`; while fewer than `slots` blocks are
resident, the slots in use are the first ones. -/
structure Slotted (ix : List FileCacheIndexEntry) (blocks : List Nat) (blockSize slots : Nat) :
    Prop where
  aligned : ∀ (b : Nat) (e : FileCacheIndexEntry), b ∈ blocks → ix[b]? = some e →
    e.offsetInFileBuffer % blockSize = 0
  inside : ∀ (b : Nat) (e : FileCacheIndexEntry), b ∈ blocks → ix[b]? = some e →
    e.offsetInFileBuffer + blockSize ≤ slots * blockSize
  low : blocks.length < slots →
    ∀ (b : Nat) (e : FileCacheIndexEntry), b ∈ blocks → ix[b]? = some e →
      e.offsetInFileBuffer < blocks.length * blockSize
  own : ∀ (b c : Nat) (e f : FileCacheIndexEntry), b ∈ blocks → c ∈ blocks →
    ix[b]? = some e → ix[c]? = some f → e.offsetInFileBuffer = f.offsetInFileBuffer → b = c

/-- The cache state of an open reader: `ix` is the index, `mem` the cache, and
`blocks` the resident file blocks from the least to the most recently fetched,
chained from `leastRecentlyUsedIndex` to `mostRecentlyUsedIndex`, each bound to
a slot of its own inside the cache. -/
structure Resident (s : LargeFileReaderCore) (ix : List FileCacheIndexEntry) (mem : List Nat)
    (blocks : List Nat) : Prop where
  index_eq : s.fileCacheIndex = some ix
  data_eq : s.fileDataBlocks = some mem
  index_length : (ix.length : Int) = s.totalNumberOfFileCacheIndexEntries
  data_length : mem.length = s.cacheActualSize
  chain : Chain ix blocks
  count : s.currentNumberOfCachedFileDataBlocks = (blocks.length : Int)
  count_le : (blocks.length : Int) ≤ s.maxNumberOfCachedFileDataBlocks
  lru : s.leastRecentlyUsedIndex = firstOrAbsent blocks
  mru : s.mostRecentlyUsedIndex = lastOrAbsent blocks
  slotted : Slotted ix blocks s.cacheBlockSize s.maxNumberOfCachedFileDataBlocks.toNat

/-- What a fetch may change: the resident count, the index, the two ends of the
chain, the cache bytes and the descriptor. -/
def FetchFrame (s t : LargeFileReaderCore) : Prop :=
  t = { s with
        currentNumberOfCachedFileDataBlocks := t.currentNumberOfCachedFileDataBlocks
        fileCacheIndex := t.fileCacheIndex
        leastRecentlyUsedIndex := t.leastRecentlyUsedIndex
        mostRecentlyUsedIndex := t.mostRecentlyUsedIndex
        fileDataBlocks := t.fileDataBlocks
        fileDescriptor := t.fileDescriptor }

/-! ## Concrete hosts and readers -/

/-- The fault flags of the index, entry by entry (empty when no index is bound). -/
def faultFlags (s : LargeFileReaderCore) : List Bool :=
  match s.fileCacheIndex with
  | some index => index.map fun e => e.isFault
  | none => []

/-- A host whose every path names one readable file with the given content and
`::read` outcome script, and whose fresh allocations hold zero bytes. -/
def hostWith (bytes : List Nat) (faults : List Bool) : Host :=
  { files := fun _ => some { bytes := bytes, openable := true, faults := faults }
    junk := fun _ => 0 }

/-- The reader after `open(path, cacheMaxSize, cacheBlockSize)` on a fresh
object, on the host `hostWith bytes faults`. -/
def opened (bytes : List Nat) (faults : List Bool) (cacheMaxSize cacheBlockSize : Nat) :
    LargeFileReaderCore :=
  (LargeFileReaderCore.construct.openFile (hostWith bytes faults) "f"
    cacheMaxSize cacheBlockSize).2

/-! ## Open readers -/

/-- The states of an open reader: the state a successful `open` leaves (with
arguments in the range of `size_t`, on a file whose size an `off_t` holds), and
every state a call of `lseek` or `read` that ends with a defined result leads
to from there. -/
inductive OpenReachable (host : Host) : LargeFileReaderCore → Prop where
  | openFile (s : LargeFileReaderCore) (fullFilePath : String) (file : HostFile)
      (cacheMaxSize cacheBlockSize : Nat) :
      host.files fullFilePath = some file → file.bytes.length < 9223372036854775808 →
      cacheMaxSize < U64 → cacheBlockSize < U64 →
      (s.openFile host fullFilePath cacheMaxSize cacheBlockSize).1 = .returned true →
      OpenReachable host (s.openFile host fullFilePath cacheMaxSize cacheBlockSize).2
  | lseek {s : LargeFileReaderCore} (offsetInBytes whence : Int) :
      OpenReachable host s → OpenReachable host (s.lseek offsetInBytes whence).2
  | read {s : LargeFileReaderCore} (buffer : List Nat) (numberOfBytes : Nat)
      {r : Nat × List Nat × LargeFileReaderCore} :
      OpenReachable host s → numberOfBytes < U64 → s.read buffer numberOfBytes = .ok r →
      OpenReachable host r.2.2

/-- What `open` fixes of the file and the block size: the reader is open, the
block size is positive and in the range of `size_t`, the file size is in the
non-negative range of `off_t`, and the index has one entry per file block. -/
structure Sized (s : LargeFileReaderCore) : Prop where
  isOpen : s.isOpen = true
  blockSize_pos : 0 < s.cacheBlockSize
  blockSize_lt : s.cacheBlockSize < U64
  size_nonneg : 0 ≤ s.st_size
  size_lt : s.st_size < 9223372036854775808
  total_eq : s.totalNumberOfFileCacheIndexEntries =
    ((ceilDiv s.st_size.toNat s.cacheBlockSize : Nat) : Int)

/-- The words of the specification: `m` is the smallest multiple of `blockSize`
that is at least `target`. -/
def SmallestMultipleCovering (blockSize target m : Nat) : Prop :=
  blockSize ∣ m ∧ target ≤ m ∧ ∀ k, blockSize ∣ k → target ≤ k → m ≤ k

/-! ## The block array (`FixedBlockAllocatedArray<T>`) -/

/-- The struct `AllocatedBlockType`. A pointer to a block is the address of the
block on the heap of the array, `none` being `nullptr`. The member
`allocatedBlock` is the array of `numberOfEntriesInBlock` elements behind the
pointer of that name, given by its elements: element `i` is `allocatedBlock i`,
for `i` below `numberOfEntriesInBlock`. -/
structure AllocatedBlockType (T : Type) where
  prevBlock : Option Nat
  nextBlock : Option Nat
  allocatedBlock : Nat → T

/-- The object state of `FixedBlockAllocatedArray<T>`, together with the blocks
it has allocated with `new AllocatedBlockType`: `heap` holds them in the order
of their allocation, and the address of a block is its position in `heap`. -/
structure FixedBlockAllocatedArray (T : Type) where
  heap : List (AllocatedBlockType T)
  totalNumberOfAllocatedBlocks : Nat
  firstBlock : Option Nat
  lastBlock : Option Nat

/-- A reference `T&` into the array: the element `indexInBlock` of the array
`allocatedBlock` of the block at the address `block`. -/
structure ElementRef where
  block : Nat
  indexInBlock : Nat
  deriving DecidableEq, Repr

namespace FixedBlockAllocatedArray

/-- The constant `numberOfEntriesInBlock`. -/
def numberOfEntriesInBlock : Nat := 16384

/-- The constructor `FixedBlockAllocatedArray()`: one block with no successor.
It does not assign `firstBlock->prevBlock`, which holds the indeterminate
pointer `prev`. The elements of an array `new T[numberOfEntriesInBlock]` are
not initialised: element `i` of the `k`-th such array of this object holds the
indeterminate value `fresh k i`. Allocations succeed. -/
def construct {T : Type} (fresh : Nat → Nat → T) (prev : Option Nat) :
    FixedBlockAllocatedArray T :=
  { heap := [{ prevBlock := prev, nextBlock := none, allocatedBlock := fresh 0 }]
    totalNumberOfAllocatedBlocks := 1
    firstBlock := some 0
    lastBlock := some 0 }

/-- The body of the loop `while (blockNumberToAccess >= totalNumberOfAllocatedBlocks)`
of `operator[]`: allocate a block, link it behind `lastBlock` and make it the
last block. The counter cannot wrap: it stays at most one above a block
number, which is below `2^50`. -/
def appendBlock {T : Type} (a : FixedBlockAllocatedArray T) (fresh : Nat → Nat → T) :
    Except Trap (FixedBlockAllocatedArray T) :=
  match a.lastBlock with
  | none => .error .outOfBounds
  | some last =>
    match a.heap[last]? with
    | none => .error .outOfBounds
    | some block =>
      .ok { heap :=
              a.heap.set last { block with nextBlock := some a.heap.length } ++
                [{ prevBlock := a.lastBlock, nextBlock := none,
                   allocatedBlock := fresh a.heap.length }]
            totalNumberOfAllocatedBlocks := a.totalNumberOfAllocatedBlocks + 1
            firstBlock := a.firstBlock
            lastBlock := some a.heap.length }

/-- The loop `while (blockNumberToAccess >= totalNumberOfAllocatedBlocks)` of
`operator[]`; `fuel` bounds the number of passes. -/
def appendBlocks {T : Type} (fresh : Nat → Nat → T) (blockNumberToAccess : Nat) :
    Nat → FixedBlockAllocatedArray T → Except Trap (FixedBlockAllocatedArray T)
  | fuel, a =>
    if blockNumberToAccess ≥ a.totalNumberOfAllocatedBlocks then
      match fuel with
      | 0 => .error .exhausted
      | fuel + 1 =>
        match a.appendBlock fresh with
        | .error t => .error t
        | .ok a => appendBlocks fresh blockNumberToAccess fuel a
    else .ok a

/-- The loop
`for (n = 0; (n < blockNumberToAccess) && (blockToAccess != nullptr); n++) blockToAccess = blockToAccess->nextBlock;`
of both operators, for `blockNumberToAccess` passes from `blockToAccess`. -/
def followNext {T : Type} (heap : List (AllocatedBlockType T)) :
    Nat → Option Nat → Except Trap (Option Nat)
  | 0, blockToAccess => .ok blockToAccess
  | _ + 1, none => .ok none
  | n + 1, some address =>
    match heap[address]? with
    | none => .error .outOfBounds
    | some block => followNext heap n block.nextBlock

/-- The statements `assert(blockToAccess != nullptr); return blockToAccess->allocatedBlock[indexInBlockToAccess];`
of both operators: a reference to the element. -/
def elementOf {T : Type} (heap : List (AllocatedBlockType T)) (blockToAccess : Option Nat)
    (indexInBlockToAccess : Nat) : Except Trap ElementRef :=
  match blockToAccess with
  | none => .error .assertion
  | some address =>
    match heap[address]? with
    | none => .error .outOfBounds
    | some _ => .ok { block := address, indexInBlock := indexInBlockToAccess }

/-- The read-write `operator[](index)`: the reference returned and the array
afterwards. A block number is at most `index / 16384`, so that many passes and
one more are enough for the loop that appends (`subscript_reaches`). -/
def subscript {T : Type} (a : FixedBlockAllocatedArray T) (fresh : Nat → Nat → T) (index : Nat) :
    Except Trap (ElementRef × FixedBlockAllocatedArray T) :=
  if ¬ a.totalNumberOfAllocatedBlocks ≥ 1 then .error .assertion
  else if index / numberOfEntriesInBlock ≥ a.totalNumberOfAllocatedBlocks then do
    let a ← appendBlocks fresh (index / numberOfEntriesInBlock)
      (index / numberOfEntriesInBlock + 1) a
    let element ← elementOf a.heap a.lastBlock (index % numberOfEntriesInBlock)
    pure (element, a)
  else do
    let blockToAccess ← followNext a.heap (index / numberOfEntriesInBlock) a.firstBlock
    let element ← elementOf a.heap blockToAccess (index % numberOfEntriesInBlock)
    pure (element, a)

/-- The read-only `operator[](index) const`: the reference returned. The array
is not changed. -/
def subscriptConst {T : Type} (a : FixedBlockAllocatedArray T) (index : Nat) :
    Except Trap ElementRef :=
  if ¬ a.totalNumberOfAllocatedBlocks ≥ 1 then .error .assertion
  else if ¬ index / numberOfEntriesInBlock < a.totalNumberOfAllocatedBlocks then
    .error .assertion
  else do
    let blockToAccess ← followNext a.heap (index / numberOfEntriesInBlock) a.firstBlock
    elementOf a.heap blockToAccess (index % numberOfEntriesInBlock)

/-- A read through a reference. -/
def load {T : Type} (a : FixedBlockAllocatedArray T) (element : ElementRef) : Except Trap T :=
  match a.heap[element.block]? with
  | none => .error .outOfBounds
  | some block =>
    if element.indexInBlock < numberOfEntriesInBlock then
      .ok (block.allocatedBlock element.indexInBlock)
    else .error .outOfBounds

/-- A write through a reference. -/
def store {T : Type} (a : FixedBlockAllocatedArray T) (element : ElementRef) (value : T) :
    Except Trap (FixedBlockAllocatedArray T) :=
  match a.heap[element.block]? with
  | none => .error .outOfBounds
  | some block =>
    if element.indexInBlock < numberOfEntriesInBlock then
      .ok { a with
        heap := a.heap.set element.block
          { block with
            allocatedBlock := fun i =>
              if i = element.indexInBlock then value else block.allocatedBlock i } }
    else .error .outOfBounds

/-- The statement `array[index] = value;` through the read-write operator. -/
def assign {T : Type} (a : FixedBlockAllocatedArray T) (fresh : Nat → Nat → T) (index : Nat)
    (value : T) : Except Trap (FixedBlockAllocatedArray T) := do
  let r ← a.subscript fresh index
  r.2.store r.1 value

/-- The expression `array[index]` read through the read-write operator: the
value and the array afterwards. -/
def value {T : Type} (a : FixedBlockAllocatedArray T) (fresh : Nat → Nat → T) (index : Nat) :
    Except Trap (T × FixedBlockAllocatedArray T) := do
  let r ← a.subscript fresh index
  let x ← r.2.load r.1
  pure (x, r.2)

/-- The expression `array[index]` read through the read-only operator. -/
def valueConst {T : Type} (a : FixedBlockAllocatedArray T) (index : Nat) : Except Trap T := do
  let element ← a.subscriptConst index
  a.load element

/-- The blocks of the array are chained from `firstBlock` in the order of
their allocation: block `k` is at the address `k`, its successor is block
`k + 1` (none for the last block), and its predecessor block `k - 1` (the first
block has none assigned). -/
structure WellFormed {T : Type} (a : FixedBlockAllocatedArray T) : Prop where
  length_eq : a.heap.length = a.totalNumberOfAllocatedBlocks
  total_pos : 1 ≤ a.totalNumberOfAllocatedBlocks
  first_eq : a.firstBlock = some 0
  last_eq : a.lastBlock = some (a.totalNumberOfAllocatedBlocks - 1)
  next_eq : ∀ (k : Nat) (block : AllocatedBlockType T), a.heap[k]? = some block →
    block.nextBlock = if k + 1 < a.totalNumberOfAllocatedBlocks then some (k + 1) else none
  prev_eq : ∀ (k : Nat) (block : AllocatedBlockType T), a.heap[k + 1]? = some block →
    block.prevBlock = some k

/-- The states of a block array: the constructed array, and every state the
read-write operator or a write through a reference leads to. -/
inductive Reachable {T : Type} : FixedBlockAllocatedArray T → Prop where
  | construct (fresh : Nat → Nat → T) (prev : Option Nat) : Reachable (construct fresh prev)
  | subscript {a : FixedBlockAllocatedArray T} (fresh : Nat → Nat → T) (index : Nat)
      {r : ElementRef × FixedBlockAllocatedArray T} :
      Reachable a → a.subscript fresh index = .ok r → Reachable r.2
  | store {a b : FixedBlockAllocatedArray T} (element : ElementRef) (value : T) :
      Reachable a → a.store element value = .ok b → Reachable b

/-- The element at position `i` of the `k`-th block of the chain from
`firstBlock`, when there is one. -/
def elementAt {T : Type} (a : FixedBlockAllocatedArray T) (k i : Nat) : Option T :=
  match followNext a.heap k a.firstBlock with
  | .ok (some address) =>
    match a.heap[address]? with
    | some block => if i < numberOfEntriesInBlock then some (block.allocatedBlock i) else none
    | none => none
  | _ => none

end FixedBlockAllocatedArray

/-! ## The line indexer (`LineIndexerCore`) -/

/-- The struct `LineIndexEntry`. -/
structure LineIndexEntry where
  offset : Int
  length : Nat
  deriving DecidableEq, Repr

/-- The object state of `LineIndexerCore`. -/
structure LineIndexerCore where
  lineDelimiter : Nat
  numberOfLines : Int
  lineIndex : FixedBlockAllocatedArray LineIndexEntry

namespace LineIndexerCore

/-- The local variables of `indexLinesForFileReader` that live across the passes
of its outer loop. -/
structure Locals where
  buffer : List Nat
  totalNumberOfBytesInBuffer : Nat
  hasDataToProcess : Bool
  currentLineNumber : Nat
  currentStartOfLineInBuffer : Int
  currentSearchIndexInbuffer : Int
  deriving DecidableEq, Repr

/-- The constructor `LineIndexerCore()`, with the member initialisers
`lineDelimiter = '\n'` and `numberOfLines = -1` and the constructed
`lineIndex`. -/
def construct (fresh : Nat → Nat → LineIndexEntry) (prev : Option Nat) : LineIndexerCore :=
  { lineDelimiter := 10
    numberOfLines := -1
    lineIndex := FixedBlockAllocatedArray.construct fresh prev }

/-- The element `buffer[i]` of the local array `buffer`, `i` being an `off_t`. -/
def byteAt (buffer : List Nat) (i : Int) : Except Trap Nat :=
  if 0 ≤ i then
    match buffer[i.toNat]? with
    | some byte => .ok byte
    | none => .error .outOfBounds
  else .error .outOfBounds

/-- The inner loop
`while (!lineEndFound && (currentSearchIndexInbuffer < totalNumberOfBytesInBuffer))`
of `indexLinesForFileReader`, the comparison being unsigned; `fuel` bounds the
number of passes. The result is `currentSearchIndexInbuffer` and `lineEndFound`
after the loop. -/
def scanLoop (buffer : List Nat) (totalNumberOfBytesInBuffer : Nat)
    (currentStartOfLineInBuffer : Int) : Nat → Int → Bool → Except Trap (Int × Bool)
  | fuel, currentSearchIndexInbuffer, lineEndFound =>
    if !lineEndFound && decide (toU64 currentSearchIndexInbuffer < totalNumberOfBytesInBuffer) then
      match fuel with
      | 0 => .error .exhausted
      | fuel + 1 =>
        match byteAt buffer currentSearchIndexInbuffer with
        | .error t => .error t
        | .ok byte =>
          if byte = 10 ∨ currentSearchIndexInbuffer - currentStartOfLineInBuffer = 2048 then
            scanLoop buffer totalNumberOfBytesInBuffer currentStartOfLineInBuffer fuel
              currentSearchIndexInbuffer true
          else
            scanLoop buffer totalNumberOfBytesInBuffer currentStartOfLineInBuffer fuel
              (currentSearchIndexInbuffer + 1) false
    else .ok (currentSearchIndexInbuffer, lineEndFound)

/-- The two assignments `lineIndex[currentLineNumber].offset = ...;` and
`lineIndex[currentLineNumber].length = ...;`, each through the read-write
operator of the block array. -/
def storeLine (x : LineIndexerCore) (fresh : Nat → Nat → LineIndexEntry)
    (currentLineNumber : Nat) (offset : Int) (length : Nat) : Except Trap LineIndexerCore := do
  let r ← x.lineIndex.subscript fresh currentLineNumber
  let entry ← r.2.load r.1
  let lineIndex ← r.2.store r.1 { entry with offset := offset }
  let r ← lineIndex.subscript fresh currentLineNumber
  let entry ← r.2.load r.1
  let lineIndex ← r.2.store r.1 { entry with length := length }
  pure { x with lineIndex := lineIndex }

/-- One pass through the body of the outer loop `while (hasDataToProcess)` of
`indexLinesForFileReader`. A pass of the inner loop either ends it or advances
the search index, so one more pass than there are bytes in the buffer is
enough for it (`scanLoop_ne_exhausted`). -/
def indexPass (fresh : Nat → Nat → LineIndexEntry) (p : LineIndexerCore × Locals) :
    Except Trap (LineIndexerCore × Locals) := do
  let scanned ← scanLoop p.2.buffer p.2.totalNumberOfBytesInBuffer
    p.2.currentStartOfLineInBuffer (p.2.totalNumberOfBytesInBuffer + 1)
    p.2.currentSearchIndexInbuffer false
  if scanned.2 then do
    let x ← p.1.storeLine fresh p.2.currentLineNumber p.2.currentStartOfLineInBuffer
      (toU64 (scanned.1 - p.2.currentStartOfLineInBuffer))
    pure (x, { p.2 with
      currentSearchIndexInbuffer := scanned.1 + 1
      currentStartOfLineInBuffer := scanned.1 + 1 })
  else
    pure (p.1, { p.2 with currentSearchIndexInbuffer := scanned.1, hasDataToProcess := true })

/-- The outer loop `while (hasDataToProcess)` of `indexLinesForFileReader`;
`fuel` bounds the number of passes. -/
def indexLoop (fresh : Nat → Nat → LineIndexEntry) :
    Nat → LineIndexerCore × Locals → Except Trap (LineIndexerCore × Locals)
  | fuel, p =>
    if p.2.hasDataToProcess then
      match fuel with
      | 0 => .error .exhausted
      | fuel + 1 =>
        match indexPass fresh p with
        | .error t => .error t
        | .ok p => indexLoop fresh fuel p
    else .ok p

/-- The statements of `indexLinesForFileReader` before its outer loop, on an
open reader: the local array `buffer` of `cacheBlockSize` bytes (byte `i`
holding the indeterminate value `junk i`), the seek to 0 and the two reads, the
second one to `&buffer[cacheBlockSize]`, the end of the array. The result is
the indexer with the local variables, and the reader. -/
def indexPrologue (x : LineIndexerCore) (junk : Nat → Nat) (reader : LargeFileReaderCore) :
    Except Trap ((LineIndexerCore × Locals) × LargeFileReaderCore) := do
  let first ← (reader.lseek 0 LargeFileReaderCore.SEEK_SET).2.read
    ((List.range reader.cacheBlockSize).map junk) reader.cacheBlockSize
  let second ← first.2.2.read (first.2.1.drop reader.cacheBlockSize) reader.cacheBlockSize
  pure ((x,
      { buffer := first.2.1.take reader.cacheBlockSize ++ second.2.1
        totalNumberOfBytesInBuffer := (first.1 + second.1) % U64
        hasDataToProcess := decide ((first.1 + second.1) % U64 > 0)
        currentLineNumber := 0
        currentStartOfLineInBuffer := 0
        currentSearchIndexInbuffer := 0 }),
    second.2.2)

/-- The method `LineIndexerCore::indexLinesForFileReader(reader)`: the returned
`int`, the indexer and the reader afterwards; `fuel` bounds the number of passes
of the outer loop, which can go on for ever. -/
def indexLinesForFileReader (fuel : Nat) (x : LineIndexerCore)
    (fresh : Nat → Nat → LineIndexEntry) (junk : Nat → Nat) (reader : LargeFileReaderCore) :
    Except Trap (Int × LineIndexerCore × LargeFileReaderCore) :=
  if !reader.isOpen then .ok (-1, x, reader)
  else do
    let start ← x.indexPrologue junk reader
    let p ← indexLoop fresh fuel start.1
    pure (0, p.1, start.2)

/-- The state after `n` passes through the body of the outer loop of
`indexLinesForFileReader`. -/
def indexPasses (fresh : Nat → Nat → LineIndexEntry) :
    Nat → LineIndexerCore × Locals → Except Trap (LineIndexerCore × Locals)
  | 0, p => .ok p
  | n + 1, p =>
    match indexPass fresh p with
    | .error t => .error t
    | .ok p => indexPasses fresh n p

/-- What is to be seen of the indexer and the local variables of
`indexLinesForFileReader`: the member `numberOfLines`, the first entries of
`lineIndex` read through the read-only operator, and the locals
`currentLineNumber`, `currentStartOfLineInBuffer`, `currentSearchIndexInbuffer`
and `hasDataToProcess`. -/
structure Observed where
  numberOfLines : Int
  entries : List (Except Trap LineIndexEntry)
  currentLineNumber : Nat
  currentStartOfLineInBuffer : Int
  currentSearchIndexInbuffer : Int
  hasDataToProcess : Bool
  deriving DecidableEq, Repr

/-- The observation of a state, with the entries `lineIndex[0 .. count)`. -/
def observe (count : Nat) (p : LineIndexerCore × Locals) : Observed :=
  { numberOfLines := p.1.numberOfLines
    entries := (List.range count).map p.1.lineIndex.valueConst
    currentLineNumber := p.2.currentLineNumber
    currentStartOfLineInBuffer := p.2.currentStartOfLineInBuffer
    currentSearchIndexInbuffer := p.2.currentSearchIndexInbuffer
    hasDataToProcess := p.2.hasDataToProcess }

/-- Indeterminate values for the elements of fresh blocks of `lineIndex`: every
element that was never written reads `{77, 77}`. -/
def unwritten : Nat → Nat → LineIndexEntry := fun _ _ => { offset := 77, length := 77 }

/-- The method `indexLinesForFileReader` started on a fresh indexer and the
reader `opened bytes [] cacheMaxSize cacheBlockSize`, up to the outer loop, on a
stack that holds zero bytes. -/
def indexStart (bytes : List Nat) (cacheMaxSize cacheBlockSize : Nat) :
    Except Trap (LineIndexerCore × Locals) :=
  ((construct unwritten none).indexPrologue (fun _ => 0)
    (opened bytes [] cacheMaxSize cacheBlockSize)).map fun start => start.1

end LineIndexerCore

/-! ## The chain of blocks of a block array -/

namespace FixedBlockAllocatedArray

/-- The addresses of the blocks met by walking along `nextBlock` from
`blockToAccess` until the null pointer, in order; `fuel` bounds the number of
blocks. The walk also stops at a pointer to no block. -/
def chainFrom {T : Type} (heap : List (AllocatedBlockType T)) : Nat → Option Nat → List Nat
  | 0, _ => []
  | _ + 1, none => []
  | fuel + 1, some address =>
    match heap[address]? with
    | none => []
    | some block => address :: chainFrom heap fuel block.nextBlock

end FixedBlockAllocatedArray

/-! ## The cache with one slot -/

/-- The cache state of an open reader whose cache has one slot. Either no block
is resident, every entry is faulted with no successor, and both ends of the
chain are absent; or one block is resident, in the slot at offset 0, every
other entry is faulted, and the block is both ends of the chain with no
successor, or else the least recently used index is absent. -/
def OneSlot (s : LargeFileReaderCore) : Prop :=
  s.maxNumberOfCachedFileDataBlocks = 1 ∧ 0 < s.cacheBlockSize ∧
  s.cacheBlockSize ≤ s.cacheActualSize ∧
  ∃ ix, s.fileCacheIndex = some ix ∧
    ((s.currentNumberOfCachedFileDataBlocks = 0 ∧ s.leastRecentlyUsedIndex = -1 ∧
        s.mostRecentlyUsedIndex = -1 ∧
        ∀ (b : Nat) (e : FileCacheIndexEntry), ix[b]? = some e →
          e.isFault = true ∧ e.nextUsed = -1) ∨
      (s.currentNumberOfCachedFileDataBlocks = 1 ∧
        ∃ (b₀ : Nat) (e₀ : FileCacheIndexEntry), ix[b₀]? = some e₀ ∧ e₀.isFault = false ∧
          e₀.offsetInFileBuffer = 0 ∧
          (∀ (b : Nat) (e : FileCacheIndexEntry), b ≠ b₀ → ix[b]? = some e → e.isFault = true) ∧
          ((s.leastRecentlyUsedIndex = (b₀ : Int) ∧ s.mostRecentlyUsedIndex = (b₀ : Int) ∧
              e₀.nextUsed = -1) ∨
            s.leastRecentlyUsedIndex = -1)))

/-! ## Reads in sequence -/

/-- The cache state of a reader on the file `bytes` that was opened and since
then only read, in sequence, with every `::read` succeeding: the blocks below
`fetched` are the ones fetched so far, in order; the descriptor stands at the
start of block `fetched` (or at the end of the file) and no coming `::read`
fails; every resident block is one of these, the last one fetched is resident,
and the slot of each resident block holds the bytes of that block of the file;
the cursor is in the last block fetched or at its end. -/
structure Sequential (bytes : List Nat) (s : LargeFileReaderCore)
    (ix : List FileCacheIndexEntry) (mem : List Nat) (blocks : List Nat) (fetched : Nat) :
    Prop where
  size_eq : s.st_size = (bytes.length : Int)
  descriptor : ∃ d, s.fileDescriptor = some d ∧ d.bytes = bytes ∧
    d.position = min (fetched * s.cacheBlockSize) bytes.length ∧ ∀ f ∈ d.faults, f = false
  below : ∀ k ∈ blocks, k < fetched
  last : 0 < fetched → fetched - 1 ∈ blocks
  content : ∀ (k : Nat) (e : FileCacheIndexEntry), k ∈ blocks → ix[k]? = some e →
    ∀ i, i < s.cacheBlockSize → k * s.cacheBlockSize + i < bytes.length →
      mem[e.offsetInFileBuffer + i]? = bytes[k * s.cacheBlockSize + i]?
  cursor_ge : (((fetched - 1) * s.cacheBlockSize : Nat) : Int) ≤ s.currentFileOffset
  cursor_le : s.currentFileOffset ≤ ((fetched * s.cacheBlockSize : Nat) : Int)

/-- The bytes the `read` calls of a sequence of calls delivered, in order: of
each `read`, the first `result` bytes of the buffer. -/
def delivered : List Seen → List Nat
  | [] => []
  | .lseek _ :: rest => delivered rest
  | .read result buffer :: rest => buffer.take result ++ delivered rest

/-- The `read` calls with the given buffers and counts, as a sequence of
calls. -/
def readCalls (calls : List (List Nat × Nat)) : List Call :=
  calls.map fun c => .read c.1 c.2

/-! # Theorems -/

open LargeFileReaderCore

/-! ## The `Except` monad -/

theorem bind_eq_ok {ε α β : Type} {x : Except ε α} {f : α → Except ε β} {b : β} :
    (x >>= f) = .ok b ↔ ∃ a, x = .ok a ∧ f a = .ok b := by
  cases x <;> simp [bind, Except.bind]

theorem pure_eq_ok {ε α : Type} {a b : α} : (pure a : Except ε α) = .ok b ↔ a = b := by
  simp [pure, Except.pure]

/-! ## What `lseek` and `read` leave alone -/

theorem sameFile_refl (s : LargeFileReaderCore) : SameFile s s := by
  simp [SameFile]

theorem sameFile_trans {s t u : LargeFileReaderCore} (h₁ : SameFile s t) (h₂ : SameFile t u) :
    SameFile s u := by
  obtain ⟨a1, a2, a3, a4, a5, a6, a7, a8⟩ := h₁
  obtain ⟨b1, b2, b3, b4, b5, b6, b7, b8⟩ := h₂
  exact ⟨b1.trans a1, b2.trans a2, b3.trans a3, b4.trans a4, b5.trans a5, b6.trans a6,
    b7.trans a7, b8.trans a8⟩

theorem takeCacheBlock_sameFile {s t : LargeFileReaderCore} {index : Int}
    (h : s.takeCacheBlock index = .ok t) : SameFile s t := by
  unfold takeCacheBlock at h
  split at h
  · simp only [bind_eq_ok, pure_eq_ok] at h
    obtain ⟨_, -, _, -, _, -, rfl⟩ := h
    simp [SameFile]
  · simp only [bind_eq_ok, pure_eq_ok] at h
    obtain ⟨_, -, _, -, _, -, _, -, _, -, _, -, rfl⟩ := h
    simp [SameFile]

theorem readIntoCacheBlock_sameFile {s t : LargeFileReaderCore} {index : Int} {r : Nat}
    (h : s.readIntoCacheBlock index = .ok (r, t)) : SameFile s t := by
  unfold readIntoCacheBlock at h
  simp only [bind_eq_ok, pure_eq_ok] at h
  obtain ⟨_, -, _, -, _, -, h⟩ := h
  split at h
  · simp only [pure_eq_ok, Prod.mk.injEq] at h
    obtain ⟨-, rfl⟩ := h
    simp [SameFile]
  · simp only [bind_eq_ok, pure_eq_ok, Prod.mk.injEq] at h
    obtain ⟨_, -, -, rfl⟩ := h
    simp [SameFile]

theorem fetchDataBlockForIndex_sameFile {s t : LargeFileReaderCore} {index : Int} {r : Nat}
    (h : s.fetchDataBlockForIndex index = .ok (r, t)) : SameFile s t := by
  unfold fetchDataBlockForIndex at h
  simp only [bind_eq_ok] at h
  obtain ⟨u, h₁, h₂⟩ := h
  exact sameFile_trans (takeCacheBlock_sameFile h₁) (readIntoCacheBlock_sameFile h₂)

theorem fetchIfFault_sameFile {s t : LargeFileReaderCore} {isFault : Bool} {index : Int}
    (h : s.fetchIfFault isFault index = .ok t) : SameFile s t := by
  unfold fetchIfFault at h
  split at h
  · simp only [bind_eq_ok, pure_eq_ok] at h
    obtain ⟨r, h₁, rfl⟩ := h
    exact fetchDataBlockForIndex_sameFile h₁
  · cases h
    exact sameFile_refl s

theorem copyFromBlock_returned_sameFile {s t : LargeFileReaderCore} {i slot n total result : Nat}
    {buffer out : List Nat}
    (h : s.copyFromBlock i slot buffer n total = .ok (.returned result out t)) : SameFile s t := by
  unfold copyFromBlock at h
  split at h
  · split at h
    · cases h; simp [SameFile]
    · split at h
      · cases h; simp [SameFile]
      · cases h
  · simp only [bind_eq_ok, pure_eq_ok] at h
    obtain ⟨_, -, _, -, _, -, h⟩ := h
    cases h

theorem copyFromBlock_continued {s t : LargeFileReaderCore} {i slot n total next : Nat}
    {buffer out : List Nat}
    (h : s.copyFromBlock i slot buffer n total = .ok (.continued t out next)) :
    SameFile s t ∧ total < next := by
  unfold copyFromBlock at h
  split at h
  · split at h
    · cases h
    · split at h <;> cases h
  · rename_i hlen
    simp only [bind_eq_ok, pure_eq_ok] at h
    obtain ⟨_, -, _, -, _, -, h⟩ := h
    cases h
    exact ⟨by simp [SameFile], by omega⟩

theorem readBody_returned_sameFile {s t : LargeFileReaderCore} {n total result : Nat}
    {buffer out : List Nat}
    (h : s.readBody buffer n total = .ok (.returned result out t)) : SameFile s t := by
  unfold readBody at h
  split at h
  · cases h
  · split at h
    · cases h
    · simp only [bind_eq_ok, pure_eq_ok] at h
      obtain ⟨_, -, _, -, u, hu, _, -, e, -, h⟩ := h
      split at h
      · simp only [pure_eq_ok] at h
        cases h
        exact sameFile_trans (fetchIfFault_sameFile hu) (by simp [SameFile])
      · exact sameFile_trans (fetchIfFault_sameFile hu) (copyFromBlock_returned_sameFile h)

theorem readBody_continued {s t : LargeFileReaderCore} {n total next : Nat}
    {buffer out : List Nat}
    (h : s.readBody buffer n total = .ok (.continued t out next)) :
    SameFile s t ∧ total < next := by
  unfold readBody at h
  split at h
  · cases h
  · split at h
    · cases h
    · simp only [bind_eq_ok, pure_eq_ok] at h
      obtain ⟨_, -, _, -, u, hu, _, -, e, -, h⟩ := h
      split at h
      · simp only [pure_eq_ok] at h
        cases h
      · obtain ⟨h₁, h₂⟩ := copyFromBlock_continued h
        exact ⟨sameFile_trans (fetchIfFault_sameFile hu) h₁, h₂⟩

theorem readEpilogue_sameFile (s : LargeFileReaderCore) (buffer : List Nat) (total : Nat) :
    SameFile s (readEpilogue s buffer total).2.2 := by
  unfold readEpilogue
  split <;> simp [SameFile]

theorem readLoop_sameFile (fuel : Nat) :
    ∀ (s : LargeFileReaderCore) (buffer : List Nat) (n total : Nat)
      (r : Nat × List Nat × LargeFileReaderCore),
      readLoop fuel s buffer n total = .ok r → SameFile s r.2.2 := by
  induction fuel with
  | zero =>
    intro s buffer n total r h
    unfold readLoop at h
    split at h
    · cases h
    · cases h
      exact readEpilogue_sameFile s buffer total
  | succ fuel ih =>
    intro s buffer n total r h
    rw [readLoop] at h
    split at h
    · cases hb : s.readBody buffer n total with
      | error t => simp [hb] at h
      | ok pass =>
        cases pass with
        | returned result out t =>
          simp only [hb] at h
          cases h
          exact readBody_returned_sameFile hb
        | continued t out next =>
          simp only [hb] at h
          exact sameFile_trans (readBody_continued hb).1 (ih _ _ _ _ _ h)
    · cases h
      exact readEpilogue_sameFile s buffer total

theorem read_sameFile {s : LargeFileReaderCore} {buffer : List Nat} {n : Nat}
    {r : Nat × List Nat × LargeFileReaderCore} (h : s.read buffer n = .ok r) :
    SameFile s r.2.2 := by
  unfold LargeFileReaderCore.read at h
  split at h
  · cases h
    exact sameFile_refl s
  · simp only at h
    split at h
    · split at h
      · cases h
        simp [SameFile]
      · exact sameFile_trans (by simp [SameFile]) (readLoop_sameFile _ _ _ _ _ _ h)
    · exact sameFile_trans (by simp [SameFile]) (readLoop_sameFile _ _ _ _ _ _ h)

theorem lseek_sameFile (s : LargeFileReaderCore) (offsetInBytes whence : Int) :
    SameFile s (s.lseek offsetInBytes whence).2 := by
  unfold lseek
  split
  · exact sameFile_refl s
  · simp only
    split
    · simp [SameFile]
    · split <;> simp [SameFile]

/-! ## The loop of `read` never runs out of passes -/

theorem bind_eq_error {ε α β : Type} {x : Except ε α} {f : α → Except ε β} {e : ε} :
    (x >>= f) = .error e ↔ x = .error e ∨ ∃ a, x = .ok a ∧ f a = .error e := by
  cases x <;> simp [bind, Except.bind]

theorem pure_ne_error {ε α : Type} {a : α} {e : ε} : (pure a : Except ε α) ≠ .error e := by
  simp [pure, Except.pure]

theorem map_eq_error {ε α β : Type} {x : Except ε α} {f : α → β} {e : ε} :
    (f <$> x) = .error e ↔ x = .error e := by
  cases x <;> simp [Functor.map, Except.map]

theorem entryAt_ne_exhausted (ix : List FileCacheIndexEntry) (i : Int) :
    entryAt ix i ≠ .error .exhausted := by
  unfold entryAt
  split
  · split <;> simp
  · simp

theorem updateAt_ne_exhausted (ix : List FileCacheIndexEntry) (i : Int)
    (f : FileCacheIndexEntry → FileCacheIndexEntry) :
    updateAt ix i f ≠ .error .exhausted := by
  unfold updateAt
  split
  · split <;> simp
  · simp

theorem setNextUsed_ne_exhausted (ix : List FileCacheIndexEntry) (i index : Int) :
    setNextUsed ix i index ≠ .error .exhausted := by
  unfold setNextUsed
  split
  · exact updateAt_ne_exhausted _ _ _
  · simp

theorem clearPreviousUsed_ne_exhausted (ix : List FileCacheIndexEntry) (i : Int) :
    clearPreviousUsed ix i ≠ .error .exhausted := by
  unfold clearPreviousUsed
  split
  · exact updateAt_ne_exhausted _ _ _
  · simp

theorem indexArray_ne_exhausted (s : LargeFileReaderCore) :
    s.indexArray ≠ .error .exhausted := by
  unfold indexArray
  split <;> simp

theorem dataArray_ne_exhausted (s : LargeFileReaderCore) :
    s.dataArray ≠ .error .exhausted := by
  unfold dataArray
  split <;> simp

theorem readBytes_ne_exhausted (mem : List Nat) (start len : Nat) :
    readBytes mem start len ≠ .error .exhausted := by
  unfold readBytes
  split <;> simp

theorem writeBytes_ne_exhausted (mem : List Nat) (start : Nat) (data : List Nat) :
    writeBytes mem start data ≠ .error .exhausted := by
  unfold writeBytes
  split <;> simp

theorem copyToCaller_ne_exhausted (buffer : List Nat) (total : Nat) (data : List Nat) :
    copyToCaller buffer total data ≠ .error .exhausted := by
  unfold copyToCaller
  split
  · exact writeBytes_ne_exhausted _ _ _
  · simp

theorem takeCacheBlock_ne_exhausted (s : LargeFileReaderCore) (index : Int) :
    s.takeCacheBlock index ≠ .error .exhausted := by
  unfold takeCacheBlock
  split <;>
    simp [bind_eq_error, map_eq_error, pure_ne_error, indexArray_ne_exhausted, entryAt_ne_exhausted,
      updateAt_ne_exhausted, setNextUsed_ne_exhausted, clearPreviousUsed_ne_exhausted]

theorem readIntoCacheBlock_ne_exhausted (s : LargeFileReaderCore) (index : Int) :
    s.readIntoCacheBlock index ≠ .error .exhausted := by
  unfold readIntoCacheBlock
  simp only [ne_eq, bind_eq_error, indexArray_ne_exhausted, entryAt_ne_exhausted,
    dataArray_ne_exhausted, false_or, not_exists, not_and]
  intro ix _ e _ mem _
  split <;> simp [bind_eq_error, map_eq_error, pure_ne_error, writeBytes_ne_exhausted]

theorem fetchDataBlockForIndex_ne_exhausted (s : LargeFileReaderCore) (index : Int) :
    s.fetchDataBlockForIndex index ≠ .error .exhausted := by
  unfold fetchDataBlockForIndex
  simp [bind_eq_error, takeCacheBlock_ne_exhausted, readIntoCacheBlock_ne_exhausted]

theorem fetchIfFault_ne_exhausted (s : LargeFileReaderCore) (isFault : Bool) (index : Int) :
    s.fetchIfFault isFault index ≠ .error .exhausted := by
  unfold fetchIfFault
  split <;> simp [bind_eq_error, map_eq_error, pure_ne_error, fetchDataBlockForIndex_ne_exhausted]

theorem copyFromBlock_ne_exhausted (s : LargeFileReaderCore) (i slot : Nat) (buffer : List Nat)
    (n total : Nat) : s.copyFromBlock i slot buffer n total ≠ .error .exhausted := by
  unfold copyFromBlock
  split
  · split
    · simp
    · split <;> simp
  · simp [bind_eq_error, map_eq_error, pure_ne_error, dataArray_ne_exhausted, readBytes_ne_exhausted,
      copyToCaller_ne_exhausted]

theorem readBody_ne_exhausted (s : LargeFileReaderCore) (buffer : List Nat) (n total : Nat) :
    s.readBody buffer n total ≠ .error .exhausted := by
  unfold readBody
  split
  · simp
  · split
    · simp
    · simp only [ne_eq, bind_eq_error, indexArray_ne_exhausted, entryAt_ne_exhausted,
        fetchIfFault_ne_exhausted, false_or, not_exists, not_and]
      intro ix _ e _ t _ ix2 _ e2 _
      split
      · exact pure_ne_error
      · exact copyFromBlock_ne_exhausted _ _ _ _ _ _

theorem readLoop_ne_exhausted (fuel : Nat) :
    ∀ (s : LargeFileReaderCore) (buffer : List Nat) (n total : Nat),
      n - total ≤ fuel → readLoop fuel s buffer n total ≠ .error .exhausted := by
  induction fuel with
  | zero =>
    intro s buffer n total hfuel
    unfold readLoop
    split
    · omega
    · simp
  | succ fuel ih =>
    intro s buffer n total hfuel
    rw [readLoop]
    split
    · cases hb : s.readBody buffer n total with
      | error t =>
        simp only [ne_eq, Except.error.injEq]
        intro ht
        exact readBody_ne_exhausted s buffer n total (ht ▸ hb)
      | ok pass =>
        cases pass with
        | returned result out t => simp
        | continued t out next =>
          simp only
          exact ih _ _ _ _ (by have := (readBody_continued hb).2; omega)
    · simp

/-- The loop of `read` is given enough passes: `read` never ends with
`Trap.exhausted`, so every `Trap` it reports is one of the source program. -/
theorem read_ne_exhausted (s : LargeFileReaderCore) (buffer : List Nat) (n : Nat) :
    s.read buffer n ≠ .error .exhausted := by
  unfold LargeFileReaderCore.read
  split
  · simp
  · simp only
    split
    · split
      · simp
      · exact readLoop_ne_exhausted _ _ _ _ _ (by omega)
    · exact readLoop_ne_exhausted _ _ _ _ _ (by omega)

/-! ## Closed readers -/

theorem close_closedClean (s : LargeFileReaderCore) (h : ClosedClean s) : ClosedClean s.close := by
  unfold close
  split
  · exact h
  · intro _
    simp

theorem openFile_closedClean (s : LargeFileReaderCore) (host : Host) (fullFilePath : String)
    (cacheMaxSize cacheBlockSize : Nat) (h : ClosedClean s) :
    ClosedClean (s.openFile host fullFilePath cacheMaxSize cacheBlockSize).2 := by
  unfold openFile
  split
  · exact h
  · rename_i hclosed
    have hs := h (by simpa using hclosed)
    split
    · intro _
      simpa using hs
    · split
      · intro _
        simpa using hs
      · simp only
        split
        · intro hopen
          simp at hopen
        · intro _
          simpa using ⟨hs.1, hs.2.1, hs.2.2.1⟩

theorem lseek_closedClean (s : LargeFileReaderCore) (offsetInBytes whence : Int)
    (h : ClosedClean s) : ClosedClean (s.lseek offsetInBytes whence).2 := by
  by_cases hopen : s.isOpen = true
  · intro hclosed
    rw [(lseek_sameFile s offsetInBytes whence).1, hopen] at hclosed
    cases hclosed
  · simp only [Bool.not_eq_true] at hopen
    simpa [lseek, hopen] using h

theorem read_closedClean {s : LargeFileReaderCore} {buffer : List Nat} {n : Nat}
    {r : Nat × List Nat × LargeFileReaderCore} (hr : s.read buffer n = .ok r)
    (h : ClosedClean s) : ClosedClean r.2.2 := by
  by_cases hopen : s.isOpen = true
  · intro hclosed
    rw [(read_sameFile hr).1, hopen] at hclosed
    cases hclosed
  · simp only [Bool.not_eq_true] at hopen
    simp only [LargeFileReaderCore.read, hopen, Bool.not_false, ↓reduceIte, Except.ok.injEq] at hr
    subst hr
    exact h

/-- Every closed reader the interface can produce has its status flags clear and
no cache, index or descriptor bound. -/
theorem reachable_closedClean {host : Host} {s : LargeFileReaderCore} (h : Reachable host s) :
    ClosedClean s := by
  induction h with
  | construct => intro _; simp [construct]
  | openFile fullFilePath cacheMaxSize cacheBlockSize _ ih =>
    exact openFile_closedClean _ _ _ _ _ ih
  | close _ ih => exact close_closedClean _ ih
  | lseek offsetInBytes whence _ ih => exact lseek_closedClean _ _ _ ih
  | read buffer numberOfBytes _ hr ih => exact read_closedClean hr ih

/-- Closing twice is closing once, for every state of the object. -/
theorem close_close (s : LargeFileReaderCore) : s.close.close = s.close := by
  unfold close
  split
  · rename_i h
    simp [h]
  · simp

/-! ## Conversions -/

theorem toU64_of_nonneg {x : Int} (h₀ : 0 ≤ x) (h₁ : x < (U64 : Int)) : toU64 x = x.toNat := by
  unfold toU64
  rw [Int.emod_eq_of_lt h₀ h₁]

/-- A value in the range of `off_t` is its own `off_t`. -/
theorem toOffT_of_range {x : Int} (h₀ : -9223372036854775808 ≤ x)
    (h₁ : x < 9223372036854775808) : toOffT x = x := by
  have hU : (U64 : Int) = 18446744073709551616 := rfl
  have hUn : U64 = 18446744073709551616 := rfl
  have hx : x % (U64 : Int) = if 0 ≤ x then x else x + (U64 : Int) := by
    split
    · exact Int.emod_eq_of_lt (by omega) (by omega)
    · rw [← Int.add_emod_self]
      exact Int.emod_eq_of_lt (by omega) (by omega)
  unfold toOffT toI64 toU64
  rw [hx]
  by_cases hneg : 0 ≤ x
  · rw [if_pos hneg]
    have hmod : x.toNat % U64 = x.toNat := Nat.mod_eq_of_lt (by omega)
    rw [hmod, if_pos (by omega)]
    exact Int.toNat_of_nonneg hneg
  · rw [if_neg hneg]
    have hmod : (x + (U64 : Int)).toNat % U64 = (x + (U64 : Int)).toNat :=
      Nat.mod_eq_of_lt (by omega)
    rw [hmod, if_neg (by omega), Int.toNat_of_nonneg (by omega)]
    omega

/-- Every `off_t` is in `[-2^63, 2^63)`. -/
theorem toOffT_range (x : Int) :
    -9223372036854775808 ≤ toOffT x ∧ toOffT x < 9223372036854775808 := by
  have hUn : U64 = 18446744073709551616 := rfl
  unfold toOffT toI64
  have := Nat.mod_lt (toU64 x) (show 0 < U64 by rw [hUn]; decide)
  split <;> omega

/-! ## The chain of resident blocks -/

theorem entryAt_natCast (ix : List FileCacheIndexEntry) (b : Nat) :
    entryAt ix (b : Int) =
      match ix[b]? with
      | some e => .ok e
      | none => .error .outOfBounds := by
  simp [entryAt]

theorem updateAt_natCast (ix : List FileCacheIndexEntry) (b : Nat)
    (f : FileCacheIndexEntry → FileCacheIndexEntry) :
    updateAt ix (b : Int) f =
      match ix[b]? with
      | some e => .ok (ix.set b (f e))
      | none => .error .outOfBounds := by
  simp [updateAt]

theorem firstOrAbsent_nil : firstOrAbsent [] = -1 := rfl

theorem firstOrAbsent_cons (b : Nat) (rest : List Nat) : firstOrAbsent (b :: rest) = (b : Int) :=
  rfl

theorem lastOrAbsent_nil : lastOrAbsent [] = -1 := rfl

theorem lastOrAbsent_singleton (b : Nat) : lastOrAbsent [b] = (b : Int) := rfl

theorem lastOrAbsent_cons_cons (a b : Nat) (rest : List Nat) :
    lastOrAbsent (a :: b :: rest) = lastOrAbsent (b :: rest) := by
  simp [lastOrAbsent]

theorem lastOrAbsent_concat (blocks : List Nat) (b : Nat) :
    lastOrAbsent (blocks ++ [b]) = (b : Int) := by
  simp [lastOrAbsent]

theorem firstOrAbsent_append_singleton (blocks : List Nat) (b : Nat) :
    firstOrAbsent (blocks ++ [b]) = if blocks = [] then (b : Int) else firstOrAbsent blocks := by
  cases blocks <;> simp [firstOrAbsent]

theorem firstOrAbsent_eq_neg_one {blocks : List Nat} :
    firstOrAbsent blocks = -1 ↔ blocks = [] := by
  cases blocks with
  | nil => simp [firstOrAbsent]
  | cons b rest =>
    rw [firstOrAbsent_cons]
    constructor
    · intro h
      omega
    · intro h
      cases h

theorem lastOrAbsent_eq_neg_one {blocks : List Nat} :
    lastOrAbsent blocks = -1 ↔ blocks = [] := by
  cases h : blocks.getLast? with
  | none =>
    have : blocks = [] := List.getLast?_eq_none_iff.mp h
    simp [lastOrAbsent, h, this]
  | some b =>
    have hne : blocks ≠ [] := by
      intro hnil
      simp [hnil] at h
    simp only [lastOrAbsent, h]
    constructor
    · intro hb
      omega
    · intro hnil
      exact absurd hnil hne

theorem lastOrAbsent_mem {blocks : List Nat} {m : Nat} (h : lastOrAbsent blocks = (m : Int))
    : m ∈ blocks := by
  cases hl : blocks.getLast? with
  | none =>
    simp only [lastOrAbsent, hl] at h
    omega
  | some b =>
    simp only [lastOrAbsent, hl] at h
    have hb : b = m := by omega
    subst hb
    exact List.mem_of_getLast?_eq_some hl

/-- Every block of a chain has an entry that is not faulted. -/
theorem linked_mem {ix : List FileCacheIndexEntry} {blocks : List Nat} {before : Int}
    (h : Linked ix before blocks) {b : Nat} (hb : b ∈ blocks) :
    ∃ e, ix[b]? = some e ∧ e.isFault = false := by
  induction blocks generalizing before with
  | nil => cases hb
  | cons a rest ih =>
    obtain ⟨⟨e, he, hf, -, -⟩, hrest⟩ := h
    rcases List.mem_cons.mp hb with rfl | hmem
    · exact ⟨e, he, hf⟩
    · exact ih hrest hmem

/-- A chain only depends on the entries of its blocks. -/
theorem linked_congr {ix ix' : List FileCacheIndexEntry} {blocks : List Nat} {before : Int}
    (h : Linked ix before blocks) (hsame : ∀ b ∈ blocks, ix'[b]? = ix[b]?) :
    Linked ix' before blocks := by
  induction blocks generalizing before with
  | nil => trivial
  | cons a rest ih =>
    obtain ⟨⟨e, he, hf, hp, hn⟩, hrest⟩ := h
    refine ⟨⟨e, ?_, hf, hp, hn⟩, ih hrest fun b hb => hsame b (List.mem_cons_of_mem _ hb)⟩
    rw [hsame a (List.mem_cons_self _ _)]
    exact he

/-- Appending a block to a chain: the new entry points back to the old last
block, and the old last block is made to point to the new one. -/
theorem linked_append {ix ix' : List FileCacheIndexEntry} {b : Nat} {slot : Nat}
    (blocks : List Nat) (before : Int)
    (hnodup : blocks.Nodup) (h : Linked ix before blocks)
    (hnew : ix'[b]? = some
      { isFault := false, offsetInFileBuffer := slot,
        previousUsed := (if blocks = [] then before else lastOrAbsent blocks), nextUsed := -1 })
    (hlast : ∀ m, blocks.getLast? = some m →
      ∃ e, ix[m]? = some e ∧ ix'[m]? = some { e with nextUsed := (b : Int) })
    (hother : ∀ a ∈ blocks, blocks.getLast? ≠ some a → ix'[a]? = ix[a]?) :
    Linked ix' before (blocks ++ [b]) := by
  induction blocks generalizing before with
  | nil =>
    exact ⟨⟨_, hnew, rfl, rfl, rfl⟩, trivial⟩
  | cons a rest ih =>
    obtain ⟨⟨e, he, hf, hp, hn⟩, hrest⟩ := h
    obtain ⟨ha, hnodup'⟩ := List.nodup_cons.mp hnodup
    cases rest with
    | nil =>
      obtain ⟨e', he', hset⟩ := hlast a rfl
      have hee : e' = e := by
        rw [he] at he'
        exact (Option.some.inj he').symm
      subst hee
      refine ⟨⟨_, hset, hf, hp, ?_⟩, ⟨_, hnew, rfl, ?_, rfl⟩, trivial⟩
      · simp [firstOrAbsent]
      · simp [lastOrAbsent]
    | cons c rest' =>
      have hne : (a :: c :: rest').getLast? ≠ some a := by
        rw [List.getLast?_cons_cons]
        intro hl
        exact ha (List.mem_of_getLast?_eq_some hl)
      refine ⟨⟨e, ?_, hf, hp, ?_⟩, ?_⟩
      · rw [hother a (List.mem_cons_self _ _) hne]
        exact he
      · simpa [firstOrAbsent] using hn
      · apply ih (a : Int) hnodup' hrest
        · simpa [lastOrAbsent_cons_cons] using hnew
        · intro m hm
          exact hlast m (by rw [List.getLast?_cons_cons]; exact hm)
        · intro x hx hxl
          exact hother x (List.mem_cons_of_mem _ hx) (by rw [List.getLast?_cons_cons]; exact hxl)

theorem chain_not_mem {ix : List FileCacheIndexEntry} {blocks : List Nat} (h : Chain ix blocks)
    {b : Nat} {e : FileCacheIndexEntry} (hb : ix[b]? = some e) (hf : e.isFault = true) :
    b ∉ blocks := by
  intro hmem
  obtain ⟨e', he', hf'⟩ := linked_mem h.linked hmem
  rw [hb] at he'
  cases he'
  rw [hf] at hf'
  cases hf'

/-- The fetch of a faulted block `b` into the slot at `slot`, seen on the index:
the entry of `b` is written and the last block of the chain is made to point to
it; the chain then ends with `b`, and every other entry keeps its slot and its
fault flag. -/
theorem chain_append {ix : List FileCacheIndexEntry} {blocks : List Nat} (h : Chain ix blocks)
    {b : Nat} {e₀ : FileCacheIndexEntry} (hb : ix[b]? = some e₀) (hf : e₀.isFault = true)
    (slot : Nat) :
    ∃ ix', setNextUsed
        (ix.set b { isFault := false, offsetInFileBuffer := slot,
                    previousUsed := lastOrAbsent blocks, nextUsed := -1 })
        (lastOrAbsent blocks) (b : Int) = .ok ix' ∧
      ix'.length = ix.length ∧ Chain ix' (blocks ++ [b]) ∧
      (∃ e, ix'[b]? = some e ∧ e.isFault = false ∧ e.offsetInFileBuffer = slot) ∧
      (∀ (j : Nat) (e : FileCacheIndexEntry), j ≠ b → ix'[j]? = some e →
        ∃ e', ix[j]? = some e' ∧ e'.offsetInFileBuffer = e.offsetInFileBuffer ∧
          e'.isFault = e.isFault) := by
  have hbmem : b ∉ blocks := chain_not_mem h hb hf
  have hblt : b < ix.length := by
    rcases Nat.lt_or_ge b ix.length with hlt | hge
    · exact hlt
    · rw [List.getElem?_eq_none hge] at hb
      cases hb
  cases hl : blocks.getLast? with
  | none =>
    have hnil : blocks = [] := List.getLast?_eq_none_iff.mp hl
    subst hnil
    refine ⟨ix.set b ⟨false, slot, -1, -1⟩, by simp [setNextUsed, lastOrAbsent], by simp,
      ?_, ?_, ?_⟩
    · refine ⟨by simp, ?_, ?_, ?_⟩
      · refine ⟨⟨⟨false, slot, -1, -1⟩, ?_, rfl, rfl, rfl⟩, trivial⟩
        simp [List.getElem?_set, hblt]
      · intro j e hj hfault
        by_cases hjb : j = b
        · simp [hjb]
        · rw [List.getElem?_set_ne (Ne.symm hjb)] at hj
          exact absurd (h.resident j e hj hfault) (List.not_mem_nil j)
      · intro j e hj hfault
        by_cases hjb : j = b
        · subst hjb
          simp [List.getElem?_set, hblt] at hj
          subst hj
          cases hfault
        · rw [List.getElem?_set_ne (Ne.symm hjb)] at hj
          exact h.faulted j e hj hfault
    · exact ⟨⟨false, slot, -1, -1⟩, by simp [List.getElem?_set, hblt], rfl, rfl⟩
    · intro j e hjb hj
      rw [List.getElem?_set_ne (Ne.symm hjb)] at hj
      exact ⟨e, hj, rfl, rfl⟩
  | some m =>
    have hm : m ∈ blocks := List.mem_of_getLast?_eq_some hl
    have hmb : m ≠ b := fun hmb => hbmem (hmb ▸ hm)
    obtain ⟨em, hem, hemf⟩ := linked_mem h.linked hm
    have hlast : lastOrAbsent blocks = (m : Int) := by simp [lastOrAbsent, hl]
    have hne : (m : Int) ≠ -1 := by omega
    have hem1 : (ix.set b ⟨false, slot, (m : Int), -1⟩)[m]? = some em := by
      rw [List.getElem?_set_ne (Ne.symm hmb)]
      exact hem
    refine ⟨(ix.set b ⟨false, slot, (m : Int), -1⟩).set m { em with nextUsed := (b : Int) },
      by simp [setNextUsed, hlast, hne, updateAt_natCast, hem1], by simp, ?_, ?_, ?_⟩
    · refine ⟨?_, ?_, ?_, ?_⟩
      · exact List.nodup_append.mpr ⟨h.nodup, by simp, by simpa using hbmem⟩
      · apply @linked_append _ _ b slot blocks (-1) h.nodup h.linked
        · have hnn : blocks ≠ [] := by
            intro hnil
            rw [hnil] at hm
            cases hm
          simp [List.getElem?_set, hmb, hblt, hnn, hlast]
        · intro m' hm'
          rw [hl] at hm'
          cases hm'
          refine ⟨em, hem, ?_⟩
          have hmlt : m < ix.length := by
            rcases Nat.lt_or_ge m ix.length with hlt | hge
            · exact hlt
            · rw [List.getElem?_eq_none hge] at hem
              cases hem
          simp [List.getElem?_set, hmlt]
        · intro a ha hal
          have ham : a ≠ m := by
            intro ham
            exact hal (ham ▸ hl)
          have hab : a ≠ b := fun hab => hbmem (hab ▸ ha)
          rw [List.getElem?_set_ne (Ne.symm ham), List.getElem?_set_ne (Ne.symm hab)]
      · intro j e hj hfault
        by_cases hjb : j = b
        · simp [hjb]
        · by_cases hjm : j = m
          · exact List.mem_append_left _ (hjm ▸ hm)
          · rw [List.getElem?_set_ne (Ne.symm hjm), List.getElem?_set_ne (Ne.symm hjb)] at hj
            exact List.mem_append_left _ (h.resident j e hj hfault)
      · intro j e hj hfault
        have hmlt : m < ix.length := by
          rcases Nat.lt_or_ge m ix.length with hlt | hge
          · exact hlt
          · rw [List.getElem?_eq_none hge] at hem
            cases hem
        by_cases hjm : j = m
        · subst hjm
          simp [List.getElem?_set, hmlt] at hj
          subst hj
          simp only at hfault
          rw [hemf] at hfault
          cases hfault
        · rw [List.getElem?_set_ne (Ne.symm hjm)] at hj
          by_cases hjb : j = b
          · subst hjb
            simp [List.getElem?_set, hblt] at hj
            subst hj
            cases hfault
          · rw [List.getElem?_set_ne (Ne.symm hjb)] at hj
            exact h.faulted j e hj hfault
    · refine ⟨⟨false, slot, (m : Int), -1⟩, ?_, rfl, rfl⟩
      rw [List.getElem?_set_ne hmb]
      simp [List.getElem?_set, hblt]
    · intro j e hjb hj
      have hmlt : m < ix.length := by
        rcases Nat.lt_or_ge m ix.length with hlt | hge
        · exact hlt
        · rw [List.getElem?_eq_none hge] at hem
          cases hem
      by_cases hjm : j = m
      · subst hjm
        simp [List.getElem?_set, hmlt] at hj
        subst hj
        exact ⟨em, hem, rfl, rfl⟩
      · rw [List.getElem?_set_ne (Ne.symm hjm), List.getElem?_set_ne (Ne.symm hjb)] at hj
        exact ⟨e, hj, rfl, rfl⟩

theorem getElem?_lt {ix : List FileCacheIndexEntry} {b : Nat} {e : FileCacheIndexEntry}
    (h : ix[b]? = some e) : b < ix.length := by
  rcases Nat.lt_or_ge b ix.length with hlt | hge
  · exact hlt
  · rw [List.getElem?_eq_none hge] at h
    cases h

/-- Distinct blocks below `n` are at most `n`. -/
theorem nodup_length_le {blocks : List Nat} {n : Nat} (hnodup : blocks.Nodup)
    (hlt : ∀ x ∈ blocks, x < n) : blocks.length ≤ n := by
  have hsub : blocks ⊆ List.range n := fun x hx => List.mem_range.mpr (hlt x hx)
  simpa using (List.subperm_of_subset hnodup hsub).length_le

/-- The eviction of the first block `a` of a chain of at least two blocks, seen
on the index: the second block loses its predecessor and the entry of `a` is
reset; the rest of the chain stays a chain, and every other entry keeps its
slot and its fault flag. -/
theorem chain_dropHead {ix : List FileCacheIndexEntry} {a c : Nat} {rest : List Nat}
    (h : Chain ix (a :: c :: rest)) {ea : FileCacheIndexEntry} (hea : ix[a]? = some ea) :
    ea.nextUsed = (c : Int) ∧
    ∃ ix1 ix2, clearPreviousUsed ix ea.nextUsed = .ok ix1 ∧
      updateAt ix1 (a : Int) (fun _ => ⟨true, minusOne, -1, -1⟩) = .ok ix2 ∧
      ix2.length = ix.length ∧ Chain ix2 (c :: rest) ∧
      ix2[a]? = some ⟨true, minusOne, -1, -1⟩ ∧
      (∀ (j : Nat) (e : FileCacheIndexEntry), j ≠ a → ix2[j]? = some e →
        ∃ e', ix[j]? = some e' ∧ e'.offsetInFileBuffer = e.offsetInFileBuffer ∧
          e'.isFault = e.isFault) := by
  obtain ⟨⟨ea', hea', -, -, hnext⟩, ⟨ec, hec, hecf, -, hecn⟩, hrest⟩ := h.linked
  rw [hea] at hea'
  cases hea'
  have hnext' : ea.nextUsed = (c : Int) := by simpa [firstOrAbsent] using hnext
  obtain ⟨hamem, hnodup⟩ := List.nodup_cons.mp h.nodup
  obtain ⟨hcmem, hnodup'⟩ := List.nodup_cons.mp hnodup
  have hac : a ≠ c := fun hac => hamem (hac ▸ List.mem_cons_self _ _)
  have halt : a < ix.length := getElem?_lt hea
  have hclt : c < ix.length := getElem?_lt hec
  have hne : (c : Int) ≠ -1 := by omega
  have hea1 : (ix.set c { ec with previousUsed := -1 })[a]? = some ea := by
    rw [List.getElem?_set_ne (Ne.symm hac)]
    exact hea
  refine ⟨hnext', ix.set c { ec with previousUsed := -1 },
    (ix.set c { ec with previousUsed := -1 }).set a ⟨true, minusOne, -1, -1⟩,
    by simp [clearPreviousUsed, hnext', hne, updateAt_natCast, hec],
    by simp [updateAt_natCast, hea1], by simp, ?_, by simp [List.getElem?_set, halt], ?_⟩
  · refine ⟨hnodup, ?_, ?_, ?_⟩
    · refine ⟨⟨{ ec with previousUsed := -1 }, ?_, hecf, rfl, hecn⟩, ?_⟩
      · rw [List.getElem?_set_ne hac]
        simp [List.getElem?_set, hclt]
      · apply linked_congr hrest
        intro x hx
        have hxa : x ≠ a := fun hxa => hamem (hxa ▸ List.mem_cons_of_mem _ hx)
        have hxc : x ≠ c := fun hxc => hcmem (hxc ▸ hx)
        rw [List.getElem?_set_ne (Ne.symm hxa), List.getElem?_set_ne (Ne.symm hxc)]
    · intro j e hj hfault
      by_cases hja : j = a
      · subst hja
        simp [List.getElem?_set, halt] at hj
        subst hj
        cases hfault
      · rw [List.getElem?_set_ne (Ne.symm hja)] at hj
        by_cases hjc : j = c
        · exact hjc ▸ List.mem_cons_self _ _
        · rw [List.getElem?_set_ne (Ne.symm hjc)] at hj
          rcases List.mem_cons.mp (h.resident j e hj hfault) with hja' | hmem
          · exact absurd hja' hja
          · exact hmem
    · intro j e hj hfault
      by_cases hja : j = a
      · subst hja
        simp [List.getElem?_set, halt] at hj
        subst hj
        rfl
      · rw [List.getElem?_set_ne (Ne.symm hja)] at hj
        by_cases hjc : j = c
        · subst hjc
          simp [List.getElem?_set, hclt] at hj
          subst hj
          simp only at hfault
          rw [hecf] at hfault
          cases hfault
        · rw [List.getElem?_set_ne (Ne.symm hjc)] at hj
          exact h.faulted j e hj hfault
  · intro j e hja hj
    rw [List.getElem?_set_ne (Ne.symm hja)] at hj
    by_cases hjc : j = c
    · subst hjc
      simp [List.getElem?_set, hclt] at hj
      subst hj
      exact ⟨ec, hec, rfl, rfl⟩
    · rw [List.getElem?_set_ne (Ne.symm hjc)] at hj
      exact ⟨e, hj, rfl, rfl⟩

/-- Binding a block `b` to the slot at `slot`: when the slot is aligned, inside
the cache and bound to no other block of the new list, and every other block of
the new list was resident before and keeps its slot, the new list is slotted. -/
theorem slotted_bind {ix ix' : List FileCacheIndexEntry} {blocks blocks' : List Nat}
    {blockSize slots b slot : Nat} (h : Slotted ix blocks blockSize slots)
    (hnew : ∀ e, ix'[b]? = some e → e.offsetInFileBuffer = slot)
    (hold : ∀ (j : Nat) (e : FileCacheIndexEntry), j ∈ blocks' → j ≠ b → ix'[j]? = some e →
      j ∈ blocks ∧ ∃ e', ix[j]? = some e' ∧ e'.offsetInFileBuffer = e.offsetInFileBuffer)
    (haligned : slot % blockSize = 0) (hinside : slot + blockSize ≤ slots * blockSize)
    (hfresh : ∀ (j : Nat) (e : FileCacheIndexEntry), j ∈ blocks → j ∈ blocks' → j ≠ b →
      ix[j]? = some e → e.offsetInFileBuffer ≠ slot)
    (hlow : blocks'.length < slots →
      slot < blocks'.length * blockSize ∧
      ∀ (j : Nat) (e : FileCacheIndexEntry), j ∈ blocks → j ∈ blocks' → j ≠ b →
        ix[j]? = some e → e.offsetInFileBuffer < blocks'.length * blockSize) :
    Slotted ix' blocks' blockSize slots := by
  refine ⟨?_, ?_, ?_, ?_⟩
  · intro j e hj he
    by_cases hjb : j = b
    · subst hjb
      rw [hnew e he]
      exact haligned
    · obtain ⟨hmem, e', he', hoff⟩ := hold j e hj hjb he
      rw [← hoff]
      exact h.aligned j e' hmem he'
  · intro j e hj he
    by_cases hjb : j = b
    · subst hjb
      rw [hnew e he]
      exact hinside
    · obtain ⟨hmem, e', he', hoff⟩ := hold j e hj hjb he
      rw [← hoff]
      exact h.inside j e' hmem he'
  · intro hlt j e hj he
    by_cases hjb : j = b
    · subst hjb
      rw [hnew e he]
      exact (hlow hlt).1
    · obtain ⟨hmem, e', he', hoff⟩ := hold j e hj hjb he
      rw [← hoff]
      exact (hlow hlt).2 j e' hmem hj hjb he'
  · intro j k e f hj hk he hf heq
    by_cases hjb : j = b
    · by_cases hkb : k = b
      · rw [hjb, hkb]
      · exfalso
        obtain ⟨hmem, f', hf', hoff⟩ := hold k f hk hkb hf
        apply hfresh k f' hmem hk hkb hf'
        rw [hoff, ← heq]
        subst hjb
        exact hnew e he
    · obtain ⟨hmem, e', he', hoff⟩ := hold j e hj hjb he
      by_cases hkb : k = b
      · exfalso
        apply hfresh j e' hmem hj hjb he'
        rw [hoff, heq]
        subst hkb
        exact hnew f hf
      · obtain ⟨hmem', f', hf', hoff'⟩ := hold k f hk hkb hf
        exact h.own j k e' f' hmem hmem' he' hf' (by rw [hoff, hoff', heq])

theorem ok_bind {ε α β : Type} (a : α) (f : α → Except ε β) : (Except.ok a >>= f) = f a := rfl

theorem toU64_natCast {n : Nat} (h : n < U64) : toU64 (n : Int) = n := by
  unfold toU64
  rw [Int.emod_eq_of_lt (Int.natCast_nonneg n) (by exact_mod_cast h)]
  simp

theorem toI64_of_lt {n : Nat} (h : n < 9223372036854775808) : toI64 n = (n : Int) := by
  have h64 : n < U64 := by unfold U64; omega
  unfold toI64
  rw [Nat.mod_eq_of_lt h64, if_pos h]

/-! ## The fetch keeps the cache state well formed -/

/-- What `takeCacheBlock` may change: the resident count, the index and the two
ends of the chain. -/
theorem takeCacheBlock_resident {s : LargeFileReaderCore} {ix : List FileCacheIndexEntry}
    {mem : List Nat} {blocks : List Nat} (hc : Configured s) (hr : Resident s ix mem blocks)
    {b : Nat} {e₀ : FileCacheIndexEntry} (hb : ix[b]? = some e₀) (hf : e₀.isFault = true) :
    ∃ t ix' blocks', s.takeCacheBlock (b : Int) = .ok t ∧ Resident t ix' mem blocks' ∧
      b ∈ blocks' ∧
      t = { s with
            currentNumberOfCachedFileDataBlocks := t.currentNumberOfCachedFileDataBlocks
            fileCacheIndex := t.fileCacheIndex
            leastRecentlyUsedIndex := t.leastRecentlyUsedIndex
            mostRecentlyUsedIndex := t.mostRecentlyUsedIndex } := by
  have hbmem : b ∉ blocks := chain_not_mem hr.chain hb hf
  have hnext : e₀.nextUsed = -1 := hr.chain.faulted b e₀ hb hf
  have hix : s.indexArray = .ok ix := by simp [indexArray, hr.index_eq]
  have hmax : s.maxNumberOfCachedFileDataBlocks =
      ((s.maxNumberOfCachedFileDataBlocks.toNat : Nat) : Int) :=
    (Int.toNat_of_nonneg hc.max_nonneg).symm
  have hlen_le : blocks.length ≤ s.maxNumberOfCachedFileDataBlocks.toNat := by
    have := hr.count_le
    omega
  by_cases hlt : s.currentNumberOfCachedFileDataBlocks < s.maxNumberOfCachedFileDataBlocks
  · -- a spare slot
    have hlt' : blocks.length < s.maxNumberOfCachedFileDataBlocks.toNat := by
      have := hr.count
      omega
    have hprod : blocks.length * s.cacheBlockSize + s.cacheBlockSize ≤
        s.maxNumberOfCachedFileDataBlocks.toNat * s.cacheBlockSize := by
      have : (blocks.length + 1) * s.cacheBlockSize ≤
          s.maxNumberOfCachedFileDataBlocks.toNat * s.cacheBlockSize :=
        Nat.mul_le_mul_right _ hlt'
      rw [Nat.add_mul, Nat.one_mul] at this
      exact this
    have hslot : (toU64 s.currentNumberOfCachedFileDataBlocks * s.cacheBlockSize) % U64 =
        blocks.length * s.cacheBlockSize := by
      have h1 := hc.max_fits
      have h2 := hc.actual_lt
      have h3 := hc.blockSize_pos
      have hl64 : blocks.length < U64 := by
        have : blocks.length * 1 ≤ blocks.length * s.cacheBlockSize :=
          Nat.mul_le_mul_left _ h3
        omega
      rw [hr.count, toU64_natCast hl64]
      exact Nat.mod_eq_of_lt (by omega)
    obtain ⟨ix', hset, hlen, hchain, ⟨eb, heb, hebf, hebs⟩, hothers⟩ :=
      chain_append hr.chain hb hf (blocks.length * s.cacheBlockSize)
    refine ⟨{ s with
        currentNumberOfCachedFileDataBlocks := s.currentNumberOfCachedFileDataBlocks + 1
        fileCacheIndex := some ix'
        leastRecentlyUsedIndex :=
          if s.leastRecentlyUsedIndex = -1 then (b : Int) else s.leastRecentlyUsedIndex
        mostRecentlyUsedIndex := (b : Int) }, ix', blocks ++ [b], ?_, ?_, by simp, rfl⟩
    · unfold takeCacheBlock
      rw [if_pos hlt, hix, ok_bind, updateAt_natCast, hb]
      simp only [ok_bind, hslot, hnext, hr.mru, hset]
      rfl
    · refine ⟨rfl, hr.data_eq, ?_, hr.data_length, hchain, ?_, ?_, ?_, ?_, ?_⟩
      · rw [hlen]
        exact hr.index_length
      · simp [hr.count]
      · simp only [List.length_append, List.length_singleton]
        omega
      · show (if s.leastRecentlyUsedIndex = -1 then (b : Int) else s.leastRecentlyUsedIndex) = _
        rw [firstOrAbsent_append_singleton, hr.lru]
        by_cases hnil : blocks = []
        · simp [hnil, firstOrAbsent_nil]
        · simp [hnil, firstOrAbsent_eq_neg_one]
      · show (b : Int) = _
        rw [lastOrAbsent_concat]
      · show Slotted ix' (blocks ++ [b]) s.cacheBlockSize s.maxNumberOfCachedFileDataBlocks.toNat
        apply @slotted_bind _ _ _ _ _ _ b (blocks.length * s.cacheBlockSize) hr.slotted
        · intro e he
          rw [heb] at he
          cases he
          exact hebs
        · intro j e hj hjb he
          have hjmem : j ∈ blocks := by
            rcases List.mem_append.mp hj with h | h
            · exact h
            · exact absurd (List.mem_singleton.mp h) hjb
          obtain ⟨e', he', hoff, -⟩ := hothers j e hjb he
          exact ⟨hjmem, e', he', hoff⟩
        · exact Nat.mul_mod_left _ _
        · exact hprod
        · intro j e hj _ _ he
          exact Nat.ne_of_lt (hr.slotted.low hlt' j e hj he)
        · intro _
          simp only [List.length_append, List.length_singleton]
          have h3 := hc.blockSize_pos
          refine ⟨by rw [Nat.add_mul]; omega, ?_⟩
          intro j e hj _ _ he
          have := hr.slotted.low hlt' j e hj he
          rw [Nat.add_mul]
          omega
  · -- the cache is full: the first block of the chain is evicted
    have hfull : blocks.length = s.maxNumberOfCachedFileDataBlocks.toNat := by
      have := hr.count
      omega
    have hblt : b < ix.length := getElem?_lt hb
    have hcount : blocks.length + 1 ≤ ix.length := by
      have : (b :: blocks).length ≤ ix.length := by
        apply nodup_length_le (List.nodup_cons.mpr ⟨hbmem, hr.chain.nodup⟩)
        intro x hx
        rcases List.mem_cons.mp hx with rfl | hmem
        · exact hblt
        · obtain ⟨e, he, -⟩ := linked_mem hr.chain.linked hmem
          exact getElem?_lt he
      simpa using this
    have htwo : 2 ≤ blocks.length := by
      have h1 := hr.index_length
      rcases hc.capacity with h2 | h2
      · omega
      · omega
    obtain ⟨a, c, rest, hblocks⟩ : ∃ a c rest, blocks = a :: c :: rest := by
      match blocks, htwo with
      | a :: c :: rest, _ => exact ⟨a, c, rest, rfl⟩
    subst hblocks
    obtain ⟨ea, hea, -⟩ := linked_mem hr.chain.linked (List.mem_cons_self a _)
    obtain ⟨hnextc, ix1, ix2, hclear, hreset, hlen2, hchain2, hfaulted2, hothers2⟩ :=
      chain_dropHead hr.chain hea
    have hab : a ≠ b := fun hab => hbmem (hab ▸ List.mem_cons_self _ _)
    have hb2 : ix2[b]? = some e₀ ∨ ∃ e₂, ix2[b]? = some e₂ ∧ e₂.isFault = true := by
      have hblt2 : b < ix2.length := by rw [hlen2]; exact hblt
      obtain ⟨e₂, he₂⟩ : ∃ e₂, ix2[b]? = some e₂ := ⟨ix2[b], List.getElem?_eq_getElem hblt2⟩
      obtain ⟨e', he', -, hfe⟩ := hothers2 b e₂ (Ne.symm hab) he₂
      rw [hb] at he'
      cases he'
      exact Or.inr ⟨e₂, he₂, by rw [← hfe]; exact hf⟩
    obtain ⟨e₂, he₂, hf₂⟩ : ∃ e₂, ix2[b]? = some e₂ ∧ e₂.isFault = true := by
      rcases hb2 with h | h
      · exact ⟨e₀, h, hf⟩
      · exact h
    obtain ⟨ix', hset, hlen, hchain, ⟨eb, heb, hebf, hebs⟩, hothers⟩ :=
      chain_append hchain2 he₂ hf₂ ea.offsetInFileBuffer
    have hlast : lastOrAbsent (c :: rest) = s.mostRecentlyUsedIndex := by
      rw [hr.mru, lastOrAbsent_cons_cons]
    have hlru : s.leastRecentlyUsedIndex = (a : Int) := by
      rw [hr.lru, firstOrAbsent_cons]
    refine ⟨{ s with
        fileCacheIndex := some ix'
        leastRecentlyUsedIndex := ea.nextUsed
        mostRecentlyUsedIndex := (b : Int) }, ix', (c :: rest) ++ [b], ?_, ?_, by simp, rfl⟩
    · unfold takeCacheBlock
      have hupd : ∀ f : FileCacheIndexEntry → FileCacheIndexEntry,
          updateAt ix2 (b : Int) f = .ok (ix2.set b (f e₂)) := by
        intro f
        rw [updateAt_natCast, he₂]
      rw [if_neg hlt, hix, ok_bind, hlru, entryAt_natCast, hea]
      simp only [ok_bind, hclear, hreset, hupd, ← hlast, hset]
      rfl
    · refine ⟨rfl, hr.data_eq, ?_, hr.data_length, hchain, ?_, ?_, ?_, ?_, ?_⟩
      · rw [hlen, hlen2]
        exact hr.index_length
      · show s.currentNumberOfCachedFileDataBlocks = _
        rw [hr.count]
        simp
      · have := hr.count_le
        simpa using this
      · show ea.nextUsed = _
        rw [hnextc]
        simp [firstOrAbsent]
      · show (b : Int) = _
        rw [lastOrAbsent_concat]
      · show Slotted ix' ((c :: rest) ++ [b]) s.cacheBlockSize
          s.maxNumberOfCachedFileDataBlocks.toNat
        apply @slotted_bind _ _ _ _ _ _ b ea.offsetInFileBuffer hr.slotted
        · intro e he
          rw [heb] at he
          cases he
          exact hebs
        · intro j e hj hjb he
          have hjmem : j ∈ c :: rest := by
            rcases List.mem_append.mp hj with h | h
            · exact h
            · exact absurd (List.mem_singleton.mp h) hjb
          have hja : j ≠ a := by
            intro hja
            exact (List.nodup_cons.mp hr.chain.nodup).1 (hja ▸ hjmem)
          obtain ⟨e', he', hoff, -⟩ := hothers j e hjb he
          obtain ⟨e'', he'', hoff', -⟩ := hothers2 j e' hja he'
          exact ⟨List.mem_cons_of_mem _ hjmem, e'', he'', by rw [hoff', hoff]⟩
        · exact hr.slotted.aligned a ea (List.mem_cons_self _ _) hea
        · exact hr.slotted.inside a ea (List.mem_cons_self _ _) hea
        · intro j e hj hj' hjb he heq
          have hjmem : j ∈ c :: rest := by
            rcases List.mem_append.mp hj' with h | h
            · exact h
            · exact absurd (List.mem_singleton.mp h) hjb
          have hja : j = a := hr.slotted.own j a e ea hj (List.mem_cons_self _ _) he hea heq
          exact (List.nodup_cons.mp hr.chain.nodup).1 (hja ▸ hjmem)
        · intro hlow
          exfalso
          simp only [List.length_append, List.length_cons, List.length_singleton] at hlow
          simp only [List.length_cons] at hfull
          omega

theorem posixRead_length_le (d : OpenDescription) (count : Nat) :
    (posixRead d count).2.1.length ≤ count := by
  unfold posixRead
  split <;> simp [List.length_take, Nat.min_le_left]

theorem writeBytes_ok {mem : List Nat} {start : Nat} {data : List Nat}
    (h : start + data.length ≤ mem.length) :
    ∃ out, writeBytes mem start data = .ok out ∧ out.length = mem.length := by
  refine ⟨mem.take start ++ data ++ mem.drop (start + data.length), by simp [writeBytes, h], ?_⟩
  simp only [List.length_append, List.length_take, List.length_drop]
  omega

theorem readBytes_ok {mem : List Nat} {start len : Nat} (h : start + len ≤ mem.length) :
    ∃ data, readBytes mem start len = .ok data ∧ data.length = len := by
  refine ⟨(mem.drop start).take len, by simp [readBytes, h], ?_⟩
  simp only [List.length_take, List.length_drop]
  omega

/-- The physical read into the slot of a resident block stays inside the cache
and changes only the cache bytes and the descriptor. -/
theorem readIntoCacheBlock_resident {s : LargeFileReaderCore} {ix : List FileCacheIndexEntry}
    {mem : List Nat} {blocks : List Nat} (hc : Configured s) (hr : Resident s ix mem blocks)
    {b : Nat} (hb : b ∈ blocks) :
    ∃ r t mem', s.readIntoCacheBlock (b : Int) = .ok (r, t) ∧ Resident t ix mem' blocks ∧
      t = { s with fileDataBlocks := t.fileDataBlocks, fileDescriptor := t.fileDescriptor } := by
  obtain ⟨e, he, -⟩ := linked_mem hr.chain.linked hb
  have hix : s.indexArray = .ok ix := by simp [indexArray, hr.index_eq]
  have hmem : s.dataArray = .ok mem := by simp [dataArray, hr.data_eq]
  have hslot := hr.slotted.inside b e hb he
  cases hd : s.fileDescriptor with
  | none =>
    refine ⟨toU64 (-1), s, mem, ?_, hr, ?_⟩
    · unfold readIntoCacheBlock
      rw [hix, ok_bind, entryAt_natCast, he]
      simp only [ok_bind, hmem, hd]
      rfl
    · cases s
      simp_all
  | some d =>
    have hfit : e.offsetInFileBuffer + (posixRead d s.cacheBlockSize).2.1.length ≤ mem.length := by
      have h1 := posixRead_length_le d s.cacheBlockSize
      have h2 := hc.max_fits
      have h3 := hr.data_length
      omega
    obtain ⟨mem', hw, hlen⟩ := writeBytes_ok hfit
    refine ⟨toU64 (posixRead d s.cacheBlockSize).1,
      { s with fileDataBlocks := some mem'
               fileDescriptor := some (posixRead d s.cacheBlockSize).2.2 }, mem', ?_, ?_, rfl⟩
    · unfold readIntoCacheBlock
      rw [hix, ok_bind, entryAt_natCast, he]
      simp only [ok_bind, hmem, hd, hw]
      rfl
    · exact ⟨hr.index_eq, rfl, hr.index_length, by rw [hlen]; exact hr.data_length, hr.chain,
        hr.count, hr.count_le, hr.lru, hr.mru, hr.slotted⟩

theorem fetchFrame_refl (s : LargeFileReaderCore) : FetchFrame s s := by
  cases s
  rfl

theorem configured_of_fetchFrame {s t : LargeFileReaderCore} (h : FetchFrame s t)
    (hc : Configured s) : Configured t := by
  unfold FetchFrame at h
  rw [h]
  exact ⟨hc.isOpen, hc.blockSize_pos, hc.blockSize_lt, hc.size_nonneg, hc.size_lt, hc.total_eq,
    hc.max_nonneg, hc.max_fits, hc.actual_lt, hc.capacity⟩

/-- The fetch of a faulted block leaves the cache state well formed, with the
block resident. -/
theorem fetchDataBlockForIndex_resident {s : LargeFileReaderCore}
    {ix : List FileCacheIndexEntry} {mem : List Nat} {blocks : List Nat} (hc : Configured s)
    (hr : Resident s ix mem blocks) {b : Nat} {e₀ : FileCacheIndexEntry}
    (hb : ix[b]? = some e₀) (hf : e₀.isFault = true) :
    ∃ r t ix' mem' blocks', s.fetchDataBlockForIndex (b : Int) = .ok (r, t) ∧
      Resident t ix' mem' blocks' ∧ b ∈ blocks' ∧ FetchFrame s t := by
  obtain ⟨u, ix', blocks', htake, hru, hbmem, hframe⟩ := takeCacheBlock_resident hc hr hb hf
  have hcu : Configured u := by
    rw [hframe]
    exact ⟨hc.isOpen, hc.blockSize_pos, hc.blockSize_lt, hc.size_nonneg, hc.size_lt,
      hc.total_eq, hc.max_nonneg, hc.max_fits, hc.actual_lt, hc.capacity⟩
  obtain ⟨r, t, mem', hread, hrt, hframe'⟩ := readIntoCacheBlock_resident hcu hru hbmem
  refine ⟨r, t, ix', mem', blocks', ?_, hrt, hbmem, ?_⟩
  · unfold fetchDataBlockForIndex
    rw [htake, ok_bind, hread]
  · unfold FetchFrame
    rw [hframe', hframe]

/-! ## The arithmetic of one pass -/

theorem le_ceilDiv_mul (a : Nat) {b : Nat} (hb : 0 < b) : a ≤ ceilDiv a b * b := by
  unfold ceilDiv
  have h1 := Nat.div_add_mod (a + b - 1) b
  have h2 := Nat.mod_lt (a + b - 1) hb
  have h3 : (a + b - 1) / b * b = b * ((a + b - 1) / b) := Nat.mul_comm _ _
  omega

theorem ceilDiv_le (a : Nat) {b : Nat} (hb : 0 < b) : ceilDiv a b ≤ a := by
  unfold ceilDiv
  cases a with
  | zero =>
    rw [Nat.zero_add, Nat.div_eq_of_lt (by omega)]
  | succ a' =>
    apply Nat.div_le_of_le_mul
    have h1 : a' ≤ b * a' := Nat.le_mul_of_pos_left a' hb
    rw [Nat.mul_succ]
    omega

theorem div_lt_ceilDiv {c a b : Nat} (hb : 0 < b) (h : c < a) : c / b < ceilDiv a b := by
  rw [Nat.div_lt_iff_lt_mul hb]
  exact Nat.lt_of_lt_of_le h (le_ceilDiv_mul a hb)

/-- The quantities of one pass of the loop of `read`, for a cursor inside the
file with `numberOfBytes - totalBytesRead` bytes of the file left from it: the
block is `cursor / blockSize`, the offset in it `cursor % blockSize`, the end
of the file is not passed, and the length copied is the smaller of the rest of
the block and the rest of the count. -/
theorem pass_quantities {t : LargeFileReaderCore} (hc : Configured t) {n total : Nat}
    (hcur : 0 ≤ t.currentFileOffset) (htotal : total < n)
    (hroom : t.currentFileOffset + ((n - total : Nat) : Int) ≤ t.st_size) :
    t.dataBlockIndex = t.currentFileOffset.toNat / t.cacheBlockSize ∧
    t.dataBlockIndex < toU64 t.totalNumberOfFileCacheIndexEntries ∧
    t.dataBlockIndex < 9223372036854775808 ∧
    ((t.dataBlockIndex : Nat) : Int) < t.totalNumberOfFileCacheIndexEntries ∧
    t.offsetInDataBlock t.dataBlockIndex = t.currentFileOffset.toNat % t.cacheBlockSize ∧
    t.beyondEnd t.dataBlockIndex n total = false ∧
    t.lengthInDataBlock t.dataBlockIndex n total =
      min (t.cacheBlockSize - t.currentFileOffset.toNat % t.cacheBlockSize) (n - total) ∧
    toI64 ((toU64 t.currentFileOffset + t.lengthInDataBlock t.dataBlockIndex n total) % U64) =
      t.currentFileOffset + (t.lengthInDataBlock t.dataBlockIndex n total : Nat) := by
  have hbs := hc.blockSize_pos
  have hbs64 := hc.blockSize_lt
  have hsize := hc.size_lt
  have hsize0 := hc.size_nonneg
  have hU : U64 = 18446744073709551616 := rfl
  obtain ⟨c, hcdef⟩ : ∃ c : Nat, t.currentFileOffset = (c : Int) :=
    ⟨t.currentFileOffset.toNat, (Int.toNat_of_nonneg hcur).symm⟩
  obtain ⟨size, hsdef⟩ : ∃ size : Nat, t.st_size = (size : Int) :=
    ⟨t.st_size.toNat, (Int.toNat_of_nonneg hsize0).symm⟩
  rw [hcdef, hsdef] at hroom
  rw [hsdef] at hsize
  have hclt : c < size := by omega
  have hc64 : c < U64 := by omega
  have hcu : toU64 t.currentFileOffset = c := by
    rw [hcdef]
    exact toU64_natCast hc64
  have hsu : toU64 t.st_size = size := by
    rw [hsdef]
    exact toU64_natCast (by omega)
  have hctn : t.currentFileOffset.toNat = c := by
    rw [hcdef]
    simp
  have hidx : t.dataBlockIndex = c / t.cacheBlockSize := by
    unfold dataBlockIndex
    rw [hcu]
  have htot : toU64 t.totalNumberOfFileCacheIndexEntries = ceilDiv size t.cacheBlockSize := by
    rw [hc.total_eq, hsdef]
    simp only [Int.toNat_ofNat]
    apply toU64_natCast
    have := ceilDiv_le size hbs
    omega
  have hdiv : c / t.cacheBlockSize < ceilDiv size t.cacheBlockSize := div_lt_ceilDiv hbs hclt
  have hdivle : c / t.cacheBlockSize ≤ c := Nat.div_le_self _ _
  have hdm := Nat.div_add_mod c t.cacheBlockSize
  have hmodlt := Nat.mod_lt c hbs
  have hcomm : c / t.cacheBlockSize * t.cacheBlockSize = t.cacheBlockSize * (c / t.cacheBlockSize) :=
    Nat.mul_comm _ _
  have hoff : t.offsetInDataBlock (c / t.cacheBlockSize) = c % t.cacheBlockSize := by
    unfold offsetInDataBlock
    rw [hcu]
    generalize hp : c / t.cacheBlockSize * t.cacheBlockSize = p at hcomm ⊢
    have hpc : p ≤ c := by omega
    rw [Nat.mod_eq_of_lt (show p < U64 by omega)]
    have : c + (U64 - p) = U64 + c % t.cacheBlockSize := by omega
    rw [this, Nat.add_mod_left]
    exact Nat.mod_eq_of_lt (by omega)
  have hfull : (t.cacheBlockSize + (U64 - c % t.cacheBlockSize)) % U64 =
      t.cacheBlockSize - c % t.cacheBlockSize := by
    have : t.cacheBlockSize + (U64 - c % t.cacheBlockSize) =
        U64 + (t.cacheBlockSize - c % t.cacheBlockSize) := by omega
    rw [this, Nat.add_mod_left]
    exact Nat.mod_eq_of_lt (by omega)
  have hwanted : t.wantedLength (c / t.cacheBlockSize) n total =
      min (t.cacheBlockSize - c % t.cacheBlockSize) (n - total) := by
    unfold wantedLength
    rw [hoff, hfull]
    split <;> omega
  have hwle : min (t.cacheBlockSize - c % t.cacheBlockSize) (n - total) ≤ n - total :=
    Nat.min_le_right _ _
  have hbeyond : t.beyondEnd (c / t.cacheBlockSize) n total = false := by
    unfold beyondEnd
    rw [hwanted, hcu, hsu]
    simp only [gt_iff_lt, decide_eq_false_iff_not, Nat.not_lt]
    rw [Nat.mod_eq_of_lt (by omega)]
    omega
  have hlength : t.lengthInDataBlock (c / t.cacheBlockSize) n total =
      min (t.cacheBlockSize - c % t.cacheBlockSize) (n - total) := by
    unfold lengthInDataBlock
    rw [hbeyond, hwanted]
    simp
  rw [hidx, hctn]
  refine ⟨rfl, ?_, ?_, ?_, hoff, hbeyond, hlength, ?_⟩
  · rw [htot]
    exact hdiv
  · omega
  · rw [hc.total_eq, hsdef]
    simp only [Int.toNat_ofNat]
    exact_mod_cast hdiv
  · rw [hlength, hcu, hcdef]
    have hsum : c + min (t.cacheBlockSize - c % t.cacheBlockSize) (n - total) < 9223372036854775808 := by
      omega
    rw [Nat.mod_eq_of_lt (by omega), toI64_of_lt hsum]
    push_cast
    rfl

/-! ## Reads inside the file -/

/-- After the fetch-if-faulted step the block is resident, and the cache state
is well formed. -/
theorem fetchIfFault_resident {s : LargeFileReaderCore} {ix : List FileCacheIndexEntry}
    {mem : List Nat} {blocks : List Nat} (hc : Configured s) (hr : Resident s ix mem blocks)
    {b : Nat} {e : FileCacheIndexEntry} (hb : ix[b]? = some e)
    (hsmall : b < 9223372036854775808) :
    ∃ t ix' mem' blocks' e', s.fetchIfFault e.isFault (toI64 b) = .ok t ∧
      Resident t ix' mem' blocks' ∧ FetchFrame s t ∧ b ∈ blocks' ∧
      ix'[b]? = some e' ∧ e'.isFault = false := by
  rw [toI64_of_lt hsmall]
  cases hf : e.isFault with
  | true =>
    obtain ⟨r, t, ix', mem', blocks', hfetch, hrt, hmem, hframe⟩ :=
      fetchDataBlockForIndex_resident hc hr hb hf
    obtain ⟨e', he', hf'⟩ := linked_mem hrt.chain.linked hmem
    refine ⟨t, ix', mem', blocks', e', ?_, hrt, hframe, hmem, he', hf'⟩
    unfold fetchIfFault
    rw [if_pos rfl, hfetch]
    rfl
  | false =>
    refine ⟨s, ix, mem, blocks, e, ?_, hr, fetchFrame_refl s, hr.chain.resident b e hb hf, hb, hf⟩
    unfold fetchIfFault
    simp

/-- One pass of the loop of `read`, for a cursor inside the file with
`numberOfBytes - totalBytesRead` bytes of the file left from it and a buffer
that holds `numberOfBytes` bytes: the pass reaches its end, having copied
between one and `numberOfBytes - totalBytesRead` bytes and advanced the cursor
by as many; the flags are as before. -/
theorem readBody_advances {s : LargeFileReaderCore} {ix : List FileCacheIndexEntry}
    {mem : List Nat} {blocks : List Nat} (hc : Configured s) (hr : Resident s ix mem blocks)
    {buffer : List Nat} {n total : Nat} (hcur : 0 ≤ s.currentFileOffset) (htotal : total < n)
    (hroom : s.currentFileOffset + ((n - total : Nat) : Int) ≤ s.st_size)
    (hbuffer : n ≤ buffer.length) (hn : n < U64) :
    ∃ t ix' mem' blocks' out len, s.readBody buffer n total = .ok (.continued t out (total + len)) ∧
      0 < len ∧ total + len ≤ n ∧
      t.currentFileOffset = s.currentFileOffset + (len : Int) ∧
      t.isEof = s.isEof ∧ t.isFail = s.isFail ∧ t.isBad = s.isBad ∧
      Configured t ∧ Resident t ix' mem' blocks' ∧ out.length = buffer.length := by
  obtain ⟨hidx, hassert, hsmall, hlt, -⟩ := pass_quantities hc hcur htotal hroom
  have hbs := hc.blockSize_pos
  have hblt : s.dataBlockIndex < ix.length := by
    have := hr.index_length
    omega
  obtain ⟨e, he⟩ : ∃ e, ix[s.dataBlockIndex]? = some e :=
    ⟨ix[s.dataBlockIndex], List.getElem?_eq_getElem hblt⟩
  obtain ⟨t, ix', mem', blocks', e', hfetch, hrt, hframe, hmem, he', hf'⟩ :=
    fetchIfFault_resident hc hr he hsmall
  have hct : Configured t := configured_of_fetchFrame hframe hc
  have hcurt : t.currentFileOffset = s.currentFileOffset := by rw [hframe]
  have hsizet : t.st_size = s.st_size := by rw [hframe]
  have hbst : t.cacheBlockSize = s.cacheBlockSize := by rw [hframe]
  have hidxt : t.dataBlockIndex = s.dataBlockIndex := by
    unfold dataBlockIndex
    rw [hcurt, hbst]
  obtain ⟨-, -, -, -, hoff, hbeyond, hlength, hnewcur⟩ :=
    @pass_quantities t hct n total (by rw [hcurt]; exact hcur) htotal
      (by rw [hcurt, hsizet]; exact hroom)
  rw [hidxt] at hoff hbeyond hlength hnewcur
  have hmodlt := Nat.mod_lt t.currentFileOffset.toNat hct.blockSize_pos
  have hlenpos : 0 < t.lengthInDataBlock s.dataBlockIndex n total := by
    rw [hlength]
    omega
  have hlenle : t.lengthInDataBlock s.dataBlockIndex n total ≤ n - total := by
    rw [hlength]
    exact Nat.min_le_right _ _
  have hlenblock : t.currentFileOffset.toNat % t.cacheBlockSize +
      t.lengthInDataBlock s.dataBlockIndex n total ≤ t.cacheBlockSize := by
    rw [hlength]
    have := Nat.min_le_left (t.cacheBlockSize - t.currentFileOffset.toNat % t.cacheBlockSize)
      (n - total)
    omega
  have hslot := hrt.slotted.inside s.dataBlockIndex e' hmem he'
  have hfits : e'.offsetInFileBuffer + t.offsetInDataBlock s.dataBlockIndex +
      t.lengthInDataBlock s.dataBlockIndex n total ≤ mem'.length := by
    have h1 := hct.max_fits
    have h2 := hrt.data_length
    rw [hoff]
    omega
  obtain ⟨data, hdata, hdatalen⟩ := readBytes_ok hfits
  have hwfit : total + data.length ≤ buffer.length := by
    rw [hdatalen]
    omega
  obtain ⟨out, hout, houtlen⟩ := writeBytes_ok hwfit
  have hcopy : copyToCaller buffer total data = .ok out := by
    unfold copyToCaller
    rw [if_pos (by rw [hdatalen]; omega), hout]
  refine ⟨{ t with
      isEof := t.beyondEnd s.dataBlockIndex n total || t.isEof
      currentFileOffset :=
        toI64 ((toU64 t.currentFileOffset +
          t.lengthInDataBlock s.dataBlockIndex n total) % U64) },
    ix', mem', blocks', out, t.lengthInDataBlock s.dataBlockIndex n total, ?_, hlenpos,
    by omega, ?_, ?_, ?_, ?_, ?_, ?_, houtlen⟩
  · unfold readBody
    rw [if_neg (show ¬ s.cacheBlockSize = 0 by omega),
      if_neg (show ¬ ¬ s.dataBlockIndex < toU64 s.totalNumberOfFileCacheIndexEntries by
        simpa using hassert)]
    have hixs : s.indexArray = .ok ix := by simp [indexArray, hr.index_eq]
    have hixt : t.indexArray = .ok ix' := by simp [indexArray, hrt.index_eq]
    rw [hixs, ok_bind, entryAt_natCast, he]
    simp only [ok_bind, hfetch, hixt, entryAt_natCast, he', hf']
    unfold copyFromBlock
    rw [if_neg (show ¬ t.lengthInDataBlock s.dataBlockIndex n total = 0 by omega)]
    have hmemt : t.dataArray = .ok mem' := by simp [dataArray, hrt.data_eq]
    rw [hmemt, ok_bind, hdata, ok_bind, hcopy, ok_bind]
    rfl
  · show toI64 _ = _
    rw [hnewcur, hcurt]
  · show (t.beyondEnd s.dataBlockIndex n total || t.isEof) = s.isEof
    rw [hbeyond, Bool.false_or, hframe]
  · show t.isFail = s.isFail
    rw [hframe]
  · show t.isBad = s.isBad
    rw [hframe]
  · exact ⟨hct.isOpen, hct.blockSize_pos, hct.blockSize_lt, hct.size_nonneg, hct.size_lt,
      hct.total_eq, hct.max_nonneg, hct.max_fits, hct.actual_lt, hct.capacity⟩
  · exact ⟨hrt.index_eq, hrt.data_eq, hrt.index_length, hrt.data_length, hrt.chain, hrt.count,
      hrt.count_le, hrt.lru, hrt.mru, hrt.slotted⟩

theorem configured_flags {s : LargeFileReaderCore} (hc : Configured s) (a b c : Bool) :
    Configured { s with isEof := a, isFail := b, isBad := c } :=
  ⟨hc.isOpen, hc.blockSize_pos, hc.blockSize_lt, hc.size_nonneg, hc.size_lt, hc.total_eq,
    hc.max_nonneg, hc.max_fits, hc.actual_lt, hc.capacity⟩

theorem resident_flags {s : LargeFileReaderCore} {ix : List FileCacheIndexEntry}
    {mem : List Nat} {blocks : List Nat} (hr : Resident s ix mem blocks) (a b c : Bool) :
    Resident { s with isEof := a, isFail := b, isBad := c } ix mem blocks :=
  ⟨hr.index_eq, hr.data_eq, hr.index_length, hr.data_length, hr.chain, hr.count, hr.count_le,
    hr.lru, hr.mru, hr.slotted⟩

/-- The loop of `read`, for a cursor inside the file with
`numberOfBytes - totalBytesRead` bytes of the file left from it: it returns
`numberOfBytes` with the cursor advanced by `numberOfBytes - totalBytesRead`,
and `isEof` set in addition when the cursor ends at the end of the file. -/
theorem readLoop_reads (fuel : Nat) :
    ∀ (s : LargeFileReaderCore) (ix : List FileCacheIndexEntry) (mem blocks buffer : List Nat)
      (n total : Nat), Configured s → Resident s ix mem blocks → 0 ≤ s.currentFileOffset →
      total ≤ n → s.currentFileOffset + ((n - total : Nat) : Int) ≤ s.st_size →
      n ≤ buffer.length → n < U64 → n - total ≤ fuel →
      ∃ out t ix' mem' blocks', readLoop fuel s buffer n total = .ok (n, out, t) ∧
        t.currentFileOffset = s.currentFileOffset + ((n - total : Nat) : Int) ∧
        t.isEof = (s.isEof || decide (t.currentFileOffset ≥ t.st_size)) ∧
        t.isFail = s.isFail ∧ t.isBad = s.isBad ∧ t.st_size = s.st_size ∧
        Configured t ∧ Resident t ix' mem' blocks' ∧ out.length = buffer.length := by
  induction fuel with
  | zero =>
    intro s ix mem blocks buffer n total hc hr hcur htotal hroom hbuffer hn hfuel
    have heq : total = n := by omega
    subst heq
    rw [readLoop, if_neg (Nat.lt_irrefl _)]
    unfold readEpilogue
    by_cases hend : s.currentFileOffset ≥ s.st_size
    · rw [if_pos hend]
      exact ⟨buffer, _, ix, mem, blocks, rfl, by simp, by simp [hend], rfl, rfl, rfl,
        configured_flags hc true s.isFail s.isBad, resident_flags hr true s.isFail s.isBad, rfl⟩
    · rw [if_neg hend]
      exact ⟨buffer, s, ix, mem, blocks, rfl, by simp, by simp [hend], rfl, rfl, rfl, hc, hr, rfl⟩
  | succ fuel ih =>
    intro s ix mem blocks buffer n total hc hr hcur htotal hroom hbuffer hn hfuel
    rw [readLoop]
    by_cases hlt : total < n
    · rw [if_pos hlt]
      obtain ⟨t, ix', mem', blocks', out, len, hbody, hlen, hle, hcurt, heof, hfail, hbad, hct,
        hrt, houtlen⟩ := readBody_advances hc hr hcur hlt hroom hbuffer hn
      have hsize : t.st_size = s.st_size := (readBody_continued hbody).1.2.2.2.2.2.2.2
      simp only [hbody]
      obtain ⟨out', u, ix'', mem'', blocks'', hloop, hcuru, heofu, hfailu, hbadu, hsizeu, hcu,
        hru, hlenu⟩ :=
        ih t ix' mem' blocks' out n (total + len) hct hrt (by omega) hle
          (by rw [hcurt, hsize]; omega) (by omega) hn (by omega)
      refine ⟨out', u, ix'', mem'', blocks'', hloop, ?_, ?_, ?_, ?_, ?_, hcu, hru, ?_⟩
      · rw [hcuru, hcurt]
        omega
      · rw [heofu, heof]
      · rw [hfailu, hfail]
      · rw [hbadu, hbad]
      · rw [hsizeu, hsize]
      · rw [hlenu, houtlen]
    · have heq : total = n := by omega
      subst heq
      rw [if_neg hlt]
      unfold readEpilogue
      by_cases hend : s.currentFileOffset ≥ s.st_size
      · rw [if_pos hend]
        exact ⟨buffer, _, ix, mem, blocks, rfl, by simp, by simp [hend], rfl, rfl, rfl,
          configured_flags hc true s.isFail s.isBad, resident_flags hr true s.isFail s.isBad, rfl⟩
      · rw [if_neg hend]
        exact ⟨buffer, s, ix, mem, blocks, rfl, by simp, by simp [hend], rfl, rfl, rfl, hc, hr,
          rfl⟩

/-- On a well-formed open reader with the cursor inside the file, for a count
whose sum with the cursor does not wrap and a buffer that holds the clamped
count: `read` returns the clamped count `min(n, fileSize - cursor)`, advances
the cursor by it, leaves `isFail` and `isBad` clear, sets `isEof` exactly when
the cursor ends at the end of the file, and leaves the cache state well
formed. -/
theorem read_inside_file {s : LargeFileReaderCore} {ix : List FileCacheIndexEntry}
    {mem : List Nat} {blocks : List Nat} (hc : Configured s) (hr : Resident s ix mem blocks)
    (buffer : List Nat) (n : Nat) (hcur0 : 0 ≤ s.currentFileOffset)
    (hcur1 : s.currentFileOffset ≤ s.st_size)
    (hwrap : s.currentFileOffset + (n : Int) < (U64 : Int))
    (hbuffer : min n (s.st_size - s.currentFileOffset).toNat ≤ buffer.length) :
    ∃ out t ix' mem' blocks',
      s.read buffer n = .ok (min n (s.st_size - s.currentFileOffset).toNat, out, t) ∧
      t.currentFileOffset =
        s.currentFileOffset + ((min n (s.st_size - s.currentFileOffset).toNat : Nat) : Int) ∧
      (t.isEof = true ↔ t.currentFileOffset = t.st_size) ∧
      t.isFail = false ∧ t.isBad = false ∧ t.st_size = s.st_size ∧
      Configured t ∧ Resident t ix' mem' blocks' ∧ out.length = buffer.length := by
  have hsize := hc.size_lt
  have hU : U64 = 18446744073709551616 := rfl
  obtain ⟨c, hcdef⟩ : ∃ c : Nat, s.currentFileOffset = (c : Int) :=
    ⟨s.currentFileOffset.toNat, (Int.toNat_of_nonneg hcur0).symm⟩
  obtain ⟨size, hsdef⟩ : ∃ size : Nat, s.st_size = (size : Int) :=
    ⟨s.st_size.toNat, (Int.toNat_of_nonneg hc.size_nonneg).symm⟩
  have hcle : c ≤ size := by omega
  have hcu : toU64 s.currentFileOffset = c := by
    rw [hcdef]
    exact toU64_natCast (by omega)
  have hsu : toU64 s.st_size = size := by
    rw [hsdef]
    exact toU64_natCast (by omega)
  have hrest : (s.st_size - s.currentFileOffset).toNat = size - c := by
    rw [hcdef, hsdef]
    omega
  have hclamp : toU64 (s.st_size - s.currentFileOffset) = size - c := by
    have : s.st_size - s.currentFileOffset = ((size - c : Nat) : Int) := by
      rw [hcdef, hsdef]
      omega
    rw [this]
    exact toU64_natCast (by omega)
  have hmod : (c + n) % U64 = c + n := Nat.mod_eq_of_lt (by omega)
  rw [hrest] at hbuffer ⊢
  unfold LargeFileReaderCore.read
  rw [if_neg (by simp [hc.isOpen])]
  simp only [hcu, hsu, hmod, hclamp]
  by_cases hover : c + n > size
  · rw [if_pos hover]
    have hmin : min n (size - c) = size - c := by omega
    rw [hmin]
    by_cases hzero : size - c = 0
    · rw [if_pos hzero, hzero]
      refine ⟨buffer, _, ix, mem, blocks, rfl, by simp, ?_, rfl, rfl, rfl,
        configured_flags hc true false false, resident_flags hr true false false, rfl⟩
      simp only [true_iff]
      rw [hcdef, hsdef]
      omega
    · rw [if_neg hzero]
      obtain ⟨out, t, ix', mem', blocks', hloop, hcurt, heof, hfail, hbad, hsizet, hct, hrt,
        hlen⟩ :=
        readLoop_reads (size - c) { s with isEof := true, isFail := false, isBad := false }
          ix mem blocks buffer (size - c) 0 (configured_flags hc true false false)
          (resident_flags hr true false false) hcur0 (Nat.zero_le _)
          (by show s.currentFileOffset + _ ≤ s.st_size; rw [hcdef, hsdef]; omega)
          (by omega) (by omega) (by omega)
      refine ⟨out, t, ix', mem', blocks', hloop, ?_, ?_, hfail, hbad, hsizet, hct, hrt, hlen⟩
      · rw [hcurt]
        simp
      · rw [heof]
        simp only [Bool.true_or, true_iff]
        rw [hcurt, hsizet]
        show s.currentFileOffset + _ = s.st_size
        rw [hcdef, hsdef]
        omega
  · rw [if_neg hover]
    have hmin : min n (size - c) = n := by omega
    rw [hmin] at hbuffer ⊢
    obtain ⟨out, t, ix', mem', blocks', hloop, hcurt, heof, hfail, hbad, hsizet, hct, hrt,
      hlen⟩ :=
      readLoop_reads n { s with isEof := false, isFail := false, isBad := false }
        ix mem blocks buffer n 0 (configured_flags hc false false false)
        (resident_flags hr false false false) hcur0 (Nat.zero_le _)
        (by show s.currentFileOffset + _ ≤ s.st_size; rw [hcdef, hsdef]; omega)
        hbuffer (by omega) (by omega)
    refine ⟨out, t, ix', mem', blocks', hloop, ?_, ?_, hfail, hbad, hsizet, hct, hrt, hlen⟩
    · rw [hcurt]
      simp
    · rw [heof]
      simp only [Bool.false_or, decide_eq_true_eq]
      rw [hcurt, hsizet]
      show s.st_size ≤ s.currentFileOffset + _ ↔ s.currentFileOffset + _ = s.st_size
      rw [hcdef, hsdef]
      omega

/-! ## Every read keeps the cache state well formed -/

/-- Being configured only depends on the members no call of `lseek` or `read`
assigns. -/
theorem configured_of_sameFile {s t : LargeFileReaderCore} (h : SameFile s t)
    (hc : Configured s) : Configured t := by
  obtain ⟨h1, h2, -, h4, -, h6, h7, h8⟩ := h
  exact ⟨by rw [h1]; exact hc.isOpen, by rw [h2]; exact hc.blockSize_pos,
    by rw [h2]; exact hc.blockSize_lt, by rw [h8]; exact hc.size_nonneg,
    by rw [h8]; exact hc.size_lt, by rw [h7, h8, h2]; exact hc.total_eq,
    by rw [h6]; exact hc.max_nonneg, by rw [h6, h2, h4]; exact hc.max_fits,
    by rw [h4]; exact hc.actual_lt, by rw [h6, h7]; exact hc.capacity⟩

/-- The cache state only depends on the index, the cache, the resident count,
the two ends of the chain and the members fixed by `open`. -/
theorem resident_congr {s t : LargeFileReaderCore} {ix : List FileCacheIndexEntry}
    {mem : List Nat} {blocks : List Nat} (hr : Resident s ix mem blocks)
    (hsame : SameFile s t) (hindex : t.fileCacheIndex = s.fileCacheIndex)
    (hdata : t.fileDataBlocks = s.fileDataBlocks)
    (hcount : t.currentNumberOfCachedFileDataBlocks = s.currentNumberOfCachedFileDataBlocks)
    (hlru : t.leastRecentlyUsedIndex = s.leastRecentlyUsedIndex)
    (hmru : t.mostRecentlyUsedIndex = s.mostRecentlyUsedIndex) :
    Resident t ix mem blocks := by
  obtain ⟨-, h2, -, h4, -, h6, h7, -⟩ := hsame
  exact ⟨by rw [hindex]; exact hr.index_eq, by rw [hdata]; exact hr.data_eq,
    by rw [h7]; exact hr.index_length, by rw [h4]; exact hr.data_length, hr.chain,
    by rw [hcount]; exact hr.count, by rw [h6]; exact hr.count_le, by rw [hlru]; exact hr.lru,
    by rw [hmru]; exact hr.mru, by rw [h2, h6]; exact hr.slotted⟩

theorem entryAt_eq_ok {ix : List FileCacheIndexEntry} {b : Nat} {e : FileCacheIndexEntry}
    (h : entryAt ix (b : Int) = .ok e) : ix[b]? = some e := by
  rw [entryAt_natCast] at h
  split at h
  · rename_i e' he'
    cases h
    exact he'
  · cases h

/-- The index of a configured reader has fewer than `2^63` entries. -/
theorem index_length_lt {s : LargeFileReaderCore} {ix : List FileCacheIndexEntry}
    {mem : List Nat} {blocks : List Nat} (hc : Configured s) (hr : Resident s ix mem blocks) :
    ix.length < 9223372036854775808 := by
  have h1 := hr.index_length
  have h2 := hc.total_eq
  have h3 := ceilDiv_le s.st_size.toNat hc.blockSize_pos
  have h4 := hc.size_lt
  have h5 := hc.size_nonneg
  omega

/-- Every pass of the loop of `read` that ends with a defined result leaves the
cache state well formed, whatever the cursor and the counts are. -/
theorem readBody_resident {s : LargeFileReaderCore} {ix : List FileCacheIndexEntry}
    {mem : List Nat} {blocks : List Nat} (hc : Configured s) (hr : Resident s ix mem blocks)
    {buffer : List Nat} {n total : Nat} {pass : Pass}
    (h : s.readBody buffer n total = .ok pass) :
    ∃ ix' mem' blocks', Resident pass.state ix' mem' blocks' := by
  unfold readBody at h
  split at h
  · cases h
  · split at h
    · cases h
    · simp only [bind_eq_ok] at h
      obtain ⟨ix0, hix0, e, he, t, ht, ix1, hix1, e1, he1, h⟩ := h
      have hix : ix0 = ix := by
        have : s.indexArray = .ok ix := by simp [indexArray, hr.index_eq]
        rw [this] at hix0
        cases hix0
        rfl
      subst hix
      have hb := entryAt_eq_ok he
      have hsmall : s.dataBlockIndex < 9223372036854775808 :=
        Nat.lt_trans (getElem?_lt hb) (index_length_lt hc hr)
      obtain ⟨t', ix', mem', blocks', e', hfetch, hrt, hframe, -⟩ :=
        fetchIfFault_resident hc hr hb hsmall
      rw [hfetch] at ht
      cases ht
      split at h
      · simp only [pure_eq_ok] at h
        subst h
        exact ⟨ix', mem', blocks',
          resident_congr hrt (by simp [SameFile, Pass.state]) rfl rfl rfl rfl rfl⟩
      · unfold copyFromBlock at h
        split at h
        · split at h
          · cases h
            exact ⟨ix', mem', blocks',
              resident_congr hrt (by simp [SameFile, Pass.state]) rfl rfl rfl rfl rfl⟩
          · split at h
            · cases h
              exact ⟨ix', mem', blocks', hrt⟩
            · cases h
        · simp only [bind_eq_ok, pure_eq_ok] at h
          obtain ⟨_, -, _, -, _, -, h⟩ := h
          subst h
          exact ⟨ix', mem', blocks',
            resident_congr hrt (by simp [SameFile, Pass.state]) rfl rfl rfl rfl rfl⟩

theorem readBody_sameFile {s : LargeFileReaderCore} {buffer : List Nat} {n total : Nat}
    {pass : Pass} (h : s.readBody buffer n total = .ok pass) : SameFile s pass.state := by
  cases pass with
  | returned result out t => exact readBody_returned_sameFile h
  | continued t out next => exact (readBody_continued h).1

/-- The loop of `read` leaves the cache state well formed whenever it ends with
a defined result. -/
theorem readLoop_resident (fuel : Nat) :
    ∀ (s : LargeFileReaderCore) (ix : List FileCacheIndexEntry) (mem blocks buffer : List Nat)
      (n total : Nat) (r : Nat × List Nat × LargeFileReaderCore), Configured s →
      Resident s ix mem blocks → readLoop fuel s buffer n total = .ok r →
      ∃ ix' mem' blocks', Resident r.2.2 ix' mem' blocks' := by
  induction fuel with
  | zero =>
    intro s ix mem blocks buffer n total r hc hr h
    unfold readLoop at h
    split at h
    · cases h
    · cases h
      unfold readEpilogue
      split
      · exact ⟨ix, mem, blocks, resident_congr hr (by simp [SameFile]) rfl rfl rfl rfl rfl⟩
      · exact ⟨ix, mem, blocks, hr⟩
  | succ fuel ih =>
    intro s ix mem blocks buffer n total r hc hr h
    rw [readLoop] at h
    split at h
    · cases hb : s.readBody buffer n total with
      | error t => simp [hb] at h
      | ok pass =>
        obtain ⟨ix', mem', blocks', hrp⟩ := readBody_resident hc hr hb
        have hcp : Configured pass.state := configured_of_sameFile (readBody_sameFile hb) hc
        cases pass with
        | returned result out t =>
          simp only [hb] at h
          cases h
          exact ⟨ix', mem', blocks', hrp⟩
        | continued t out next =>
          simp only [hb] at h
          exact ih t ix' mem' blocks' out n next r hcp hrp h
    · cases h
      unfold readEpilogue
      split
      · exact ⟨ix, mem, blocks, resident_congr hr (by simp [SameFile]) rfl rfl rfl rfl rfl⟩
      · exact ⟨ix, mem, blocks, hr⟩

/-- Every `read` that ends with a defined result leaves the reader configured
and the cache state well formed, whatever the cursor and the count are. -/
theorem read_resident {s : LargeFileReaderCore} {ix : List FileCacheIndexEntry}
    {mem : List Nat} {blocks : List Nat} (hc : Configured s) (hr : Resident s ix mem blocks)
    {buffer : List Nat} {n : Nat} {r : Nat × List Nat × LargeFileReaderCore}
    (h : s.read buffer n = .ok r) :
    Configured r.2.2 ∧ ∃ ix' mem' blocks', Resident r.2.2 ix' mem' blocks' := by
  refine ⟨configured_of_sameFile (read_sameFile h) hc, ?_⟩
  unfold LargeFileReaderCore.read at h
  split at h
  · cases h
    exact ⟨ix, mem, blocks, hr⟩
  · simp only at h
    split at h
    · split at h
      · cases h
        exact ⟨ix, mem, blocks, resident_flags hr true false false⟩
      · exact readLoop_resident _ _ ix mem blocks _ _ _ _ (configured_flags hc true false false)
          (resident_flags hr true false false) h
    · exact readLoop_resident _ _ ix mem blocks _ _ _ _ (configured_flags hc false false false)
        (resident_flags hr false false false) h

/-- A read whose clamped count is 0 returns 0 and changes nothing but the
flags: no block is fetched, the cursor and the buffer stay as they were. -/
theorem read_of_zero_count (s : LargeFileReaderCore) (buffer : List Nat) (n : Nat)
    (hopen : s.isOpen = true) (hcur0 : 0 ≤ s.currentFileOffset)
    (hcur1 : s.currentFileOffset ≤ s.st_size) (hsize : s.st_size < 9223372036854775808)
    (hwrap : s.currentFileOffset + (n : Int) < (U64 : Int))
    (hzero : min n (s.st_size - s.currentFileOffset).toNat = 0) :
    s.read buffer n =
      .ok (0, buffer,
        { s with isEof := decide (s.currentFileOffset ≥ s.st_size)
                 isFail := false, isBad := false }) := by
  have hU : U64 = 18446744073709551616 := rfl
  obtain ⟨c, hcdef⟩ : ∃ c : Nat, s.currentFileOffset = (c : Int) :=
    ⟨s.currentFileOffset.toNat, (Int.toNat_of_nonneg hcur0).symm⟩
  obtain ⟨size, hsdef⟩ : ∃ size : Nat, s.st_size = (size : Int) :=
    ⟨s.st_size.toNat, (Int.toNat_of_nonneg (Int.le_trans hcur0 hcur1)).symm⟩
  have hcu : toU64 s.currentFileOffset = c := by
    rw [hcdef]
    exact toU64_natCast (by omega)
  have hsu : toU64 s.st_size = size := by
    rw [hsdef]
    exact toU64_natCast (by omega)
  have hrest : (s.st_size - s.currentFileOffset).toNat = size - c := by
    rw [hcdef, hsdef]
    omega
  have hclamp : toU64 (s.st_size - s.currentFileOffset) = size - c := by
    have : s.st_size - s.currentFileOffset = ((size - c : Nat) : Int) := by
      rw [hcdef, hsdef]
      omega
    rw [this]
    exact toU64_natCast (by omega)
  have hmod : (c + n) % U64 = c + n := Nat.mod_eq_of_lt (by omega)
  rw [hrest] at hzero
  unfold LargeFileReaderCore.read
  rw [if_neg (by simp [hopen])]
  simp only [hcu, hsu, hmod, hclamp]
  by_cases hover : c + n > size
  · have hz : size - c = 0 := by omega
    have hge : s.currentFileOffset ≥ s.st_size := by
      rw [hcdef, hsdef]
      omega
    rw [if_pos hover, if_pos hz]
    simp [hge]
  · have hn : n = 0 := by omega
    subst hn
    rw [if_neg hover, readLoop, if_neg (Nat.lt_irrefl 0)]
    unfold readEpilogue
    by_cases hge : s.currentFileOffset ≥ s.st_size
    · simp [hge]
    · simp [hge]

/-! ## What a successful `open` establishes -/

theorem ceilDiv_mul_lt {a b : Nat} (ha : a < 9223372036854775808) (hb : 0 < b) (hb64 : b < U64) :
    ceilDiv a b * b < U64 := by
  have hU : U64 = 18446744073709551616 := rfl
  unfold ceilDiv
  have h1 := Nat.div_mul_le_self (a + b - 1) b
  rcases Nat.lt_or_ge a b with hlt | hge
  · have h2 : (a + b - 1) / b ≤ 1 := by
      apply Nat.le_of_lt_succ
      rw [Nat.div_lt_iff_lt_mul hb]
      omega
    have h3 : (a + b - 1) / b * b ≤ 1 * b := Nat.mul_le_mul_right b h2
    omega
  · omega

theorem blockSizeOrDefault_pos (cacheBlockSize : Nat) : 0 < blockSizeOrDefault cacheBlockSize := by
  unfold blockSizeOrDefault cacheDefaultBlockSize
  split <;> omega

/-- A successful `open` of a file that an `off_t` can size, with a maximal
cache size in the range of `size_t` that has room for two blocks or for the
whole file: the reader is configured, no block is resident, the cursor is 0. -/
theorem openFile_configured (s : LargeFileReaderCore) (host : Host) (fullFilePath : String)
    (file : HostFile) (cacheMaxSize cacheBlockSize : Nat) (hclosed : s.isOpen = false)
    (hfile : host.files fullFilePath = some file) (hopenable : file.openable = true)
    (hfits : blockSizeOrDefault cacheBlockSize ≤ maxSizeOrDefault cacheMaxSize)
    (hmax : maxSizeOrDefault cacheMaxSize < U64)
    (hsize : file.bytes.length < 9223372036854775808)
    (hroom : 2 * blockSizeOrDefault cacheBlockSize ≤ maxSizeOrDefault cacheMaxSize ∨
      file.bytes.length < maxSizeOrDefault cacheMaxSize) :
    (s.openFile host fullFilePath cacheMaxSize cacheBlockSize).1 = .returned true ∧
    Configured (s.openFile host fullFilePath cacheMaxSize cacheBlockSize).2 ∧
    (∃ ix mem, Resident (s.openFile host fullFilePath cacheMaxSize cacheBlockSize).2 ix mem []) ∧
    (s.openFile host fullFilePath cacheMaxSize cacheBlockSize).2.currentFileOffset = 0 ∧
    (s.openFile host fullFilePath cacheMaxSize cacheBlockSize).2.st_size =
      (file.bytes.length : Int) := by
  have hU : U64 = 18446744073709551616 := rfl
  have hbs := blockSizeOrDefault_pos cacheBlockSize
  generalize hB : blockSizeOrDefault cacheBlockSize = bs at *
  generalize hM : maxSizeOrDefault cacheMaxSize = cm at *
  have hopen : s.openFile host fullFilePath cacheMaxSize cacheBlockSize =
      (.returned true,
        { s with
          filePath := fullFilePath
          st_size := (file.bytes.length : Int)
          cacheMaxSize := cm
          cacheBlockSize := bs
          cacheActualSize := actualSizeFor (file.bytes.length : Int) cm bs
          maxNumberOfCachedFileDataBlocks :=
            ((actualSizeFor (file.bytes.length : Int) cm bs / bs : Nat) : Int)
          totalNumberOfFileCacheIndexEntries := ((ceilDiv file.bytes.length bs : Nat) : Int)
          currentNumberOfCachedFileDataBlocks := 0
          mostRecentlyUsedIndex := -1
          leastRecentlyUsedIndex := -1
          fileDataBlocks :=
            some ((List.range (actualSizeFor (file.bytes.length : Int) cm bs)).map host.junk)
          fileCacheIndex := some (List.replicate (ceilDiv file.bytes.length bs) {})
          fileDescriptor := some { bytes := file.bytes, position := 0, faults := file.faults }
          currentFileOffset := 0
          isOpen := true, isEof := false, isFail := false, isBad := false }) := by
    simp [openFile, hclosed, hfile, hopenable, hB, hM, Nat.not_lt.mpr hfits]
  rw [hopen]
  have hlenU : toU64 (file.bytes.length : Int) = file.bytes.length :=
    toU64_natCast (by omega)
  have hactual : actualSizeFor (file.bytes.length : Int) cm bs =
      if file.bytes.length < cm then ceilDiv file.bytes.length bs * bs else cm := by
    unfold actualSizeFor
    rw [hlenU]
    simp
  refine ⟨rfl, ?_, ⟨List.replicate (ceilDiv file.bytes.length bs) {},
    (List.range (actualSizeFor (file.bytes.length : Int) cm bs)).map host.junk, ?_⟩, rfl, rfl⟩
  · refine ⟨rfl, hbs, ?_, ?_, ?_, ?_, ?_, ?_, ?_, ?_⟩
    · show bs < U64
      omega
    · show (0 : Int) ≤ (file.bytes.length : Int)
      exact Int.natCast_nonneg _
    · show (file.bytes.length : Int) < 9223372036854775808
      exact_mod_cast hsize
    · show ((ceilDiv file.bytes.length bs : Nat) : Int) =
        ((ceilDiv (file.bytes.length : Int).toNat bs : Nat) : Int)
      rw [Int.toNat_ofNat]
    · show (0 : Int) ≤ ((actualSizeFor (file.bytes.length : Int) cm bs / bs : Nat) : Int)
      exact Int.natCast_nonneg _
    · show ((actualSizeFor (file.bytes.length : Int) cm bs / bs : Nat) : Int).toNat * bs ≤
        actualSizeFor (file.bytes.length : Int) cm bs
      rw [Int.toNat_ofNat]
      exact Nat.div_mul_le_self _ _
    · show actualSizeFor (file.bytes.length : Int) cm bs < U64
      rw [hactual]
      split
      · exact ceilDiv_mul_lt hsize hbs (by omega)
      · exact hmax
    · show (2 : Int) ≤ ((actualSizeFor (file.bytes.length : Int) cm bs / bs : Nat) : Int) ∨
        ((ceilDiv file.bytes.length bs : Nat) : Int) ≤
          ((actualSizeFor (file.bytes.length : Int) cm bs / bs : Nat) : Int)
      rw [hactual]
      by_cases hlt : file.bytes.length < cm
      · right
        rw [if_pos hlt, Nat.mul_div_cancel _ hbs]
      · left
        rw [if_neg hlt]
        have h2 : 2 * bs ≤ cm := by
          rcases hroom with h | h
          · exact h
          · exact absurd h hlt
        have : 2 ≤ cm / bs := by
          rw [Nat.le_div_iff_mul_le hbs]
          exact h2
        exact_mod_cast this
  · refine ⟨rfl, rfl, ?_, ?_, ?_, rfl, ?_, rfl, rfl, ?_⟩
    · show (((List.replicate (ceilDiv file.bytes.length bs)
        ({} : FileCacheIndexEntry)).length : Nat) : Int) = ((ceilDiv file.bytes.length bs : Nat) : Int)
      rw [List.length_replicate]
    · show ((List.range (actualSizeFor (file.bytes.length : Int) cm bs)).map host.junk).length =
        actualSizeFor (file.bytes.length : Int) cm bs
      rw [List.length_map, List.length_range]
    · refine ⟨List.nodup_nil, trivial, ?_, ?_⟩
      · intro b e he hf
        rw [List.getElem?_replicate] at he
        split at he
        · cases he
          cases hf
        · cases he
      · intro b e he _
        rw [List.getElem?_replicate] at he
        split at he
        · cases he
          rfl
        · cases he
    · show ((([] : List Nat).length : Nat) : Int) ≤
        ((actualSizeFor (file.bytes.length : Int) cm bs / bs : Nat) : Int)
      exact Int.natCast_nonneg _
    · refine ⟨?_, ?_, ?_, ?_⟩
      · intro b e hb
        cases hb
      · intro b e hb
        cases hb
      · intro _ b e hb
        cases hb
      · intro b c e f hb
        cases hb

/-- A seek on a well-formed open reader changes the cursor and the flags only:
the reader stays configured and the cache state well formed. -/
theorem lseek_resident {s : LargeFileReaderCore} {ix : List FileCacheIndexEntry}
    {mem : List Nat} {blocks : List Nat} (hc : Configured s) (hr : Resident s ix mem blocks)
    (offsetInBytes whence : Int) :
    Configured (s.lseek offsetInBytes whence).2 ∧
    Resident (s.lseek offsetInBytes whence).2 ix mem blocks := by
  unfold lseek
  rw [if_neg (by simp [hc.isOpen])]
  simp only
  split
  · exact ⟨configured_flags hc false false false, resident_flags hr false false false⟩
  · split
    · exact ⟨⟨hc.isOpen, hc.blockSize_pos, hc.blockSize_lt, hc.size_nonneg, hc.size_lt,
        hc.total_eq, hc.max_nonneg, hc.max_fits, hc.actual_lt, hc.capacity⟩,
        ⟨hr.index_eq, hr.data_eq, hr.index_length, hr.data_length, hr.chain, hr.count,
          hr.count_le, hr.lru, hr.mru, hr.slotted⟩⟩
    · exact ⟨⟨hc.isOpen, hc.blockSize_pos, hc.blockSize_lt, hc.size_nonneg, hc.size_lt,
        hc.total_eq, hc.max_nonneg, hc.max_fits, hc.actual_lt, hc.capacity⟩,
        ⟨hr.index_eq, hr.data_eq, hr.index_length, hr.data_length, hr.chain, hr.count,
          hr.count_le, hr.lru, hr.mru, hr.slotted⟩⟩

/-! ## C1 to C4: reads through the cache -/

/-- C1, the code evaluated at the failing input. On the four-byte file
`10 11 12 13`, opened with `cacheMaxSize = 4` and `cacheBlockSize = 2`,
`lseek(2, SEEK_SET)` returns 2 and the following `read(buffer, 2)` returns 2 but
fills the buffer with `10 11`, the bytes of the file at `[0, 2)`, while the
bytes at `[2, 4)` are `12 13`: the fault-in of block 1 reads at the
descriptor's own position, which no call sets. -/
theorem read_after_lseek_delivers_bytes_at_descriptor_position :
    (construct.openFile (hostWith [10, 11, 12, 13] []) "f" 4 2).1 = .returned true ∧
    ((opened [10, 11, 12, 13] [] 4 2).lseek 2 SEEK_SET).1 = 2 ∧
    ((((opened [10, 11, 12, 13] [] 4 2).lseek 2 SEEK_SET).2.read [0, 0] 2).map
      fun r => (r.1, r.2.1)) = .ok (2, [10, 11]) ∧
    ([10, 11, 12, 13].drop 2).take 2 = [12, 13] := by
  decide!

/-- C2, the code evaluated at the failing input. On the three-byte file `1 2 3`
with `cacheBlockSize = 1`, the calls read, read, read, `lseek(0, SEEK_SET)`, read
(one byte each) end with the byte `2` when the cache holds two blocks
(`cacheMaxSize = 2`, the third read evicts block 0) and with the byte `1` when
it holds the whole file (`cacheMaxSize = 3`). -/
theorem small_cache_and_whole_file_cache_differ :
    (opened [1, 2, 3] [] 2 1).maxNumberOfCachedFileDataBlocks = 2 ∧
    (opened [1, 2, 3] [] 3 1).maxNumberOfCachedFileDataBlocks = 3 ∧
    ((runCalls (opened [1, 2, 3] [] 2 1)
        [.read [0] 1, .read [0] 1, .read [0] 1, .lseek 0 SEEK_SET, .read [0] 1]).map
      fun r => r.1) =
      .ok [.read 1 [1], .read 1 [2], .read 1 [3], .lseek 0, .read 1 [2]] ∧
    ((runCalls (opened [1, 2, 3] [] 3 1)
        [.read [0] 1, .read [0] 1, .read [0] 1, .lseek 0 SEEK_SET, .read [0] 1]).map
      fun r => r.1) =
      .ok [.read 1 [1], .read 1 [2], .read 1 [3], .lseek 0, .read 1 [1]] := by
  decide!

/-- C3, the code evaluated at the failing input. With room for three blocks
(`cacheMaxSize = 3`, `cacheBlockSize = 1`) on the file `1 2 3 4`: after reading
blocks 0, 1, 2 and block 0 again, blocks 0, 1, 2 are resident and block 0 is
still the least recently used entry; reading block 3 then evicts block 0, not
block 1. The eviction order is the order of the fault-ins: a hit does not
move the block in the list. -/
theorem hit_does_not_refresh_block :
    (opened [1, 2, 3, 4] [] 3 1).maxNumberOfCachedFileDataBlocks = 3 ∧
    ((runCalls (opened [1, 2, 3, 4] [] 3 1)
        [.read [0] 1, .read [0] 1, .read [0] 1, .lseek 0 SEEK_SET, .read [0] 1]).map
      fun r => (faultFlags r.2, r.2.leastRecentlyUsedIndex, r.2.mostRecentlyUsedIndex)) =
      .ok ([false, false, false, true], 0, 2) ∧
    ((runCalls (opened [1, 2, 3, 4] [] 3 1)
        [.read [0] 1, .read [0] 1, .read [0] 1, .lseek 0 SEEK_SET, .read [0] 1,
         .lseek 3 SEEK_SET, .read [0] 1]).map
      fun r => (faultFlags r.2, r.2.leastRecentlyUsedIndex, r.2.mostRecentlyUsedIndex)) =
      .ok ([true, false, false, false], 1, 3) := by
  decide!

/-- C4, the code evaluated at the failing input. With room for one block
(`cacheMaxSize = cacheBlockSize = 1`) on the file `1 2 3`, `read(buffer, 3)` at
cursor 0 has no defined result: the eviction for block 1 leaves
`leastRecentlyUsedIndex` at `-1`, and the eviction for block 2 accesses
`fileCacheIndex[-1]`. The clamped count is `min(3, 3 - 0) = 3`; with room for
two blocks the same call returns 3 and advances the cursor by 3. -/
theorem read_with_one_block_cache_leaves_index :
    (construct.openFile (hostWith [1, 2, 3] []) "f" 1 1).1 = .returned true ∧
    (opened [1, 2, 3] [] 1 1).maxNumberOfCachedFileDataBlocks = 1 ∧
    (opened [1, 2, 3] [] 1 1).currentFileOffset = 0 ∧
    (opened [1, 2, 3] [] 1 1).st_size = 3 ∧
    ((runCalls (opened [1, 2, 3] [] 1 1) [.read [0, 0] 2]).map
      fun r => (r.1, r.2.leastRecentlyUsedIndex)) = .ok ([.read 2 [1, 2]], -1) ∧
    (opened [1, 2, 3] [] 1 1).read [0, 0, 0] 3 = .error .outOfBounds ∧
    (((opened [1, 2, 3] [] 2 1).read [0, 0, 0] 3).map
      fun r => (r.1, r.2.1, r.2.2.currentFileOffset)) = .ok (3, [1, 2, 3], 3) := by
  decide!

/-! ## C5 and C6: seeking -/

/-- The contract of `lseek` where no sum overflows. On an open reader, for an
offset in the range of `off_t`: `lseek(offset, whence)` with `SEEK_SET`,
`SEEK_CUR`, `SEEK_END` takes as target `offset`, `cursor + offset`,
`fileSize + offset`, the two sums being in the range of `off_t`; a target at or
beyond `fileSize` puts the cursor at `fileSize`, sets `isEof` and returns
`fileSize`, any other target becomes the cursor, is returned, and leaves
`isEof` clear. Every other `whence` returns `-1` and leaves the cursor where it
was. (`seekSeen` is the triple of the returned offset, the cursor and `isEof`
after the call.) -/
theorem lseek_contract (s : LargeFileReaderCore) (offsetInBytes whence : Int)
    (hopen : s.isOpen = true) (hlow : -9223372036854775808 ≤ offsetInBytes)
    (hhigh : offsetInBytes < 9223372036854775808) :
    seekSeen (s.lseek offsetInBytes SEEK_SET) =
      (if offsetInBytes ≥ s.st_size then (s.st_size, s.st_size, true)
       else (offsetInBytes, offsetInBytes, false)) ∧
    (-9223372036854775808 ≤ s.currentFileOffset + offsetInBytes →
      s.currentFileOffset + offsetInBytes < 9223372036854775808 →
      seekSeen (s.lseek offsetInBytes SEEK_CUR) =
        (if s.currentFileOffset + offsetInBytes ≥ s.st_size then (s.st_size, s.st_size, true)
         else (s.currentFileOffset + offsetInBytes, s.currentFileOffset + offsetInBytes,
           false))) ∧
    (-9223372036854775808 ≤ s.st_size + offsetInBytes →
      s.st_size + offsetInBytes < 9223372036854775808 →
      seekSeen (s.lseek offsetInBytes SEEK_END) =
        (if s.st_size + offsetInBytes ≥ s.st_size then (s.st_size, s.st_size, true)
         else (s.st_size + offsetInBytes, s.st_size + offsetInBytes, false))) ∧
    (whence = SEEK_SET ∨ whence = SEEK_CUR ∨ whence = SEEK_END ∨
      ((s.lseek offsetInBytes whence).1 = -1 ∧
        (s.lseek offsetInBytes whence).2.currentFileOffset = s.currentFileOffset)) := by
  have hoff := toOffT_of_range hlow hhigh
  refine ⟨?_, ?_, ?_, ?_⟩
  · by_cases h : s.st_size ≤ offsetInBytes <;>
      simp [lseek, hopen, SEEK_SET, seekSeen, hoff, h]
  · intro h₀ h₁
    have hsum := toOffT_of_range h₀ h₁
    by_cases h : s.st_size ≤ s.currentFileOffset + offsetInBytes <;>
      simp [lseek, hopen, SEEK_SET, SEEK_CUR, seekSeen, hoff, hsum, h]
  · intro h₀ h₁
    have hsum := toOffT_of_range h₀ h₁
    by_cases h : s.st_size ≤ s.st_size + offsetInBytes <;>
      simp only [lseek, hopen, SEEK_SET, SEEK_CUR, SEEK_END, seekSeen, hoff, hsum, h] <;>
      simp [h]
  · by_cases h0 : whence = SEEK_SET
    · exact Or.inl h0
    · by_cases h1 : whence = SEEK_CUR
      · exact Or.inr (Or.inl h1)
      · by_cases h2 : whence = SEEK_END
        · exact Or.inr (Or.inr (Or.inl h2))
        · refine Or.inr (Or.inr (Or.inr ?_))
          simp [lseek, hopen, h0, h1, h2]

/-- The contract of `lseek` at a concrete input: on the open four-byte file,
`lseek(9, SEEK_END)` is clamped to 4 with `isEof` set, `lseek(1, SEEK_SET)`
gives 1, and `whence = 7` gives `-1`. -/
theorem lseek_contract_witness :
    (opened [10, 11, 12, 13] [] 4 2).isOpen = true ∧
    seekSeen ((opened [10, 11, 12, 13] [] 4 2).lseek 1 SEEK_SET) = (1, 1, false) ∧
    seekSeen ((opened [10, 11, 12, 13] [] 4 2).lseek 9 SEEK_END) = (4, 4, true) ∧
    ((opened [10, 11, 12, 13] [] 4 2).lseek 1 7).1 = -1 := by
  have h := lseek_contract (opened [10, 11, 12, 13] [] 4 2) 1 7 (by decide!) (by decide)
    (by decide)
  have h' := lseek_contract (opened [10, 11, 12, 13] [] 4 2) 9 7 (by decide!) (by decide)
    (by decide)
  refine ⟨by decide!, ?_, ?_, ?_⟩
  · rw [h.1]; decide!
  · rw [h'.2.2.1 (by decide!) (by decide!)]; decide!
  · rcases h.2.2.2 with h7 | h7 | h7 | h7
    · exact absurd h7 (by decide)
    · exact absurd h7 (by decide)
    · exact absurd h7 (by decide)
    · exact h7.1

/-- C5, the code evaluated at the failing input. On the open four-byte file,
`lseek(1, SEEK_SET)` puts the cursor at 1. For the following
`lseek(2^63 - 1, SEEK_CUR)` the target `cursor + offset` is `2^63`, beyond
`fileSize`, so the cursor is to be put at `fileSize = 4` with `isEof` set and 4
returned; but the sum is computed in `off_t` and is `-2^63` there, which is not
at or beyond `fileSize`: the call returns `-2^63`, the cursor is `-2^63` and
`isEof` is clear. The same holds for `lseek(2^63 - 1, SEEK_END)`, where
`fileSize + offset` is `2^63 + 3`: the call returns `-2^63 + 3`. With the
offset `2^63 - 2` from the cursor 1 no sum overflows, and the call returns 4
with `isEof` set. -/
theorem lseek_of_overflowing_sum_is_not_clamped :
    (construct.openFile (hostWith [10, 11, 12, 13] []) "f" 4 2).1 = .returned true ∧
    (opened [10, 11, 12, 13] [] 4 2).st_size = 4 ∧
    seekSeen ((opened [10, 11, 12, 13] [] 4 2).lseek 1 SEEK_SET) = (1, 1, false) ∧
    ((opened [10, 11, 12, 13] [] 4 2).lseek 1 SEEK_SET).2.currentFileOffset +
      9223372036854775807 = 9223372036854775808 ∧
    seekSeen (((opened [10, 11, 12, 13] [] 4 2).lseek 1 SEEK_SET).2.lseek
      9223372036854775807 SEEK_CUR) =
      (-9223372036854775808, -9223372036854775808, false) ∧
    seekSeen ((opened [10, 11, 12, 13] [] 4 2).lseek 9223372036854775807 SEEK_END) =
      (-9223372036854775805, -9223372036854775805, false) ∧
    seekSeen (((opened [10, 11, 12, 13] [] 4 2).lseek 1 SEEK_SET).2.lseek
      9223372036854775806 SEEK_CUR) = (4, 4, true) := by
  decide!

/-- At the end of the file, `read(buffer, n)` returns 0, leaves the buffer and
the cursor alone and sets `isEof`, for every `n` with `fileSize + n < 2^64`. -/
theorem read_at_end_of_file (s : LargeFileReaderCore) (buffer : List Nat) (n : Nat)
    (hopen : s.isOpen = true) (hsize : 0 ≤ s.st_size)
    (hcursor : s.currentFileOffset = s.st_size) (hfit : s.st_size + (n : Int) < (U64 : Int)) :
    s.read buffer n =
      .ok (0, buffer, { s with isEof := true, isFail := false, isBad := false }) := by
  have hlt : s.st_size < (U64 : Int) := by omega
  have hu : toU64 s.st_size = s.st_size.toNat := toU64_of_nonneg hsize hlt
  have hmod : (s.st_size.toNat + n) % U64 = s.st_size.toNat + n :=
    Nat.mod_eq_of_lt (by omega)
  have hzero : toU64 (s.st_size - s.st_size) = 0 := by simp [toU64]
  unfold LargeFileReaderCore.read
  simp only [hopen, Bool.not_true, Bool.false_eq_true, ↓reduceIte, hcursor, hu, hmod, hzero]
  split
  · rfl
  · have hn : n = 0 := by omega
    subst hn
    rw [readLoop]
    simp [readEpilogue, hcursor]

/-- After a seek beyond the end (to a target in the range of `off_t`),
`read(buffer, n)` returns 0 and changes neither the buffer nor the cursor, for
every `n` with `fileSize + n < 2^64`. -/
theorem seek_beyond_end_then_read_in_range (s : LargeFileReaderCore) (target : Int)
    (buffer : List Nat) (n : Nat) (hopen : s.isOpen = true) (hsize : 0 ≤ s.st_size)
    (hbeyond : target > s.st_size) (hrange : target < 9223372036854775808)
    (hfit : s.st_size + (n : Int) < (U64 : Int)) :
    (s.lseek target SEEK_SET).1 = s.st_size ∧
    (s.lseek target SEEK_SET).2.isEof = true ∧
    (s.lseek target SEEK_SET).2.read buffer n =
      .ok (0, buffer, (s.lseek target SEEK_SET).2) := by
  have hseek : s.lseek target SEEK_SET =
      (s.st_size, { s with isEof := true, isFail := false, isBad := false,
                           currentFileOffset := s.st_size }) := by
    have htarget : toOffT target = target := toOffT_of_range (by omega) hrange
    simp only [lseek, hopen, SEEK_SET, htarget]
    simp [show target ≥ s.st_size by omega]
  rw [hseek]
  refine ⟨rfl, rfl, ?_⟩
  exact read_at_end_of_file _ buffer n hopen hsize rfl hfit

/-- C6, the code evaluated at the failing input. On the one-byte file opened
with `cacheBlockSize = 1`, `lseek(5, SEEK_SET)` returns 1 with `isEof` set, and
the following `read(buffer, 2^64 - 1)` has no defined result: the sum
`currentFileOffset + numberOfBytes` wraps to 0, the count is not clamped, and
the loop looks up block 1 of a one-block index (the `assert` fails). -/
theorem read_of_wrapping_count_after_seek_beyond_end :
    (construct.openFile (hostWith [1] []) "f" 1 1).1 = .returned true ∧
    seekSeen ((opened [1] [] 1 1).lseek 5 SEEK_SET) = (1, 1, true) ∧
    (toU64 ((opened [1] [] 1 1).lseek 5 SEEK_SET).2.currentFileOffset +
      18446744073709551615) % U64 = 0 ∧
    ((opened [1] [] 1 1).lseek 5 SEEK_SET).2.read [0] 18446744073709551615 =
      .error .assertion := by
  decide!

/-! ## C7: a failing physical read -/

/-- C7, the code evaluated at the failing input. On the two-byte file `7 8`
opened with `cacheMaxSize = cacheBlockSize = 2`, with the first `::read`
failing: the fetch of block 0 returns `(size_t)-1`, yet `read(buffer, 2)`
returns 2 with `isFail` clear and block 0 marked resident, and delivers the
bytes of the fresh cache allocation (`0 0` on this host), not `7 8`. A second
read of the same range is a hit and delivers the same bytes: the fault-in is
not attempted again. -/
theorem failed_physical_read_goes_unreported :
    (construct.openFile (hostWith [7, 8] [true]) "f" 2 2).1 = .returned true ∧
    (((opened [7, 8] [true] 2 2).fetchDataBlockForIndex 0).map fun r => r.1) = .ok minusOne ∧
    (((opened [7, 8] [true] 2 2).read [0, 0] 2).map
      fun r => (r.1, r.2.1, r.2.2.isFail, faultFlags r.2.2)) = .ok (2, [0, 0], false, [false]) ∧
    ((runCalls (opened [7, 8] [true] 2 2)
        [.read [0, 0] 2, .lseek 0 SEEK_SET, .read [0, 0] 2]).map
      fun r => (r.1, r.2.isFail, faultFlags r.2)) =
      .ok ([.read 2 [0, 0], .lseek 0, .read 2 [0, 0]], false, [false]) := by
  decide!

/-! ## C8 to C10: opening and closing -/

/-- C8. On a closed reader, `open` of a path that can be stat'ed with a block
size larger than the maximal cache size (after the defaults are substituted for
zero arguments) fails, by throwing `std::out_of_range`, and leaves the reader
closed with no cache and no index bound; a following `open` of a readable file
with a block size that fits returns `true` and leaves the reader open. -/
theorem open_rejects_block_larger_than_cache (host : Host) (s : LargeFileReaderCore)
    (fullFilePath : String) (file : HostFile) (cacheMaxSize cacheBlockSize : Nat)
    (retryPath : String) (retryFile : HostFile) (retryMaxSize retryBlockSize : Nat)
    (hreach : Reachable host s) (hclosed : s.isOpen = false)
    (hstat : host.files fullFilePath = some file)
    (hlarger : blockSizeOrDefault cacheBlockSize > maxSizeOrDefault cacheMaxSize)
    (hretry : host.files retryPath = some retryFile) (hopenable : retryFile.openable = true)
    (hfits : blockSizeOrDefault retryBlockSize ≤ maxSizeOrDefault retryMaxSize) :
    (s.openFile host fullFilePath cacheMaxSize cacheBlockSize).1 = .threwOutOfRange ∧
    (s.openFile host fullFilePath cacheMaxSize cacheBlockSize).2.isOpen = false ∧
    (s.openFile host fullFilePath cacheMaxSize cacheBlockSize).2.fileDataBlocks = none ∧
    (s.openFile host fullFilePath cacheMaxSize cacheBlockSize).2.fileCacheIndex = none ∧
    ((s.openFile host fullFilePath cacheMaxSize cacheBlockSize).2.openFile host retryPath
      retryMaxSize retryBlockSize).1 = .returned true ∧
    ((s.openFile host fullFilePath cacheMaxSize cacheBlockSize).2.openFile host retryPath
      retryMaxSize retryBlockSize).2.isOpen = true := by
  have hclean := reachable_closedClean hreach hclosed
  have hfail : s.openFile host fullFilePath cacheMaxSize cacheBlockSize =
      (.threwOutOfRange,
        { s with filePath := fullFilePath, st_size := (file.bytes.length : Int) }) := by
    simp [openFile, hclosed, hstat, hlarger]
  rw [hfail]
  refine ⟨rfl, hclosed, hclean.2.2.2.1, hclean.2.2.2.2.1, ?_, ?_⟩
  · simp [openFile, hclosed, hretry, Nat.not_lt.mpr hfits, hopenable]
  · simp [openFile, hclosed, hretry, Nat.not_lt.mpr hfits, hopenable]

/-- C8 at a concrete input: on a fresh reader, `open("f", 2, 4)` throws and
leaves it closed, and `open("f", 4, 2)` then succeeds. -/
theorem open_rejects_block_larger_than_cache_witness :
    (construct.openFile (hostWith [1, 2, 3] []) "f" 2 4).1 = .threwOutOfRange ∧
    (construct.openFile (hostWith [1, 2, 3] []) "f" 2 4).2.isOpen = false ∧
    (construct.openFile (hostWith [1, 2, 3] []) "f" 2 4).2.fileDataBlocks = none ∧
    (construct.openFile (hostWith [1, 2, 3] []) "f" 2 4).2.fileCacheIndex = none ∧
    ((construct.openFile (hostWith [1, 2, 3] []) "f" 2 4).2.openFile (hostWith [1, 2, 3] []) "f"
      4 2).1 = .returned true ∧
    ((construct.openFile (hostWith [1, 2, 3] []) "f" 2 4).2.openFile (hostWith [1, 2, 3] []) "f"
      4 2).2.isOpen = true :=
  open_rejects_block_larger_than_cache (hostWith [1, 2, 3] []) construct "f"
    { bytes := [1, 2, 3], openable := true, faults := [] } 2 4 "f"
    { bytes := [1, 2, 3], openable := true, faults := [] } 4 2
    Reachable.construct rfl rfl (by decide) rfl rfl (by decide)

/-- C9. On an open reader, `open` with any path and any parameters (and the
one-argument overload) returns `false` and leaves the whole state as it was. -/
theorem open_on_open_reader_changes_nothing (host : Host) (s : LargeFileReaderCore)
    (fullFilePath : String) (cacheMaxSize cacheBlockSize : Nat) (hopen : s.isOpen = true) :
    s.openFile host fullFilePath cacheMaxSize cacheBlockSize = (.returned false, s) ∧
    s.openDefault host fullFilePath = (.returned false, s) := by
  simp [openDefault, openFile, hopen]

/-- C9 at a concrete input: a second `open` on the open four-byte reader. -/
theorem open_on_open_reader_changes_nothing_witness :
    (opened [10, 11, 12, 13] [] 4 2).isOpen = true ∧
    (opened [10, 11, 12, 13] [] 4 2).openFile (hostWith [1] []) "g" 8 2 =
      (.returned false, opened [10, 11, 12, 13] [] 4 2) ∧
    (opened [10, 11, 12, 13] [] 4 2).openDefault (hostWith [1] []) "g" =
      (.returned false, opened [10, 11, 12, 13] [] 4 2) :=
  ⟨by decide!,
    open_on_open_reader_changes_nothing (hostWith [1] []) (opened [10, 11, 12, 13] [] 4 2) "g"
      8 2 (by decide!)⟩

/-- C10. For every state the interface can produce: closing twice is closing
once, `close` on a closed reader changes nothing, and after `close` the flags
`isOpen`, `isEof`, `isFail`, `isBad` are all false. -/
theorem close_idempotent (host : Host) (s : LargeFileReaderCore) (hreach : Reachable host s) :
    s.close.close = s.close ∧
    (s.isOpen = true ∨ s.close = s) ∧
    s.close.isOpen = false ∧ s.close.isEof = false ∧
    s.close.isFail = false ∧ s.close.isBad = false := by
  have hclean := reachable_closedClean hreach
  refine ⟨close_close s, ?_, ?_⟩
  · cases hopen : s.isOpen
    · exact Or.inr (by simp [close, hopen])
    · exact Or.inl rfl
  · cases hopen : s.isOpen
    · have h := hclean hopen
      simp [close, hopen, h.1, h.2.1, h.2.2.1]
    · simp [close, hopen]

/-- C10 at a concrete input: closing the open four-byte reader after a seek
beyond the end of the file (so `isEof` was set). -/
theorem close_idempotent_witness :
    ((opened [10, 11, 12, 13] [] 4 2).lseek 9 SEEK_SET).2.isEof = true ∧
    ((opened [10, 11, 12, 13] [] 4 2).lseek 9 SEEK_SET).2.close.close =
      ((opened [10, 11, 12, 13] [] 4 2).lseek 9 SEEK_SET).2.close ∧
    ((opened [10, 11, 12, 13] [] 4 2).lseek 9 SEEK_SET).2.close.isOpen = false ∧
    ((opened [10, 11, 12, 13] [] 4 2).lseek 9 SEEK_SET).2.close.isEof = false := by
  have h := close_idempotent (hostWith [10, 11, 12, 13] [])
    ((opened [10, 11, 12, 13] [] 4 2).lseek 9 SEEK_SET).2
    (Reachable.lseek 9 SEEK_SET (Reachable.openFile "f" 4 2 Reachable.construct))
  exact ⟨by decide!, h.1, h.2.2.1, h.2.2.2.1⟩

/-! ## C11: calls on a closed reader -/

/-- C11. On a closed reader (`isOpen` false: never opened, or closed again),
`lseek` with any offset and any `whence` returns `-1` and `read` with any
buffer and any count returns `(size_t)-1`, and each leaves the whole state of
the reader as it was, flags and cursor included; `read` leaves the caller's
buffer as it was. -/
theorem closed_reader_rejects_lseek_and_read (s : LargeFileReaderCore)
    (offsetInBytes whence : Int) (buffer : List Nat) (numberOfBytes : Nat)
    (hclosed : s.isOpen = false) :
    s.lseek offsetInBytes whence = (-1, s) ∧
    s.read buffer numberOfBytes = .ok (minusOne, buffer, s) ∧
    toI64 minusOne = -1 := by
  refine ⟨?_, ?_, by decide⟩
  · simp [lseek, hclosed]
  · simp [LargeFileReaderCore.read, hclosed]

/-- C11 at concrete inputs: a reader that was opened on the four-byte file, moved
to the end of it (so `isEof` was set) and closed. -/
theorem closed_reader_rejects_lseek_and_read_witness :
    ((opened [10, 11, 12, 13] [] 4 2).lseek 9 SEEK_SET).2.close.isOpen = false ∧
    ((opened [10, 11, 12, 13] [] 4 2).lseek 9 SEEK_SET).2.close.lseek 1 SEEK_SET =
      (-1, ((opened [10, 11, 12, 13] [] 4 2).lseek 9 SEEK_SET).2.close) ∧
    ((opened [10, 11, 12, 13] [] 4 2).lseek 9 SEEK_SET).2.close.read [5, 6] 2 =
      .ok (minusOne, [5, 6], ((opened [10, 11, 12, 13] [] 4 2).lseek 9 SEEK_SET).2.close) := by
  have h := closed_reader_rejects_lseek_and_read
    ((opened [10, 11, 12, 13] [] 4 2).lseek 9 SEEK_SET).2.close 1 SEEK_SET [5, 6] 2 (by decide!)
  exact ⟨by decide!, h.1, h.2.1⟩

/-! ## C12 and C13: the size of the cache -/

theorem smallestMultipleCovering_ceilDiv (a : Nat) {b : Nat} (hb : 0 < b) :
    SmallestMultipleCovering b a (ceilDiv a b * b) := by
  refine ⟨Dvd.intro_left _ rfl, le_ceilDiv_mul a hb, ?_⟩
  rintro k ⟨q, rfl⟩ hk
  rw [Nat.mul_comm b q]
  apply Nat.mul_le_mul_right
  unfold ceilDiv
  apply Nat.le_of_lt_succ
  rw [Nat.div_lt_iff_lt_mul hb, Nat.succ_mul]
  rw [Nat.mul_comm] at hk
  omega

/-- C12 as stated fails: on a file of 100 bytes, `open(path, 10, 4)` succeeds
and makes `cacheActualSize` 10, the requested maximum, which is not a multiple
of the block size 4 (the smallest multiple of 4 that is at least
`min(100, 10)` is 12). -/
theorem actual_size_is_not_rounded_up_when_file_is_larger :
    (construct.openFile (hostWith (List.replicate 100 0) []) "f" 10 4).1 = .returned true ∧
    (opened (List.replicate 100 0) [] 10 4).cacheActualSize = 10 ∧
    SmallestMultipleCovering 4 (min 100 10) 12 ∧
    ¬ SmallestMultipleCovering 4 (min 100 10)
      (opened (List.replicate 100 0) [] 10 4).cacheActualSize := by
  have h : (opened (List.replicate 100 0) [] 10 4).cacheActualSize = 10 := by decide!
  refine ⟨by decide!, h, ?_, ?_⟩
  · exact smallestMultipleCovering_ceilDiv 10 (by decide : 0 < 4)
  · rw [h]
    intro hs
    have := hs.1
    omega

/-- C12, amended. After a successful `open(path, cacheMaxSize, blockSize)` with
`0 < blockSize <= cacheMaxSize` on a file of `fileSize` bytes: when
`fileSize < cacheMaxSize`, `cacheActualSize` is the smallest multiple of
`blockSize` that is at least `fileSize`; otherwise `cacheActualSize` is
`cacheMaxSize` itself, rounded neither up nor down. It is the smallest multiple
of `blockSize` that is at least `min(fileSize, cacheMaxSize)` whenever
`cacheMaxSize` is a multiple of `blockSize`. -/
theorem actual_size_after_open (s : LargeFileReaderCore) (host : Host) (fullFilePath : String)
    (file : HostFile) (cacheMaxSize cacheBlockSize : Nat)
    (hfile : host.files fullFilePath = some file)
    (hsize : file.bytes.length < 9223372036854775808)
    (hpos : 0 < cacheBlockSize) (hle : cacheBlockSize ≤ cacheMaxSize)
    (hopen : (s.openFile host fullFilePath cacheMaxSize cacheBlockSize).1 = .returned true) :
    (file.bytes.length < cacheMaxSize →
      SmallestMultipleCovering cacheBlockSize file.bytes.length
        (s.openFile host fullFilePath cacheMaxSize cacheBlockSize).2.cacheActualSize) ∧
    (cacheMaxSize ≤ file.bytes.length →
      (s.openFile host fullFilePath cacheMaxSize cacheBlockSize).2.cacheActualSize =
        cacheMaxSize) ∧
    (cacheBlockSize ∣ cacheMaxSize →
      SmallestMultipleCovering cacheBlockSize (min file.bytes.length cacheMaxSize)
        (s.openFile host fullFilePath cacheMaxSize cacheBlockSize).2.cacheActualSize) := by
  have hU : U64 = 18446744073709551616 := rfl
  have hB : blockSizeOrDefault cacheBlockSize = cacheBlockSize := by
    simp [blockSizeOrDefault, Nat.pos_iff_ne_zero.mp hpos]
  have hM : maxSizeOrDefault cacheMaxSize = cacheMaxSize := by
    simp [maxSizeOrDefault, Nat.pos_iff_ne_zero.mp (Nat.lt_of_lt_of_le hpos hle)]
  have hlenU : toU64 (file.bytes.length : Int) = file.bytes.length :=
    toU64_natCast (by omega)
  have hactual : (s.openFile host fullFilePath cacheMaxSize cacheBlockSize).2.cacheActualSize =
      if file.bytes.length < cacheMaxSize then
        ceilDiv file.bytes.length cacheBlockSize * cacheBlockSize
      else cacheMaxSize := by
    unfold openFile at hopen ⊢
    cases hso : s.isOpen with
    | true => simp [hso] at hopen
    | false =>
      cases hop : file.openable with
      | false => simp [hso, hfile, hB, hM, Nat.not_lt.mpr hle, hop] at hopen
      | true =>
        simp [hso, hfile, hB, hM, Nat.not_lt.mpr hle, hop, actualSizeFor, hlenU]
  rw [hactual]
  refine ⟨?_, ?_, ?_⟩
  · intro hlt
    rw [if_pos hlt]
    exact smallestMultipleCovering_ceilDiv _ hpos
  · intro hge
    rw [if_neg (Nat.not_lt.mpr hge)]
  · intro hdvd
    by_cases hlt : file.bytes.length < cacheMaxSize
    · rw [if_pos hlt, Nat.min_eq_left (Nat.le_of_lt hlt)]
      exact smallestMultipleCovering_ceilDiv _ hpos
    · rw [if_neg hlt, Nat.min_eq_right (Nat.not_lt.mp hlt)]
      exact ⟨hdvd, Nat.le_refl _, fun k _ hk => hk⟩

/-- C12 (amended) at concrete inputs: a file of 9 bytes opened with
`cacheMaxSize = 10` and `cacheBlockSize = 4` gets a cache of 12 bytes, the
smallest multiple of 4 that is at least 9. -/
theorem actual_size_after_open_witness :
    (construct.openFile (hostWith (List.replicate 9 0) []) "f" 10 4).1 = .returned true ∧
    SmallestMultipleCovering 4 9 (opened (List.replicate 9 0) [] 10 4).cacheActualSize := by
  have h := actual_size_after_open construct (hostWith (List.replicate 9 0) []) "f"
    { bytes := List.replicate 9 0, openable := true, faults := [] } 10 4 rfl (by decide)
    (by decide) (by decide) (by decide!)
  exact ⟨by decide!, h.1 (by decide)⟩

/-- C13, the code evaluated at the failing input. On a file of 9 bytes,
`open(path, 10, 4)` succeeds with `cacheMaxSize = 10` and makes
`cacheActualSize` 12, three blocks of 4 bytes: the cache is larger than the
requested maximum. -/
theorem actual_size_exceeds_max_size :
    (construct.openFile (hostWith (List.replicate 9 0) []) "f" 10 4).1 = .returned true ∧
    (opened (List.replicate 9 0) [] 10 4).cacheMaxSize = 10 ∧
    (opened (List.replicate 9 0) [] 10 4).cacheBlockSize = 4 ∧
    (opened (List.replicate 9 0) [] 10 4).st_size = 9 ∧
    (opened (List.replicate 9 0) [] 10 4).cacheActualSize = 12 ∧
    (opened (List.replicate 9 0) [] 10 4).maxNumberOfCachedFileDataBlocks = 3 ∧
    ((opened (List.replicate 9 0) [] 10 4).fileDataBlocks.map fun mem => mem.length) =
      some 12 := by
  decide!

/-! ## The cursor and the end-of-file flag -/

theorem sized_of_sameFile {s t : LargeFileReaderCore} (h : SameFile s t) (hs : Sized s) :
    Sized t := by
  obtain ⟨h1, h2, -, -, -, -, h7, h8⟩ := h
  exact ⟨h1.trans hs.isOpen, h2 ▸ hs.blockSize_pos, h2 ▸ hs.blockSize_lt, h8 ▸ hs.size_nonneg,
    h8 ▸ hs.size_lt, by rw [h7, h8, h2]; exact hs.total_eq⟩

theorem sized_of_configured {s : LargeFileReaderCore} (hc : Configured s) : Sized s :=
  ⟨hc.isOpen, hc.blockSize_pos, hc.blockSize_lt, hc.size_nonneg, hc.size_lt, hc.total_eq⟩

/-- What a successful `open` leaves: the reader is sized, with the cursor at 0. -/
theorem openFile_sized (s : LargeFileReaderCore) (host : Host) (fullFilePath : String)
    (file : HostFile) (cacheMaxSize cacheBlockSize : Nat)
    (hfile : host.files fullFilePath = some file)
    (hsize : file.bytes.length < 9223372036854775808)
    (hblock : cacheBlockSize < U64)
    (hopen : (s.openFile host fullFilePath cacheMaxSize cacheBlockSize).1 = .returned true) :
    Sized (s.openFile host fullFilePath cacheMaxSize cacheBlockSize).2 ∧
    (s.openFile host fullFilePath cacheMaxSize cacheBlockSize).2.currentFileOffset = 0 ∧
    (s.openFile host fullFilePath cacheMaxSize cacheBlockSize).2.st_size =
      (file.bytes.length : Int) := by
  have hU : U64 = 18446744073709551616 := rfl
  have hbs := blockSizeOrDefault_pos cacheBlockSize
  have hbs64 : blockSizeOrDefault cacheBlockSize < U64 := by
    unfold blockSizeOrDefault cacheDefaultBlockSize
    split <;> omega
  have hso : s.isOpen = false := by
    cases hso : s.isOpen with
    | true => simp [openFile, hso] at hopen
    | false => rfl
  have hgt : ¬ blockSizeOrDefault cacheBlockSize > maxSizeOrDefault cacheMaxSize := by
    intro hgt
    simp [openFile, hso, hfile, hgt] at hopen
  have hop : file.openable = true := by
    cases hop : file.openable with
    | false => simp [openFile, hso, hfile, hgt, hop] at hopen
    | true => rfl
  have hstate : (s.openFile host fullFilePath cacheMaxSize cacheBlockSize).2.isOpen = true ∧
      (s.openFile host fullFilePath cacheMaxSize cacheBlockSize).2.cacheBlockSize =
        blockSizeOrDefault cacheBlockSize ∧
      (s.openFile host fullFilePath cacheMaxSize cacheBlockSize).2.st_size =
        (file.bytes.length : Int) ∧
      (s.openFile host fullFilePath cacheMaxSize cacheBlockSize).2.totalNumberOfFileCacheIndexEntries =
        ((ceilDiv (file.bytes.length : Int).toNat (blockSizeOrDefault cacheBlockSize) : Nat) : Int) ∧
      (s.openFile host fullFilePath cacheMaxSize cacheBlockSize).2.currentFileOffset = 0 := by
    simp [openFile, hso, hfile, hgt, hop]
  obtain ⟨h1, h2, h3, h4, h5⟩ := hstate
  refine ⟨⟨h1, by rw [h2]; exact hbs, by rw [h2]; exact hbs64, ?_, ?_, ?_⟩, h5, h3⟩
  · rw [h3]
    exact Int.natCast_nonneg _
  · rw [h3]
    exact_mod_cast hsize
  · rw [h4, h3, h2]

theorem takeCacheBlock_frame {s t : LargeFileReaderCore} {index : Int}
    (h : s.takeCacheBlock index = .ok t) : FetchFrame s t := by
  unfold takeCacheBlock at h
  split at h
  · simp only [bind_eq_ok, pure_eq_ok] at h
    obtain ⟨_, -, _, -, _, -, rfl⟩ := h
    rfl
  · simp only [bind_eq_ok, pure_eq_ok] at h
    obtain ⟨_, -, _, -, _, -, _, -, _, -, _, -, rfl⟩ := h
    rfl

theorem readIntoCacheBlock_frame {s t : LargeFileReaderCore} {index : Int} {r : Nat}
    (h : s.readIntoCacheBlock index = .ok (r, t)) :
    FetchFrame s t ∧ t.fileCacheIndex = s.fileCacheIndex := by
  unfold readIntoCacheBlock at h
  simp only [bind_eq_ok, pure_eq_ok] at h
  obtain ⟨_, -, _, -, _, -, h⟩ := h
  split at h
  · simp only [pure_eq_ok, Prod.mk.injEq] at h
    obtain ⟨-, rfl⟩ := h
    exact ⟨rfl, rfl⟩
  · simp only [bind_eq_ok, pure_eq_ok, Prod.mk.injEq] at h
    obtain ⟨_, -, -, rfl⟩ := h
    exact ⟨rfl, rfl⟩

theorem fetchFrame_trans {s t u : LargeFileReaderCore} (h₁ : FetchFrame s t)
    (h₂ : FetchFrame t u) : FetchFrame s u := by
  unfold FetchFrame at *
  rw [h₂, h₁]

/-- The two last assignments to the index in either branch of
`fetchDataBlockForIndex(index)` leave the entry `index` not faulted. -/
theorem not_fault_after_bind {ix ix₁ ix₂ : List FileCacheIndexEntry} {index mru : Int}
    {f : FileCacheIndexEntry → FileCacheIndexEntry} (hf : ∀ e, (f e).isFault = false)
    (h₁ : updateAt ix index f = .ok ix₁) (h₂ : setNextUsed ix₁ mru index = .ok ix₂) :
    ∃ e, entryAt ix₂ index = .ok e ∧ e.isFault = false := by
  unfold updateAt at h₁
  split at h₁
  · rename_i hidx
    split at h₁
    · rename_i e he
      cases h₁
      have hlt : index.toNat < ix.length := (getElem?_lt he)
      unfold setNextUsed at h₂
      split at h₂
      · unfold updateAt at h₂
        split at h₂
        · split at h₂
          · rename_i e' he'
            cases h₂
            unfold entryAt
            rw [if_pos hidx]
            by_cases hsame : mru.toNat = index.toNat
            · rw [hsame, List.getElem?_set_self (by simpa using hlt)]
              rw [hsame, List.getElem?_set_self hlt] at he'
              cases he'
              exact ⟨_, rfl, hf e⟩
            · rw [List.getElem?_set_ne hsame, List.getElem?_set_self hlt]
              exact ⟨_, rfl, hf e⟩
          · cases h₂
        · cases h₂
      · cases h₂
        unfold entryAt
        rw [if_pos hidx, List.getElem?_set_self hlt]
        exact ⟨_, rfl, hf e⟩
    · cases h₁
  · cases h₁

theorem takeCacheBlock_not_fault {s t : LargeFileReaderCore} {index : Int}
    (h : s.takeCacheBlock index = .ok t) :
    ∃ ix e, t.fileCacheIndex = some ix ∧ entryAt ix index = .ok e ∧ e.isFault = false := by
  unfold takeCacheBlock at h
  split at h
  · simp only [bind_eq_ok, pure_eq_ok] at h
    obtain ⟨_, -, ix₁, h₁, ix₂, h₂, rfl⟩ := h
    obtain ⟨e, he, hfe⟩ := not_fault_after_bind (fun _ => rfl) h₁ h₂
    exact ⟨ix₂, e, rfl, he, hfe⟩
  · simp only [bind_eq_ok, pure_eq_ok] at h
    obtain ⟨_, -, _, -, _, -, _, -, ix₁, h₁, ix₂, h₂, rfl⟩ := h
    obtain ⟨e, he, hfe⟩ := not_fault_after_bind (fun _ => rfl) h₁ h₂
    exact ⟨ix₂, e, rfl, he, hfe⟩

/-- The fetch-if-faulted step of `read` changes nothing but the cache state, and
leaves the entry not faulted. -/
theorem fetchIfFault_frame {s t : LargeFileReaderCore} {ix : List FileCacheIndexEntry}
    {e : FileCacheIndexEntry} {index : Int} (hix : s.fileCacheIndex = some ix)
    (he : entryAt ix index = .ok e) (h : s.fetchIfFault e.isFault index = .ok t) :
    FetchFrame s t ∧
    ∃ ix' e', t.fileCacheIndex = some ix' ∧ entryAt ix' index = .ok e' ∧ e'.isFault = false := by
  unfold fetchIfFault at h
  split at h
  · simp only [bind_eq_ok, pure_eq_ok] at h
    obtain ⟨r, h₁, rfl⟩ := h
    unfold fetchDataBlockForIndex at h₁
    simp only [bind_eq_ok] at h₁
    obtain ⟨u, hu, hr⟩ := h₁
    obtain ⟨ix', e', hix', he', hf'⟩ := takeCacheBlock_not_fault hu
    obtain ⟨hframe, hsame⟩ := @readIntoCacheBlock_frame _ r.2 _ r.1 hr
    exact ⟨fetchFrame_trans (takeCacheBlock_frame hu) hframe, ix', e', hsame.trans hix', he', hf'⟩
  · rename_i hnot
    cases h
    exact ⟨fetchFrame_refl s, ix, e, hix, he, by simpa using hnot⟩

/-- The quantities of one pass of the loop of `read`, for a cursor in
`[0, fileSize]`: the block is `cursor / blockSize`, the offset in it
`cursor % blockSize`; the length wanted is the smaller of the rest of the block
and the rest of the count, and it is cut down to `fileSize - cursor` when it
passes the end of the file. -/
theorem pass_quantities_to_end {t : LargeFileReaderCore} (hs : Sized t) {n total : Nat}
    (hcur : 0 ≤ t.currentFileOffset) (hend : t.currentFileOffset ≤ t.st_size)
    (htotal : total < n) :
    t.dataBlockIndex = t.currentFileOffset.toNat / t.cacheBlockSize ∧
    t.dataBlockIndex < 9223372036854775808 ∧
    0 < t.wantedLength t.dataBlockIndex n total ∧
    t.wantedLength t.dataBlockIndex n total ≤ n - total ∧
    (t.beyondEnd t.dataBlockIndex n total = true ↔
      t.st_size < t.currentFileOffset + (t.wantedLength t.dataBlockIndex n total : Nat)) ∧
    (t.beyondEnd t.dataBlockIndex n total = true →
      ((t.lengthInDataBlock t.dataBlockIndex n total : Nat) : Int) =
        t.st_size - t.currentFileOffset) ∧
    (t.beyondEnd t.dataBlockIndex n total = false →
      t.lengthInDataBlock t.dataBlockIndex n total = t.wantedLength t.dataBlockIndex n total) ∧
    toI64 ((toU64 t.currentFileOffset + t.lengthInDataBlock t.dataBlockIndex n total) % U64) =
      t.currentFileOffset + (t.lengthInDataBlock t.dataBlockIndex n total : Nat) := by
  have hbs := hs.blockSize_pos
  have hbs64 := hs.blockSize_lt
  have hsize := hs.size_lt
  have hsize0 := hs.size_nonneg
  have hU : U64 = 18446744073709551616 := rfl
  obtain ⟨c, hcdef⟩ : ∃ c : Nat, t.currentFileOffset = (c : Int) :=
    ⟨t.currentFileOffset.toNat, (Int.toNat_of_nonneg hcur).symm⟩
  obtain ⟨size, hsdef⟩ : ∃ size : Nat, t.st_size = (size : Int) :=
    ⟨t.st_size.toNat, (Int.toNat_of_nonneg hsize0).symm⟩
  rw [hcdef, hsdef] at hend
  rw [hsdef] at hsize
  have hcle : c ≤ size := by omega
  have hc64 : c < U64 := by omega
  have hcu : toU64 t.currentFileOffset = c := by
    rw [hcdef]
    exact toU64_natCast hc64
  have hsu : toU64 t.st_size = size := by
    rw [hsdef]
    exact toU64_natCast (by omega)
  have hctn : t.currentFileOffset.toNat = c := by
    rw [hcdef]
    simp
  have hidx : t.dataBlockIndex = c / t.cacheBlockSize := by
    unfold dataBlockIndex
    rw [hcu]
  have hdivle : c / t.cacheBlockSize ≤ c := Nat.div_le_self _ _
  have hdm := Nat.div_add_mod c t.cacheBlockSize
  have hmodlt := Nat.mod_lt c hbs
  have hcomm : c / t.cacheBlockSize * t.cacheBlockSize = t.cacheBlockSize * (c / t.cacheBlockSize) :=
    Nat.mul_comm _ _
  have hoff : t.offsetInDataBlock (c / t.cacheBlockSize) = c % t.cacheBlockSize := by
    unfold offsetInDataBlock
    rw [hcu]
    generalize hp : c / t.cacheBlockSize * t.cacheBlockSize = p at hcomm ⊢
    have hpc : p ≤ c := by omega
    rw [Nat.mod_eq_of_lt (show p < U64 by omega)]
    have : c + (U64 - p) = U64 + c % t.cacheBlockSize := by omega
    rw [this, Nat.add_mod_left]
    exact Nat.mod_eq_of_lt (by omega)
  have hfull : (t.cacheBlockSize + (U64 - c % t.cacheBlockSize)) % U64 =
      t.cacheBlockSize - c % t.cacheBlockSize := by
    have : t.cacheBlockSize + (U64 - c % t.cacheBlockSize) =
        U64 + (t.cacheBlockSize - c % t.cacheBlockSize) := by omega
    rw [this, Nat.add_mod_left]
    exact Nat.mod_eq_of_lt (by omega)
  have hwanted : t.wantedLength (c / t.cacheBlockSize) n total =
      min (t.cacheBlockSize - c % t.cacheBlockSize) (n - total) := by
    unfold wantedLength
    rw [hoff, hfull]
    split <;> omega
  -- the end of the block is below `2^64`
  have hblockEnd : c + (t.cacheBlockSize - c % t.cacheBlockSize) < U64 := by
    rcases Nat.eq_zero_or_pos (c / t.cacheBlockSize) with hz | hp
    · rw [hz] at hdm
      omega
    · have : t.cacheBlockSize * 1 ≤ t.cacheBlockSize * (c / t.cacheBlockSize) :=
        Nat.mul_le_mul_left _ hp
      omega
  generalize hw : min (t.cacheBlockSize - c % t.cacheBlockSize) (n - total) = w at hwanted
  have hwle : w ≤ n - total := by omega
  have hwle2 : w ≤ t.cacheBlockSize - c % t.cacheBlockSize := by omega
  have hwpos : 0 < w := by omega
  have hbeyond : t.beyondEnd (c / t.cacheBlockSize) n total = decide (size < c + w) := by
    unfold beyondEnd
    rw [hwanted, hcu, hsu, Nat.mod_eq_of_lt (by omega)]
  have hclamp : toU64 (t.st_size - t.currentFileOffset) = size - c := by
    have : t.st_size - t.currentFileOffset = ((size - c : Nat) : Int) := by
      rw [hcdef, hsdef]
      omega
    rw [this]
    exact toU64_natCast (by omega)
  rw [hidx, hctn, hwanted, hbeyond, hcu, hcdef, hsdef]
  refine ⟨rfl, by omega, hwpos, hwle, ?_, ?_, ?_, ?_⟩
  · simp only [decide_eq_true_eq]
    omega
  · intro hb
    unfold lengthInDataBlock
    rw [hbeyond, hb, if_pos rfl, hclamp]
    omega
  · intro hb
    unfold lengthInDataBlock
    rw [hbeyond, hb, hwanted]
    simp
  · have hlen : c + t.lengthInDataBlock (c / t.cacheBlockSize) n total ≤ size := by
      unfold lengthInDataBlock
      rw [hbeyond, hwanted, hclamp]
      by_cases hb : size < c + w
      · simp only [hb, decide_True, if_true]
        omega
      · simp only [hb, decide_False, Bool.false_eq_true, if_false]
        omega
    generalize t.lengthInDataBlock (c / t.cacheBlockSize) n total = len at hlen ⊢
    rw [Nat.mod_eq_of_lt (by omega), toI64_of_lt (by omega)]
    push_cast
    rfl

theorem sized_of_fetchFrame {s t : LargeFileReaderCore} (h : FetchFrame s t) (hs : Sized s) :
    Sized t := by
  unfold FetchFrame at h
  rw [h]
  exact ⟨hs.isOpen, hs.blockSize_pos, hs.blockSize_lt, hs.size_nonneg, hs.size_lt, hs.total_eq⟩

theorem indexArray_eq_ok {s : LargeFileReaderCore} {ix : List FileCacheIndexEntry}
    (h : s.indexArray = .ok ix) : s.fileCacheIndex = some ix := by
  unfold indexArray at h
  split at h
  · cases h
    assumption
  · cases h

/-- One pass of the loop of `read` that ends with a defined result, for a cursor
in `[0, fileSize]`. A pass that returns does so with the cursor at the end of
the file and `isEof` set. A pass that reaches its end has copied between one
and `numberOfBytes - totalBytesRead` bytes and advanced the cursor by as many,
not beyond the end of the file, and has set `isEof` only if the cursor reached
the end of the file. -/
theorem readBody_cursor {s : LargeFileReaderCore} (hs : Sized s) {buffer : List Nat}
    {n total : Nat} (hcur : 0 ≤ s.currentFileOffset) (hend : s.currentFileOffset ≤ s.st_size)
    (htotal : total < n) {p : Pass} (h : s.readBody buffer n total = .ok p) :
    (∀ result out t, p = .returned result out t →
      t.isEof = true ∧ t.currentFileOffset = s.st_size) ∧
    (∀ t out next, p = .continued t out next →
      total < next ∧ next ≤ n ∧
      t.currentFileOffset = s.currentFileOffset + ((next - total : Nat) : Int) ∧
      t.currentFileOffset ≤ s.st_size ∧
      (t.isEof = true → s.isEof = true ∨ t.currentFileOffset = s.st_size)) := by
  obtain ⟨-, hsmall, -⟩ := pass_quantities_to_end hs hcur hend htotal
  unfold readBody at h
  split at h
  · cases h
  split at h
  · cases h
  simp only [bind_eq_ok, pure_eq_ok] at h
  obtain ⟨ix, hix, e, he, u, hu, ix', hix', e', he', h⟩ := h
  rw [toI64_of_lt hsmall] at hu
  obtain ⟨hframe, ix'', e'', hix'', he'', hf''⟩ :=
    fetchIfFault_frame (indexArray_eq_ok hix) he hu
  have hixeq : ix' = ix'' := by
    have := (indexArray_eq_ok hix').symm.trans hix''
    cases this
    rfl
  subst hixeq
  rw [he''] at he'
  cases he'
  rw [hf''] at h
  simp only [Bool.false_eq_true, if_false] at h
  have hsu : Sized u := sized_of_fetchFrame hframe hs
  have hcuru : u.currentFileOffset = s.currentFileOffset := by rw [hframe]
  have hsizeu : u.st_size = s.st_size := by rw [hframe]
  have hbsu : u.cacheBlockSize = s.cacheBlockSize := by rw [hframe]
  have heofu : u.isEof = s.isEof := by rw [hframe]
  have hidxu : u.dataBlockIndex = s.dataBlockIndex := by
    unfold dataBlockIndex
    rw [hcuru, hbsu]
  obtain ⟨-, -, hwpos, hwle, hbeyond, hlenb, hlenw, hnewcur⟩ :=
    @pass_quantities_to_end u hsu n total (by rw [hcuru]; exact hcur)
      (by rw [hcuru, hsizeu]; exact hend) htotal
  rw [hidxu] at hwpos hwle hbeyond hlenb hlenw hnewcur
  rw [hcuru, hsizeu] at hbeyond hlenb
  unfold copyFromBlock at h
  split at h
  · rename_i hzero
    split at h
    · rename_i hb
      cases h
      refine ⟨?_, ?_⟩
      · intro result out t heq
        cases heq
        refine ⟨rfl, ?_⟩
        show u.currentFileOffset = s.st_size
        have := hlenb hb
        rw [hzero] at this
        rw [hcuru]
        omega
      · intro t out next heq
        cases heq
    · rename_i hb
      have := hlenw (by simpa using hb)
      omega
  · rename_i hzero
    simp only [bind_eq_ok, pure_eq_ok] at h
    obtain ⟨_, -, _, -, out, -, h⟩ := h
    cases h
    refine ⟨?_, ?_⟩
    · intro result out t heq
      cases heq
    · intro t out next heq
      cases heq
      generalize hlen : u.lengthInDataBlock s.dataBlockIndex n total = len at *
      generalize hw : u.wantedLength s.dataBlockIndex n total = w at *
      have hsub : total + len - total = len := by omega
      cases hb : u.beyondEnd s.dataBlockIndex n total with
      | true =>
        have h1 := hlenb hb
        have h2 := hbeyond.mp hb
        refine ⟨by omega, by omega, ?_, ?_, ?_⟩
        · show toI64 _ = _
          rw [hnewcur, hcuru, hsub]
        · show toI64 _ ≤ _
          rw [hnewcur, hcuru]
          omega
        · intro _
          right
          show toI64 _ = _
          rw [hnewcur, hcuru]
          omega
      | false =>
        have h1 := hlenw hb
        have h2 : ¬ s.st_size < s.currentFileOffset + (w : Int) := by
          intro hlt
          have := hbeyond.mpr hlt
          rw [hb] at this
          cases this
        refine ⟨by omega, by omega, ?_, ?_, ?_⟩
        · show toI64 _ = _
          rw [hnewcur, hcuru, hsub]
        · show toI64 _ ≤ _
          rw [hnewcur, hcuru]
          omega
        · intro heof
          left
          have : (false || u.isEof) = true := heof
          rw [Bool.false_or, heofu] at this
          exact this

/-- The loop of `read` on a cursor in `[0, fileSize]`, entered with `isEof` set
only if the rest of the count reaches the end of the file: when it returns, the
cursor is in `[0, fileSize]` and `isEof` is set exactly when the cursor is at
the end of the file. -/
theorem readLoop_eof (fuel : Nat) :
    ∀ (s : LargeFileReaderCore) (buffer : List Nat) (n total : Nat)
      (r : Nat × List Nat × LargeFileReaderCore),
      Sized s → 0 ≤ s.currentFileOffset → s.currentFileOffset ≤ s.st_size →
      (s.isEof = true → s.st_size ≤ s.currentFileOffset + ((n - total : Nat) : Int)) →
      readLoop fuel s buffer n total = .ok r →
      (r.2.2.isEof = true ↔ r.2.2.currentFileOffset = r.2.2.st_size) ∧
      0 ≤ r.2.2.currentFileOffset ∧ r.2.2.currentFileOffset ≤ r.2.2.st_size := by
  have hepilogue : ∀ (s : LargeFileReaderCore) (buffer : List Nat) (n total : Nat),
      0 ≤ s.currentFileOffset → s.currentFileOffset ≤ s.st_size →
      (s.isEof = true → s.st_size ≤ s.currentFileOffset + ((n - total : Nat) : Int)) →
      ¬ total < n →
      ((readEpilogue s buffer total).2.2.isEof = true ↔
        (readEpilogue s buffer total).2.2.currentFileOffset =
          (readEpilogue s buffer total).2.2.st_size) ∧
      0 ≤ (readEpilogue s buffer total).2.2.currentFileOffset ∧
      (readEpilogue s buffer total).2.2.currentFileOffset ≤
        (readEpilogue s buffer total).2.2.st_size := by
    intro s buffer n total hcur hend hflag hdone
    have hzero : n - total = 0 := by omega
    rw [hzero] at hflag
    unfold readEpilogue
    by_cases hge : s.currentFileOffset ≥ s.st_size
    · rw [if_pos hge]
      refine ⟨?_, hcur, hend⟩
      show true = true ↔ s.currentFileOffset = s.st_size
      simp only [true_iff]
      omega
    · rw [if_neg hge]
      refine ⟨?_, hcur, hend⟩
      show s.isEof = true ↔ s.currentFileOffset = s.st_size
      constructor
      · intro h
        have := hflag h
        simp only [Nat.cast_zero, add_zero] at this
        omega
      · intro h
        omega
  induction fuel with
  | zero =>
    intro s buffer n total r hs hcur hend hflag h
    unfold readLoop at h
    split at h
    · cases h
    · rename_i hdone
      cases h
      exact hepilogue s buffer n total hcur hend hflag hdone
  | succ fuel ih =>
    intro s buffer n total r hs hcur hend hflag h
    rw [readLoop] at h
    split at h
    · rename_i hlt
      cases hb : s.readBody buffer n total with
      | error t => simp [hb] at h
      | ok pass =>
        obtain ⟨hret, hcont⟩ := readBody_cursor hs hcur hend hlt hb
        cases pass with
        | returned result out t =>
          simp only [hb] at h
          cases h
          obtain ⟨h1, h2⟩ := hret result out t rfl
          have hsame := (readBody_returned_sameFile hb).2.2.2.2.2.2.2
          show (t.isEof = true ↔ t.currentFileOffset = t.st_size) ∧ 0 ≤ t.currentFileOffset ∧
            t.currentFileOffset ≤ t.st_size
          rw [hsame, h2]
          exact ⟨by simp [h1], hs.size_nonneg, le_refl _⟩
        | continued t out next =>
          simp only [hb] at h
          obtain ⟨h1, h2, h3, h4, h5⟩ := hcont t out next rfl
          have hsame := (readBody_continued hb).1
          have hsize : t.st_size = s.st_size := hsame.2.2.2.2.2.2.2
          apply ih t out n next r (sized_of_sameFile hsame hs) (by rw [h3]; omega)
            (by rw [hsize]; exact h4) ?_ h
          intro heof
          rw [hsize]
          rcases h5 heof with h6 | h6
          · have := hflag h6
            rw [h3]
            omega
          · rw [h6]
            omega
    · rename_i hdone
      cases h
      exact hepilogue s buffer n total hcur hend hflag hdone

/-- A `read` on an open reader with the cursor in `[0, fileSize]` that returns
leaves the cursor in `[0, fileSize]` and `isEof` set exactly when the cursor is
at the end of the file, whatever the flags were. -/
theorem read_eof {s : LargeFileReaderCore} (hs : Sized s) (hcur : 0 ≤ s.currentFileOffset)
    (hend : s.currentFileOffset ≤ s.st_size) {buffer : List Nat} {n : Nat}
    {r : Nat × List Nat × LargeFileReaderCore} (h : s.read buffer n = .ok r) :
    (r.2.2.isEof = true ↔ r.2.2.currentFileOffset = r.2.2.st_size) ∧
    0 ≤ r.2.2.currentFileOffset ∧ r.2.2.currentFileOffset ≤ r.2.2.st_size := by
  have hU : U64 = 18446744073709551616 := rfl
  have hsize := hs.size_lt
  have hclamp : ((toU64 (s.st_size - s.currentFileOffset) : Nat) : Int) =
      s.st_size - s.currentFileOffset := by
    rw [toU64_of_nonneg (by omega) (by omega)]
    omega
  unfold LargeFileReaderCore.read at h
  rw [if_neg (by simp [hs.isOpen])] at h
  simp only at h
  split at h
  · split at h
    · rename_i hzero
      cases h
      refine ⟨?_, hcur, hend⟩
      show true = true ↔ s.currentFileOffset = s.st_size
      simp only [true_iff]
      have : toU64 (s.st_size - s.currentFileOffset) = 0 := hzero
      rw [this] at hclamp
      simp only [Nat.cast_zero] at hclamp
      omega
    · have hs1 : Sized { s with isEof := true, isFail := false, isBad := false } :=
        ⟨hs.isOpen, hs.blockSize_pos, hs.blockSize_lt, hs.size_nonneg, hs.size_lt, hs.total_eq⟩
      refine readLoop_eof _ _ _ _ _ _ hs1 hcur hend ?_ h
      intro _
      show s.st_size ≤ s.currentFileOffset + ((_ - 0 : Nat) : Int)
      rw [Nat.sub_zero, hclamp]
      omega
  · have hs1 : Sized { s with isEof := false, isFail := false, isBad := false } :=
      ⟨hs.isOpen, hs.blockSize_pos, hs.blockSize_lt, hs.size_nonneg, hs.size_lt, hs.total_eq⟩
    refine readLoop_eof _ _ _ _ _ _ hs1 hcur hend ?_ h
    intro hf
    cases hf

/-- A seek whose target, as the method computes it, is not negative leaves the
cursor in `[0, fileSize]`; a seek with an unsupported `whence` leaves it where
it was. -/
theorem lseek_cursor_in_file {s : LargeFileReaderCore} (hs : Sized s)
    (hcur : 0 ≤ s.currentFileOffset) (hend : s.currentFileOffset ≤ s.st_size)
    (offsetInBytes whence : Int) (hset : whence = SEEK_SET → 0 ≤ toOffT offsetInBytes)
    (hrel : whence = SEEK_CUR → 0 ≤ toOffT (s.currentFileOffset + toOffT offsetInBytes))
    (hfromEnd : whence = SEEK_END → 0 ≤ toOffT (s.st_size + toOffT offsetInBytes)) :
    0 ≤ (s.lseek offsetInBytes whence).2.currentFileOffset ∧
    (s.lseek offsetInBytes whence).2.currentFileOffset ≤
      (s.lseek offsetInBytes whence).2.st_size := by
  have hopen := hs.isOpen
  have hsize := hs.size_nonneg
  by_cases h0 : whence = SEEK_SET
  · have := hset h0
    subst h0
    by_cases hge : s.st_size ≤ toOffT offsetInBytes
    · simp [lseek, hopen, SEEK_SET, hge, hsize]
    · simp [lseek, hopen, SEEK_SET, hge, this]
      omega
  · by_cases h1 : whence = SEEK_CUR
    · have := hrel h1
      subst h1
      by_cases hge : s.st_size ≤ toOffT (s.currentFileOffset + toOffT offsetInBytes)
      · simp [lseek, hopen, SEEK_SET, SEEK_CUR, hge, hsize]
      · simp [lseek, hopen, SEEK_SET, SEEK_CUR, hge, this]
        omega
    · by_cases h2 : whence = SEEK_END
      · have := hfromEnd h2
        subst h2
        by_cases hge : s.st_size ≤ toOffT (s.st_size + toOffT offsetInBytes)
        · simp only [lseek, hopen, SEEK_SET, SEEK_CUR, SEEK_END]
          simp [hge, hsize]
        · simp only [lseek, hopen, SEEK_SET, SEEK_CUR, SEEK_END]
          simp [hge, this]
          omega
      · simp [lseek, hopen, h0, h1, h2, hcur, hend]

/-- Every state of an open reader is sized. -/
theorem openReachable_sized {host : Host} {s : LargeFileReaderCore}
    (h : OpenReachable host s) : Sized s := by
  induction h with
  | openFile s fullFilePath file cacheMaxSize cacheBlockSize hfile hsize hmax hblock hopen =>
    exact (openFile_sized s host fullFilePath file cacheMaxSize cacheBlockSize hfile hsize hblock
      hopen).1
  | lseek offsetInBytes whence _ ih => exact sized_of_sameFile (lseek_sameFile _ _ _) ih
  | read buffer numberOfBytes _ _ hread ih => exact sized_of_sameFile (read_sameFile hread) ih

/-! ## C19: the end-of-file flag -/

/-- C19. On an open reader with the cursor in `[0, fileSize]`, whatever the value
`flag` of `isEof` before the call: after `lseek` with a supported `whence` (and
any offset), and after every `read` that returns, `isEof` is set exactly when
the cursor is at `fileSize`. -/
theorem isEof_iff_cursor_at_end_of_file (host : Host) (s : LargeFileReaderCore) (flag : Bool)
    (hreach : OpenReachable host s) (hcur : 0 ≤ s.currentFileOffset)
    (hend : s.currentFileOffset ≤ s.st_size) :
    (∀ (offsetInBytes whence : Int),
      whence = SEEK_SET ∨ whence = SEEK_CUR ∨ whence = SEEK_END →
      ((({ s with isEof := flag }).lseek offsetInBytes whence).2.isEof = true ↔
        (({ s with isEof := flag }).lseek offsetInBytes whence).2.currentFileOffset =
          (({ s with isEof := flag }).lseek offsetInBytes whence).2.st_size)) ∧
    (∀ (buffer : List Nat) (numberOfBytes : Nat) (r : Nat × List Nat × LargeFileReaderCore),
      ({ s with isEof := flag }).read buffer numberOfBytes = .ok r →
      (r.2.2.isEof = true ↔ r.2.2.currentFileOffset = r.2.2.st_size)) := by
  have hs := openReachable_sized hreach
  have hs' : Sized { s with isEof := flag } :=
    ⟨hs.isOpen, hs.blockSize_pos, hs.blockSize_lt, hs.size_nonneg, hs.size_lt, hs.total_eq⟩
  refine ⟨?_, ?_⟩
  · intro offsetInBytes whence hwhence
    have hopen := hs.isOpen
    rcases hwhence with h | h | h
    · subst h
      by_cases hge : s.st_size ≤ toOffT offsetInBytes
      · simp [lseek, hopen, SEEK_SET, hge]
      · simp [lseek, hopen, SEEK_SET, hge]
        omega
    · subst h
      by_cases hge : s.st_size ≤ toOffT (s.currentFileOffset + toOffT offsetInBytes)
      · simp [lseek, hopen, SEEK_SET, SEEK_CUR, hge]
      · simp [lseek, hopen, SEEK_SET, SEEK_CUR, hge]
        omega
    · subst h
      by_cases hge : s.st_size ≤ toOffT (s.st_size + toOffT offsetInBytes)
      · simp only [lseek, hopen, SEEK_SET, SEEK_CUR, SEEK_END]
        simp [hge]
      · simp only [lseek, hopen, SEEK_SET, SEEK_CUR, SEEK_END]
        simp [hge]
        omega
  · intro buffer numberOfBytes r hread
    exact (read_eof hs' hcur hend hread).1

/-- C19 at concrete inputs: on the open four-byte file with `isEof` set by hand,
`lseek(2, SEEK_SET)` leaves `isEof` clear at cursor 2, and `read(buffer, 4)`
returns 4 and leaves `isEof` set at cursor 4. -/
theorem isEof_iff_cursor_at_end_of_file_witness :
    (opened [10, 11, 12, 13] [] 4 2).currentFileOffset = 0 ∧
    (opened [10, 11, 12, 13] [] 4 2).st_size = 4 ∧
    ((({ opened [10, 11, 12, 13] [] 4 2 with isEof := true }).lseek 2 SEEK_SET).2.isEof = true ↔
      (({ opened [10, 11, 12, 13] [] 4 2 with isEof := true }).lseek 2 SEEK_SET).2.currentFileOffset =
        (({ opened [10, 11, 12, 13] [] 4 2 with isEof := true }).lseek 2 SEEK_SET).2.st_size) ∧
    (∃ r, ({ opened [10, 11, 12, 13] [] 4 2 with isEof := true }).read [0, 0, 0, 0] 4 = .ok r ∧
      r.1 = 4 ∧ (r.2.2.isEof = true ↔ r.2.2.currentFileOffset = r.2.2.st_size)) := by
  have h := isEof_iff_cursor_at_end_of_file (hostWith [10, 11, 12, 13] [])
    (opened [10, 11, 12, 13] [] 4 2) true
    (OpenReachable.openFile construct "f" { bytes := [10, 11, 12, 13], openable := true, faults := [] }
      4 2 rfl (by decide) (by decide) (by decide) (by decide!))
    (by decide!) (by decide!)
  refine ⟨by decide!, by decide!, h.1 2 SEEK_SET (Or.inl rfl), ?_⟩
  have hcount : (({ opened [10, 11, 12, 13] [] 4 2 with isEof := true }).read [0, 0, 0, 0] 4).map
      (fun r : Nat × List Nat × LargeFileReaderCore => r.1) = .ok 4 := by decide!
  cases hread : ({ opened [10, 11, 12, 13] [] 4 2 with isEof := true }).read [0, 0, 0, 0] 4 with
  | error t =>
    rw [hread] at hcount
    cases hcount
  | ok r =>
    rw [hread] at hcount
    refine ⟨r, rfl, ?_, h.2 [0, 0, 0, 0] 4 r hread⟩
    simpa [Except.map] using hcount

/-- C18, the code evaluated at the failing input. On the open three-byte file
(`cacheMaxSize = 8192`, `cacheBlockSize = 4096`), `lseek(-3, SEEK_SET)` returns
`-3` and leaves the cursor at `-3`, below 0, with `isEof` clear; so do
`lseek(-1, SEEK_CUR)` at cursor 0 (cursor `-1`) and `lseek(-5, SEEK_END)`
(cursor `-2`). A `read` at the cursor `-3` has no defined result: the block
number is computed from the cursor as an unsigned value, `(2^64 - 3) / 4096`
(below `2^53`, so the `double` computation of the source is exact), and the
`assert(dataBlockIndex < totalNumberOfFileCacheIndexEntries)` fails. -/
theorem lseek_to_negative_target_leaves_cursor_negative :
    (construct.openFile (hostWith [1, 2, 3] []) "f" 8192 4096).1 = .returned true ∧
    (opened [1, 2, 3] [] 8192 4096).currentFileOffset = 0 ∧
    (opened [1, 2, 3] [] 8192 4096).st_size = 3 ∧
    seekSeen ((opened [1, 2, 3] [] 8192 4096).lseek (-3) SEEK_SET) = (-3, -3, false) ∧
    seekSeen ((opened [1, 2, 3] [] 8192 4096).lseek (-1) SEEK_CUR) = (-1, -1, false) ∧
    seekSeen ((opened [1, 2, 3] [] 8192 4096).lseek (-5) SEEK_END) = (-2, -2, false) ∧
    ((opened [1, 2, 3] [] 8192 4096).lseek (-3) SEEK_SET).2.dataBlockIndex =
      4503599627370495 ∧
    (4503599627370495 : Nat) < 2 ^ 53 ∧
    ((opened [1, 2, 3] [] 8192 4096).lseek (-3) SEEK_SET).2.totalNumberOfFileCacheIndexEntries =
      1 ∧
    ((opened [1, 2, 3] [] 8192 4096).lseek (-3) SEEK_SET).2.read [0] 1 = .error .assertion := by
  decide!

/-- C20, the code evaluated at the failing input. With room for one block
(`cacheMaxSize = cacheBlockSize = 1`, so `maxNumberOfCachedFileDataBlocks = 1`)
on the file `1 2 3`, `read(buffer, 2)` at cursor 0 returns 2 and leaves block 1
resident, alone, with `currentNumberOfCachedFileDataBlocks = 1`, but
`leastRecentlyUsedIndex` is `-1`: no walk along `nextUsed` from it visits block 1.
The links are not inverse to each other either: the entry of block 1 has
`previousUsed = 0`, and the faulted entry of block 0 has `nextUsed = 1`. -/
theorem one_block_cache_loses_least_recently_used_index :
    (construct.openFile (hostWith [1, 2, 3] []) "f" 1 1).1 = .returned true ∧
    (opened [1, 2, 3] [] 1 1).maxNumberOfCachedFileDataBlocks = 1 ∧
    ((runCalls (opened [1, 2, 3] [] 1 1) [.read [0, 0] 2]).map fun r =>
      (r.1, faultFlags r.2, r.2.currentNumberOfCachedFileDataBlocks)) =
      .ok ([.read 2 [1, 2]], [true, false, true], 1) ∧
    ((runCalls (opened [1, 2, 3] [] 1 1) [.read [0, 0] 2]).map fun r =>
      (r.2.leastRecentlyUsedIndex, r.2.mostRecentlyUsedIndex)) = .ok (-1, 1) ∧
    ((runCalls (opened [1, 2, 3] [] 1 1) [.read [0, 0] 2]).map fun r => r.2.fileCacheIndex) =
      .ok (some
        [{ isFault := true, offsetInFileBuffer := minusOne, previousUsed := -1, nextUsed := 1 },
         { isFault := false, offsetInFileBuffer := 0, previousUsed := 0, nextUsed := -1 },
         { isFault := true, offsetInFileBuffer := minusOne, previousUsed := -1,
           nextUsed := -1 }]) := by
  decide!

/-! ## The block array -/

namespace FixedBlockAllocatedArray

/-- The constructed array is well formed. -/
theorem construct_wellFormed {T : Type} (fresh : Nat → Nat → T) (prev : Option Nat) :
    WellFormed (construct fresh prev) := by
  refine ⟨rfl, Nat.le_refl _, rfl, rfl, ?_, ?_⟩
  · intro k block h
    cases k with
    | zero =>
      simp only [construct, List.getElem?_cons_zero, Option.some.injEq] at h
      subst h
      rfl
    | succ k => simp [construct] at h
  · intro k block h
    simp [construct] at h

/-- Appending a block to a well-formed array succeeds: the array has one block
more, and every element of the blocks it had is as before. -/
theorem appendBlock_wellFormed {T : Type} {a : FixedBlockAllocatedArray T} (h : WellFormed a)
    (fresh : Nat → Nat → T) :
    ∃ b, a.appendBlock fresh = .ok b ∧ WellFormed b ∧
      b.totalNumberOfAllocatedBlocks = a.totalNumberOfAllocatedBlocks + 1 ∧
      ∀ element : ElementRef, element.block < a.totalNumberOfAllocatedBlocks →
        b.load element = a.load element := by
  have hlen := h.length_eq
  have hpos := h.total_pos
  have hlast : a.totalNumberOfAllocatedBlocks - 1 < a.heap.length := by omega
  obtain ⟨block, hblock⟩ : ∃ block, a.heap[a.totalNumberOfAllocatedBlocks - 1]? = some block :=
    ⟨a.heap[a.totalNumberOfAllocatedBlocks - 1], List.getElem?_eq_getElem hlast⟩
  refine ⟨{ heap :=
              a.heap.set (a.totalNumberOfAllocatedBlocks - 1)
                { block with nextBlock := some a.heap.length } ++
                [{ prevBlock := a.lastBlock, nextBlock := none,
                   allocatedBlock := fresh a.heap.length }]
            totalNumberOfAllocatedBlocks := a.totalNumberOfAllocatedBlocks + 1
            firstBlock := a.firstBlock
            lastBlock := some a.heap.length },
    by simp only [appendBlock, h.last_eq, hblock], ?_, rfl, ?_⟩
  · refine ⟨?_, ?_, ?_, ?_, ?_, ?_⟩
    · simp [hlen]
    · show 1 ≤ a.totalNumberOfAllocatedBlocks + 1
      omega
    · exact h.first_eq
    · show some a.heap.length = some (a.totalNumberOfAllocatedBlocks + 1 - 1)
      rw [hlen]
      rfl
    · intro k blk hk
      show blk.nextBlock = if k + 1 < a.totalNumberOfAllocatedBlocks + 1 then some (k + 1) else none
      simp only at hk
      rcases Nat.lt_trichotomy k a.heap.length with hlt | heq | hgt
      · rw [List.getElem?_append_left (by simpa using hlt)] at hk
        by_cases hk1 : k = a.totalNumberOfAllocatedBlocks - 1
        · subst hk1
          rw [List.getElem?_set_self hlast] at hk
          cases hk
          show some a.heap.length = _
          rw [if_pos (by omega), hlen]
          congr 1
          omega
        · rw [List.getElem?_set_ne (Ne.symm hk1)] at hk
          rw [h.next_eq k blk hk]
          have : k + 1 < a.totalNumberOfAllocatedBlocks := by omega
          rw [if_pos this, if_pos (by omega)]
      · subst heq
        rw [List.getElem?_append_right (by simp)] at hk
        simp only [List.length_set, Nat.sub_self, List.getElem?_cons_zero,
          Option.some.injEq] at hk
        subst hk
        show none = _
        rw [if_neg (by omega)]
      · rw [List.getElem?_eq_none (by simp; omega)] at hk
        cases hk
    · intro k blk hk
      simp only at hk
      rcases Nat.lt_trichotomy (k + 1) a.heap.length with hlt | heq | hgt
      · rw [List.getElem?_append_left (by simpa using hlt)] at hk
        by_cases hk1 : k + 1 = a.totalNumberOfAllocatedBlocks - 1
        · rw [hk1, List.getElem?_set_self hlast] at hk
          cases hk
          show block.prevBlock = some k
          rw [← hk1] at hblock
          exact h.prev_eq k block hblock
        · rw [List.getElem?_set_ne (Ne.symm hk1)] at hk
          exact h.prev_eq k blk hk
      · rw [heq, List.getElem?_append_right (by simp)] at hk
        simp only [List.length_set, Nat.sub_self, List.getElem?_cons_zero,
          Option.some.injEq] at hk
        subst hk
        show a.lastBlock = some k
        rw [h.last_eq]
        congr 1
        omega
      · rw [List.getElem?_eq_none (by simp; omega)] at hk
        cases hk
  · intro element helement
    unfold load
    simp only
    rw [List.getElem?_append_left (by simp; omega)]
    by_cases hk1 : element.block = a.totalNumberOfAllocatedBlocks - 1
    · rw [hk1, List.getElem?_set_self hlast, hblock]
    · rw [List.getElem?_set_ne (Ne.symm hk1)]


/-- The loop that appends blocks, on a well-formed array with enough passes: it
ends with `blockNumberToAccess + 1` blocks, or with the blocks it had when
these were more, and every element of the blocks it had is as before. -/
theorem appendBlocks_wellFormed {T : Type} (fresh : Nat → Nat → T) (blockNumberToAccess : Nat)
    (fuel : Nat) :
    ∀ a : FixedBlockAllocatedArray T, WellFormed a →
      blockNumberToAccess + 1 ≤ a.totalNumberOfAllocatedBlocks + fuel →
      ∃ b, appendBlocks fresh blockNumberToAccess fuel a = .ok b ∧ WellFormed b ∧
        b.totalNumberOfAllocatedBlocks =
          max a.totalNumberOfAllocatedBlocks (blockNumberToAccess + 1) ∧
        ∀ element : ElementRef, element.block < a.totalNumberOfAllocatedBlocks →
          b.load element = a.load element := by
  induction fuel with
  | zero =>
    intro a h hfuel
    refine ⟨a, ?_, h, by omega, fun _ _ => rfl⟩
    unfold appendBlocks
    rw [if_neg (by omega)]
  | succ fuel ih =>
    intro a h hfuel
    rw [appendBlocks]
    by_cases hge : blockNumberToAccess ≥ a.totalNumberOfAllocatedBlocks
    · rw [if_pos hge]
      obtain ⟨b, hb, hwf, htotal, hsame⟩ := appendBlock_wellFormed h fresh
      simp only [hb]
      obtain ⟨c, hc, hwfc, htotalc, hsamec⟩ := ih b hwf (by omega)
      refine ⟨c, hc, hwfc, by omega, ?_⟩
      intro element helement
      rw [hsamec element (by omega), hsame element helement]
    · rw [if_neg hge]
      exact ⟨a, rfl, h, by omega, fun _ _ => rfl⟩

/-- On a well-formed array, `n` steps along `nextBlock` from block `j` end at
block `j + n`, when the array has that block. -/
theorem followNext_wellFormed {T : Type} {a : FixedBlockAllocatedArray T} (h : WellFormed a)
    (n : Nat) :
    ∀ j, j + n < a.totalNumberOfAllocatedBlocks →
      followNext a.heap n (some j) = .ok (some (j + n)) := by
  induction n with
  | zero =>
    intro j _
    rfl
  | succ n ih =>
    intro j hj
    have hlt : j < a.heap.length := by
      have := h.length_eq
      omega
    have hblock : a.heap[j]? = some a.heap[j] := List.getElem?_eq_getElem hlt
    rw [followNext, hblock]
    simp only
    rw [h.next_eq j _ hblock, if_pos (by omega), ih (j + 1) (by omega)]
    congr 2
    omega

theorem elementOf_wellFormed {T : Type} {a : FixedBlockAllocatedArray T} (h : WellFormed a)
    {k : Nat} (hk : k < a.totalNumberOfAllocatedBlocks) (i : Nat) :
    elementOf a.heap (some k) i = .ok { block := k, indexInBlock := i } := by
  have hlt : k < a.heap.length := by
    have := h.length_eq
    omega
  unfold elementOf
  simp only [List.getElem?_eq_getElem hlt]

/-- The read-write operator on a well-formed array returns: the reference is to
element `index % 16384` of block `index / 16384`, the array afterwards is well
formed with `max(c, index / 16384 + 1)` blocks, `c` being the number of blocks
it had, and every element of the blocks it had is as before. -/
theorem subscript_reaches {T : Type} {a : FixedBlockAllocatedArray T} (h : WellFormed a)
    (fresh : Nat → Nat → T) (index : Nat) :
    ∃ b, a.subscript fresh index =
        .ok ({ block := index / numberOfEntriesInBlock,
               indexInBlock := index % numberOfEntriesInBlock }, b) ∧
      WellFormed b ∧
      b.totalNumberOfAllocatedBlocks =
        max a.totalNumberOfAllocatedBlocks (index / numberOfEntriesInBlock + 1) ∧
      ∀ element : ElementRef, element.block < a.totalNumberOfAllocatedBlocks →
        b.load element = a.load element := by
  have hpos := h.total_pos
  unfold subscript
  rw [if_neg (by omega)]
  by_cases hge : index / numberOfEntriesInBlock ≥ a.totalNumberOfAllocatedBlocks
  · rw [if_pos hge]
    obtain ⟨b, hb, hwf, htotal, hsame⟩ :=
      appendBlocks_wellFormed fresh (index / numberOfEntriesInBlock)
        (index / numberOfEntriesInBlock + 1) a h (by omega)
    refine ⟨b, ?_, hwf, htotal, hsame⟩
    have hlast : b.lastBlock = some (index / numberOfEntriesInBlock) := by
      rw [hwf.last_eq, htotal]
      congr 1
      omega
    rw [hb, ok_bind, hlast, elementOf_wellFormed hwf (by omega)]
    rfl
  · rw [if_neg hge]
    refine ⟨a, ?_, h, by omega, fun _ _ => rfl⟩
    have hwalk := followNext_wellFormed h (index / numberOfEntriesInBlock) 0 (by omega)
    rw [Nat.zero_add] at hwalk
    rw [h.first_eq, hwalk, ok_bind, elementOf_wellFormed h (by omega)]
    rfl

/-- The read-only operator inside the extent of a well-formed array returns the
reference to element `index % 16384` of block `index / 16384`. -/
theorem subscriptConst_inside {T : Type} {a : FixedBlockAllocatedArray T} (h : WellFormed a)
    {index : Nat} (hin : index / numberOfEntriesInBlock < a.totalNumberOfAllocatedBlocks) :
    a.subscriptConst index =
      .ok { block := index / numberOfEntriesInBlock,
            indexInBlock := index % numberOfEntriesInBlock } := by
  have hpos := h.total_pos
  unfold subscriptConst
  rw [if_neg (by omega), if_neg (by omega)]
  have hwalk := followNext_wellFormed h (index / numberOfEntriesInBlock) 0 (by omega)
  rw [Nat.zero_add] at hwalk
  rw [h.first_eq, hwalk, ok_bind, elementOf_wellFormed h hin]

/-- The read-only operator beyond the extent of an array fails its `assert`. -/
theorem subscriptConst_beyond {T : Type} (a : FixedBlockAllocatedArray T) {index : Nat}
    (hout : a.totalNumberOfAllocatedBlocks ≤ index / numberOfEntriesInBlock) :
    a.subscriptConst index = .error .assertion := by
  unfold subscriptConst
  split
  · rfl
  · rw [if_pos (by omega)]

/-- A write through a reference into a well-formed array succeeds and leaves it
well formed with the same blocks; the element written holds the value, every
other element is as before. -/
theorem store_wellFormed {T : Type} {a : FixedBlockAllocatedArray T} (h : WellFormed a)
    (element : ElementRef) (hblock : element.block < a.totalNumberOfAllocatedBlocks)
    (hindex : element.indexInBlock < numberOfEntriesInBlock) (value : T) :
    ∃ b, a.store element value = .ok b ∧ WellFormed b ∧
      b.totalNumberOfAllocatedBlocks = a.totalNumberOfAllocatedBlocks ∧
      b.load element = .ok value ∧
      ∀ other : ElementRef, other ≠ element → b.load other = a.load other := by
  have hlt : element.block < a.heap.length := by
    have := h.length_eq
    omega
  have hget : a.heap[element.block]? = some a.heap[element.block] :=
    List.getElem?_eq_getElem hlt
  refine ⟨{ a with
      heap := a.heap.set element.block
        { a.heap[element.block] with
          allocatedBlock := fun i =>
            if i = element.indexInBlock then value
            else a.heap[element.block].allocatedBlock i } },
    ?_, ?_, rfl, ?_, ?_⟩
  · unfold store
    rw [hget]
    simp only
    rw [if_pos hindex]
  · refine ⟨by simpa using h.length_eq, h.total_pos, h.first_eq, h.last_eq, ?_, ?_⟩
    · intro k block hk
      simp only at hk
      by_cases hsame : k = element.block
      · subst hsame
        rw [List.getElem?_set_self hlt] at hk
        cases hk
        exact h.next_eq _ a.heap[element.block] hget
      · rw [List.getElem?_set_ne (Ne.symm hsame)] at hk
        exact h.next_eq k block hk
    · intro k block hk
      simp only at hk
      by_cases hsame : k + 1 = element.block
      · rw [hsame, List.getElem?_set_self hlt] at hk
        cases hk
        show a.heap[element.block].prevBlock = some k
        apply h.prev_eq k
        rw [hsame]
        exact hget
      · rw [List.getElem?_set_ne (Ne.symm hsame)] at hk
        exact h.prev_eq k block hk
  · unfold load
    simp only
    rw [List.getElem?_set_self hlt]
    simp only
    rw [if_pos hindex]
    simp
  · intro other hother
    unfold load
    simp only
    by_cases hsame : other.block = element.block
    · have hidx : other.indexInBlock ≠ element.indexInBlock := by
        intro hi
        apply hother
        cases other
        cases element
        simp only at hsame hi
        subst hsame
        subst hi
        rfl
      rw [hsame, List.getElem?_set_self hlt, hget]
      simp only
      rw [if_neg hidx]
    · rw [List.getElem?_set_ne (Ne.symm hsame)]

/-- A write through a reference that succeeds leaves a well-formed array well
formed. -/
theorem store_keeps_wellFormed {T : Type} {a b : FixedBlockAllocatedArray T} (h : WellFormed a)
    {element : ElementRef} {value : T} (hstore : a.store element value = .ok b) :
    WellFormed b := by
  unfold store at hstore
  split at hstore
  · cases hstore
  · rename_i block hget
    split at hstore
    · rename_i hindex
      have hlt : element.block < a.heap.length := (List.getElem?_eq_some.mp hget).1
      obtain ⟨c, hc, hwf, -⟩ := store_wellFormed h element
        (by have := h.length_eq; omega) hindex value
      unfold store at hc
      rw [hget] at hc
      simp only at hc
      rw [if_pos hindex] at hc
      rw [hstore] at hc
      cases hc
      exact hwf
    · cases hstore

/-- Every state of a block array is well formed. -/
theorem reachable_wellFormed {T : Type} {a : FixedBlockAllocatedArray T} (h : Reachable a) :
    WellFormed a := by
  induction h with
  | construct fresh prev => exact construct_wellFormed fresh prev
  | subscript fresh index _ hsub ih =>
    obtain ⟨b, hb, hwf, -⟩ := subscript_reaches ih fresh index
    rw [hb] at hsub
    cases hsub
    exact hwf
  | store element value _ hstore ih => exact store_keeps_wellFormed ih hstore


/-! ## C14 and C15: the two subscript operators -/

/-- C14. On every state of a block array, for every index and every value:
`array[index] = value` through the read-write operator returns, whatever the
fresh elements of the blocks it appends hold, and afterwards `array[index]`
read through the read-only operator is `value`, and so is `array[index]` read
through the read-write operator. -/
theorem write_then_read_returns_value {T : Type} (a : FixedBlockAllocatedArray T)
    (fresh later : Nat → Nat → T) (index : Nat) (value : T) (hreach : Reachable a) :
    ∃ b, a.assign fresh index value = .ok b ∧
      b.valueConst index = .ok value ∧
      ((b.value later index).map fun r => r.1) = .ok value := by
  have h := reachable_wellFormed hreach
  obtain ⟨b, hb, hwf, htotal, -⟩ := subscript_reaches h fresh index
  have hmod : index % numberOfEntriesInBlock < numberOfEntriesInBlock :=
    Nat.mod_lt _ (by decide)
  obtain ⟨c, hc, hwfc, htotalc, hload, -⟩ :=
    store_wellFormed hwf
      { block := index / numberOfEntriesInBlock, indexInBlock := index % numberOfEntriesInBlock }
      (by show index / numberOfEntriesInBlock < _; omega) hmod value
  have hin : index / numberOfEntriesInBlock < c.totalNumberOfAllocatedBlocks := by omega
  refine ⟨c, ?_, ?_, ?_⟩
  · unfold assign
    rw [hb, ok_bind]
    exact hc
  · unfold valueConst
    rw [subscriptConst_inside hwfc hin, ok_bind]
    exact hload
  · obtain ⟨d, hd, -, -, hsame⟩ := subscript_reaches hwfc later index
    unfold FixedBlockAllocatedArray.value
    rw [hd, ok_bind, hsame _ hin, hload]
    rfl

/-- C14 at the indices of the specification, on a freshly constructed array of
numbers (one block, so the writes at 16384, 16385 and 163845 append blocks). -/
theorem write_then_read_returns_value_witness :
    (construct (fun _ _ => (0 : Nat)) none).totalNumberOfAllocatedBlocks = 1 ∧
    (∃ b, (construct (fun _ _ => (0 : Nat)) none).assign (fun _ _ => 0) 16383 7 = .ok b ∧
      b.valueConst 16383 = .ok 7 ∧ ((b.value (fun _ _ => 0) 16383).map fun r => r.1) = .ok 7) ∧
    (∃ b, (construct (fun _ _ => (0 : Nat)) none).assign (fun _ _ => 0) 16384 7 = .ok b ∧
      b.valueConst 16384 = .ok 7 ∧ ((b.value (fun _ _ => 0) 16384).map fun r => r.1) = .ok 7) ∧
    (∃ b, (construct (fun _ _ => (0 : Nat)) none).assign (fun _ _ => 0) 16385 7 = .ok b ∧
      b.valueConst 16385 = .ok 7 ∧ ((b.value (fun _ _ => 0) 16385).map fun r => r.1) = .ok 7) ∧
    (∃ b, (construct (fun _ _ => (0 : Nat)) none).assign (fun _ _ => 0) 163845 7 = .ok b ∧
      b.valueConst 163845 = .ok 7 ∧ ((b.value (fun _ _ => 0) 163845).map fun r => r.1) = .ok 7) :=
  ⟨rfl,
    write_then_read_returns_value _ _ _ 16383 7 (Reachable.construct _ _),
    write_then_read_returns_value _ _ _ 16384 7 (Reachable.construct _ _),
    write_then_read_returns_value _ _ _ 16385 7 (Reachable.construct _ _),
    write_then_read_returns_value _ _ _ 163845 7 (Reachable.construct _ _)⟩

theorem elementAt_wellFormed {T : Type} {a : FixedBlockAllocatedArray T} (h : WellFormed a)
    {k : Nat} (hk : k < a.totalNumberOfAllocatedBlocks) (i : Nat) :
    a.elementAt k i = (a.load { block := k, indexInBlock := i }).toOption := by
  have hwalk := followNext_wellFormed h k 0 (by omega)
  rw [Nat.zero_add] at hwalk
  have hlt : k < a.heap.length := by
    have := h.length_eq
    omega
  unfold elementAt load
  rw [h.first_eq, hwalk]
  simp only [List.getElem?_eq_getElem hlt]
  split <;> rfl

/-- C15. On every state of a block array with `c` blocks
(`totalNumberOfAllocatedBlocks`), the read-only operator either fails an
`assert` or returns a reference, the array being the same in both cases (the
operator has no array to return). It fails its `assert` exactly when
`index / 16384 >= c`; otherwise the element it refers to is the element at
position `index % 16384` of the block `index / 16384` steps along `nextBlock`
from `firstBlock`. -/
theorem const_subscript_inside_extent_only {T : Type} (a : FixedBlockAllocatedArray T)
    (index : Nat) (hreach : Reachable a) :
    (a.subscriptConst index = .error .assertion ↔
      a.totalNumberOfAllocatedBlocks ≤ index / numberOfEntriesInBlock) ∧
    (index / numberOfEntriesInBlock < a.totalNumberOfAllocatedBlocks →
      a.subscriptConst index =
        .ok { block := index / numberOfEntriesInBlock,
              indexInBlock := index % numberOfEntriesInBlock } ∧
      ∃ x, a.elementAt (index / numberOfEntriesInBlock) (index % numberOfEntriesInBlock) =
          some x ∧
        a.valueConst index = .ok x) := by
  have h := reachable_wellFormed hreach
  have hinside : index / numberOfEntriesInBlock < a.totalNumberOfAllocatedBlocks →
      a.subscriptConst index =
        .ok { block := index / numberOfEntriesInBlock,
              indexInBlock := index % numberOfEntriesInBlock } :=
    fun hin => subscriptConst_inside h hin
  refine ⟨⟨?_, subscriptConst_beyond a⟩, ?_⟩
  · intro herr
    by_contra hlt
    rw [hinside (by omega)] at herr
    cases herr
  · intro hin
    refine ⟨hinside hin, ?_⟩
    have hlt : index / numberOfEntriesInBlock < a.heap.length := by
      have := h.length_eq
      omega
    have hget : a.heap[index / numberOfEntriesInBlock]? =
        some a.heap[index / numberOfEntriesInBlock] := List.getElem?_eq_getElem hlt
    have hmod : index % numberOfEntriesInBlock < numberOfEntriesInBlock :=
      Nat.mod_lt _ (by decide)
    have hload : a.load { block := index / numberOfEntriesInBlock,
                          indexInBlock := index % numberOfEntriesInBlock } =
        .ok (a.heap[index / numberOfEntriesInBlock].allocatedBlock
          (index % numberOfEntriesInBlock)) := by
      unfold load
      simp only [hget]
      rw [if_pos hmod]
    refine ⟨a.heap[index / numberOfEntriesInBlock].allocatedBlock
      (index % numberOfEntriesInBlock), ?_, ?_⟩
    · rw [elementAt_wellFormed h hin, hload]
      rfl
    · unfold valueConst
      rw [hinside hin, ok_bind]
      exact hload

/-- C15 at concrete inputs: on the freshly constructed array whose element `i`
holds `i`, the read-only operator fails its `assert` at index 16384 and reads 5
at index 5. -/
theorem const_subscript_inside_extent_only_witness :
    (construct (fun _ i => i) none).subscriptConst 16384 = .error .assertion ∧
    (construct (fun _ i => i) none).subscriptConst 5 = .ok { block := 0, indexInBlock := 5 } ∧
    ∃ x, (construct (fun _ i => i) none).elementAt 0 5 = some x ∧
      (construct (fun _ i => i) none).valueConst 5 = .ok x :=
  ⟨(const_subscript_inside_extent_only (construct (fun _ i => i) none) 16384
      (Reachable.construct _ _)).1.mpr (by decide),
    (const_subscript_inside_extent_only (construct (fun _ i => i) none) 5
      (Reachable.construct _ _)).2 (by decide)⟩

end FixedBlockAllocatedArray

/-! ## The line indexer -/

namespace LineIndexerCore

theorem toU64_succ {x : Int} {n : Nat} (h : toU64 x < n) (hn : n < U64) :
    toU64 (x + 1) = toU64 x + 1 := by
  have hU : (U64 : Int) = 18446744073709551616 := rfl
  unfold toU64 at *
  have h0 : 0 ≤ x % (U64 : Int) := Int.emod_nonneg _ (by omega)
  have h1 : x % (U64 : Int) < (U64 : Int) := Int.emod_lt_of_pos _ (by omega)
  have h2 : (x + 1) % (U64 : Int) = x % (U64 : Int) + 1 := by
    rw [Int.add_emod]
    have : (1 : Int) % (U64 : Int) = 1 := by rw [hU]; rfl
    rw [this]
    apply Int.emod_eq_of_lt <;> omega
  rw [h2]
  omega

/-- The inner loop never runs out of passes, when it is given one pass more
than there are bytes between the search index and the end of the data. -/
theorem scanLoop_ne_exhausted (buffer : List Nat) (total : Nat) (start : Int)
    (htotal : total < U64) (fuel : Nat) :
    ∀ (search : Int) (found : Bool), total - toU64 search + 1 ≤ fuel →
      scanLoop buffer total start fuel search found ≠ .error .exhausted := by
  induction fuel with
  | zero =>
    intro search found hfuel
    omega
  | succ fuel ih =>
    intro search found hfuel
    rw [scanLoop]
    split
    · rename_i hcond
      simp only [Bool.and_eq_true, Bool.not_eq_true', decide_eq_true_eq] at hcond
      cases hbyte : byteAt buffer search with
      | error t =>
        simp only
        unfold byteAt at hbyte
        split at hbyte
        · split at hbyte
          · cases hbyte
          · cases hbyte
            simp
        · cases hbyte
          simp
      | ok byte =>
        simp only
        split
        · -- the line end is found: the next test of the loop condition ends the loop
          cases fuel with
          | zero =>
            rw [scanLoop]
            simp
          | succ fuel =>
            rw [scanLoop]
            simp
        · apply ih
          rw [toU64_succ hcond.2 htotal]
          omega
    · simp

/-- The outer loop started with `hasDataToProcess` set in a state that a pass
through its body leaves as it is never returns. -/
theorem indexLoop_stuck (fresh : Nat → Nat → LineIndexEntry) (p : LineIndexerCore × Locals)
    (hflag : p.2.hasDataToProcess = true) (hpass : indexPass fresh p = .ok p) (fuel : Nat) :
    indexLoop fresh fuel p = .error .exhausted := by
  induction fuel with
  | zero =>
    rw [indexLoop, if_pos hflag]
  | succ fuel ih =>
    rw [indexLoop, if_pos hflag]
    simp only [hpass]
    exact ih

/-- A pass through the body of the outer loop that starts with
`hasDataToProcess` set and the search index at or beyond the end of the data
changes nothing. -/
theorem indexPass_at_end (fresh : Nat → Nat → LineIndexEntry) (p : LineIndexerCore × Locals)
    (hflag : p.2.hasDataToProcess = true)
    (hend : ¬ toU64 p.2.currentSearchIndexInbuffer < p.2.totalNumberOfBytesInBuffer) :
    indexPass fresh p = .ok p := by
  have hscan : scanLoop p.2.buffer p.2.totalNumberOfBytesInBuffer p.2.currentStartOfLineInBuffer
      (p.2.totalNumberOfBytesInBuffer + 1) p.2.currentSearchIndexInbuffer false =
      .ok (p.2.currentSearchIndexInbuffer, false) := by
    rw [scanLoop, if_neg (by simp [hend])]
  unfold indexPass
  rw [hscan, ok_bind]
  simp only [Bool.false_eq_true, if_false]
  show Except.ok _ = Except.ok p
  congr 1
  cases p with
  | mk x l =>
    cases l
    simp only at hflag
    simp [hflag]

/-- The outer loop never returns when `hasDataToProcess` is set at its start and
after each of the first `k` passes through its body, and the search index is at
or beyond the end of the data after `k` passes. -/
theorem indexLoop_never_returns (fresh : Nat → Nat → LineIndexEntry) (k : Nat) :
    ∀ p : LineIndexerCore × Locals,
      (∀ j, j ≤ k →
        ((indexPasses fresh j p).map fun q => q.2.hasDataToProcess) = .ok true) →
      ((indexPasses fresh k p).map fun q =>
        decide (toU64 q.2.currentSearchIndexInbuffer < q.2.totalNumberOfBytesInBuffer)) =
        .ok false →
      ∀ fuel, indexLoop fresh fuel p = .error .exhausted := by
  induction k with
  | zero =>
    intro p hflags hend fuel
    have hflag : p.2.hasDataToProcess = true := by
      have := hflags 0 (Nat.le_refl _)
      simpa [indexPasses, Except.map] using this
    apply indexLoop_stuck fresh p hflag
    apply indexPass_at_end fresh p hflag
    simpa [indexPasses, Except.map] using hend
  | succ k ih =>
    intro p hflags hend fuel
    have hflag : p.2.hasDataToProcess = true := by
      have := hflags 0 (Nat.zero_le _)
      simpa [indexPasses, Except.map] using this
    cases hpass : indexPass fresh p with
    | error t =>
      have := hflags 1 (by omega)
      simp [indexPasses, hpass, Except.map] at this
    | ok q =>
      cases fuel with
      | zero => rw [indexLoop, if_pos hflag]
      | succ fuel =>
        rw [indexLoop, if_pos hflag]
        simp only [hpass]
        apply ih q
        · intro j hj
          have := hflags (j + 1) (by omega)
          simpa only [indexPasses, hpass] using this
        · simpa only [indexPasses, hpass] using hend

/-- The method never returns on an open reader when the outer loop is entered
with `hasDataToProcess` set, the flag is set after each of the first `k` passes,
and the search index is at or beyond the end of the data after `k` passes. -/
theorem indexLinesForFileReader_never_returns (k : Nat) (x : LineIndexerCore)
    (fresh : Nat → Nat → LineIndexEntry) (junk : Nat → Nat) (reader : LargeFileReaderCore)
    (hopen : reader.isOpen = true)
    (hflags : ∀ j, j ≤ k →
      ((x.indexPrologue junk reader).bind fun start =>
        (indexPasses fresh j start.1).map fun q => q.2.hasDataToProcess) = .ok true)
    (hend : ((x.indexPrologue junk reader).bind fun start =>
      (indexPasses fresh k start.1).map fun q =>
        decide (toU64 q.2.currentSearchIndexInbuffer < q.2.totalNumberOfBytesInBuffer)) =
      .ok false)
    (fuel : Nat) :
    indexLinesForFileReader fuel x fresh junk reader = .error .exhausted := by
  unfold indexLinesForFileReader
  rw [if_neg (by simp [hopen])]
  cases hstart : x.indexPrologue junk reader with
  | error t =>
    have := hflags 0 (Nat.zero_le _)
    rw [hstart] at this
    cases this
  | ok start =>
    rw [hstart] at hend
    have hloop := indexLoop_never_returns fresh k start.1
      (by
        intro j hj
        have := hflags j hj
        rw [hstart] at this
        exact this)
      hend fuel
    show (indexLoop fresh fuel start.1 >>= fun p => pure (0, p.1, start.2)) = _
    rw [hloop]
    rfl


/-- An element inside the extent of a well-formed array can be read. -/
theorem load_wellFormed {T : Type} {a : FixedBlockAllocatedArray T}
    (h : FixedBlockAllocatedArray.WellFormed a) (element : ElementRef)
    (hblock : element.block < a.totalNumberOfAllocatedBlocks)
    (hindex : element.indexInBlock < FixedBlockAllocatedArray.numberOfEntriesInBlock) :
    ∃ value, a.load element = .ok value := by
  have hlt : element.block < a.heap.length := by
    have := h.length_eq
    omega
  have hget : a.heap[element.block]? = some a.heap[element.block] :=
    List.getElem?_eq_getElem hlt
  refine ⟨a.heap[element.block].allocatedBlock element.indexInBlock, ?_⟩
  unfold FixedBlockAllocatedArray.load
  simp only [hget]
  rw [if_pos hindex]

/-- The two assignments to `lineIndex[currentLineNumber]` on a well-formed
array: afterwards the entry holds the offset and the length, and the array is
well formed. -/
theorem storeLine_stores (x : LineIndexerCore) (fresh : Nat → Nat → LineIndexEntry)
    (currentLineNumber : Nat) (offset : Int) (length : Nat)
    (h : FixedBlockAllocatedArray.WellFormed x.lineIndex) :
    ∃ y, x.storeLine fresh currentLineNumber offset length = .ok y ∧
      y.lineIndex.valueConst currentLineNumber = .ok { offset := offset, length := length } ∧
      FixedBlockAllocatedArray.WellFormed y.lineIndex ∧
      y.numberOfLines = x.numberOfLines ∧ y.lineDelimiter = x.lineDelimiter := by
  have hmod : currentLineNumber % FixedBlockAllocatedArray.numberOfEntriesInBlock <
      FixedBlockAllocatedArray.numberOfEntriesInBlock := Nat.mod_lt _ (by decide)
  obtain ⟨a1, ha1, hwf1, htotal1, -⟩ :=
    FixedBlockAllocatedArray.subscript_reaches h fresh currentLineNumber
  have hin1 : currentLineNumber / FixedBlockAllocatedArray.numberOfEntriesInBlock <
      a1.totalNumberOfAllocatedBlocks := by omega
  obtain ⟨e1, he1⟩ := load_wellFormed hwf1
    { block := currentLineNumber / FixedBlockAllocatedArray.numberOfEntriesInBlock,
                  indexInBlock :=
                    currentLineNumber % FixedBlockAllocatedArray.numberOfEntriesInBlock }
    hin1 hmod
  obtain ⟨a2, ha2, hwf2, htotal2, hload2, -⟩ :=
    FixedBlockAllocatedArray.store_wellFormed hwf1
      { block := currentLineNumber / FixedBlockAllocatedArray.numberOfEntriesInBlock,
                    indexInBlock :=
                      currentLineNumber % FixedBlockAllocatedArray.numberOfEntriesInBlock }
      hin1 hmod { e1 with offset := offset }
  obtain ⟨a3, ha3, hwf3, htotal3, hsame3⟩ :=
    FixedBlockAllocatedArray.subscript_reaches hwf2 fresh currentLineNumber
  have hin2 : currentLineNumber / FixedBlockAllocatedArray.numberOfEntriesInBlock <
      a2.totalNumberOfAllocatedBlocks := by omega
  have hin3 : currentLineNumber / FixedBlockAllocatedArray.numberOfEntriesInBlock <
      a3.totalNumberOfAllocatedBlocks := by omega
  have hload3 := (hsame3 { block := currentLineNumber / FixedBlockAllocatedArray.numberOfEntriesInBlock,
                           indexInBlock :=
                             currentLineNumber % FixedBlockAllocatedArray.numberOfEntriesInBlock }
    hin2).trans hload2
  obtain ⟨a4, ha4, hwf4, htotal4, hload4, -⟩ :=
    FixedBlockAllocatedArray.store_wellFormed hwf3
      { block := currentLineNumber / FixedBlockAllocatedArray.numberOfEntriesInBlock,
                    indexInBlock :=
                      currentLineNumber % FixedBlockAllocatedArray.numberOfEntriesInBlock }
      hin3 hmod { offset := offset, length := length }
  refine ⟨{ x with lineIndex := a4 }, ?_, ?_, hwf4, rfl, rfl⟩
  · unfold storeLine
    simp only [ha1, ok_bind, he1, ha2, ha3, hload3]
    rw [ha4]
    rfl
  · show a4.valueConst currentLineNumber = _
    unfold FixedBlockAllocatedArray.valueConst
    rw [FixedBlockAllocatedArray.subscriptConst_inside hwf4 (by omega), ok_bind]
    exact hload4

/-- The inner loop on a line that has no boundary byte among its first 2049
bytes: it ends with the line end found and the search index 2048 bytes after
the start of the line. -/
theorem scanLoop_maximal_length (buffer : List Nat) (total : Nat) (start : Nat)
    (htotal : total < U64) (hdata : start + 2048 < total)
    (hbytes : ∀ i, i ≤ 2048 → ∃ byte, buffer[start + i]? = some byte ∧ byte ≠ 10) (rest : Nat) :
    ∀ (fuel : Nat) (d : Nat), d + rest = 2048 → rest + 2 ≤ fuel →
      scanLoop buffer total (start : Int) fuel ((start : Int) + (d : Int)) false =
        .ok ((start : Int) + 2048, true) := by
  have hU : U64 = 18446744073709551616 := rfl
  have hstep : ∀ d : Nat, d ≤ 2048 →
      (!false && decide (toU64 ((start : Int) + (d : Int)) < total)) = true ∧
      ∃ byte, byteAt buffer ((start : Int) + (d : Int)) = .ok byte ∧ byte ≠ 10 := by
    intro d hd
    have hcast : (start : Int) + (d : Int) = ((start + d : Nat) : Int) := by push_cast; rfl
    refine ⟨?_, ?_⟩
    · rw [hcast, toU64_natCast (by omega)]
      simp
      omega
    · obtain ⟨byte, hbyte, hne⟩ := hbytes d hd
      refine ⟨byte, ?_, hne⟩
      unfold byteAt
      rw [if_pos (by omega), hcast, Int.toNat_ofNat, hbyte]
  induction rest with
  | zero =>
    intro fuel d hd hfuel
    have hd' : d = 2048 := by omega
    subst hd'
    obtain ⟨hcond, byte, hbyte, -⟩ := hstep 2048 (Nat.le_refl _)
    obtain ⟨fuel, rfl⟩ : ∃ f, fuel = f + 1 := ⟨fuel - 1, by omega⟩
    rw [scanLoop, if_pos hcond]
    simp only [hbyte]
    rw [if_pos (Or.inr (by push_cast; omega))]
    rw [scanLoop.eq_def]
    simp
  | succ rest ih =>
    intro fuel d hd hfuel
    obtain ⟨hcond, byte, hbyte, hne⟩ := hstep d (by omega)
    obtain ⟨fuel, rfl⟩ : ∃ f, fuel = f + 1 := ⟨fuel - 1, by omega⟩
    rw [scanLoop, if_pos hcond]
    simp only [hbyte]
    rw [if_neg (by
      intro hor
      rcases hor with h | h
      · exact hne h
      · omega)]
    have := ih fuel (d + 1) (by omega) (by omega)
    rw [show ((d + 1 : Nat) : Int) = (d : Int) + 1 by push_cast; rfl, ← Int.add_assoc] at this
    exact this

theorem indexStart_indexer {bytes : List Nat} {cacheMaxSize cacheBlockSize : Nat}
    {p : LineIndexerCore × Locals} (h : indexStart bytes cacheMaxSize cacheBlockSize = .ok p) :
    p.1 = construct unwritten none := by
  unfold indexStart at h
  cases hstart : (construct unwritten none).indexPrologue (fun _ => 0)
      (opened bytes [] cacheMaxSize cacheBlockSize) with
  | error t =>
    rw [hstart] at h
    cases h
  | ok start =>
    rw [hstart] at h
    simp only [Except.map, Except.ok.injEq] at h
    subst h
    unfold indexPrologue at hstart
    simp only [bind_eq_ok, pure_eq_ok] at hstart
    obtain ⟨_, -, _, -, rfl⟩ := hstart
    rfl

/-! ## C16 and C17: what the indexer stores -/

/-- C17, the code on every line of maximal length. A pass through the body of
the outer loop of `indexLinesForFileReader` that begins at the start `start` of
a line with at least 2049 bytes of data from there, none of these a boundary
byte (10): the entry stored in `lineIndex[currentLineNumber]` is
`{start, 2048}`, yet the start of the next line and the search index are set to
`start + 2049`, not to `start + 2048`. The byte at `start + 2048`, which is not
a boundary byte, is stepped over and belongs to no line. -/
theorem line_of_maximal_length_steps_over_next_byte (fresh : Nat → Nat → LineIndexEntry)
    (p : LineIndexerCore × Locals) (start : Nat)
    (hstart : p.2.currentStartOfLineInBuffer = (start : Int))
    (hsearch : p.2.currentSearchIndexInbuffer = (start : Int))
    (htotal : p.2.totalNumberOfBytesInBuffer < U64)
    (hdata : start + 2048 < p.2.totalNumberOfBytesInBuffer)
    (hbytes : ∀ i, i ≤ 2048 → ∃ byte, p.2.buffer[start + i]? = some byte ∧ byte ≠ 10)
    (hwf : FixedBlockAllocatedArray.WellFormed p.1.lineIndex) :
    ∃ y, indexPass fresh p =
        .ok (y, { p.2 with
          currentSearchIndexInbuffer := (start : Int) + 2048 + 1
          currentStartOfLineInBuffer := (start : Int) + 2048 + 1 }) ∧
      y.lineIndex.valueConst p.2.currentLineNumber =
        .ok { offset := (start : Int), length := 2048 } ∧
      y.numberOfLines = p.1.numberOfLines := by
  have hscan := scanLoop_maximal_length p.2.buffer p.2.totalNumberOfBytesInBuffer start htotal
    hdata hbytes 2048 (p.2.totalNumberOfBytesInBuffer + 1) 0 (by omega) (by omega)
  simp only [Nat.cast_zero, add_zero] at hscan
  have hlen : toU64 ((start : Int) + 2048 - (start : Int)) = 2048 := by
    have : (start : Int) + 2048 - (start : Int) = ((2048 : Nat) : Int) := by push_cast; omega
    rw [this]
    exact toU64_natCast (by decide)
  obtain ⟨y, hy, hvalue, -, hlines, -⟩ :=
    storeLine_stores p.1 fresh p.2.currentLineNumber (start : Int) 2048 hwf
  refine ⟨y, ?_, hvalue, hlines⟩
  unfold indexPass
  rw [hstart, hsearch, hscan, ok_bind]
  simp only [if_true, hlen, hy, ok_bind]
  rfl


/-- C17 at the failing input. On a file of 2050 bytes `x` (120) with no boundary
byte, opened with `cacheMaxSize = cacheBlockSize = 2050`,
`indexLinesForFileReader` enters its outer loop with the 2050 bytes in its
buffer; the first pass stores the entry `{0, 2048}` in `lineIndex[0]` and
leaves the start of the next line at 2049: the byte 120 at offset 2048 belongs
to no line. -/
theorem line_of_maximal_length_steps_over_next_byte_witness :
    (LargeFileReaderCore.construct.openFile (hostWith (List.replicate 2050 120) []) "f"
      2050 2050).1 = .returned true ∧
    (List.replicate 2050 120)[2048]? = some 120 ∧
    ∃ p y, indexStart (List.replicate 2050 120) 2050 2050 = .ok p ∧
      p.2 = { buffer := List.replicate 2050 120
              totalNumberOfBytesInBuffer := 2050
              hasDataToProcess := true
              currentLineNumber := 0
              currentStartOfLineInBuffer := 0
              currentSearchIndexInbuffer := 0 } ∧
      indexPass unwritten p =
        .ok (y, { buffer := List.replicate 2050 120
                  totalNumberOfBytesInBuffer := 2050
                  hasDataToProcess := true
                  currentLineNumber := 0
                  currentStartOfLineInBuffer := 2049
                  currentSearchIndexInbuffer := 2049 }) ∧
      y.lineIndex.valueConst 0 = .ok { offset := 0, length := 2048 } ∧
      y.numberOfLines = -1 := by
  have hlocals : ((indexStart (List.replicate 2050 120) 2050 2050).map fun p => p.2) =
      .ok { buffer := List.replicate 2050 120
            totalNumberOfBytesInBuffer := 2050
            hasDataToProcess := true
            currentLineNumber := 0
            currentStartOfLineInBuffer := 0
            currentSearchIndexInbuffer := 0 } := by
    decide!
  refine ⟨by decide!, by decide!, ?_⟩
  cases hp : indexStart (List.replicate 2050 120) 2050 2050 with
  | error t =>
    rw [hp] at hlocals
    cases hlocals
  | ok p =>
    rw [hp] at hlocals
    simp only [Except.map, Except.ok.injEq] at hlocals
    have hx := indexStart_indexer hp
    have hwf : FixedBlockAllocatedArray.WellFormed p.1.lineIndex := by
      rw [hx]
      exact FixedBlockAllocatedArray.construct_wellFormed unwritten none
    obtain ⟨y, hy, hvalue, hlines⟩ :=
      line_of_maximal_length_steps_over_next_byte unwritten p 0
        (by rw [hlocals]; rfl) (by rw [hlocals]; rfl) (by rw [hlocals]; decide)
        (by rw [hlocals]; decide)
        (by
          intro i hi
          rw [hlocals]
          refine ⟨120, ?_, by decide⟩
          show (List.replicate 2050 120)[0 + i]? = some 120
          rw [List.getElem?_replicate, if_pos (by omega)])
        hwf
    refine ⟨p, y, rfl, hlocals, ?_, ?_, ?_⟩
    · rw [hy, hlocals]
      rfl
    · rw [hlocals] at hvalue
      exact hvalue
    · rw [hlines, hx]
      rfl


/-- C16, the code evaluated at the failing input. On the nine-byte file
`a\nbb\n\nccc` (bytes 97 10 98 98 10 10 99 99 99) opened with
`cacheMaxSize = cacheBlockSize = 16`, `indexLinesForFileReader` reads the nine
bytes into its buffer and then: the first three passes of its outer loop store
`{0, 1}`, `{2, 2}` and `{5, 0}`, each in `lineIndex[0]`, because
`currentLineNumber` stays 0; the entries 1 to 3 are never written; the fourth
pass finds no line end for the last line `ccc` and stores nothing; every
further pass leaves the state as it is with `hasDataToProcess` set, so the
method never returns, whatever the number of passes; `numberOfLines` stays
`-1`. -/
theorem indexer_overwrites_first_entry_and_never_returns :
    (LargeFileReaderCore.construct.openFile (hostWith [97, 10, 98, 98, 10, 10, 99, 99, 99] []) "f" 16 16).1 =
      .returned true ∧
    ((indexStart [97, 10, 98, 98, 10, 10, 99, 99, 99] 16 16).map fun p =>
      (p.2.totalNumberOfBytesInBuffer, p.2.buffer.take 9)) =
      .ok (9, [97, 10, 98, 98, 10, 10, 99, 99, 99]) ∧
    ((indexStart [97, 10, 98, 98, 10, 10, 99, 99, 99] 16 16).bind fun p =>
      (indexPasses unwritten 1 p).map (observe 4)) =
      .ok ⟨-1, [.ok ⟨0, 1⟩, .ok ⟨77, 77⟩, .ok ⟨77, 77⟩, .ok ⟨77, 77⟩], 0, 2, 2, true⟩ ∧
    ((indexStart [97, 10, 98, 98, 10, 10, 99, 99, 99] 16 16).bind fun p =>
      (indexPasses unwritten 2 p).map (observe 4)) =
      .ok ⟨-1, [.ok ⟨2, 2⟩, .ok ⟨77, 77⟩, .ok ⟨77, 77⟩, .ok ⟨77, 77⟩], 0, 5, 5, true⟩ ∧
    ((indexStart [97, 10, 98, 98, 10, 10, 99, 99, 99] 16 16).bind fun p =>
      (indexPasses unwritten 3 p).map (observe 4)) =
      .ok ⟨-1, [.ok ⟨5, 0⟩, .ok ⟨77, 77⟩, .ok ⟨77, 77⟩, .ok ⟨77, 77⟩], 0, 6, 6, true⟩ ∧
    ((indexStart [97, 10, 98, 98, 10, 10, 99, 99, 99] 16 16).bind fun p =>
      (indexPasses unwritten 4 p).map (observe 4)) =
      .ok ⟨-1, [.ok ⟨5, 0⟩, .ok ⟨77, 77⟩, .ok ⟨77, 77⟩, .ok ⟨77, 77⟩], 0, 6, 9, true⟩ ∧
    ((indexStart [97, 10, 98, 98, 10, 10, 99, 99, 99] 16 16).bind fun p =>
      (indexPasses unwritten 5 p).map (observe 4)) =
      .ok ⟨-1, [.ok ⟨5, 0⟩, .ok ⟨77, 77⟩, .ok ⟨77, 77⟩, .ok ⟨77, 77⟩], 0, 6, 9, true⟩ ∧
    ∀ fuel, indexLinesForFileReader fuel (construct unwritten none) unwritten (fun _ => 0)
      (opened [97, 10, 98, 98, 10, 10, 99, 99, 99] [] 16 16) = .error .exhausted := by
  refine ⟨by decide!, by decide!, by decide!, by decide!, by decide!, by decide!, by decide!, ?_⟩
  apply indexLinesForFileReader_never_returns 4
  · decide!
  · intro j hj
    have hcases : j = 0 ∨ j = 1 ∨ j = 2 ∨ j = 3 ∨ j = 4 := by omega
    rcases hcases with h | h | h | h | h <;> rw [h] <;> decide!
  · decide!

end LineIndexerCore

namespace FixedBlockAllocatedArray

/-! ## C23 and C26: what the read-write operator changes -/

theorem chainFrom_none {T : Type} (heap : List (AllocatedBlockType T)) (fuel : Nat) :
    chainFrom heap fuel none = [] := by
  cases fuel <;> rfl

/-- On a well-formed array the walk along `nextBlock` from block `j` meets the
blocks `j`, `j + 1`, ... up to the last one and ends at a null pointer there. -/
theorem chainFrom_wellFormed {T : Type} {a : FixedBlockAllocatedArray T} (h : WellFormed a)
    (fuel : Nat) :
    ∀ j, j < a.totalNumberOfAllocatedBlocks → a.totalNumberOfAllocatedBlocks - j ≤ fuel →
      chainFrom a.heap fuel (some j) = List.range' j (a.totalNumberOfAllocatedBlocks - j) := by
  induction fuel with
  | zero =>
    intro j hj hfuel
    omega
  | succ fuel ih =>
    intro j hj hfuel
    have hlt : j < a.heap.length := by
      have := h.length_eq
      omega
    have hblock : a.heap[j]? = some a.heap[j] := List.getElem?_eq_getElem hlt
    rw [chainFrom, hblock]
    simp only
    rw [h.next_eq j _ hblock]
    by_cases hnext : j + 1 < a.totalNumberOfAllocatedBlocks
    · rw [if_pos hnext, ih (j + 1) hnext (by omega)]
      have hlen : a.totalNumberOfAllocatedBlocks - j =
          (a.totalNumberOfAllocatedBlocks - (j + 1)) + 1 := by omega
      rw [hlen, List.range'_succ]
    · rw [if_neg hnext, chainFrom_none]
      have hlen : a.totalNumberOfAllocatedBlocks - j = 1 := by omega
      rw [hlen]
      rfl

/-- The blocks of a well-formed array, walked from `firstBlock`, are all the
blocks it allocated, in the order of their allocation. -/
theorem chainFrom_firstBlock {T : Type} {a : FixedBlockAllocatedArray T} (h : WellFormed a)
    {fuel : Nat} (hfuel : a.totalNumberOfAllocatedBlocks ≤ fuel) :
    chainFrom a.heap fuel a.firstBlock = List.range a.totalNumberOfAllocatedBlocks := by
  rw [h.first_eq, chainFrom_wellFormed h fuel 0 h.total_pos (by omega), List.range_eq_range']
  rfl

/-- C23. A freshly constructed block array has exactly one block: the counter
`totalNumberOfAllocatedBlocks` is 1 and the walk along `nextBlock` from
`firstBlock` meets the one block at address 0. On every state of a block array,
with `c` blocks, `c` is at least 1 and the read-write operator at any index
returns and leaves the array with exactly `max(c, index / 16384 + 1)` blocks:
that is the value of the counter and the number of blocks allocated, and the
walk along `nextBlock` from `firstBlock` meets exactly these blocks, in the
order of their allocation, and ends at the null pointer after the last one,
which is `lastBlock`. -/
theorem subscript_leaves_max_blocks {T : Type} (a : FixedBlockAllocatedArray T)
    (fresh : Nat → Nat → T) (index : Nat) (hreach : Reachable a) :
    (∀ (first : Nat → Nat → T) (prev : Option Nat) (fuel : Nat), 1 ≤ fuel →
      (construct first prev).totalNumberOfAllocatedBlocks = 1 ∧
      (construct first prev).heap.length = 1 ∧
      chainFrom (construct first prev).heap fuel (construct first prev).firstBlock = [0]) ∧
    1 ≤ a.totalNumberOfAllocatedBlocks ∧
    ∃ r, a.subscript fresh index = .ok r ∧
      r.2.totalNumberOfAllocatedBlocks =
        max a.totalNumberOfAllocatedBlocks (index / numberOfEntriesInBlock + 1) ∧
      r.2.heap.length =
        max a.totalNumberOfAllocatedBlocks (index / numberOfEntriesInBlock + 1) ∧
      r.2.lastBlock =
        some (max a.totalNumberOfAllocatedBlocks (index / numberOfEntriesInBlock + 1) - 1) ∧
      ∀ fuel, max a.totalNumberOfAllocatedBlocks (index / numberOfEntriesInBlock + 1) ≤ fuel →
        chainFrom r.2.heap fuel r.2.firstBlock =
          List.range (max a.totalNumberOfAllocatedBlocks (index / numberOfEntriesInBlock + 1)) := by
  have h := reachable_wellFormed hreach
  refine ⟨?_, h.total_pos, ?_⟩
  · intro first prev fuel hfuel
    refine ⟨rfl, rfl, ?_⟩
    have := chainFrom_firstBlock (construct_wellFormed first prev) (show
      (construct first prev).totalNumberOfAllocatedBlocks ≤ fuel from hfuel)
    rw [this]
    rfl
  · obtain ⟨b, hb, hwf, htotal, -⟩ := subscript_reaches h fresh index
    refine ⟨_, hb, htotal, ?_, ?_, ?_⟩
    · show b.heap.length = _
      rw [hwf.length_eq, htotal]
    · show b.lastBlock = _
      rw [hwf.last_eq, htotal]
    · intro fuel hfuel
      show chainFrom b.heap fuel b.firstBlock = _
      rw [← htotal] at hfuel ⊢
      exact chainFrom_firstBlock hwf hfuel

/-- C23 at concrete inputs: a fresh array has one block, and the operator at
index 40000 (block 2) leaves it with three blocks, chained 0, 1, 2. -/
theorem subscript_leaves_max_blocks_witness :
    (∃ r, (construct (fun _ _ => (0 : Nat)) none).subscript (fun _ _ => 0) 40000 = .ok r ∧
      r.2.totalNumberOfAllocatedBlocks = 3 ∧ r.2.heap.length = 3 ∧ r.2.lastBlock = some 2 ∧
      chainFrom r.2.heap 4 r.2.firstBlock = [0, 1, 2]) ∧
    (construct (fun _ _ => (0 : Nat)) none).totalNumberOfAllocatedBlocks = 1 := by
  obtain ⟨hfresh, -, r, hr, htotal, hlen, hlast, hchain⟩ :=
    subscript_leaves_max_blocks (construct (fun _ _ => (0 : Nat)) none) (fun _ _ => 0) 40000
      (Reachable.construct _ _)
  exact ⟨⟨r, hr, htotal, hlen, hlast, hchain 4 (by decide)⟩, (hfresh (fun _ _ => 0) none 1 (le_refl 1)).1⟩

theorem elementRef_injective {i j : Nat} (hne : i ≠ j) :
    ({ block := j / numberOfEntriesInBlock, indexInBlock := j % numberOfEntriesInBlock } :
        ElementRef) ≠
      { block := i / numberOfEntriesInBlock, indexInBlock := i % numberOfEntriesInBlock } := by
  intro heq
  have h₁ : j / numberOfEntriesInBlock = i / numberOfEntriesInBlock := congrArg ElementRef.block heq
  have h₂ : j % numberOfEntriesInBlock = i % numberOfEntriesInBlock :=
    congrArg ElementRef.indexInBlock heq
  apply hne
  rw [← Nat.div_add_mod i numberOfEntriesInBlock, ← Nat.div_add_mod j numberOfEntriesInBlock,
    h₁, h₂]

/-- C26. On every state of a block array, for indices `i ≠ j` with `j` inside
the extent (`j / 16384` below the number of blocks): the read-only operator
reads a value at `j`; `array[i] = value` through the read-write operator
returns, whatever the fresh elements of the blocks it appends hold; and
afterwards the read-only operator reads the same value at `j`, and so does the
read-write operator. -/
theorem write_leaves_other_elements {T : Type} (a : FixedBlockAllocatedArray T)
    (fresh later : Nat → Nat → T) (i j : Nat) (value : T) (hreach : Reachable a) (hne : i ≠ j)
    (hin : j / numberOfEntriesInBlock < a.totalNumberOfAllocatedBlocks) :
    ∃ x b, a.valueConst j = .ok x ∧ a.assign fresh i value = .ok b ∧
      b.valueConst j = .ok x ∧ ((b.value later j).map fun r => r.1) = .ok x := by
  have h := reachable_wellFormed hreach
  obtain ⟨b, hb, hwf, htotal, hsame⟩ := subscript_reaches h fresh i
  have hmod : i % numberOfEntriesInBlock < numberOfEntriesInBlock :=
    Nat.mod_lt _ (by decide)
  obtain ⟨c, hc, hwfc, htotalc, -, hother⟩ :=
    store_wellFormed hwf
      { block := i / numberOfEntriesInBlock, indexInBlock := i % numberOfEntriesInBlock }
      (by show i / numberOfEntriesInBlock < _; omega) hmod value
  have hinc : j / numberOfEntriesInBlock < c.totalNumberOfAllocatedBlocks := by omega
  have hlt : j / numberOfEntriesInBlock < a.heap.length := by
    have := h.length_eq
    omega
  have hget : a.heap[j / numberOfEntriesInBlock]? =
      some a.heap[j / numberOfEntriesInBlock] := List.getElem?_eq_getElem hlt
  have hmodj : j % numberOfEntriesInBlock < numberOfEntriesInBlock :=
    Nat.mod_lt _ (by decide)
  have hload : a.load { block := j / numberOfEntriesInBlock,
                        indexInBlock := j % numberOfEntriesInBlock } =
      .ok (a.heap[j / numberOfEntriesInBlock].allocatedBlock (j % numberOfEntriesInBlock)) := by
    unfold load
    simp only [hget]
    rw [if_pos hmodj]
  have hloadc : c.load { block := j / numberOfEntriesInBlock,
                         indexInBlock := j % numberOfEntriesInBlock } =
      .ok (a.heap[j / numberOfEntriesInBlock].allocatedBlock (j % numberOfEntriesInBlock)) := by
    rw [hother _ (elementRef_injective hne), hsame _ hin, hload]
  refine ⟨a.heap[j / numberOfEntriesInBlock].allocatedBlock (j % numberOfEntriesInBlock), c,
    ?_, ?_, ?_, ?_⟩
  · unfold valueConst
    rw [subscriptConst_inside h hin, ok_bind]
    exact hload
  · unfold assign
    rw [hb, ok_bind]
    exact hc
  · unfold valueConst
    rw [subscriptConst_inside hwfc hinc, ok_bind]
    exact hloadc
  · obtain ⟨d, hd, -, -, hsamed⟩ := subscript_reaches hwfc later j
    unfold FixedBlockAllocatedArray.value
    rw [hd, ok_bind, hsamed _ hinc, hloadc]
    rfl

/-- C26 at concrete inputs, on the freshly constructed array whose element `k`
holds `k`: a write at index 40000, which appends two blocks, and a write at
index 6 both leave the value 5 at index 5. -/
theorem write_leaves_other_elements_witness :
    (∃ x b, (construct (fun _ k => k) none).valueConst 5 = .ok x ∧
      (construct (fun _ k => k) none).assign (fun _ _ => 0) 40000 7 = .ok b ∧
      b.valueConst 5 = .ok x ∧ ((b.value (fun _ _ => 0) 5).map fun r => r.1) = .ok x) ∧
    (∃ x b, (construct (fun _ k => k) none).valueConst 5 = .ok x ∧
      (construct (fun _ k => k) none).assign (fun _ _ => 0) 6 7 = .ok b ∧
      b.valueConst 5 = .ok x ∧ ((b.value (fun _ _ => 0) 5).map fun r => r.1) = .ok x) ∧
    (construct (fun _ k => k) none).valueConst 5 = .ok 5 :=
  ⟨write_leaves_other_elements (construct (fun _ k => k) none) _ _ 40000 5 7
      (Reachable.construct _ _) (by decide) (by decide),
    write_leaves_other_elements (construct (fun _ k => k) none) _ _ 6 5 7
      (Reachable.construct _ _) (by decide) (by decide),
    by decide⟩

end FixedBlockAllocatedArray

namespace LineIndexerCore

/-! ## C24: the indexer returns only when it has read nothing -/

/-- A pass through the body of the outer loop never clears `hasDataToProcess`. -/
theorem indexPass_keeps_flag {fresh : Nat → Nat → LineIndexEntry} {p q : LineIndexerCore × Locals}
    (hpass : indexPass fresh p = .ok q) (hflag : p.2.hasDataToProcess = true) :
    q.2.hasDataToProcess = true := by
  unfold indexPass at hpass
  simp only [bind_eq_ok] at hpass
  obtain ⟨scanned, -, hrest⟩ := hpass
  split at hrest
  · simp only [bind_eq_ok, pure_eq_ok] at hrest
    obtain ⟨y, -, rfl⟩ := hrest
    exact hflag
  · simp only [pure_eq_ok] at hrest
    subst hrest
    rfl

/-- The outer loop entered with `hasDataToProcess` set does not return, however
many passes it is given. -/
theorem indexLoop_with_flag_never_returns (fresh : Nat → Nat → LineIndexEntry) (fuel : Nat) :
    ∀ p q : LineIndexerCore × Locals, p.2.hasDataToProcess = true →
      indexLoop fresh fuel p ≠ .ok q := by
  induction fuel with
  | zero =>
    intro p q hflag
    rw [indexLoop, if_pos hflag]
    simp
  | succ fuel ih =>
    intro p q hflag
    rw [indexLoop, if_pos hflag]
    cases hpass : indexPass fresh p with
    | error t => simp
    | ok p' =>
      simp only
      exact ih p' q (indexPass_keeps_flag hpass hflag)

/-- C24, the code. On an open reader, `indexLinesForFileReader` returns (given
enough passes of its outer loop) exactly when its two reads return and deliver
no byte at all. Whenever the buffer holds at least one byte, the outer loop is
entered with `hasDataToProcess` set, no statement of its body clears the flag,
and the method returns for no number of passes. -/
theorem indexer_returns_only_without_data (x : LineIndexerCore)
    (fresh : Nat → Nat → LineIndexEntry) (junk : Nat → Nat) (reader : LargeFileReaderCore)
    (hopen : reader.isOpen = true) :
    (∃ fuel r, indexLinesForFileReader fuel x fresh junk reader = .ok r) ↔
      ((x.indexPrologue junk reader).map fun start => start.1.2.totalNumberOfBytesInBuffer) =
        .ok 0 := by
  have hlocals : ∀ start, x.indexPrologue junk reader = .ok start →
      start.1.2.hasDataToProcess = decide (start.1.2.totalNumberOfBytesInBuffer > 0) := by
    intro start hstart
    unfold indexPrologue at hstart
    simp only [bind_eq_ok, pure_eq_ok] at hstart
    obtain ⟨_, -, _, -, rfl⟩ := hstart
    rfl
  have hbody : ∀ fuel, indexLinesForFileReader fuel x fresh junk reader =
      (x.indexPrologue junk reader >>= fun start =>
        indexLoop fresh fuel start.1 >>= fun p => pure (0, p.1, start.2)) := by
    intro fuel
    unfold indexLinesForFileReader
    rw [if_neg (by simp [hopen])]
  simp only [hbody]
  cases hstart : x.indexPrologue junk reader with
  | error t =>
    constructor
    · rintro ⟨fuel, r, hr⟩
      cases hr
    · intro h
      cases h
  | ok start =>
    have hflag := hlocals start hstart
    simp only [Except.map, Except.ok.injEq]
    constructor
    · rintro ⟨fuel, r, hr⟩
      by_contra hne
      have hset : start.1.2.hasDataToProcess = true := by
        rw [hflag]
        simp only [gt_iff_lt, decide_eq_true_eq]
        omega
      have hr' : (indexLoop fresh fuel start.1 >>= fun p => pure (0, p.1, start.2)) =
          Except.ok r := hr
      simp only [bind_eq_ok] at hr'
      obtain ⟨q, hq, -⟩ := hr'
      exact indexLoop_with_flag_never_returns fresh fuel start.1 q hset hq
    · intro hzero
      have hclear : start.1.2.hasDataToProcess = false := by
        rw [hflag, hzero]
        rfl
      refine ⟨0, (0, start.1.1, start.2), ?_⟩
      show (indexLoop fresh 0 start.1 >>= fun p => pure (0, p.1, start.2)) = _
      rw [indexLoop, if_neg (by simp [hclear])]
      rfl

/-- C24 at failing inputs, with `cacheMaxSize = cacheBlockSize = 16`. On the
one-byte file `a` (a last line without a line end) and on the two-byte file
`a\n`, the open succeeds and `indexLinesForFileReader` returns for no number of
passes of its outer loop: no pass fails, the loop goes on for ever. On the
empty file it returns 0. -/
theorem indexer_returns_only_without_data_witness :
    ((LargeFileReaderCore.construct.openFile (hostWith [97] []) "f" 16 16).1 = .returned true ∧
      (¬ ∃ fuel r, indexLinesForFileReader fuel (construct unwritten none) unwritten (fun _ => 0)
        (opened [97] [] 16 16) = .ok r) ∧
      ∀ fuel, indexLinesForFileReader fuel (construct unwritten none) unwritten (fun _ => 0)
        (opened [97] [] 16 16) = .error .exhausted) ∧
    ((LargeFileReaderCore.construct.openFile (hostWith [97, 10] []) "f" 16 16).1 = .returned true ∧
      (¬ ∃ fuel r, indexLinesForFileReader fuel (construct unwritten none) unwritten (fun _ => 0)
        (opened [97, 10] [] 16 16) = .ok r) ∧
      ∀ fuel, indexLinesForFileReader fuel (construct unwritten none) unwritten (fun _ => 0)
        (opened [97, 10] [] 16 16) = .error .exhausted) ∧
    ((LargeFileReaderCore.construct.openFile (hostWith [] []) "f" 16 16).1 = .returned true ∧
      ∃ fuel r, indexLinesForFileReader fuel (construct unwritten none) unwritten (fun _ => 0)
        (opened [] [] 16 16) = .ok r ∧ r.1 = 0) := by
  refine ⟨⟨by decide!, ?_, ?_⟩, ⟨by decide!, ?_, ?_⟩, by decide!, ?_⟩
  · rw [indexer_returns_only_without_data _ _ _ _ (by decide!)]
    decide!
  · apply indexLinesForFileReader_never_returns 1
    · decide!
    · intro j hj
      have hcases : j = 0 ∨ j = 1 := by omega
      rcases hcases with h | h <;> rw [h] <;> decide!
    · decide!
  · rw [indexer_returns_only_without_data _ _ _ _ (by decide!)]
    decide!
  · apply indexLinesForFileReader_never_returns 1
    · decide!
    · intro j hj
      have hcases : j = 0 ∨ j = 1 := by omega
      rcases hcases with h | h <;> rw [h] <;> decide!
    · decide!
  · obtain ⟨fuel, r, hr⟩ := (indexer_returns_only_without_data (construct unwritten none)
      unwritten (fun _ => 0) (opened [] [] 16 16) (by decide!)).mpr (by decide!)
    refine ⟨fuel, r, hr, ?_⟩
    unfold indexLinesForFileReader at hr
    rw [if_neg (by decide!)] at hr
    simp only [bind_eq_ok, pure_eq_ok] at hr
    obtain ⟨_, -, _, -, rfl⟩ := hr
    rfl

end LineIndexerCore

/-! ## C21: a fetch into a full cache -/

/-- The last block of a list of at least two blocks is none of the first one. -/
theorem lastOrAbsent_cons_mem {a c : Nat} {rest : List Nat} :
    ∃ m : Nat, lastOrAbsent (a :: c :: rest) = (m : Int) ∧ m ∈ c :: rest := by
  rw [lastOrAbsent_cons_cons]
  cases hl : (c :: rest).getLast? with
  | none => simp at hl
  | some m =>
    refine ⟨m, by simp [lastOrAbsent, hl], List.mem_of_getLast?_eq_some hl⟩

/-- The eviction branch of `takeCacheBlock`, evaluated on any index in which
the entries `a` (least recently used, with successor `c`), `b` (to be fetched)
and `m` (most recently used) are distinct and `c` differs from `a` and `b`. -/
theorem takeCacheBlock_full {s : LargeFileReaderCore} {ix : List FileCacheIndexEntry}
    {a b c m : Nat} {ea eb ec em : FileCacheIndexEntry}
    (hix : s.fileCacheIndex = some ix)
    (hfull : ¬ s.currentNumberOfCachedFileDataBlocks < s.maxNumberOfCachedFileDataBlocks)
    (hlru : s.leastRecentlyUsedIndex = (a : Int)) (hmru : s.mostRecentlyUsedIndex = (m : Int))
    (hea : ix[a]? = some ea) (heb : ix[b]? = some eb) (hec : ix[c]? = some ec)
    (hem : ix[m]? = some em) (hnext : ea.nextUsed = (c : Int))
    (hac : a ≠ c) (ham : a ≠ m) (hba : b ≠ a) (hbc : b ≠ c) (hbm : b ≠ m) :
    s.takeCacheBlock (b : Int) =
      .ok { s with
        fileCacheIndex := some
          ((((ix.set c { ec with previousUsed := -1 }).set a ⟨true, minusOne, -1, -1⟩).set b
            ⟨false, ea.offsetInFileBuffer, (m : Int), -1⟩).set m
            { em with nextUsed := (b : Int)
                      previousUsed := if m = c then -1 else em.previousUsed })
        leastRecentlyUsedIndex := (c : Int)
        mostRecentlyUsedIndex := (b : Int) } := by
  have halt := getElem?_lt hea
  have hblt := getElem?_lt heb
  have hclt := getElem?_lt hec
  have hmlt := getElem?_lt hem
  have hixs : s.indexArray = .ok ix := by simp [indexArray, hix]
  have hcne : (c : Int) ≠ -1 := by omega
  have hmne : (m : Int) ≠ -1 := by omega
  have h1 : clearPreviousUsed ix (c : Int) = .ok (ix.set c { ec with previousUsed := -1 }) := by
    simp [clearPreviousUsed, hcne, updateAt_natCast, hec]
  have h2 : updateAt (ix.set c { ec with previousUsed := -1 }) (a : Int)
      (fun _ => ⟨true, minusOne, -1, -1⟩) =
      .ok ((ix.set c { ec with previousUsed := -1 }).set a ⟨true, minusOne, -1, -1⟩) := by
    rw [updateAt_natCast, List.getElem?_set_ne (Ne.symm hac), hea]
  have h3 : updateAt ((ix.set c { ec with previousUsed := -1 }).set a ⟨true, minusOne, -1, -1⟩)
      (b : Int) (fun _ => ⟨false, ea.offsetInFileBuffer, s.mostRecentlyUsedIndex, -1⟩) =
      .ok (((ix.set c { ec with previousUsed := -1 }).set a ⟨true, minusOne, -1, -1⟩).set b
        ⟨false, ea.offsetInFileBuffer, (m : Int), -1⟩) := by
    rw [updateAt_natCast, List.getElem?_set_ne (Ne.symm hba), List.getElem?_set_ne (Ne.symm hbc),
      heb, hmru]
  have h4 : setNextUsed
      (((ix.set c { ec with previousUsed := -1 }).set a ⟨true, minusOne, -1, -1⟩).set b
        ⟨false, ea.offsetInFileBuffer, (m : Int), -1⟩) s.mostRecentlyUsedIndex (b : Int) =
      .ok ((((ix.set c { ec with previousUsed := -1 }).set a ⟨true, minusOne, -1, -1⟩).set b
          ⟨false, ea.offsetInFileBuffer, (m : Int), -1⟩).set m
          { em with nextUsed := (b : Int)
                    previousUsed := if m = c then -1 else em.previousUsed }) := by
    unfold setNextUsed
    rw [hmru, if_pos hmne, updateAt_natCast, List.getElem?_set_ne hbm,
      List.getElem?_set_ne ham]
    by_cases hmc : m = c
    · subst hmc
      rw [List.getElem?_set_self hmlt]
      rw [hem] at hec
      cases hec
      simp
    · rw [List.getElem?_set_ne (Ne.symm hmc), hem]
      simp [hmc]
  unfold takeCacheBlock
  rw [if_neg hfull, hixs, ok_bind, hlru, entryAt_natCast, hea]
  simp only [ok_bind, hnext, h1, h2, h3, h4]
  rfl

/-- C21. On a configured reader whose cache state is well formed, with the cache
full (`currentNumberOfCachedFileDataBlocks = maxNumberOfCachedFileDataBlocks`)
and room for at least two blocks, `fetchDataBlockForIndex(b)` for a faulted
block `b` returns, and with `a` the least recently used block, `c` its
successor and `m` the most recently used block before the call (where `c = m`
when two blocks are resident): the entry of `a` is faulted with no slot and no
links; `b` is resident in the slot `a` had, with `previousUsed = m` and no
successor, and is the most recently used block; the entry of `m` has
`nextUsed = b`; `c` is the least recently used block and has no predecessor; no
other member of the entries of `c` and `m` changes; the resident count is as
before; every other entry of the index is as before; and the cache state is
well formed again. -/
theorem fetch_into_full_cache_evicts_least_recently_used {s : LargeFileReaderCore}
    {ix : List FileCacheIndexEntry} {mem : List Nat} {blocks : List Nat} (hc : Configured s)
    (hr : Resident s ix mem blocks)
    (hfull : s.currentNumberOfCachedFileDataBlocks = s.maxNumberOfCachedFileDataBlocks)
    (htwo : 2 ≤ s.maxNumberOfCachedFileDataBlocks) {b : Nat} {e₀ : FileCacheIndexEntry}
    (hb : ix[b]? = some e₀) (hf : e₀.isFault = true) :
    ∃ (a c m : Nat) (ea ec em : FileCacheIndexEntry) (r : Nat) (t : LargeFileReaderCore)
      (ix' : List FileCacheIndexEntry),
      s.leastRecentlyUsedIndex = (a : Int) ∧ s.mostRecentlyUsedIndex = (m : Int) ∧
      ix[a]? = some ea ∧ ea.isFault = false ∧ ea.nextUsed = (c : Int) ∧
      ix[c]? = some ec ∧ ix[m]? = some em ∧
      a ≠ c ∧ a ≠ m ∧ b ≠ a ∧ b ≠ c ∧ b ≠ m ∧
      s.fetchDataBlockForIndex (b : Int) = .ok (r, t) ∧
      t.fileCacheIndex = some ix' ∧ ix'.length = ix.length ∧
      ix'[a]? = some ⟨true, minusOne, -1, -1⟩ ∧
      ix'[b]? = some ⟨false, ea.offsetInFileBuffer, (m : Int), -1⟩ ∧
      t.mostRecentlyUsedIndex = (b : Int) ∧
      ix'[m]? = some { em with nextUsed := (b : Int)
                               previousUsed := if m = c then -1 else em.previousUsed } ∧
      t.leastRecentlyUsedIndex = (c : Int) ∧
      ix'[c]? = some { ec with previousUsed := -1
                               nextUsed := if c = m then (b : Int) else ec.nextUsed } ∧
      t.currentNumberOfCachedFileDataBlocks = s.currentNumberOfCachedFileDataBlocks ∧
      (∀ j, j ≠ a → j ≠ b → j ≠ c → j ≠ m → ix'[j]? = ix[j]?) ∧
      ∃ mem' blocks', Resident t ix' mem' blocks' := by
  have hbmem : b ∉ blocks := chain_not_mem hr.chain hb hf
  have hlen : 2 ≤ blocks.length := by
    have h1 := hr.count
    omega
  obtain ⟨a, c, rest, hblocks⟩ : ∃ a c rest, blocks = a :: c :: rest := by
    match blocks, hlen with
    | a :: c :: rest, _ => exact ⟨a, c, rest, rfl⟩
  subst hblocks
  obtain ⟨⟨ea, hea, heaf, -, hnext⟩, ⟨ec, hec, -, -, -⟩, -⟩ := hr.chain.linked
  have hnext' : ea.nextUsed = (c : Int) := by simpa [firstOrAbsent] using hnext
  obtain ⟨m, hm, hmmem⟩ := @lastOrAbsent_cons_mem a c rest
  obtain ⟨em, hem, -⟩ := linked_mem hr.chain.linked (List.mem_cons_of_mem a hmmem)
  obtain ⟨hamem, hnodup⟩ := List.nodup_cons.mp hr.chain.nodup
  have hac : a ≠ c := fun h => hamem (h ▸ List.mem_cons_self _ _)
  have ham : a ≠ m := fun h => hamem (h ▸ hmmem)
  have hba : b ≠ a := fun h => hbmem (h ▸ List.mem_cons_self _ _)
  have hbc : b ≠ c := fun h => hbmem (h ▸ List.mem_cons_of_mem _ (List.mem_cons_self _ _))
  have hbm : b ≠ m := fun h => hbmem (h ▸ List.mem_cons_of_mem _ hmmem)
  have halt := getElem?_lt hea
  have hblt := getElem?_lt hb
  have hclt := getElem?_lt hec
  have hmlt := getElem?_lt hem
  have hlru : s.leastRecentlyUsedIndex = (a : Int) := by rw [hr.lru, firstOrAbsent_cons]
  have hmru : s.mostRecentlyUsedIndex = (m : Int) := by rw [hr.mru, hm]
  have htake := takeCacheBlock_full hr.index_eq (by omega) hlru hmru hea hb hec hem hnext'
    hac ham hba hbc hbm
  obtain ⟨u, ix', blocks', htake', hru, hbmem', -⟩ := takeCacheBlock_resident hc hr hb hf
  rw [htake] at htake'
  cases htake'
  have hcu : Configured { s with
      fileCacheIndex := some
        ((((ix.set c { ec with previousUsed := -1 }).set a ⟨true, minusOne, -1, -1⟩).set b
          ⟨false, ea.offsetInFileBuffer, (m : Int), -1⟩).set m
          { em with nextUsed := (b : Int)
                    previousUsed := if m = c then -1 else em.previousUsed })
      leastRecentlyUsedIndex := (c : Int)
      mostRecentlyUsedIndex := (b : Int) } :=
    ⟨hc.isOpen, hc.blockSize_pos, hc.blockSize_lt, hc.size_nonneg, hc.size_lt, hc.total_eq,
      hc.max_nonneg, hc.max_fits, hc.actual_lt, hc.capacity⟩
  obtain ⟨r, t, mem', hread, hrt, hframe⟩ := readIntoCacheBlock_resident hcu hru hbmem'
  have hix' : ix' = (((ix.set c { ec with previousUsed := -1 }).set a
      ⟨true, minusOne, -1, -1⟩).set b ⟨false, ea.offsetInFileBuffer, (m : Int), -1⟩).set m
      { em with nextUsed := (b : Int)
                previousUsed := if m = c then -1 else em.previousUsed } := by
    have := hru.index_eq
    simp only [Option.some.injEq] at this
    exact this.symm
  refine ⟨a, c, m, ea, ec, em, r, t, ix', hlru, hmru, hea, heaf, hnext', hec, hem, hac, ham,
    hba, hbc, hbm, ?_, hrt.index_eq, ?_, ?_, ?_, ?_, ?_, ?_, ?_, ?_, ?_, mem', blocks', hrt⟩
  · unfold fetchDataBlockForIndex
    rw [htake, ok_bind, hread]
  · rw [hix']
    simp
  · rw [hix', List.getElem?_set_ne (Ne.symm ham), List.getElem?_set_ne hba,
      List.getElem?_set_self (by simpa using halt)]
  · rw [hix', List.getElem?_set_ne (Ne.symm hbm),
      List.getElem?_set_self (by simpa using hblt)]
  · rw [hframe]
  · rw [hix', List.getElem?_set_self (by simpa using hmlt)]
  · rw [hframe]
  · rw [hix']
    by_cases hcm : c = m
    · subst hcm
      rw [List.getElem?_set_self (by simpa using hclt)]
      rw [hem] at hec
      cases hec
      simp
    · rw [List.getElem?_set_ne (Ne.symm hcm), List.getElem?_set_ne hbc,
        List.getElem?_set_ne hac, List.getElem?_set_self hclt]
      simp [hcm]
  · rw [hframe]
  · intro j hja hjb hjc hjm
    rw [hix', List.getElem?_set_ne (Ne.symm hjm), List.getElem?_set_ne (Ne.symm hjb),
      List.getElem?_set_ne (Ne.symm hja), List.getElem?_set_ne (Ne.symm hjc)]

/-- C21 at a concrete input. The six-byte file `1 2 3 4 5 6` opened with
`cacheMaxSize = 4` and `cacheBlockSize = 2` has three blocks and a cache of two
slots; after `read(buffer, 4)` the blocks 0 and 1 are resident and block 2 is
faulted, and `fetchDataBlockForIndex(2)` evicts block 0: afterwards the blocks
1 and 2 are resident, block 1 is the least and block 2 the most recently
used. -/
theorem fetch_into_full_cache_evicts_least_recently_used_witness :
    (((opened [1, 2, 3, 4, 5, 6] [] 4 2).read [0, 0, 0, 0] 4).bind fun q =>
      (q.2.2.fetchDataBlockForIndex 2).map fun r =>
        (faultFlags q.2.2, faultFlags r.2, r.2.leastRecentlyUsedIndex,
          r.2.mostRecentlyUsedIndex)) =
      .ok ([false, false, true], [true, false, false], 1, 2) ∧
    ∃ q ix, (opened [1, 2, 3, 4, 5, 6] [] 4 2).read [0, 0, 0, 0] 4 = .ok q ∧
      q.2.2.fileCacheIndex = some ix ∧
      ∃ (a c m : Nat) (ea ec em : FileCacheIndexEntry) (r : Nat) (t : LargeFileReaderCore)
        (ix' : List FileCacheIndexEntry),
        q.2.2.leastRecentlyUsedIndex = (a : Int) ∧ q.2.2.mostRecentlyUsedIndex = (m : Int) ∧
        ix[a]? = some ea ∧ ea.isFault = false ∧ ea.nextUsed = (c : Int) ∧
        ix[c]? = some ec ∧ ix[m]? = some em ∧
        a ≠ c ∧ a ≠ m ∧ 2 ≠ a ∧ 2 ≠ c ∧ 2 ≠ m ∧
        q.2.2.fetchDataBlockForIndex ((2 : Nat) : Int) = .ok (r, t) ∧
        t.fileCacheIndex = some ix' ∧ ix'.length = ix.length ∧
        ix'[a]? = some ⟨true, minusOne, -1, -1⟩ ∧
        ix'[2]? = some ⟨false, ea.offsetInFileBuffer, (m : Int), -1⟩ ∧
        t.mostRecentlyUsedIndex = ((2 : Nat) : Int) ∧
        ix'[m]? = some { em with nextUsed := ((2 : Nat) : Int)
                                 previousUsed := if m = c then -1 else em.previousUsed } ∧
        t.leastRecentlyUsedIndex = (c : Int) ∧
        ix'[c]? = some { ec with previousUsed := -1
                                 nextUsed := if c = m then ((2 : Nat) : Int) else ec.nextUsed } ∧
        t.currentNumberOfCachedFileDataBlocks = q.2.2.currentNumberOfCachedFileDataBlocks ∧
        (∀ j, j ≠ a → j ≠ 2 → j ≠ c → j ≠ m → ix'[j]? = ix[j]?) ∧
        ∃ mem' blocks', Resident t ix' mem' blocks' := by
  refine ⟨by decide!, ?_⟩
  obtain ⟨-, hc0, ⟨ix0, mem0, hr0⟩, -, -⟩ :=
    openFile_configured LargeFileReaderCore.construct (hostWith [1, 2, 3, 4, 5, 6] []) "f"
      ⟨[1, 2, 3, 4, 5, 6], true, []⟩ 4 2 rfl rfl rfl (by decide) (by decide) (by decide)
      (Or.inl (by decide))
  have hfacts : (((opened [1, 2, 3, 4, 5, 6] [] 4 2).read [0, 0, 0, 0] 4).map fun q =>
      (q.2.2.currentNumberOfCachedFileDataBlocks, q.2.2.maxNumberOfCachedFileDataBlocks,
        (q.2.2.fileCacheIndex.bind fun ix => ix[2]?).map fun e => e.isFault)) =
      .ok (2, 2, some true) := by decide!
  cases hq : (opened [1, 2, 3, 4, 5, 6] [] 4 2).read [0, 0, 0, 0] 4 with
  | error trap =>
    rw [hq] at hfacts
    cases hfacts
  | ok q =>
    rw [hq] at hfacts
    simp only [Except.map, Except.ok.injEq, Prod.mk.injEq] at hfacts
    obtain ⟨hcount, hmax, hentry⟩ := hfacts
    obtain ⟨hcq, ix, mem, blocks, hrq⟩ := read_resident hc0 hr0 hq
    rw [hrq.index_eq] at hentry
    simp only [Option.bind_some, Option.map_eq_some'] at hentry
    obtain ⟨e₀, hb, hf⟩ := hentry
    exact ⟨q, ix, rfl, hrq.index_eq,
      fetch_into_full_cache_evicts_least_recently_used hcq hrq (by rw [hcount, hmax])
        (by rw [hmax]) hb hf⟩

/-! ## What the calls do to the index -/

theorem updateAt_eq_ok {ix ix' : List FileCacheIndexEntry} {i : Int}
    {f : FileCacheIndexEntry → FileCacheIndexEntry} (h : updateAt ix i f = .ok ix') :
    ∃ (k : Nat) (e : FileCacheIndexEntry), i = (k : Int) ∧ ix[k]? = some e ∧
      ix' = ix.set k (f e) := by
  unfold updateAt at h
  split at h
  · rename_i hi
    split at h
    · rename_i e he
      cases h
      exact ⟨i.toNat, e, (Int.toNat_of_nonneg hi).symm, he, rfl⟩
    · cases h
  · cases h

/-- The physical read of a fetch changes the cache bytes and the descriptor
only. -/
theorem readIntoCacheBlock_keeps {s t : LargeFileReaderCore} {index : Int} {r : Nat}
    (h : s.readIntoCacheBlock index = .ok (r, t)) :
    t = { s with fileDataBlocks := t.fileDataBlocks, fileDescriptor := t.fileDescriptor } := by
  unfold readIntoCacheBlock at h
  simp only [bind_eq_ok, pure_eq_ok] at h
  obtain ⟨_, -, _, -, _, -, h⟩ := h
  split at h
  · simp only [pure_eq_ok, Prod.mk.injEq] at h
    obtain ⟨-, rfl⟩ := h
    rfl
  · simp only [bind_eq_ok, pure_eq_ok, Prod.mk.injEq] at h
    obtain ⟨_, -, -, rfl⟩ := h
    rfl

/-- A property of the index, the resident count and the two ends of the chain
that `takeCacheBlock` keeps is kept by the fetch-if-faulted step of `read`. -/
theorem fetchIfFault_keeps {P : LargeFileReaderCore → Prop}
    (hcongr : ∀ s t : LargeFileReaderCore, P s → SameFile s t →
      t.fileCacheIndex = s.fileCacheIndex →
      t.currentNumberOfCachedFileDataBlocks = s.currentNumberOfCachedFileDataBlocks →
      t.leastRecentlyUsedIndex = s.leastRecentlyUsedIndex →
      t.mostRecentlyUsedIndex = s.mostRecentlyUsedIndex → P t)
    (htake : ∀ (s t : LargeFileReaderCore) (index : Int), P s →
      s.takeCacheBlock index = .ok t → P t)
    {s t : LargeFileReaderCore} {isFault : Bool} {index : Int} (hP : P s)
    (h : s.fetchIfFault isFault index = .ok t) : P t := by
  unfold fetchIfFault at h
  split at h
  · simp only [bind_eq_ok, pure_eq_ok] at h
    obtain ⟨r, h₁, rfl⟩ := h
    unfold fetchDataBlockForIndex at h₁
    simp only [bind_eq_ok] at h₁
    obtain ⟨u, hu, hr⟩ := h₁
    have hPu := htake s u index hP hu
    have hkeep := @readIntoCacheBlock_keeps _ r.2 _ r.1 hr
    apply hcongr u r.2 hPu
    · rw [hkeep]
      simp [SameFile]
    · rw [hkeep]
    · rw [hkeep]
    · rw [hkeep]
    · rw [hkeep]
  · cases h
    exact hP

theorem readBody_keeps {P : LargeFileReaderCore → Prop}
    (hcongr : ∀ s t : LargeFileReaderCore, P s → SameFile s t →
      t.fileCacheIndex = s.fileCacheIndex →
      t.currentNumberOfCachedFileDataBlocks = s.currentNumberOfCachedFileDataBlocks →
      t.leastRecentlyUsedIndex = s.leastRecentlyUsedIndex →
      t.mostRecentlyUsedIndex = s.mostRecentlyUsedIndex → P t)
    (htake : ∀ (s t : LargeFileReaderCore) (index : Int), P s →
      s.takeCacheBlock index = .ok t → P t)
    {s : LargeFileReaderCore} {buffer : List Nat} {n total : Nat} {pass : Pass} (hP : P s)
    (h : s.readBody buffer n total = .ok pass) : P pass.state := by
  unfold readBody at h
  split at h
  · cases h
  · split at h
    · cases h
    · simp only [bind_eq_ok] at h
      obtain ⟨ix0, -, e, -, t, ht, ix1, -, e1, -, h⟩ := h
      have hPt := fetchIfFault_keeps hcongr htake hP ht
      split at h
      · simp only [pure_eq_ok] at h
        subst h
        exact hcongr t _ hPt (by simp [SameFile, Pass.state]) rfl rfl rfl rfl
      · unfold copyFromBlock at h
        split at h
        · split at h
          · cases h
            exact hcongr t _ hPt (by simp [SameFile, Pass.state]) rfl rfl rfl rfl
          · split at h
            · cases h
              exact hPt
            · cases h
        · simp only [bind_eq_ok, pure_eq_ok] at h
          obtain ⟨_, -, _, -, _, -, h⟩ := h
          subst h
          exact hcongr t _ hPt (by simp [SameFile, Pass.state]) rfl rfl rfl rfl

theorem readLoop_keeps {P : LargeFileReaderCore → Prop}
    (hcongr : ∀ s t : LargeFileReaderCore, P s → SameFile s t →
      t.fileCacheIndex = s.fileCacheIndex →
      t.currentNumberOfCachedFileDataBlocks = s.currentNumberOfCachedFileDataBlocks →
      t.leastRecentlyUsedIndex = s.leastRecentlyUsedIndex →
      t.mostRecentlyUsedIndex = s.mostRecentlyUsedIndex → P t)
    (htake : ∀ (s t : LargeFileReaderCore) (index : Int), P s →
      s.takeCacheBlock index = .ok t → P t) (fuel : Nat) :
    ∀ (s : LargeFileReaderCore) (buffer : List Nat) (n total : Nat)
      (r : Nat × List Nat × LargeFileReaderCore), P s →
      readLoop fuel s buffer n total = .ok r → P r.2.2 := by
  induction fuel with
  | zero =>
    intro s buffer n total r hP h
    unfold readLoop at h
    split at h
    · cases h
    · cases h
      unfold readEpilogue
      split
      · exact hcongr s _ hP (by simp [SameFile]) rfl rfl rfl rfl
      · exact hP
  | succ fuel ih =>
    intro s buffer n total r hP h
    rw [readLoop] at h
    split at h
    · cases hb : s.readBody buffer n total with
      | error t => simp [hb] at h
      | ok pass =>
        have hPp := readBody_keeps hcongr htake hP hb
        cases pass with
        | returned result out t =>
          simp only [hb] at h
          cases h
          exact hPp
        | continued t out next =>
          simp only [hb] at h
          exact ih t out n next r hPp h
    · cases h
      unfold readEpilogue
      split
      · exact hcongr s _ hP (by simp [SameFile]) rfl rfl rfl rfl
      · exact hP

/-- A property of the index, the resident count and the two ends of the chain
that `takeCacheBlock` keeps is kept by every `read` that ends with a defined
result. -/
theorem read_keeps {P : LargeFileReaderCore → Prop}
    (hcongr : ∀ s t : LargeFileReaderCore, P s → SameFile s t →
      t.fileCacheIndex = s.fileCacheIndex →
      t.currentNumberOfCachedFileDataBlocks = s.currentNumberOfCachedFileDataBlocks →
      t.leastRecentlyUsedIndex = s.leastRecentlyUsedIndex →
      t.mostRecentlyUsedIndex = s.mostRecentlyUsedIndex → P t)
    (htake : ∀ (s t : LargeFileReaderCore) (index : Int), P s →
      s.takeCacheBlock index = .ok t → P t)
    {s : LargeFileReaderCore} {buffer : List Nat} {n : Nat}
    {r : Nat × List Nat × LargeFileReaderCore} (hP : P s) (h : s.read buffer n = .ok r) :
    P r.2.2 := by
  unfold LargeFileReaderCore.read at h
  split at h
  · cases h
    exact hP
  · simp only at h
    split at h
    · split at h
      · cases h
        exact hcongr s _ hP (by simp [SameFile]) rfl rfl rfl rfl
      · refine readLoop_keeps hcongr htake _ _ _ _ _ _ ?_ h
        exact hcongr s _ hP (by simp [SameFile]) rfl rfl rfl rfl
    · refine readLoop_keeps hcongr htake _ _ _ _ _ _ ?_ h
      exact hcongr s _ hP (by simp [SameFile]) rfl rfl rfl rfl

/-- A seek changes neither the index, the resident count nor the ends of the
chain. -/
theorem lseek_keeps (s : LargeFileReaderCore) (offsetInBytes whence : Int) :
    (s.lseek offsetInBytes whence).2.fileCacheIndex = s.fileCacheIndex ∧
    (s.lseek offsetInBytes whence).2.currentNumberOfCachedFileDataBlocks =
      s.currentNumberOfCachedFileDataBlocks ∧
    (s.lseek offsetInBytes whence).2.leastRecentlyUsedIndex = s.leastRecentlyUsedIndex ∧
    (s.lseek offsetInBytes whence).2.mostRecentlyUsedIndex = s.mostRecentlyUsedIndex := by
  unfold lseek
  split
  · exact ⟨rfl, rfl, rfl, rfl⟩
  · simp only
    split
    · exact ⟨rfl, rfl, rfl, rfl⟩
    · split <;> exact ⟨rfl, rfl, rfl, rfl⟩

/-! ## The cache with one slot -/

theorem oneSlot_congr (s t : LargeFileReaderCore) (h : OneSlot s) (hsame : SameFile s t)
    (hindex : t.fileCacheIndex = s.fileCacheIndex)
    (hcount : t.currentNumberOfCachedFileDataBlocks = s.currentNumberOfCachedFileDataBlocks)
    (hlru : t.leastRecentlyUsedIndex = s.leastRecentlyUsedIndex)
    (hmru : t.mostRecentlyUsedIndex = s.mostRecentlyUsedIndex) : OneSlot t := by
  obtain ⟨-, h2, -, h4, -, h6, -, -⟩ := hsame
  unfold OneSlot at *
  rw [h2, h4, h6, hindex, hcount, hlru, hmru]
  exact h

/-- The cache with one slot stays in one of its three states under
`takeCacheBlock`: the first fetch binds the slot, the second one rebinds it and
loses the least recently used index, and a third one does not return. -/
theorem takeCacheBlock_oneSlot (s t : LargeFileReaderCore) (index : Int) (h : OneSlot s)
    (htake : s.takeCacheBlock index = .ok t) : OneSlot t := by
  obtain ⟨hmax, hbs, hactual, ix, hix, hstate⟩ := h
  have hixs : s.indexArray = .ok ix := by simp [indexArray, hix]
  rcases hstate with ⟨hcount, hlru, hmru, hall⟩ | ⟨hcount, b₀, e₀, he₀, hf₀, hslot₀, hothers, hends⟩
  · -- no block is resident: the slot at 0 is bound
    unfold takeCacheBlock at htake
    rw [if_pos (by omega), hixs, ok_bind] at htake
    simp only [bind_eq_ok, pure_eq_ok] at htake
    obtain ⟨ix1, h1, ix2, h2, rfl⟩ := htake
    obtain ⟨k, e, rfl, hk, rfl⟩ := updateAt_eq_ok h1
    have hklt := getElem?_lt hk
    rw [hmru] at h2
    simp only [setNextUsed, ne_eq, not_true_eq_false, if_false, Except.ok.injEq] at h2
    subst h2
    refine ⟨hmax, hbs, hactual, _, rfl, Or.inr ⟨by simp [hcount], k, _,
      List.getElem?_set_self hklt, rfl, ?_, ?_, Or.inl ⟨by simp [hlru], rfl, (hall k e hk).2⟩⟩⟩
    · show (toU64 s.currentNumberOfCachedFileDataBlocks * s.cacheBlockSize) % U64 = 0
      rw [hcount]
      simp [toU64]
    · intro b e' hb he'
      rw [List.getElem?_set_ne (Ne.symm hb)] at he'
      exact (hall b e' he').1
  · rcases hends with ⟨hlru, hmru, hnext⟩ | hlru
    · -- the block in the slot is evicted
      unfold takeCacheBlock at htake
      rw [if_neg (by omega), hixs, ok_bind, hlru, entryAt_natCast, he₀] at htake
      simp only [ok_bind, hnext, clearPreviousUsed, ne_eq, not_true_eq_false, if_false,
        updateAt_natCast, he₀, bind_eq_ok, pure_eq_ok] at htake
      obtain ⟨ix3, h3, ix4, h4, rfl⟩ := htake
      obtain ⟨k, e, rfl, hk, rfl⟩ := updateAt_eq_ok h3
      have hklt := getElem?_lt hk
      have hblt := getElem?_lt he₀
      have hne : (b₀ : Int) ≠ -1 := by omega
      rw [hmru] at h4
      simp only [setNextUsed, ne_eq, hne, not_false_eq_true, if_true] at h4
      obtain ⟨k', e', hk', he', rfl⟩ := updateAt_eq_ok h4
      have hkk : k' = b₀ := by omega
      subst hkk
      by_cases hsame : k = k'
      · subst hsame
        rw [List.getElem?_set_self (by simpa using hklt)] at he'
        cases he'
        refine ⟨hmax, hbs, hactual, _, rfl, Or.inr ⟨hcount, k, _,
          List.getElem?_set_self (by simpa using hklt), rfl, by exact hslot₀, ?_, Or.inr rfl⟩⟩
        intro b eb hb heb
        rw [List.getElem?_set_ne (Ne.symm hb), List.getElem?_set_ne (Ne.symm hb),
          List.getElem?_set_ne (Ne.symm hb)] at heb
        exact hothers b eb hb heb
      · rw [List.getElem?_set_ne hsame, List.getElem?_set_self hblt] at he'
        cases he'
        refine ⟨hmax, hbs, hactual, _, rfl, Or.inr ⟨hcount, k,
          ⟨false, e₀.offsetInFileBuffer, (k' : Int), -1⟩, ?_, rfl, hslot₀, ?_,
          Or.inr rfl⟩⟩
        · rw [List.getElem?_set_ne (Ne.symm hsame),
            List.getElem?_set_self (by simpa using hklt)]
        · intro b eb hb heb
          by_cases hb0 : b = k'
          · subst hb0
            rw [List.getElem?_set_self (by simpa using hblt)] at heb
            cases heb
            rfl
          · rw [List.getElem?_set_ne (Ne.symm hb0), List.getElem?_set_ne (Ne.symm hb),
              List.getElem?_set_ne (Ne.symm hb0)] at heb
            exact hothers b eb hb0 heb
    · -- the least recently used index is lost: the fetch does not return
      unfold takeCacheBlock at htake
      rw [if_neg (by omega), hixs, ok_bind, hlru] at htake
      simp [entryAt] at htake
      cases htake

/-- What a call of `open` that returns `true` found: a closed reader, a block
size that is not above the cache size, and a file that opens. -/
theorem openFile_returned_true {s : LargeFileReaderCore} {host : Host} {fullFilePath : String}
    {file : HostFile} {cacheMaxSize cacheBlockSize : Nat}
    (hfile : host.files fullFilePath = some file)
    (hopen : (s.openFile host fullFilePath cacheMaxSize cacheBlockSize).1 = .returned true) :
    s.isOpen = false ∧ blockSizeOrDefault cacheBlockSize ≤ maxSizeOrDefault cacheMaxSize ∧
      file.openable = true := by
  have hso : s.isOpen = false := by
    cases hso : s.isOpen with
    | true => simp [openFile, hso] at hopen
    | false => rfl
  have hgt : ¬ blockSizeOrDefault cacheBlockSize > maxSizeOrDefault cacheMaxSize := by
    intro hgt
    simp [openFile, hso, hfile, hgt] at hopen
  have hop : file.openable = true := by
    cases hop : file.openable with
    | false => simp [openFile, hso, hfile, hgt, hop] at hopen
    | true => rfl
  exact ⟨hso, Nat.le_of_not_gt hgt, hop⟩

/-- A successful `open` with room for one block only, on a file that is not
smaller than the cache: the cache has one slot and no block is resident. -/
theorem openFile_oneSlot (s : LargeFileReaderCore) (host : Host) (fullFilePath : String)
    (file : HostFile) (cacheMaxSize cacheBlockSize : Nat) (hclosed : s.isOpen = false)
    (hfile : host.files fullFilePath = some file) (hopenable : file.openable = true)
    (hfits : blockSizeOrDefault cacheBlockSize ≤ maxSizeOrDefault cacheMaxSize)
    (hsize : file.bytes.length < 9223372036854775808)
    (hone : maxSizeOrDefault cacheMaxSize < 2 * blockSizeOrDefault cacheBlockSize)
    (hlarge : maxSizeOrDefault cacheMaxSize ≤ file.bytes.length) :
    OneSlot (s.openFile host fullFilePath cacheMaxSize cacheBlockSize).2 := by
  have hU : U64 = 18446744073709551616 := rfl
  have hbs := blockSizeOrDefault_pos cacheBlockSize
  generalize hB : blockSizeOrDefault cacheBlockSize = bs at *
  generalize hM : maxSizeOrDefault cacheMaxSize = cm at *
  have hopen : s.openFile host fullFilePath cacheMaxSize cacheBlockSize =
      (.returned true,
        { s with
          filePath := fullFilePath
          st_size := (file.bytes.length : Int)
          cacheMaxSize := cm
          cacheBlockSize := bs
          cacheActualSize := actualSizeFor (file.bytes.length : Int) cm bs
          maxNumberOfCachedFileDataBlocks :=
            ((actualSizeFor (file.bytes.length : Int) cm bs / bs : Nat) : Int)
          totalNumberOfFileCacheIndexEntries := ((ceilDiv file.bytes.length bs : Nat) : Int)
          currentNumberOfCachedFileDataBlocks := 0
          mostRecentlyUsedIndex := -1
          leastRecentlyUsedIndex := -1
          fileDataBlocks :=
            some ((List.range (actualSizeFor (file.bytes.length : Int) cm bs)).map host.junk)
          fileCacheIndex := some (List.replicate (ceilDiv file.bytes.length bs) {})
          fileDescriptor := some { bytes := file.bytes, position := 0, faults := file.faults }
          currentFileOffset := 0
          isOpen := true, isEof := false, isFail := false, isBad := false }) := by
    simp [openFile, hclosed, hfile, hopenable, hB, hM, Nat.not_lt.mpr hfits]
  rw [hopen]
  have hlenU : toU64 (file.bytes.length : Int) = file.bytes.length :=
    toU64_natCast (by omega)
  have hactual : actualSizeFor (file.bytes.length : Int) cm bs = cm := by
    unfold actualSizeFor
    rw [hlenU, if_neg (by omega)]
  have hdiv : cm / bs = 1 := by
    apply Nat.div_eq_of_lt_le
    · omega
    · omega
  refine ⟨?_, hbs, ?_, List.replicate (ceilDiv file.bytes.length bs) {}, rfl,
    Or.inl ⟨rfl, rfl, rfl, ?_⟩⟩
  · show ((actualSizeFor (file.bytes.length : Int) cm bs / bs : Nat) : Int) = 1
    rw [hactual, hdiv]
    rfl
  · show bs ≤ actualSizeFor (file.bytes.length : Int) cm bs
    rw [hactual]
    exact hfits
  · intro b e he
    rw [List.getElem?_replicate] at he
    split at he
    · cases he
      exact ⟨rfl, rfl⟩
    · cases he

/-- Every state of an open reader is configured with a well-formed cache state,
or has a cache with one slot. -/
theorem openReachable_resident_or_oneSlot {host : Host} {s : LargeFileReaderCore}
    (h : OpenReachable host s) :
    (Configured s ∧ ∃ ix mem blocks, Resident s ix mem blocks) ∨ OneSlot s := by
  induction h with
  | openFile s fullFilePath file cacheMaxSize cacheBlockSize hfile hsize hmax hblock hopen =>
    have hU : U64 = 18446744073709551616 := rfl
    obtain ⟨hso, hfits, hop⟩ := openFile_returned_true hfile hopen
    have hmax' : maxSizeOrDefault cacheMaxSize < U64 := by
      unfold maxSizeOrDefault cacheDefaultMaxSize
      split <;> omega
    by_cases hroom : 2 * blockSizeOrDefault cacheBlockSize ≤ maxSizeOrDefault cacheMaxSize ∨
        file.bytes.length < maxSizeOrDefault cacheMaxSize
    · obtain ⟨-, hc, ⟨ix, mem, hr⟩, -, -⟩ :=
        openFile_configured s host fullFilePath file cacheMaxSize cacheBlockSize hso hfile hop
          hfits hmax' hsize hroom
      exact Or.inl ⟨hc, ix, mem, [], hr⟩
    · exact Or.inr (openFile_oneSlot s host fullFilePath file cacheMaxSize cacheBlockSize hso
        hfile hop hfits hsize (by omega) (by omega))
  | lseek offsetInBytes whence _ ih =>
    rcases ih with ⟨hc, ix, mem, blocks, hr⟩ | hone
    · obtain ⟨hc', hr'⟩ := lseek_resident hc hr offsetInBytes whence
      exact Or.inl ⟨hc', ix, mem, blocks, hr'⟩
    · obtain ⟨h1, h2, h3, h4⟩ := lseek_keeps _ offsetInBytes whence
      exact Or.inr (oneSlot_congr _ _ hone (lseek_sameFile _ _ _) h1 h2 h3 h4)
  | read buffer numberOfBytes _ _ hread ih =>
    rcases ih with ⟨hc, ix, mem, blocks, hr⟩ | hone
    · exact Or.inl (read_resident hc hr hread)
    · exact Or.inr (read_keeps oneSlot_congr takeCacheBlock_oneSlot hone hread)

/-! ## C22: the slots of the resident blocks -/

/-- C22. In every state of an open reader (the state a successful `open` leaves
and every state that calls of `lseek` and `read` lead to from there), the index
is bound, each entry that is not faulted holds a slot offset that is a multiple
of `cacheBlockSize` with `offset + cacheBlockSize <= cacheActualSize`, and no
two distinct entries that are not faulted hold the same slot offset. -/
theorem resident_blocks_have_slots_of_their_own (host : Host) (s : LargeFileReaderCore)
    (hreach : OpenReachable host s) :
    ∃ ix, s.fileCacheIndex = some ix ∧
      (∀ (b : Nat) (e : FileCacheIndexEntry), ix[b]? = some e → e.isFault = false →
        e.offsetInFileBuffer % s.cacheBlockSize = 0 ∧
        e.offsetInFileBuffer + s.cacheBlockSize ≤ s.cacheActualSize) ∧
      (∀ (b c : Nat) (e f : FileCacheIndexEntry), ix[b]? = some e → ix[c]? = some f →
        e.isFault = false → f.isFault = false →
        e.offsetInFileBuffer = f.offsetInFileBuffer → b = c) := by
  rcases openReachable_resident_or_oneSlot hreach with ⟨hc, ix, mem, blocks, hr⟩ | hone
  · refine ⟨ix, hr.index_eq, ?_, ?_⟩
    · intro b e he hf
      have hmem := hr.chain.resident b e he hf
      refine ⟨hr.slotted.aligned b e hmem he, ?_⟩
      have h1 := hr.slotted.inside b e hmem he
      have h2 := hc.max_fits
      omega
    · intro b c e f he hf hef hff heq
      exact hr.slotted.own b c e f (hr.chain.resident b e he hef) (hr.chain.resident c f hf hff)
        he hf heq
  · obtain ⟨-, hbs, hactual, ix, hix, hstate⟩ := hone
    refine ⟨ix, hix, ?_, ?_⟩
    · intro b e he hf
      rcases hstate with ⟨-, -, -, hall⟩ | ⟨-, b₀, e₀, he₀, -, hslot₀, hothers, -⟩
      · rw [(hall b e he).1] at hf
        cases hf
      · by_cases hb : b = b₀
        · subst hb
          rw [he₀] at he
          cases he
          rw [hslot₀]
          exact ⟨Nat.zero_mod _, by omega⟩
        · rw [hothers b e hb he] at hf
          cases hf
    · intro b c e f he hf hef hff _
      rcases hstate with ⟨-, -, -, hall⟩ | ⟨-, b₀, e₀, -, -, -, hothers, -⟩
      · rw [(hall b e he).1] at hef
        cases hef
      · have hb : b = b₀ := by
          by_contra hb
          rw [hothers b e hb he] at hef
          cases hef
        have hc : c = b₀ := by
          by_contra hc
          rw [hothers c f hc hf] at hff
          cases hff
        rw [hb, hc]

/-- C22 at concrete inputs. On the six-byte file `1 2 3 4 5 6`: with a cache of
two slots of two bytes, after the whole file was read (block 0 evicted for
block 2) the blocks 1 and 2 hold the slots at 2 and 0; with a cache of one slot
of two bytes, after four bytes were read block 1 holds the slot at 0. -/
theorem resident_blocks_have_slots_of_their_own_witness :
    (((opened [1, 2, 3, 4, 5, 6] [] 4 2).read [0, 0, 0, 0, 0, 0] 6).map fun q =>
      (q.2.2.cacheActualSize, q.2.2.cacheBlockSize, faultFlags q.2.2,
        q.2.2.fileCacheIndex.map fun ix => ix.map fun e => e.offsetInFileBuffer % 16)) =
      .ok (4, 2, [true, false, false], some [15, 2, 0]) ∧
    (∃ q ix, (opened [1, 2, 3, 4, 5, 6] [] 4 2).read [0, 0, 0, 0, 0, 0] 6 = .ok q ∧
      q.2.2.fileCacheIndex = some ix ∧
      (∀ (b : Nat) (e : FileCacheIndexEntry), ix[b]? = some e → e.isFault = false →
        e.offsetInFileBuffer % q.2.2.cacheBlockSize = 0 ∧
        e.offsetInFileBuffer + q.2.2.cacheBlockSize ≤ q.2.2.cacheActualSize) ∧
      (∀ (b c : Nat) (e f : FileCacheIndexEntry), ix[b]? = some e → ix[c]? = some f →
        e.isFault = false → f.isFault = false →
        e.offsetInFileBuffer = f.offsetInFileBuffer → b = c)) ∧
    (((opened [1, 2, 3, 4, 5, 6] [] 2 2).read [0, 0, 0, 0] 4).map fun q =>
      (q.2.2.cacheActualSize, q.2.2.cacheBlockSize, faultFlags q.2.2,
        q.2.2.fileCacheIndex.map fun ix => ix.map fun e => e.offsetInFileBuffer % 16)) =
      .ok (2, 2, [true, false, true], some [15, 0, 15]) ∧
    (∃ q ix, (opened [1, 2, 3, 4, 5, 6] [] 2 2).read [0, 0, 0, 0] 4 = .ok q ∧
      q.2.2.fileCacheIndex = some ix ∧
      (∀ (b : Nat) (e : FileCacheIndexEntry), ix[b]? = some e → e.isFault = false →
        e.offsetInFileBuffer % q.2.2.cacheBlockSize = 0 ∧
        e.offsetInFileBuffer + q.2.2.cacheBlockSize ≤ q.2.2.cacheActualSize) ∧
      (∀ (b c : Nat) (e f : FileCacheIndexEntry), ix[b]? = some e → ix[c]? = some f →
        e.isFault = false → f.isFault = false →
        e.offsetInFileBuffer = f.offsetInFileBuffer → b = c)) := by
  have hopen4 : OpenReachable (hostWith [1, 2, 3, 4, 5, 6] []) (opened [1, 2, 3, 4, 5, 6] [] 4 2) :=
    OpenReachable.openFile LargeFileReaderCore.construct "f" ⟨[1, 2, 3, 4, 5, 6], true, []⟩ 4 2
      rfl (by decide) (by decide) (by decide) (by decide!)
  have hopen2 : OpenReachable (hostWith [1, 2, 3, 4, 5, 6] []) (opened [1, 2, 3, 4, 5, 6] [] 2 2) :=
    OpenReachable.openFile LargeFileReaderCore.construct "f" ⟨[1, 2, 3, 4, 5, 6], true, []⟩ 2 2
      rfl (by decide) (by decide) (by decide) (by decide!)
  refine ⟨by decide!, ?_, by decide!, ?_⟩
  · cases hq : (opened [1, 2, 3, 4, 5, 6] [] 4 2).read [0, 0, 0, 0, 0, 0] 6 with
    | error trap =>
      have hok : ((opened [1, 2, 3, 4, 5, 6] [] 4 2).read [0, 0, 0, 0, 0, 0] 6).toBool = true := by
        decide!
      rw [hq] at hok
      cases hok
    | ok q =>
      obtain ⟨ix, hix, h⟩ := resident_blocks_have_slots_of_their_own _ q.2.2
        (OpenReachable.read [0, 0, 0, 0, 0, 0] 6 hopen4 (by decide) hq)
      exact ⟨q, ix, rfl, hix, h⟩
  · cases hq : (opened [1, 2, 3, 4, 5, 6] [] 2 2).read [0, 0, 0, 0] 4 with
    | error trap =>
      have hok : ((opened [1, 2, 3, 4, 5, 6] [] 2 2).read [0, 0, 0, 0] 4).toBool = true := by
        decide!
      rw [hq] at hok
      cases hok
    | ok q =>
      obtain ⟨ix, hix, h⟩ := resident_blocks_have_slots_of_their_own _ q.2.2
        (OpenReachable.read [0, 0, 0, 0] 4 hopen2 (by decide) hq)
      exact ⟨q, ix, rfl, hix, h⟩

/-! ## Bytes of the cache and of the caller's buffer -/

theorem writeBytes_eq_ok {mem out : List Nat} {start : Nat} {data : List Nat}
    (h : writeBytes mem start data = .ok out) :
    start + data.length ≤ mem.length ∧
      out = mem.take start ++ data ++ mem.drop (start + data.length) := by
  unfold writeBytes at h
  split at h
  · rename_i hle
    cases h
    exact ⟨hle, rfl⟩
  · cases h

/-- A write leaves the bytes outside the range written as they were. -/
theorem writeBytes_outside {mem out : List Nat} {start : Nat} {data : List Nat}
    (h : writeBytes mem start data = .ok out) {j : Nat}
    (hj : j < start ∨ start + data.length ≤ j) : out[j]? = mem[j]? := by
  obtain ⟨hle, rfl⟩ := writeBytes_eq_ok h
  rcases hj with hlt | hge
  · rw [List.append_assoc, List.getElem?_append_left (by simp; omega)]
    simp [List.getElem?_take, hlt]
  · rw [List.getElem?_append_right (by simp; omega)]
    simp only [List.length_append, List.length_take, List.getElem?_drop]
    congr 1
    omega

/-- A write stores the data in the range written. -/
theorem writeBytes_inside {mem out : List Nat} {start : Nat} {data : List Nat}
    (h : writeBytes mem start data = .ok out) {i : Nat} (hi : i < data.length) :
    out[start + i]? = data[i]? := by
  obtain ⟨hle, rfl⟩ := writeBytes_eq_ok h
  rw [List.getElem?_append_left (by simp; omega),
    List.getElem?_append_right (by simp)]
  congr 1
  simp
  omega

theorem readBytes_eq_ok {mem data : List Nat} {start len : Nat}
    (h : readBytes mem start len = .ok data) :
    start + len ≤ mem.length ∧ data = (mem.drop start).take len := by
  unfold readBytes at h
  split at h
  · rename_i hle
    cases h
    exact ⟨hle, rfl⟩
  · cases h

/-- The bytes a read of memory returns. -/
theorem readBytes_getElem? {mem data : List Nat} {start len : Nat}
    (h : readBytes mem start len = .ok data) {i : Nat} (hi : i < len) :
    data[i]? = mem[start + i]? := by
  obtain ⟨-, rfl⟩ := readBytes_eq_ok h
  simp [List.getElem?_take, hi, List.getElem?_drop]

/-- Two distinct multiples of a block size are a block size apart. -/
theorem aligned_apart {a c b : Nat} (ha : a % b = 0) (hc : c % b = 0) (hne : a ≠ c) :
    a + b ≤ c ∨ c + b ≤ a := by
  obtain ⟨x, rfl⟩ := Nat.dvd_of_mod_eq_zero ha
  obtain ⟨y, rfl⟩ := Nat.dvd_of_mod_eq_zero hc
  rcases Nat.lt_trichotomy x y with h | h | h
  · left
    have := Nat.mul_le_mul_left b (Nat.succ_le_of_lt h)
    rw [Nat.mul_succ] at this
    exact this
  · exact absurd (by rw [h]) hne
  · right
    have := Nat.mul_le_mul_left b (Nat.succ_le_of_lt h)
    rw [Nat.mul_succ] at this
    exact this

/-- A `::read` that does not fail delivers the bytes of the file from the
position of the descriptor, and advances the position by their number. -/
theorem posixRead_of_no_fault {d : OpenDescription} (h : ∀ f ∈ d.faults, f = false)
    (count : Nat) :
    (posixRead d count).2.1 = (d.bytes.drop d.position).take count ∧
    (posixRead d count).2.2.bytes = d.bytes ∧
    (posixRead d count).2.2.position = d.position + ((d.bytes.drop d.position).take count).length ∧
    ∀ f ∈ (posixRead d count).2.2.faults, f = false := by
  unfold posixRead
  split
  · rename_i rest hfaults
    have := h true (by rw [hfaults]; exact List.mem_cons_self _ _)
    cases this
  · rename_i rest hfaults
    refine ⟨rfl, rfl, rfl, ?_⟩
    intro f hf
    exact h f (by rw [hfaults]; exact List.mem_cons_of_mem _ hf)
  · exact ⟨rfl, rfl, rfl, h⟩

/-! ## The slots a fetch leaves alone -/

/-- An assignment to an entry of the index that is the entry `except`, or that
leaves the entry faulted or with the slot it had: every other entry that is not
faulted afterwards was not faulted before and has the slot it had. -/
theorem updateAt_keeps_slots {ix ix' : List FileCacheIndexEntry} {i : Int}
    {f : FileCacheIndexEntry → FileCacheIndexEntry} (except : Int)
    (h : updateAt ix i f = .ok ix')
    (hf : i = except ∨ ∀ e, (f e).isFault = false →
      e.isFault = false ∧ e.offsetInFileBuffer = (f e).offsetInFileBuffer) :
    ∀ (j : Nat) (e' : FileCacheIndexEntry), (j : Int) ≠ except → ix'[j]? = some e' →
      e'.isFault = false →
      ∃ e, ix[j]? = some e ∧ e.isFault = false ∧ e.offsetInFileBuffer = e'.offsetInFileBuffer := by
  obtain ⟨k, e, rfl, hk, rfl⟩ := updateAt_eq_ok h
  intro j e' hj he' hfault
  by_cases hjk : j = k
  · subst hjk
    rw [List.getElem?_set_self (getElem?_lt hk)] at he'
    cases he'
    rcases hf with hf | hf
    · exact absurd hf hj
    · exact ⟨e, hk, (hf e hfault).1, (hf e hfault).2⟩
  · rw [List.getElem?_set_ne (Ne.symm hjk)] at he'
    exact ⟨e', he', hfault, rfl⟩

theorem setNextUsed_keeps_slots {ix ix' : List FileCacheIndexEntry} {i index : Int}
    (except : Int) (h : setNextUsed ix i index = .ok ix') :
    ∀ (j : Nat) (e' : FileCacheIndexEntry), (j : Int) ≠ except → ix'[j]? = some e' →
      e'.isFault = false →
      ∃ e, ix[j]? = some e ∧ e.isFault = false ∧ e.offsetInFileBuffer = e'.offsetInFileBuffer := by
  unfold setNextUsed at h
  split at h
  · exact updateAt_keeps_slots except h (Or.inr fun e he => ⟨he, rfl⟩)
  · cases h
    intro j e' _ he' hfault
    exact ⟨e', he', hfault, rfl⟩

theorem clearPreviousUsed_keeps_slots {ix ix' : List FileCacheIndexEntry} {i : Int}
    (except : Int) (h : clearPreviousUsed ix i = .ok ix') :
    ∀ (j : Nat) (e' : FileCacheIndexEntry), (j : Int) ≠ except → ix'[j]? = some e' →
      e'.isFault = false →
      ∃ e, ix[j]? = some e ∧ e.isFault = false ∧ e.offsetInFileBuffer = e'.offsetInFileBuffer := by
  unfold clearPreviousUsed at h
  split at h
  · exact updateAt_keeps_slots except h (Or.inr fun e he => ⟨he, rfl⟩)
  · cases h
    intro j e' _ he' hfault
    exact ⟨e', he', hfault, rfl⟩

/-- A block other than the one fetched that is resident after `takeCacheBlock`
was resident before, in the same slot. -/
theorem takeCacheBlock_keeps_slots {s t : LargeFileReaderCore} {index : Int}
    {ix ix' : List FileCacheIndexEntry} (h : s.takeCacheBlock index = .ok t)
    (hix : s.fileCacheIndex = some ix) (hix' : t.fileCacheIndex = some ix') :
    ∀ (j : Nat) (e' : FileCacheIndexEntry), (j : Int) ≠ index → ix'[j]? = some e' →
      e'.isFault = false →
      ∃ e, ix[j]? = some e ∧ e.isFault = false ∧ e.offsetInFileBuffer = e'.offsetInFileBuffer := by
  have hixs : s.indexArray = .ok ix := by simp [indexArray, hix]
  unfold takeCacheBlock at h
  split at h
  · rw [hixs, ok_bind] at h
    simp only [bind_eq_ok, pure_eq_ok] at h
    obtain ⟨ix1, h1, ix2, h2, rfl⟩ := h
    simp only [Option.some.injEq] at hix'
    subst hix'
    intro j e' hj he' hfault
    obtain ⟨e1, he1, hf1, ho1⟩ := setNextUsed_keeps_slots index h2 j e' hj he' hfault
    obtain ⟨e0, he0, hf0, ho0⟩ := updateAt_keeps_slots index h1 (Or.inl rfl) j e1 hj he1 hf1
    exact ⟨e0, he0, hf0, ho0.trans ho1⟩
  · rw [hixs, ok_bind] at h
    simp only [bind_eq_ok, pure_eq_ok] at h
    obtain ⟨lru, -, ix1, h1, ix2, h2, ix3, h3, ix4, h4, rfl⟩ := h
    simp only [Option.some.injEq] at hix'
    subst hix'
    intro j e' hj he' hfault
    obtain ⟨e3, he3, hf3, ho3⟩ := setNextUsed_keeps_slots index h4 j e' hj he' hfault
    obtain ⟨e2, he2, hf2, ho2⟩ := updateAt_keeps_slots index h3 (Or.inl rfl) j e3 hj he3 hf3
    obtain ⟨e1, he1, hf1, ho1⟩ := updateAt_keeps_slots index h2
      (Or.inr fun e he => by cases he) j e2 hj he2 hf2
    obtain ⟨e0, he0, hf0, ho0⟩ := clearPreviousUsed_keeps_slots index h1 j e1 hj he1 hf1
    exact ⟨e0, he0, hf0, ho0.trans (ho1.trans (ho2.trans ho3))⟩

/-! ## Reads in sequence -/

/-- The fetch of the next block of a reader that was only read in sequence: the
block gets a slot of its own, the slot is filled with the bytes of the block,
and the descriptor stands at the start of the block after it. -/
theorem fetchDataBlockForIndex_sequential {bytes : List Nat} {s : LargeFileReaderCore}
    {ix : List FileCacheIndexEntry} {mem blocks : List Nat} {fetched : Nat}
    (hc : Configured s) (hr : Resident s ix mem blocks)
    (hseq : Sequential bytes s ix mem blocks fetched) {e₀ : FileCacheIndexEntry}
    (hb : ix[fetched]? = some e₀)
    (hcur : s.currentFileOffset = ((fetched * s.cacheBlockSize : Nat) : Int))
    (hlt : fetched * s.cacheBlockSize < bytes.length) :
    e₀.isFault = true ∧
    ∃ r t ix' mem' blocks', s.fetchDataBlockForIndex (fetched : Int) = .ok (r, t) ∧
      Resident t ix' mem' blocks' ∧ fetched ∈ blocks' ∧ FetchFrame s t ∧
      Sequential bytes t ix' mem' blocks' (fetched + 1) := by
  have hf : e₀.isFault = true := by
    cases hfe : e₀.isFault with
    | true => rfl
    | false =>
      exact absurd (hseq.below fetched (hr.chain.resident fetched e₀ hb hfe)) (Nat.lt_irrefl _)
  refine ⟨hf, ?_⟩
  obtain ⟨u, ix', blocks', htake, hru, hbmem, hframe⟩ := takeCacheBlock_resident hc hr hb hf
  have hkept := takeCacheBlock_keeps_slots htake hr.index_eq hru.index_eq
  have hcu : Configured u := by
    rw [hframe]
    exact ⟨hc.isOpen, hc.blockSize_pos, hc.blockSize_lt, hc.size_nonneg, hc.size_lt,
      hc.total_eq, hc.max_nonneg, hc.max_fits, hc.actual_lt, hc.capacity⟩
  obtain ⟨eF, heF, -⟩ := linked_mem hru.chain.linked hbmem
  obtain ⟨d, hd, hdbytes, hdpos, hdfaults⟩ := hseq.descriptor
  have hud : u.fileDescriptor = some d := by rw [hframe]; exact hd
  have hubs : u.cacheBlockSize = s.cacheBlockSize := by rw [hframe]
  obtain ⟨hdata, hbytes', hpos', hfaults'⟩ := posixRead_of_no_fault hdfaults s.cacheBlockSize
  obtain ⟨r, t, mem', hread, hrt, hframe'⟩ := readIntoCacheBlock_resident hcu hru hbmem
  have hfr : FetchFrame s t := by
    unfold FetchFrame
    rw [hframe', hframe]
  have hfr' := hfr
  unfold FetchFrame at hfr'
  have htbs : t.cacheBlockSize = s.cacheBlockSize := by rw [hfr']
  have htcur : t.currentFileOffset = s.currentFileOffset := by rw [hfr']
  have htsize : t.st_size = s.st_size := by rw [hfr']
  have hixu : u.indexArray = .ok ix' := by simp [indexArray, hru.index_eq]
  have hmemu : u.dataArray = .ok mem := by simp [dataArray, hru.data_eq]
  have hwrite : writeBytes mem eF.offsetInFileBuffer (posixRead d s.cacheBlockSize).2.1 =
      .ok mem' ∧ t.fileDescriptor = some (posixRead d s.cacheBlockSize).2.2 := by
    have h := hread
    unfold readIntoCacheBlock at h
    rw [hixu, ok_bind, entryAt_natCast, heF] at h
    simp only [ok_bind, hmemu, hud, hubs, bind_eq_ok, pure_eq_ok, Prod.mk.injEq] at h
    obtain ⟨m2, hw, -, ht⟩ := h
    have hdata_eq := hrt.data_eq
    rw [← ht] at hdata_eq
    simp only [Option.some.injEq] at hdata_eq
    rw [← ht]
    exact ⟨by rw [← hdata_eq]; exact hw, rfl⟩
  obtain ⟨hw, htd⟩ := hwrite
  have hposeq : d.position = fetched * s.cacheBlockSize := by
    rw [hdpos]
    omega
  have hdatalen : (posixRead d s.cacheBlockSize).2.1.length =
      min s.cacheBlockSize (bytes.length - fetched * s.cacheBlockSize) := by
    rw [hdata, hdbytes, hposeq]
    simp
  refine ⟨r, t, ix', mem', blocks', ?_, hrt, hbmem, hfr, ?_⟩
  · unfold fetchDataBlockForIndex
    rw [htake, ok_bind, hread]
  · refine ⟨htsize.trans hseq.size_eq, ⟨_, htd, hbytes'.trans hdbytes, ?_, hfaults'⟩, ?_, ?_, ?_,
      ?_, ?_⟩
    · rw [hpos', ← hdata, hdatalen, hposeq, htbs, Nat.add_mul, Nat.one_mul]
      omega
    · intro k hk
      by_cases hkF : k = fetched
      · omega
      · obtain ⟨e', he', hf'⟩ := linked_mem hrt.chain.linked hk
        obtain ⟨e, he, hfe, -⟩ := hkept k e' (by omega) he' hf'
        have := hseq.below k (hr.chain.resident k e he hfe)
        omega
    · intro _
      simpa using hbmem
    · intro k e' hk he' i hi hki
      rw [htbs] at hi hki ⊢
      by_cases hkF : k = fetched
      · subst hkF
        rw [heF] at he'
        cases he'
        rw [writeBytes_inside hw (by rw [hdatalen]; omega), hdata, hdbytes, hposeq]
        simp [List.getElem?_take, hi, List.getElem?_drop]
      · obtain ⟨e'', he'', hf'⟩ := linked_mem hrt.chain.linked hk
        rw [he'] at he''
        cases he''
        obtain ⟨e, he, hfe, hoff⟩ := hkept k e' (by omega) he' hf'
        have hkmem := hr.chain.resident k e he hfe
        have hold := hseq.content k e hkmem he i hi hki
        have hne : e'.offsetInFileBuffer ≠ eF.offsetInFileBuffer := by
          intro heq
          exact hkF (hrt.slotted.own k fetched e' eF hk hbmem he' heF heq)
        have ha1 := hrt.slotted.aligned k e' hk he'
        have ha2 := hrt.slotted.aligned fetched eF hbmem heF
        rw [htbs] at ha1 ha2
        have hapart := aligned_apart ha1 ha2 hne
        have hlen := posixRead_length_le d s.cacheBlockSize
        rw [writeBytes_outside hw (by omega), ← hoff]
        exact hold
    · rw [htcur, htbs, hcur]
      simp
    · rw [htcur, htbs, hcur]
      push_cast
      have := hc.blockSize_pos
      nlinarith

/-- The fetch-if-faulted step of `read` on a reader that was only read in
sequence, for a cursor inside the file: the block of the cursor is the last one
fetched, or it is the next one and is fetched now. -/
theorem fetchIfFault_sequential {bytes : List Nat} {s : LargeFileReaderCore}
    {ix : List FileCacheIndexEntry} {mem blocks : List Nat} {fetched : Nat}
    (hc : Configured s) (hr : Resident s ix mem blocks)
    (hseq : Sequential bytes s ix mem blocks fetched) (hcur0 : 0 ≤ s.currentFileOffset)
    (hcurlt : s.currentFileOffset < s.st_size) {e : FileCacheIndexEntry}
    (hb : ix[s.currentFileOffset.toNat / s.cacheBlockSize]? = some e) :
    ∃ t ix' mem' blocks' e',
      s.fetchIfFault e.isFault ((s.currentFileOffset.toNat / s.cacheBlockSize : Nat) : Int) =
        .ok t ∧
      Resident t ix' mem' blocks' ∧ FetchFrame s t ∧
      s.currentFileOffset.toNat / s.cacheBlockSize ∈ blocks' ∧
      ix'[s.currentFileOffset.toNat / s.cacheBlockSize]? = some e' ∧ e'.isFault = false ∧
      Sequential bytes t ix' mem' blocks' (s.currentFileOffset.toNat / s.cacheBlockSize + 1) := by
  have hbs := hc.blockSize_pos
  obtain ⟨c, hcdef⟩ : ∃ c : Nat, s.currentFileOffset = (c : Int) :=
    ⟨s.currentFileOffset.toNat, (Int.toNat_of_nonneg hcur0).symm⟩
  have hge := hseq.cursor_ge
  have hle := hseq.cursor_le
  have hsize := hseq.size_eq
  rw [hcdef] at hge hle hb ⊢
  rw [hcdef, hsize] at hcurlt
  simp only [Int.toNat_ofNat] at hb ⊢
  have hge' : (fetched - 1) * s.cacheBlockSize ≤ c := by exact_mod_cast hge
  have hle' : c ≤ fetched * s.cacheBlockSize := by exact_mod_cast hle
  have hclt : c < bytes.length := by exact_mod_cast hcurlt
  by_cases hcase : c = fetched * s.cacheBlockSize
  · have hidx : c / s.cacheBlockSize = fetched := by
      rw [hcase]
      exact Nat.mul_div_cancel _ hbs
    rw [hidx] at hb ⊢
    obtain ⟨hf, r, t, ix', mem', blocks', hfetch, hrt, hmem, hframe, hseqt⟩ :=
      fetchDataBlockForIndex_sequential hc hr hseq hb (by rw [hcdef, hcase]) (by omega)
    obtain ⟨e', he', hf'⟩ := linked_mem hrt.chain.linked hmem
    refine ⟨t, ix', mem', blocks', e', ?_, hrt, hframe, hmem, he', hf', hseqt⟩
    unfold fetchIfFault
    rw [if_pos hf, hfetch]
    rfl
  · have hpos : 0 < fetched := by
      rcases Nat.eq_zero_or_pos fetched with h0 | h0
      · rw [h0] at hle'
        simp only [Nat.zero_mul, Nat.le_zero_eq] at hle'
        rw [h0] at hcase
        simp only [Nat.zero_mul] at hcase
        exact absurd hle' hcase
      · exact h0
    have hidx : c / s.cacheBlockSize = fetched - 1 := by
      apply Nat.div_eq_of_lt_le
      · exact hge'
      · have : fetched - 1 + 1 = fetched := by omega
        rw [this]
        omega
    have hmem := hseq.last hpos
    obtain ⟨e', he', hf'⟩ := linked_mem hr.chain.linked hmem
    rw [hidx] at hb ⊢
    rw [hb] at he'
    cases he'
    have hback : fetched - 1 + 1 = fetched := by omega
    refine ⟨s, ix, mem, blocks, e, ?_, hr, fetchFrame_refl s, hmem, hb, hf', ?_⟩
    · unfold fetchIfFault
      simp [hf']
    · rw [hback]
      exact hseq

/-- One pass of the loop of `read` on a reader that was only read in sequence,
for a cursor inside the file with `numberOfBytes - totalBytesRead` bytes of the
file left from it and a buffer that holds `numberOfBytes` bytes: the pass
reaches its end, having copied the next bytes of the file to the buffer, from
`totalBytesRead` on, and advanced the cursor by their number. -/
theorem readBody_sequential {bytes : List Nat} {s : LargeFileReaderCore}
    {ix : List FileCacheIndexEntry} {mem blocks : List Nat} {fetched : Nat}
    (hc : Configured s) (hr : Resident s ix mem blocks)
    (hseq : Sequential bytes s ix mem blocks fetched)
    {buffer : List Nat} {n total : Nat} (hcur : 0 ≤ s.currentFileOffset) (htotal : total < n)
    (hroom : s.currentFileOffset + ((n - total : Nat) : Int) ≤ s.st_size)
    (hbuffer : n ≤ buffer.length) (hn : n < U64) :
    ∃ t ix' mem' blocks' fetched' out len,
      s.readBody buffer n total = .ok (.continued t out (total + len)) ∧
      0 < len ∧ total + len ≤ n ∧
      t.currentFileOffset = s.currentFileOffset + (len : Int) ∧
      t.isEof = s.isEof ∧ t.isFail = s.isFail ∧ t.isBad = s.isBad ∧
      Configured t ∧ Resident t ix' mem' blocks' ∧ Sequential bytes t ix' mem' blocks' fetched' ∧
      out.length = buffer.length ∧
      (∀ j, j < total ∨ total + len ≤ j → out[j]? = buffer[j]?) ∧
      (∀ i, i < len → out[total + i]? = bytes[s.currentFileOffset.toNat + i]?) := by
  obtain ⟨hidx, hassert, hsmall, hlt, -⟩ := pass_quantities hc hcur htotal hroom
  have hbs := hc.blockSize_pos
  have hblt : s.dataBlockIndex < ix.length := by
    have := hr.index_length
    omega
  obtain ⟨e, he⟩ : ∃ e, ix[s.dataBlockIndex]? = some e :=
    ⟨ix[s.dataBlockIndex], List.getElem?_eq_getElem hblt⟩
  have hcurlt : s.currentFileOffset < s.st_size := by omega
  have he0 := he
  rw [hidx] at he0
  obtain ⟨t, ix', mem', blocks', e', hfetch, hrt, hframe, hmem, he', hf', hseqt⟩ :=
    fetchIfFault_sequential hc hr hseq hcur hcurlt he0
  rw [← hidx] at hfetch hmem he' hseqt
  have hct : Configured t := configured_of_fetchFrame hframe hc
  have hcurt : t.currentFileOffset = s.currentFileOffset := by rw [hframe]
  have hsizet : t.st_size = s.st_size := by rw [hframe]
  have hbst : t.cacheBlockSize = s.cacheBlockSize := by rw [hframe]
  have hidxt : t.dataBlockIndex = s.dataBlockIndex := by
    unfold dataBlockIndex
    rw [hcurt, hbst]
  obtain ⟨hidxt', -, -, -, hoff, hbeyond, hlength, hnewcur⟩ :=
    @pass_quantities t hct n total (by rw [hcurt]; exact hcur) htotal
      (by rw [hcurt, hsizet]; exact hroom)
  rw [hidxt] at hoff hbeyond hlength hnewcur hidxt'
  have hmodlt := Nat.mod_lt t.currentFileOffset.toNat hct.blockSize_pos
  have hlenpos : 0 < t.lengthInDataBlock s.dataBlockIndex n total := by
    rw [hlength]
    omega
  have hlenle : t.lengthInDataBlock s.dataBlockIndex n total ≤ n - total := by
    rw [hlength]
    exact Nat.min_le_right _ _
  have hlenblock : t.currentFileOffset.toNat % t.cacheBlockSize +
      t.lengthInDataBlock s.dataBlockIndex n total ≤ t.cacheBlockSize := by
    rw [hlength]
    have := Nat.min_le_left (t.cacheBlockSize - t.currentFileOffset.toNat % t.cacheBlockSize)
      (n - total)
    omega
  have hslot := hrt.slotted.inside s.dataBlockIndex e' hmem he'
  have hfits : e'.offsetInFileBuffer + t.offsetInDataBlock s.dataBlockIndex +
      t.lengthInDataBlock s.dataBlockIndex n total ≤ mem'.length := by
    have h1 := hct.max_fits
    have h2 := hrt.data_length
    rw [hoff]
    omega
  obtain ⟨data, hdata, hdatalen⟩ := readBytes_ok hfits
  have hwfit : total + data.length ≤ buffer.length := by
    rw [hdatalen]
    omega
  obtain ⟨out, hout, houtlen⟩ := writeBytes_ok hwfit
  have hcopy : copyToCaller buffer total data = .ok out := by
    unfold copyToCaller
    rw [if_pos (by rw [hdatalen]; omega), hout]
  have hdivmod := Nat.div_add_mod t.currentFileOffset.toNat t.cacheBlockSize
  have hmulcomm : t.cacheBlockSize * (t.currentFileOffset.toNat / t.cacheBlockSize) =
      s.dataBlockIndex * t.cacheBlockSize := by
    rw [hidxt', Nat.mul_comm]
  have hcnat : ((t.currentFileOffset.toNat : Nat) : Int) = t.currentFileOffset :=
    Int.toNat_of_nonneg (by rw [hcurt]; exact hcur)
  have hsizenat : t.st_size = (bytes.length : Int) := hseqt.size_eq
  have hbound : t.currentFileOffset.toNat + t.lengthInDataBlock s.dataBlockIndex n total ≤
      bytes.length := by
    have h1 : t.currentFileOffset + ((n - total : Nat) : Int) ≤ t.st_size := by
      rw [hcurt, hsizet]
      exact hroom
    rw [hsizenat, ← hcnat] at h1
    have h2 : t.currentFileOffset.toNat + (n - total) ≤ bytes.length := by exact_mod_cast h1
    omega
  obtain ⟨t2, ht2⟩ : ∃ t2 : LargeFileReaderCore, t2 = { t with
      isEof := t.beyondEnd s.dataBlockIndex n total || t.isEof
      currentFileOffset :=
        toI64 ((toU64 t.currentFileOffset +
          t.lengthInDataBlock s.dataBlockIndex n total) % U64) } := ⟨_, rfl⟩
  have h2cur : t2.currentFileOffset =
      t.currentFileOffset + (t.lengthInDataBlock s.dataBlockIndex n total : Nat) := by
    rw [ht2]
    exact hnewcur
  have h2bs : t2.cacheBlockSize = t.cacheBlockSize := by rw [ht2]
  have h2same : SameFile t t2 := by
    rw [ht2]
    simp [SameFile]
  have h2eof : t2.isEof = s.isEof := by
    rw [ht2]
    show (t.beyondEnd s.dataBlockIndex n total || t.isEof) = s.isEof
    rw [hbeyond, Bool.false_or, hframe]
  have h2fail : t2.isFail = s.isFail := by
    rw [ht2]
    show t.isFail = s.isFail
    rw [hframe]
  have h2bad : t2.isBad = s.isBad := by
    rw [ht2]
    show t.isBad = s.isBad
    rw [hframe]
  have h2res : Resident t2 ix' mem' blocks' := by
    rw [ht2]
    exact ⟨hrt.index_eq, hrt.data_eq, hrt.index_length, hrt.data_length, hrt.chain, hrt.count,
      hrt.count_le, hrt.lru, hrt.mru, hrt.slotted⟩
  have h2seq : Sequential bytes t2 ix' mem' blocks' (s.dataBlockIndex + 1) := by
    refine ⟨?_, ?_, hseqt.below, hseqt.last, ?_, ?_, ?_⟩
    · rw [ht2]
      exact hseqt.size_eq
    · rw [ht2]
      exact hseqt.descriptor
    · rw [ht2]
      exact hseqt.content
    · rw [h2cur, h2bs, ← hcnat]
      have : (s.dataBlockIndex + 1 - 1) * t.cacheBlockSize ≤ t.currentFileOffset.toNat := by
        rw [Nat.add_sub_cancel]
        omega
      exact_mod_cast Nat.le_trans this (Nat.le_add_right _ _)
    · rw [h2cur, h2bs, ← hcnat]
      have : t.currentFileOffset.toNat + t.lengthInDataBlock s.dataBlockIndex n total ≤
          (s.dataBlockIndex + 1) * t.cacheBlockSize := by
        rw [Nat.add_mul, Nat.one_mul]
        omega
      exact_mod_cast this
  have hbody : s.readBody buffer n total =
      .ok (.continued t2 out (total + t.lengthInDataBlock s.dataBlockIndex n total)) := by
    rw [ht2]
    unfold readBody
    rw [if_neg (show ¬ s.cacheBlockSize = 0 by omega),
      if_neg (show ¬ ¬ s.dataBlockIndex < toU64 s.totalNumberOfFileCacheIndexEntries by
        simpa using hassert)]
    have hixs : s.indexArray = .ok ix := by simp [indexArray, hr.index_eq]
    have hixt : t.indexArray = .ok ix' := by simp [indexArray, hrt.index_eq]
    rw [hixs, ok_bind, entryAt_natCast, he]
    simp only [ok_bind, toI64_of_lt hsmall, hfetch, hixt, entryAt_natCast, he', hf']
    unfold copyFromBlock
    rw [if_neg (show ¬ t.lengthInDataBlock s.dataBlockIndex n total = 0 by omega)]
    have hmemt : t.dataArray = .ok mem' := by simp [dataArray, hrt.data_eq]
    rw [hmemt, ok_bind, hdata, ok_bind, hcopy, ok_bind]
    rfl
  refine ⟨t2, ix', mem', blocks', s.dataBlockIndex + 1, out,
    t.lengthInDataBlock s.dataBlockIndex n total, hbody, hlenpos, by omega, ?_, h2eof, h2fail,
    h2bad, configured_of_sameFile h2same hct, h2res, h2seq, houtlen, ?_, ?_⟩
  · rw [h2cur, hcurt]
  · intro j hj
    exact writeBytes_outside hout (by rw [hdatalen]; exact hj)
  · intro i hi
    rw [writeBytes_inside hout (by rw [hdatalen]; exact hi), readBytes_getElem? hdata hi, hoff]
    have hcontent := hseqt.content s.dataBlockIndex e' hmem he'
      (t.currentFileOffset.toNat % t.cacheBlockSize + i) (by omega) (by omega)
    rw [Nat.add_assoc, hcontent, ← hcurt]
    congr 1
    omega

theorem sequential_flags {bytes : List Nat} {s : LargeFileReaderCore}
    {ix : List FileCacheIndexEntry} {mem blocks : List Nat} {fetched : Nat}
    (h : Sequential bytes s ix mem blocks fetched) (a b c : Bool) :
    Sequential bytes { s with isEof := a, isFail := b, isBad := c } ix mem blocks fetched :=
  ⟨h.size_eq, h.descriptor, h.below, h.last, h.content, h.cursor_ge, h.cursor_le⟩

/-- The loop of `read` on a reader that was only read in sequence, for a cursor
inside the file with `numberOfBytes - totalBytesRead` bytes of the file left
from it: it returns `numberOfBytes`, having copied the next
`numberOfBytes - totalBytesRead` bytes of the file to the buffer, from
`totalBytesRead` on. -/
theorem readLoop_sequential (bytes : List Nat) (fuel : Nat) :
    ∀ (s : LargeFileReaderCore) (ix : List FileCacheIndexEntry) (mem blocks : List Nat)
      (fetched : Nat) (buffer : List Nat) (n total : Nat), Configured s →
      Resident s ix mem blocks → Sequential bytes s ix mem blocks fetched →
      0 ≤ s.currentFileOffset → total ≤ n →
      s.currentFileOffset + ((n - total : Nat) : Int) ≤ s.st_size →
      n ≤ buffer.length → n < U64 → n - total ≤ fuel →
      ∃ out t ix' mem' blocks' fetched', readLoop fuel s buffer n total = .ok (n, out, t) ∧
        t.currentFileOffset = s.currentFileOffset + ((n - total : Nat) : Int) ∧
        t.st_size = s.st_size ∧
        Configured t ∧ Resident t ix' mem' blocks' ∧
        Sequential bytes t ix' mem' blocks' fetched' ∧ out.length = buffer.length ∧
        (∀ j, j < total ∨ n ≤ j → out[j]? = buffer[j]?) ∧
        (∀ i, i < n - total → out[total + i]? = bytes[s.currentFileOffset.toNat + i]?) := by
  induction fuel with
  | zero =>
    intro s ix mem blocks fetched buffer n total hc hr hseq hcur htotal hroom hbuffer hn hfuel
    have heq : total = n := by omega
    subst heq
    rw [readLoop, if_neg (Nat.lt_irrefl _)]
    unfold readEpilogue
    by_cases hend : s.currentFileOffset ≥ s.st_size
    · rw [if_pos hend]
      exact ⟨buffer, _, ix, mem, blocks, fetched, rfl, by simp, rfl,
        configured_flags hc true s.isFail s.isBad, resident_flags hr true s.isFail s.isBad,
        sequential_flags hseq true s.isFail s.isBad, rfl, fun _ _ => rfl,
        fun i hi => absurd hi (by omega)⟩
    · rw [if_neg hend]
      exact ⟨buffer, s, ix, mem, blocks, fetched, rfl, by simp, rfl, hc, hr, hseq, rfl,
        fun _ _ => rfl, fun i hi => absurd hi (by omega)⟩
  | succ fuel ih =>
    intro s ix mem blocks fetched buffer n total hc hr hseq hcur htotal hroom hbuffer hn hfuel
    rw [readLoop]
    by_cases hlt : total < n
    · rw [if_pos hlt]
      obtain ⟨t, ix', mem', blocks', fetched', out, len, hbody, hlen, hle, hcurt, -, -, -, hct,
        hrt, hseqt, houtlen, hkeep, hnew⟩ :=
        readBody_sequential hc hr hseq hcur hlt hroom hbuffer hn
      have hsize : t.st_size = s.st_size := (readBody_continued hbody).1.2.2.2.2.2.2.2
      simp only [hbody]
      obtain ⟨out', u, ix'', mem'', blocks'', fetched'', hloop, hcuru, hsizeu, hcu, hru, hsequ,
        hlenu, hkeepu, hnewu⟩ :=
        ih t ix' mem' blocks' fetched' out n (total + len) hct hrt hseqt (by omega) hle
          (by rw [hcurt, hsize]; omega) (by omega) hn (by omega)
      refine ⟨out', u, ix'', mem'', blocks'', fetched'', hloop, ?_, ?_, hcu, hru, hsequ, ?_, ?_,
        ?_⟩
      · rw [hcuru, hcurt]
        omega
      · rw [hsizeu, hsize]
      · rw [hlenu, houtlen]
      · intro j hj
        rw [hkeepu j (by omega), hkeep j (by omega)]
      · intro i hi
        by_cases hilen : i < len
        · rw [hkeepu (total + i) (by omega)]
          exact hnew i hilen
        · have hsplit : total + i = total + len + (i - len) := by omega
          have htnat : t.currentFileOffset.toNat = s.currentFileOffset.toNat + len := by
            rw [hcurt]
            omega
          rw [hsplit, hnewu (i - len) (by omega), htnat]
          congr 1
          omega
    · have heq : total = n := by omega
      subst heq
      rw [if_neg hlt]
      unfold readEpilogue
      by_cases hend : s.currentFileOffset ≥ s.st_size
      · rw [if_pos hend]
        exact ⟨buffer, _, ix, mem, blocks, fetched, rfl, by simp, rfl,
          configured_flags hc true s.isFail s.isBad, resident_flags hr true s.isFail s.isBad,
          sequential_flags hseq true s.isFail s.isBad, rfl, fun _ _ => rfl,
          fun i hi => absurd hi (by omega)⟩
      · rw [if_neg hend]
        exact ⟨buffer, s, ix, mem, blocks, fetched, rfl, by simp, rfl, hc, hr, hseq, rfl,
          fun _ _ => rfl, fun i hi => absurd hi (by omega)⟩

/-- The first bytes of a buffer that holds the bytes of the file from the
cursor on, as a list. -/
theorem take_eq_of_getElem? {out bytes : List Nat} {c r : Nat}
    (h : ∀ i, i < r → out[i]? = bytes[c + i]?) :
    out.take r = (bytes.drop c).take r := by
  apply List.ext_getElem?
  intro i
  simp only [List.getElem?_take, List.getElem?_drop]
  split
  · rename_i hi
    exact h i hi
  · rfl

/-- A `read` on a reader that was only read in sequence, for a count whose sum
with the cursor does not wrap and a buffer that holds the clamped count: it
returns the clamped count `min(n, fileSize - cursor)`, the buffer begins with
that many bytes of the file from the cursor on, and the cursor is advanced by
the count. -/
theorem read_sequential {bytes : List Nat} {s : LargeFileReaderCore}
    {ix : List FileCacheIndexEntry} {mem blocks : List Nat} {fetched : Nat}
    (hc : Configured s) (hr : Resident s ix mem blocks)
    (hseq : Sequential bytes s ix mem blocks fetched)
    (buffer : List Nat) (n : Nat) (hcur0 : 0 ≤ s.currentFileOffset)
    (hcur1 : s.currentFileOffset ≤ s.st_size)
    (hwrap : s.currentFileOffset + (n : Int) < (U64 : Int))
    (hbuffer : min n (s.st_size - s.currentFileOffset).toNat ≤ buffer.length) :
    ∃ out t ix' mem' blocks' fetched',
      s.read buffer n = .ok (min n (s.st_size - s.currentFileOffset).toNat, out, t) ∧
      t.currentFileOffset =
        s.currentFileOffset + ((min n (s.st_size - s.currentFileOffset).toNat : Nat) : Int) ∧
      t.st_size = s.st_size ∧
      Configured t ∧ Resident t ix' mem' blocks' ∧ Sequential bytes t ix' mem' blocks' fetched' ∧
      out.take (min n (s.st_size - s.currentFileOffset).toNat) =
        (bytes.drop s.currentFileOffset.toNat).take
          (min n (s.st_size - s.currentFileOffset).toNat) := by
  have hsize := hc.size_lt
  have hU : U64 = 18446744073709551616 := rfl
  obtain ⟨c, hcdef⟩ : ∃ c : Nat, s.currentFileOffset = (c : Int) :=
    ⟨s.currentFileOffset.toNat, (Int.toNat_of_nonneg hcur0).symm⟩
  obtain ⟨size, hsdef⟩ : ∃ size : Nat, s.st_size = (size : Int) :=
    ⟨s.st_size.toNat, (Int.toNat_of_nonneg hc.size_nonneg).symm⟩
  have hcle : c ≤ size := by omega
  have hcu : toU64 s.currentFileOffset = c := by
    rw [hcdef]
    exact toU64_natCast (by omega)
  have hsu : toU64 s.st_size = size := by
    rw [hsdef]
    exact toU64_natCast (by omega)
  have hrest : (s.st_size - s.currentFileOffset).toNat = size - c := by
    rw [hcdef, hsdef]
    omega
  have hclamp : toU64 (s.st_size - s.currentFileOffset) = size - c := by
    have : s.st_size - s.currentFileOffset = ((size - c : Nat) : Int) := by
      rw [hcdef, hsdef]
      omega
    rw [this]
    exact toU64_natCast (by omega)
  have hmod : (c + n) % U64 = c + n := Nat.mod_eq_of_lt (by omega)
  have hcnat : s.currentFileOffset.toNat = c := by
    rw [hcdef]
    rfl
  rw [hrest] at hbuffer ⊢
  rw [hcnat]
  unfold LargeFileReaderCore.read
  rw [if_neg (by simp [hc.isOpen])]
  simp only [hcu, hsu, hmod, hclamp]
  by_cases hover : c + n > size
  · rw [if_pos hover]
    have hmin : min n (size - c) = size - c := by omega
    rw [hmin] at hbuffer ⊢
    by_cases hzero : size - c = 0
    · rw [if_pos hzero, hzero]
      exact ⟨buffer, _, ix, mem, blocks, fetched, rfl, by simp, rfl,
        configured_flags hc true false false, resident_flags hr true false false,
        sequential_flags hseq true false false, by simp⟩
    · rw [if_neg hzero]
      obtain ⟨out, t, ix', mem', blocks', fetched', hloop, hcurt, hsizet, hct, hrt, hseqt, -, -,
        hnew⟩ :=
        readLoop_sequential bytes (size - c)
          { s with isEof := true, isFail := false, isBad := false }
          ix mem blocks fetched buffer (size - c) 0 (configured_flags hc true false false)
          (resident_flags hr true false false) (sequential_flags hseq true false false) hcur0
          (Nat.zero_le _)
          (by show s.currentFileOffset + _ ≤ s.st_size; rw [hcdef, hsdef]; omega)
          (by omega) (by omega) (by omega)
      refine ⟨out, t, ix', mem', blocks', fetched', hloop, ?_, hsizet, hct, hrt, hseqt, ?_⟩
      · rw [hcurt]
        simp
      · apply take_eq_of_getElem?
        intro i hi
        have := hnew i (by omega)
        rw [Nat.zero_add] at this
        rw [this]
        show bytes[s.currentFileOffset.toNat + i]? = _
        rw [hcnat]
  · rw [if_neg hover]
    have hmin : min n (size - c) = n := by omega
    rw [hmin] at hbuffer ⊢
    obtain ⟨out, t, ix', mem', blocks', fetched', hloop, hcurt, hsizet, hct, hrt, hseqt, -, -,
      hnew⟩ :=
      readLoop_sequential bytes n { s with isEof := false, isFail := false, isBad := false }
        ix mem blocks fetched buffer n 0 (configured_flags hc false false false)
        (resident_flags hr false false false) (sequential_flags hseq false false false) hcur0
        (Nat.zero_le _)
        (by show s.currentFileOffset + _ ≤ s.st_size; rw [hcdef, hsdef]; omega)
        hbuffer (by omega) (by omega)
    refine ⟨out, t, ix', mem', blocks', fetched', hloop, ?_, hsizet, hct, hrt, hseqt, ?_⟩
    · rw [hcurt]
      simp
    · apply take_eq_of_getElem?
      intro i hi
      have := hnew i (by omega)
      rw [Nat.zero_add] at this
      rw [this]
      show bytes[s.currentFileOffset.toNat + i]? = _
      rw [hcnat]

/-- A sequence of `read` calls on a reader that was only read in sequence, each
with a buffer that holds its count and a count below `2^63`: every call
returns, and the bytes delivered are, in order, the bytes of the file from the
cursor on, as many as the counts add up to or as the file has left. -/
theorem runCalls_sequential (bytes : List Nat) :
    ∀ (calls : List (List Nat × Nat)) (s : LargeFileReaderCore)
      (ix : List FileCacheIndexEntry) (mem blocks : List Nat) (fetched : Nat), Configured s →
      Resident s ix mem blocks → Sequential bytes s ix mem blocks fetched →
      0 ≤ s.currentFileOffset → s.currentFileOffset ≤ s.st_size →
      (∀ c ∈ calls, c.2 ≤ c.1.length ∧ c.2 < 9223372036854775808) →
      ∃ seen t, runCalls s (readCalls calls) = .ok (seen, t) ∧
        delivered seen = (bytes.drop s.currentFileOffset.toNat).take
          (min (calls.map fun c => c.2).sum (bytes.length - s.currentFileOffset.toNat)) := by
  intro calls
  induction calls with
  | nil =>
    intro s ix mem blocks fetched _ _ _ _ _ _
    exact ⟨[], s, rfl, by simp [delivered]⟩
  | cons call rest ih =>
    intro s ix mem blocks fetched hc hr hseq hcur0 hcur1 hcalls
    have hU : (U64 : Int) = 18446744073709551616 := rfl
    obtain ⟨hroom, hsmall⟩ := hcalls call (List.mem_cons_self _ _)
    have hsize := hc.size_lt
    have hsizeeq := hseq.size_eq
    obtain ⟨out, t, ix', mem', blocks', fetched', hread, hcurt, hsizet, hct, hrt, hseqt, htake⟩ :=
      read_sequential hc hr hseq call.1 call.2 hcur0 hcur1 (by omega)
        (Nat.le_trans (Nat.min_le_left _ _) hroom)
    obtain ⟨c, hcdef⟩ : ∃ c : Nat, s.currentFileOffset = (c : Int) :=
      ⟨s.currentFileOffset.toNat, (Int.toNat_of_nonneg hcur0).symm⟩
    have hcnat : s.currentFileOffset.toNat = c := by
      rw [hcdef]
      rfl
    have hrest : (s.st_size - s.currentFileOffset).toNat = bytes.length - c := by
      rw [hcdef, hsizeeq]
      omega
    have hcle : c ≤ bytes.length := by
      rw [hcdef, hsizeeq] at hcur1
      exact_mod_cast hcur1
    rw [hrest, hcnat] at htake
    rw [hrest] at hread hcurt
    have htnat : t.currentFileOffset.toNat = c + min call.2 (bytes.length - c) := by
      rw [hcurt, hcdef]
      omega
    obtain ⟨seen, u, hrun, hdel⟩ := ih t ix' mem' blocks' fetched' hct hrt hseqt
      (by rw [hcurt]; omega) (by rw [hcurt, hsizet, hcdef, hsizeeq]; omega)
      (fun c hc => hcalls c (List.mem_cons_of_mem _ hc))
    rw [htnat] at hdel
    refine ⟨.read (min call.2 (bytes.length - c)) out :: seen, u, ?_, ?_⟩
    · simp only [readCalls, List.map_cons, runCalls, hread]
      simp only [readCalls] at hrun
      rw [hrun]
    · simp only [delivered, htake, hdel, hcnat, List.map_cons, List.sum_cons]
      have hsum : min (call.2 + (rest.map fun c => c.2).sum) (bytes.length - c) =
          min call.2 (bytes.length - c) +
            min (rest.map fun c => c.2).sum
              (bytes.length - (c + min call.2 (bytes.length - c))) := by
        omega
      rw [hsum, List.take_add, List.drop_drop]

/-- A successful `open` of a file whose `::read` calls all succeed, with room
for two blocks or for the whole file: no block was fetched, and the descriptor
stands at the start of the file. -/
theorem openFile_sequential (s : LargeFileReaderCore) (host : Host) (fullFilePath : String)
    (file : HostFile) (cacheMaxSize cacheBlockSize : Nat) (hclosed : s.isOpen = false)
    (hfile : host.files fullFilePath = some file) (hopenable : file.openable = true)
    (hfaults : ∀ f ∈ file.faults, f = false)
    (hfits : blockSizeOrDefault cacheBlockSize ≤ maxSizeOrDefault cacheMaxSize)
    (hmax : maxSizeOrDefault cacheMaxSize < U64)
    (hsize : file.bytes.length < 9223372036854775808)
    (hroom : 2 * blockSizeOrDefault cacheBlockSize ≤ maxSizeOrDefault cacheMaxSize ∨
      file.bytes.length < maxSizeOrDefault cacheMaxSize) :
    Configured (s.openFile host fullFilePath cacheMaxSize cacheBlockSize).2 ∧
    (s.openFile host fullFilePath cacheMaxSize cacheBlockSize).2.currentFileOffset = 0 ∧
    ∃ ix mem, Resident (s.openFile host fullFilePath cacheMaxSize cacheBlockSize).2 ix mem [] ∧
      Sequential file.bytes (s.openFile host fullFilePath cacheMaxSize cacheBlockSize).2
        ix mem [] 0 := by
  obtain ⟨-, hc, ⟨ix, mem, hr⟩, hcur, hsizeeq⟩ :=
    openFile_configured s host fullFilePath file cacheMaxSize cacheBlockSize hclosed hfile
      hopenable hfits hmax hsize hroom
  have hdesc : (s.openFile host fullFilePath cacheMaxSize cacheBlockSize).2.fileDescriptor =
      some { bytes := file.bytes, position := 0, faults := file.faults } := by
    simp [openFile, hclosed, hfile, hopenable, Nat.not_lt.mpr hfits]
  refine ⟨hc, hcur, ix, mem, hr, hsizeeq, ⟨_, hdesc, rfl, by simp, hfaults⟩, ?_, ?_, ?_, ?_, ?_⟩
  · intro k hk
    cases hk
  · intro h
    exact absurd h (Nat.lt_irrefl 0)
  · intro k e hk
    cases hk
  · rw [hcur]
    simp
  · rw [hcur]
    simp

/-- The number of cache slots after a successful `open`. -/
theorem openFile_max (s : LargeFileReaderCore) (host : Host) (fullFilePath : String)
    (file : HostFile) (cacheMaxSize cacheBlockSize : Nat) (hclosed : s.isOpen = false)
    (hfile : host.files fullFilePath = some file) (hopenable : file.openable = true)
    (hfits : blockSizeOrDefault cacheBlockSize ≤ maxSizeOrDefault cacheMaxSize) :
    (s.openFile host fullFilePath cacheMaxSize cacheBlockSize).2.maxNumberOfCachedFileDataBlocks =
      ((actualSizeFor (file.bytes.length : Int) (maxSizeOrDefault cacheMaxSize)
        (blockSizeOrDefault cacheBlockSize) / blockSizeOrDefault cacheBlockSize : Nat) : Int) := by
  simp [openFile, hclosed, hfile, hopenable, Nat.not_lt.mpr hfits]

/-- Reads in sequence away from the wrapping counts. After a successful `open`
that leaves room for at least two blocks, on a file whose `::read` calls all
succeed, every sequence of `read` calls in which each call has a buffer that
holds its count and a count below `2^63` returns, and the bytes delivered are,
in order, the first bytes of the file, as many as the counts add up to or as
the file has. -/
theorem sequential_reads_deliver_file_prefix (host : Host) (s : LargeFileReaderCore)
    (fullFilePath : String) (file : HostFile) (cacheMaxSize cacheBlockSize : Nat)
    (calls : List (List Nat × Nat))
    (hfile : host.files fullFilePath = some file) (hfaults : ∀ f ∈ file.faults, f = false)
    (hsize : file.bytes.length < 9223372036854775808) (hmax : cacheMaxSize < U64)
    (hopen : (s.openFile host fullFilePath cacheMaxSize cacheBlockSize).1 = .returned true)
    (htwo : 2 ≤
      (s.openFile host fullFilePath cacheMaxSize cacheBlockSize).2.maxNumberOfCachedFileDataBlocks)
    (hcalls : ∀ c ∈ calls, c.2 ≤ c.1.length ∧ c.2 < 9223372036854775808) :
    ∃ seen t,
      runCalls (s.openFile host fullFilePath cacheMaxSize cacheBlockSize).2 (readCalls calls) =
        .ok (seen, t) ∧
      delivered seen = file.bytes.take (min (calls.map fun c => c.2).sum file.bytes.length) := by
  have hU : U64 = 18446744073709551616 := rfl
  obtain ⟨hso, hfits, hop⟩ := openFile_returned_true hfile hopen
  have hmax' : maxSizeOrDefault cacheMaxSize < U64 := by
    unfold maxSizeOrDefault cacheDefaultMaxSize
    split <;> omega
  have hbs := blockSizeOrDefault_pos cacheBlockSize
  have hroom : 2 * blockSizeOrDefault cacheBlockSize ≤ maxSizeOrDefault cacheMaxSize ∨
      file.bytes.length < maxSizeOrDefault cacheMaxSize := by
    by_cases hlt : file.bytes.length < maxSizeOrDefault cacheMaxSize
    · exact Or.inr hlt
    · left
      rw [openFile_max s host fullFilePath file cacheMaxSize cacheBlockSize hso hfile hop hfits]
        at htwo
      have hactual : actualSizeFor (file.bytes.length : Int) (maxSizeOrDefault cacheMaxSize)
          (blockSizeOrDefault cacheBlockSize) = maxSizeOrDefault cacheMaxSize := by
        unfold actualSizeFor
        rw [toU64_natCast (by omega), if_neg hlt]
      rw [hactual] at htwo
      have h2 : 2 ≤ maxSizeOrDefault cacheMaxSize / blockSizeOrDefault cacheBlockSize := by
        exact_mod_cast htwo
      rw [Nat.le_div_iff_mul_le hbs] at h2
      exact h2
  obtain ⟨hc, hcur, ix, mem, hr, hseq⟩ :=
    openFile_sequential s host fullFilePath file cacheMaxSize cacheBlockSize hso hfile hop
      hfaults hfits hmax' hsize hroom
  obtain ⟨seen, t, hrun, hdel⟩ := runCalls_sequential file.bytes calls _ ix mem [] 0 hc hr hseq
    (by rw [hcur]) (by rw [hcur]; exact hc.size_nonneg) hcalls
  rw [hcur] at hdel
  simp only [Int.toNat_zero, List.drop_zero, Nat.sub_zero] at hdel
  exact ⟨seen, t, hrun, hdel⟩

/-- Reads in sequence on the seven-byte file `1 2 3 4 5 6 7`, opened with a
cache of two slots of two bytes (the file has four blocks, so two blocks are
evicted along the way): the calls with the counts 1, 3 and 5 deliver the seven
bytes of the file, in order. -/
theorem sequential_reads_deliver_file_prefix_example :
    ∃ seen t,
      runCalls (opened [1, 2, 3, 4, 5, 6, 7] [] 4 2)
        (readCalls [([0], 1), ([0, 0, 0], 3), ([0, 0, 0, 0, 0], 5)]) = .ok (seen, t) ∧
      delivered seen = [1, 2, 3, 4, 5, 6, 7] := by
  obtain ⟨seen, t, hrun, hdel⟩ :=
    sequential_reads_deliver_file_prefix (hostWith [1, 2, 3, 4, 5, 6, 7] [])
      LargeFileReaderCore.construct "f" ⟨[1, 2, 3, 4, 5, 6, 7], true, []⟩ 4 2
      [([0], 1), ([0, 0, 0], 3), ([0, 0, 0, 0, 0], 5)] rfl (by simp) (by decide) (by decide)
      (by decide!) (by decide!) (by decide)
  exact ⟨seen, t, hrun, by rw [hdel]; decide⟩

/-! ## C25: reads in sequence -/

/-- C25, the code evaluated at the failing input. The two-byte file `1 2` opened
with `cacheMaxSize = 2` and `cacheBlockSize = 1` has two blocks and a cache of
two slots. After `read(buffer, 1)`, which delivers the byte 1, the call
`read(buffer, 2^64 - 1)` has no defined result: the sum
`currentFileOffset + numberOfBytes` wraps to 0, so the count is not clamped;
the loop delivers the byte 2 and then looks up block 2 of a two-block index
(the `assert` fails). With the count 2 in place of `2^64 - 1` the two calls
deliver the bytes 1 and 2. -/
theorem sequential_read_of_wrapping_count_fails_assert :
    (construct.openFile (hostWith [1, 2] []) "f" 2 1).1 = .returned true ∧
    (opened [1, 2] [] 2 1).maxNumberOfCachedFileDataBlocks = 2 ∧
    ((runCalls (opened [1, 2] [] 2 1) (readCalls [([0], 1)])).map fun r =>
      (delivered r.1, r.2.currentFileOffset)) = .ok ([1], 1) ∧
    (1 + 18446744073709551615) % U64 = 0 ∧
    runCalls (opened [1, 2] [] 2 1) (readCalls [([0], 1), ([0, 0], 18446744073709551615)]) =
      .error .assertion ∧
    ((runCalls (opened [1, 2] [] 2 1) (readCalls [([0], 1), ([0, 0], 2)])).map fun r =>
      delivered r.1) = .ok [1, 2] := by
  decide!

end LargeFileReader
